import Mathlib

/-!
# ZIP "shrink" decompression (`foreign/ozunshrink.h`)

A shallow embedding of the Shrink (ZIP method 1) decoder of Deark and a
verification of its specification.

Conventions of the embedding.

* The context `ozus_ctx` is passed explicitly; every C function that mutates
  the context returns the new context (and its C result, when it has one).
* The input `dbuf` is a list of bytes read through `inf_pos`; the output
  `dbuf` and the temporary buffer are lists of bytes that grow at the end.
* The code table `ct` is a total map from indices to entries. The C array has
  `ct_arraysize` entries; the decoder guards its accesses by `ct_arraysize`.
* C integers are natural numbers. Offsets and lengths (`i64`) are taken
  non-negative.
-/

namespace Ozunshrink

/-! ## Constants and data model -/

def OZUS_ERRCODE_OK : Nat := 0
def OZUS_ERRCODE_GENERIC_ERROR : Nat := 1
def OZUS_ERRCODE_BAD_CDATA : Nat := 2
def OZUS_ERRCODE_MALLOC_FAILED : Nat := 3
def OZUS_ERRCODE_READ_FAILED : Nat := 6
def OZUS_ERRCODE_WRITE_FAILED : Nat := 7
def OZUS_ERRCODE_INSUFFICIENT_CDATA : Nat := 8

/-- For entries `<= 256`, `.parent` is always `OZUS_INVALID_CODE`; for entries
`> 256`, `.parent == OZUS_INVALID_CODE` means the code is unused. -/
def OZUS_INVALID_CODE : Nat := 256

/-- The C `struct ozus_tableentry`. -/
structure ozus_tableentry where
  parent : Nat
  value : Nat
  flags : Nat
deriving DecidableEq

/-- The C `struct ozus_ctx_type` (the `deark *c` handle carries no decoder
state and is left out). -/
structure ozus_ctx where
  inf : List Nat
  inf_pos : Nat
  inf_endpos : Nat
  outf : List Nat
  outf_nbytes_expected : Nat
  error_code : Nat
  have_oldcode : Bool
  oldcode : Nat
  last_code_added : Nat
  free_code_search_start : Nat
  last_value : Nat
  bitreader_buf : Nat
  bitreader_nbits_in_buf : Nat
  initial_code_size : Nat
  max_code_size : Nat
  ct_arraysize : Nat
  ct : Nat → ozus_tableentry
  tmpbuf : List Nat

/-- The assignment `ct[i] = e`. -/
def ct_set (ct : Nat → ozus_tableentry) (i : Nat) (e : ozus_tableentry) :
    Nat → ozus_tableentry :=
  fun j => if j = i then e else ct j

/-! ## `ozus_create` -/

/-- The table built by `ozus_create`: the array comes zeroed from
`de_mallocarray`; the first loop makes entries `0..255` roots, the second sets
the parent of every entry from `256` on to `OZUS_INVALID_CODE`. -/
def ozus_create_ct : Nat → ozus_tableentry :=
  fun i => if i < 256 then ⟨OZUS_INVALID_CODE, i % 256, 0⟩ else ⟨OZUS_INVALID_CODE, 0, 0⟩

/-- The context returned by `ozus_create` (`de_malloc` zeroes the fields that
are not assigned; `tmpbuf` is a new empty buffer). -/
def ozus_create : ozus_ctx :=
  { inf := [], inf_pos := 0, inf_endpos := 0, outf := [], outf_nbytes_expected := 0,
    error_code := 0, have_oldcode := false, oldcode := 0, last_code_added := 0,
    free_code_search_start := 257, last_value := 0,
    bitreader_buf := 0, bitreader_nbits_in_buf := 0,
    initial_code_size := 9, max_code_size := 13,
    ct_arraysize := 1 <<< 13,
    ct := ozus_create_ct, tmpbuf := [] }

/-- A context from `ozus_create` on which the caller has set the input buffer,
the compressed range `[inf_pos, inf_endpos)`, an empty output sink and the
expected output length. -/
def ozus_setup (inf : List Nat) (inf_pos inf_endpos nbytes_expected : Nat) : ozus_ctx :=
  { ozus_create with
    inf := inf, inf_pos := inf_pos, inf_endpos := inf_endpos,
    outf := [], outf_nbytes_expected := nbytes_expected }

/-! ## Bit reader -/

/-- The C `ozus_nextbyte`: the next input byte, or `INSUFFICIENT_CDATA` at the
end of the compressed range. `dbuf_getbyte_p` yields `0` past the end of the
buffer and advances the position. -/
def ozus_nextbyte (ozus : ozus_ctx) : ozus_ctx × Nat :=
  if ozus.inf_pos ≥ ozus.inf_endpos then
    ({ ozus with error_code := OZUS_ERRCODE_INSUFFICIENT_CDATA }, 0)
  else
    ({ ozus with inf_pos := ozus.inf_pos + 1 }, (ozus.inf.getD ozus.inf_pos 0) % 256)

/-- The `while(bitreader_nbits_in_buf < nbits)` loop of
`ozus_bitreader_getbits`; the flag is false when the function returns from
inside the loop. Every round adds 8 pending bits, so `nbits` rounds are
enough. -/
def ozus_bitreader_fill : Nat → ozus_ctx → Nat → ozus_ctx × Bool
  | 0, ozus, _ => (ozus, true)
  | fuel + 1, ozus, nbits =>
    if ozus.bitreader_nbits_in_buf < nbits then
      let r := ozus_nextbyte ozus
      if r.1.error_code ≠ 0 then (r.1, false)
      else
        ozus_bitreader_fill fuel
          { r.1 with
            bitreader_buf :=
              (r.1.bitreader_buf ||| (r.2 <<< r.1.bitreader_nbits_in_buf)) % 2 ^ 32,
            bitreader_nbits_in_buf := r.1.bitreader_nbits_in_buf + 8 } nbits
    else (ozus, true)

/-- The C `ozus_bitreader_getbits`. -/
def ozus_bitreader_getbits (ozus : ozus_ctx) (nbits : Nat) : ozus_ctx × Nat :=
  if nbits < 1 ∨ nbits > ozus.max_code_size then (ozus, 0)
  else
    let r := ozus_bitreader_fill nbits ozus nbits
    if r.2 = false then (r.1, 0)
    else
      ({ r.1 with
          bitreader_buf := r.1.bitreader_buf >>> nbits,
          bitreader_nbits_in_buf := r.1.bitreader_nbits_in_buf - nbits },
        r.1.bitreader_buf &&& (0xffff >>> (16 - nbits)))

/-! ## Emitter -/

/-- The `while(1)` loop of `ozus_emit_code`, with `count` as in the source.
The flag is true when the loop is left by `break`, false when the function
returns with an error. `count` grows by one per round and the loop is left
once it reaches `ct_arraysize`, so `ct_arraysize - count` rounds are enough. -/
def ozus_emit_loop : Nat → ozus_ctx → Nat → Nat → ozus_ctx × Bool
  | 0, ozus, _, _ => ({ ozus with error_code := OZUS_ERRCODE_GENERIC_ERROR }, false)
  | fuel + 1, ozus, code, count =>
    if code ≥ ozus.ct_arraysize then
      ({ ozus with error_code := OZUS_ERRCODE_GENERIC_ERROR }, false)
    else
      let o1 := { ozus with tmpbuf := ozus.tmpbuf ++ [(ozus.ct code).value] }
      if count + 1 ≥ o1.ct_arraysize then
        ({ o1 with error_code := OZUS_ERRCODE_GENERIC_ERROR }, false)
      else if code < 257 then
        ({ o1 with last_value := (o1.ct code).value }, true)
      else
        ozus_emit_loop fuel o1 (o1.ct code).parent (count + 1)

/-- The final loop of `ozus_emit_code`: bytes `k-1, ..., 0` of the temporary
buffer are written to the output, in this order. -/
def ozus_emit_writeout : Nat → ozus_ctx → ozus_ctx
  | 0, ozus => ozus
  | k + 1, ozus =>
    ozus_emit_writeout k { ozus with outf := ozus.outf ++ [ozus.tmpbuf.getD k 0] }

/-- The C `ozus_emit_code`. -/
def ozus_emit_code (ozus : ozus_ctx) (code1 : Nat) : ozus_ctx :=
  let o0 := { ozus with tmpbuf := [] }
  let r := ozus_emit_loop o0.ct_arraysize o0 code1 0
  if r.2 = false then r.1
  else ozus_emit_writeout r.1.tmpbuf.length r.1

/-! ## Code table -/

/-- The `for` loop of `ozus_find_first_free_entry` over `n` indices from `k`
on: the first index whose entry is unused. -/
def ozus_find_loop (ct : Nat → ozus_tableentry) : Nat → Nat → Option Nat
  | 0, _ => none
  | n + 1, k =>
    if (ct k).parent = OZUS_INVALID_CODE then some k
    else ozus_find_loop ct n (k + 1)

/-- The C `ozus_find_first_free_entry`; the second component is `*pentry`. -/
def ozus_find_first_free_entry (ozus : ozus_ctx) : ozus_ctx × Nat :=
  match ozus_find_loop ozus.ct (ozus.ct_arraysize - ozus.free_code_search_start)
      ozus.free_code_search_start with
  | some k => (ozus, k)
  | none => ({ ozus with error_code := OZUS_ERRCODE_BAD_CDATA }, ozus.ct_arraysize - 1)

/-- The C `ozus_add_to_dict`. -/
def ozus_add_to_dict (ozus : ozus_ctx) (parent value : Nat) : ozus_ctx :=
  let r := ozus_find_first_free_entry ozus
  if r.1.error_code ≠ 0 then r.1
  else
    { r.1 with
      ct := ct_set r.1.ct r.2 { r.1.ct r.2 with parent := parent, value := value },
      last_code_added := r.2,
      free_code_search_start := r.2 + 1 }

/-- The C `ozus_process_data_code`. -/
def ozus_process_data_code (ozus : ozus_ctx) (code : Nat) : ozus_ctx :=
  if code ≥ ozus.ct_arraysize then
    { ozus with error_code := OZUS_ERRCODE_GENERIC_ERROR }
  else if ozus.have_oldcode = false then
    let o1 := ozus_emit_code ozus code
    { o1 with oldcode := code, have_oldcode := true, last_value := code % 256 }
  else if code < 256 ∨ (ozus.ct code).parent ≠ OZUS_INVALID_CODE then
    let o1 := ozus_emit_code ozus code
    if o1.error_code ≠ 0 then o1
    else
      let o2 := ozus_add_to_dict o1 o1.oldcode o1.last_value
      { o2 with oldcode := code }
  else
    let o1 := ozus_add_to_dict ozus ozus.oldcode ozus.last_value
    if o1.error_code ≠ 0 then o1
    else
      let o2 := ozus_emit_code o1 o1.last_code_added
      { o2 with oldcode := code }

/-- First loop of `ozus_partial_clear` over `n` indices from `i` on: the entry
named by the parent field of every used entry gets its flag set. -/
def ozus_partial_clear_mark : Nat → Nat → (Nat → ozus_tableentry) → (Nat → ozus_tableentry)
  | 0, _, ct => ct
  | n + 1, i, ct =>
    ozus_partial_clear_mark n (i + 1)
      (if (ct i).parent ≠ OZUS_INVALID_CODE then
        ct_set ct (ct i).parent { ct (ct i).parent with flags := 1 }
      else ct)

/-- Second loop of `ozus_partial_clear` over `n` indices from `i` on: an entry
without the flag is cleared, a flagged entry loses the flag. -/
def ozus_partial_clear_sweep : Nat → Nat → (Nat → ozus_tableentry) → (Nat → ozus_tableentry)
  | 0, _, ct => ct
  | n + 1, i, ct =>
    ozus_partial_clear_sweep n (i + 1)
      (if (ct i).flags = 0 then
        ct_set ct i { ct i with parent := OZUS_INVALID_CODE, value := 0 }
      else
        ct_set ct i { ct i with flags := 0 })

/-- The C `ozus_partial_clear`. -/
def ozus_partial_clear (ozus : ozus_ctx) : ozus_ctx :=
  { ozus with
    ct := ozus_partial_clear_sweep (ozus.ct_arraysize - 257) 257
            (ozus_partial_clear_mark (ozus.ct_arraysize - 257) 257 ozus.ct),
    free_code_search_start := 257 }

/-! ## Main loop -/

/-- Outcome of one round of the `while(1)` loop of `ozus_run`: `done` is
`goto done`, `next` goes on to the following round with the given
`curr_code_size`. -/
inductive ozus_round where
  | done (ozus : ozus_ctx)
  | next (ozus : ozus_ctx) (curr_code_size : Nat)

/-- One round of the `while(1)` loop of `ozus_run`. -/
def ozus_run_round (ozus : ozus_ctx) (curr_code_size : Nat) : ozus_round :=
  if ozus.outf.length ≥ ozus.outf_nbytes_expected then .done ozus
  else
    let r := ozus_bitreader_getbits ozus curr_code_size
    if r.1.error_code ≠ 0 then .done r.1
    else if r.2 = 256 then
      let r2 := ozus_bitreader_getbits r.1 curr_code_size
      if r2.1.error_code ≠ 0 then .done r2.1
      else if r2.2 = 1 ∧ curr_code_size < r2.1.max_code_size then
        .next r2.1 (curr_code_size + 1)
      else if r2.2 = 2 then
        .next (ozus_partial_clear r2.1) curr_code_size
      else
        .done { r2.1 with error_code := OZUS_ERRCODE_BAD_CDATA }
    else
      let o2 := ozus_process_data_code r.1 r.2
      if o2.error_code ≠ 0 then .done o2
      else .next o2 curr_code_size

/-- The `while(1)` loop of `ozus_run`, at most `fuel` rounds: `none` when the
rounds are used up before the loop is left. -/
def ozus_run_loop : Nat → ozus_ctx → Nat → Option ozus_ctx
  | 0, _, _ => none
  | fuel + 1, ozus, curr_code_size =>
    match ozus_run_round ozus curr_code_size with
    | .done o => some o
    | .next o w => ozus_run_loop fuel o w

/-- A number of rounds that `ozus_run` cannot use up: a round that goes on
either takes at least one bit from the pending bits and the remaining input,
or writes at least one of the bytes still expected. -/
def ozus_run_bound (ozus : ozus_ctx) : Nat :=
  8 * (ozus.inf_endpos - ozus.inf_pos) + ozus.bitreader_nbits_in_buf
    + (ozus.outf_nbytes_expected - ozus.outf.length) + 1

/-- The C `ozus_run`. -/
def ozus_run (ozus : ozus_ctx) : Option ozus_ctx :=
  ozus_run_loop (ozus_run_bound ozus) ozus ozus.initial_code_size

/-- State at the start of round `k` (counted from 0) of the loop of `ozus_run`
entered with `ozus` and `curr_code_size`, when the loop gets that far. -/
def ozus_run_at : Nat → ozus_ctx → Nat → Option (ozus_ctx × Nat)
  | 0, ozus, curr_code_size => some (ozus, curr_code_size)
  | k + 1, ozus, curr_code_size =>
    match ozus_run_round ozus curr_code_size with
    | .done _ => none
    | .next o w => ozus_run_at k o w

/-! ## Predicates used in the proofs -/

/-- The fields that no function of the decoder assigns. -/
structure ozus_same_params (a b : ozus_ctx) : Prop where
  inf : a.inf = b.inf
  inf_endpos : a.inf_endpos = b.inf_endpos
  outf_nbytes_expected : a.outf_nbytes_expected = b.outf_nbytes_expected
  initial_code_size : a.initial_code_size = b.initial_code_size
  max_code_size : a.max_code_size = b.max_code_size
  ct_arraysize : a.ct_arraysize = b.ct_arraysize

/-- The fields the bit reader works on. -/
structure ozus_same_reader (a b : ozus_ctx) : Prop where
  inf_pos : a.inf_pos = b.inf_pos
  bitreader_buf : a.bitreader_buf = b.bitreader_buf
  bitreader_nbits_in_buf : a.bitreader_nbits_in_buf = b.bitreader_nbits_in_buf

/-- The fields of the dictionary and of the LZW state, with both buffers. -/
structure ozus_same_dict (a b : ozus_ctx) : Prop where
  have_oldcode : a.have_oldcode = b.have_oldcode
  oldcode : a.oldcode = b.oldcode
  last_code_added : a.last_code_added = b.last_code_added
  free_code_search_start : a.free_code_search_start = b.free_code_search_start
  last_value : a.last_value = b.last_value
  ct : a.ct = b.ct
  tmpbuf : a.tmpbuf = b.tmpbuf
  outf : a.outf = b.outf

/-- Pending bits plus the bits of the input bytes not yet read. -/
def ozus_bits_left (ozus : ozus_ctx) : Nat :=
  8 * (ozus.inf_endpos - ozus.inf_pos) + ozus.bitreader_nbits_in_buf

/-- The fields of the dictionary and of the LZW state that `ozus_emit_code`
leaves alone. -/
structure ozus_same_table (a b : ozus_ctx) : Prop where
  have_oldcode : a.have_oldcode = b.have_oldcode
  oldcode : a.oldcode = b.oldcode
  last_code_added : a.last_code_added = b.last_code_added
  free_code_search_start : a.free_code_search_start = b.free_code_search_start
  ct : a.ct = b.ct

/-- What holds at the start of every round of `ozus_run` on a context from
`ozus_create` with expected length `N`. -/
def ozus_run_inv (N : Nat) (s : ozus_ctx) (w : Nat) : Prop :=
  s.error_code = 0 ∧ s.max_code_size = 13 ∧ s.initial_code_size = 9 ∧
  s.ct_arraysize = 8192 ∧ s.outf_nbytes_expected = N ∧ 9 ≤ w ∧ w ≤ 13 ∧
  257 ≤ s.free_code_search_start ∧
  ∀ i, i < 256 → (s.ct i).parent = OZUS_INVALID_CODE ∧ (s.ct i).value = i

/-- A sequence of calls of `ozus_add_to_dict`, one for each `(parent, value)`
pair of the list, with nothing in between. -/
def ozus_add_all : List (Nat × Nat) → ozus_ctx → ozus_ctx
  | [], ozus => ozus
  | pv :: l, ozus => ozus_add_all l (ozus_add_to_dict ozus pv.1 pv.2)

/-- The parent chain of `code` reaches a root entry (an index below 256) in
`d` hops, through entries from 257 on that lie in the table and are in use. -/
def ozus_reaches_root (ct : Nat → ozus_tableentry) (size : Nat) : Nat → Nat → Prop
  | 0, code => code < 256
  | d + 1, code =>
    257 ≤ code ∧ code < size ∧ (ct code).parent ≠ OZUS_INVALID_CODE ∧
      ozus_reaches_root ct size d (ct code).parent

instance ozus_reaches_root_decidable (ct : Nat → ozus_tableentry) (size : Nat) :
    ∀ d code, Decidable (ozus_reaches_root ct size d code)
  | 0, code => inferInstanceAs (Decidable (code < 256))
  | d + 1, code =>
    have := ozus_reaches_root_decidable ct size d (ct code).parent
    inferInstanceAs (Decidable (257 ≤ code ∧ code < size ∧
      (ct code).parent ≠ OZUS_INVALID_CODE ∧ ozus_reaches_root ct size d (ct code).parent))

/-- The string of a code whose parent chain reaches a root in `d` hops:
`str(c) = [c]` for a root, `str(c) = str(parent(c)) ++ [value(c)]` otherwise. -/
def ozus_str (ct : Nat → ozus_tableentry) : Nat → Nat → List Nat
  | 0, code => [code]
  | d + 1, code => ozus_str ct d (ct code).parent ++ [(ct code).value]

/-- The entry reached from `code` by `i` parent links. -/
def ozus_chain_node (ct : Nat → ozus_tableentry) (code : Nat) : Nat → Nat
  | 0 => code
  | i + 1 => (ct (ozus_chain_node ct code i)).parent

/-- A sequence of calls of `ozus_bitreader_getbits`, one for each width of the
list; the second component lists the values returned. -/
def ozus_getbits_all : List Nat → ozus_ctx → ozus_ctx × List Nat
  | [], ozus => (ozus, [])
  | n :: ns, ozus =>
    ((ozus_getbits_all ns (ozus_bitreader_getbits ozus n).1).1,
      (ozus_bitreader_getbits ozus n).2 ::
        (ozus_getbits_all ns (ozus_bitreader_getbits ozus n).1).2)

/-- The `count` input bytes from offset `pos` on, read as a little-endian
integer: the sum of `b_j * 256 ^ j`. -/
def ozus_input_value (inf : List Nat) (pos count : Nat) : Nat :=
  ((List.range count).map (fun j => (inf.getD (pos + j) 0 % 256) * 256 ^ j)).sum

/-- The bits a reader still has to deliver, as an integer: the pending bits,
then the input bytes not yet read. -/
def ozus_bits_value (ozus : ozus_ctx) : Nat :=
  ozus.bitreader_buf + 2 ^ ozus.bitreader_nbits_in_buf *
    ozus_input_value ozus.inf ozus.inf_pos (ozus.inf_endpos - ozus.inf_pos)

/-- The context `ozus` with another input buffer and another end offset. -/
def ozus_retarget (ozus : ozus_ctx) (inf : List Nat) (inf_endpos : Nat) : ozus_ctx :=
  { ozus with inf := inf, inf_endpos := inf_endpos }

/-- At offset `q` the reader sees the same thing over the input `inf0` with
end offset `e0` and over the input `inf` with end offset `e`: the end of the
input in both, or the same byte in both. -/
def ozus_reads_alike (inf0 : List Nat) (e0 : Nat) (inf : List Nat) (e q : Nat) : Prop :=
  (q < e0 ↔ q < e) ∧ (q < e0 → inf.getD q 0 % 256 = inf0.getD q 0 % 256)

/-- The reader sees the same thing over both inputs at every offset from
`pos` up to the position of `res`, and at the position of `res` too when `res`
carries an error. -/
def ozus_reads_alike_upto (inf0 : List Nat) (e0 : Nat) (inf : List Nat) (e pos : Nat)
    (res : ozus_ctx) : Prop :=
  (∀ q, pos ≤ q → q < res.inf_pos → ozus_reads_alike inf0 e0 inf e q) ∧
  (res.error_code ≠ 0 → ozus_reads_alike inf0 e0 inf e res.inf_pos)

/-- The outcome of a round with another input buffer and end offset. -/
def ozus_round_retarget (x : ozus_round) (inf : List Nat) (e : Nat) : ozus_round :=
  match x with
  | .done o => .done (ozus_retarget o inf e)
  | .next o w => .next (ozus_retarget o inf e) w

/-- The context a round ends with. -/
def ozus_round_ctx (x : ozus_round) : ozus_ctx :=
  match x with
  | .done o => o
  | .next o _ => o

/-- The values of the first `n` entries on the walk from `code` along the
parent links, in the order in which `ozus_emit_code` collects them. -/
def ozus_walk_values (ct : Nat → ozus_tableentry) (code : Nat) : Nat → List Nat
  | 0 => []
  | n + 1 => (ct code).value :: ozus_walk_values ct (ct code).parent n

/-- Every entry in use from 257 on has a parent chain that reaches a root
through entries in use inside the table. -/
def ozus_chains_ok (ct : Nat → ozus_tableentry) (size : Nat) : Prop :=
  ∀ i, 257 ≤ i → i < size → (ct i).parent ≠ OZUS_INVALID_CODE →
    ∃ d, ozus_reaches_root ct size d i

/-- When `oldcode` is set, it names a root or an entry in use of the table. -/
def ozus_oldcode_live (ozus : ozus_ctx) : Prop :=
  ozus.have_oldcode = true →
    ozus.oldcode < 256 ∨
    (257 ≤ ozus.oldcode ∧ ozus.oldcode < ozus.ct_arraysize ∧
      (ozus.ct ozus.oldcode).parent ≠ OZUS_INVALID_CODE)

instance ozus_oldcode_live_decidable (ozus : ozus_ctx) : Decidable (ozus_oldcode_live ozus) :=
  inferInstanceAs (Decidable (ozus.have_oldcode = true →
    ozus.oldcode < 256 ∨
    (257 ≤ ozus.oldcode ∧ ozus.oldcode < ozus.ct_arraysize ∧
      (ozus.ct ozus.oldcode).parent ≠ OZUS_INVALID_CODE)))

/-- When the loop of `ozus_run` on `ozus` gets to round `j`, that round starts
with `oldcode` naming a root or an entry in use. -/
def ozus_live_at (ozus : ozus_ctx) (j : Nat) : Prop :=
  ∀ x ∈ ozus_run_at j ozus ozus.initial_code_size, ozus_oldcode_live x.1

instance ozus_live_at_decidable (ozus : ozus_ctx) (j : Nat) :
    Decidable (ozus_live_at ozus j) :=
  inferInstanceAs (Decidable
    (∀ x ∈ ozus_run_at j ozus ozus.initial_code_size, ozus_oldcode_live x.1))

/-- What holds of the table at the start of every round of `ozus_run` on a
context from `ozus_create`: every parent field is below `ct_arraysize`;
`oldcode`, when set, is a code below `ct_arraysize` other than 256; every slot
from 257 up to `free_code_search_start` is in use; and the flags of the
entries from 257 on are clear. -/
structure ozus_table_inv (s : ozus_ctx) : Prop where
  parent_lt : ∀ i, (s.ct i).parent < s.ct_arraysize
  oldcode_ok : s.have_oldcode = true →
    s.oldcode < s.ct_arraysize ∧ s.oldcode ≠ OZUS_INVALID_CODE
  used_below : ∀ i, 257 ≤ i → i < s.free_code_search_start →
    (s.ct i).parent ≠ OZUS_INVALID_CODE
  flags_clear : ∀ i, 257 ≤ i → (s.ct i).flags = 0

/-- The slots from 257 on of a table with `size` slots whose entry is in use
(parent other than 256). -/
def ozus_used_slots (ct : Nat → ozus_tableentry) (size : Nat) : Finset Nat :=
  (Finset.Ico 257 size).filter (fun i => (ct i).parent ≠ OZUS_INVALID_CODE)

/-- A context whose table has every slot from 257 on in use with parent 65 and
with the flag set; no run from a fresh context reaches such a table. -/
def ozus_stale_marks : ozus_ctx :=
  { ozus_create with
    ct := fun i => if 257 ≤ i then ⟨65, 0, 1⟩ else ozus_create_ct i }

/-- The integer whose 9-bit digits, least significant first, are the elements
of `S`: the sum of `S[i] * 512 ^ i`. -/
def ozus_literal_value : List Nat → Nat
  | [] => 0
  | b :: l => b + 512 * ozus_literal_value l

/-- The `n` low bytes of `v`, least significant first. -/
def ozus_le_bytes : Nat → Nat → List Nat
  | 0, _ => []
  | n + 1, v => v % 256 :: ozus_le_bytes n (v / 256)

/-- The stream that packs each element of `S` as one 9-bit code, least
significant bit first, in `ceil(9 * len(S) / 8)` bytes. -/
def ozus_literal_stream (S : List Nat) : List Nat :=
  ozus_le_bytes ((9 * S.length + 7) / 8) (ozus_literal_value S)

/-- The table after the first `k` codes of the literal stream of `S`: entry
`257 + i` holds parent `S[i]` and value `S[i + 1]` for `i + 1 < k`, the other
entries are as `ozus_create` left them. -/
def ozus_literal_table (S : List Nat) (k : Nat) : Nat → ozus_tableentry :=
  fun i =>
    if 257 ≤ i ∧ i + 1 < 257 + k then ⟨S.getD (i - 257) 0, S.getD (i - 256) 0, 0⟩
    else ozus_create_ct i

/-- State of the decoder at the start of round `k` of a run on the literal
stream of `S`. -/
structure ozus_literal_inv (S : List Nat) (k : Nat) (s : ozus_ctx) : Prop where
  error : s.error_code = 0
  max : s.max_code_size = 13
  size : s.ct_arraysize = 8192
  expected : s.outf_nbytes_expected = S.length
  outf : s.outf = S.take k
  value : ozus_bits_value s = ozus_literal_value (S.drop k)
  buf : s.bitreader_buf < 2 ^ s.bitreader_nbits_in_buf
  left : 9 * (S.length - k) ≤ ozus_bits_left s
  old : s.have_oldcode = decide (1 ≤ k)
  oldcode : 1 ≤ k → s.oldcode = S.getD (k - 1) 0 ∧ s.last_value = S.getD (k - 1) 0
  start : s.free_code_search_start = 257 + (k - 1)
  table : s.ct = ozus_literal_table S k

/-! ## Frame lemmas -/

theorem ozus_same_params.refl_params (a : ozus_ctx) : ozus_same_params a a :=
  ⟨rfl, rfl, rfl, rfl, rfl, rfl⟩

theorem ozus_same_params.trans_params {a b c : ozus_ctx} (h1 : ozus_same_params a b)
    (h2 : ozus_same_params b c) : ozus_same_params a c :=
  ⟨h1.1.trans h2.1, h1.2.trans h2.2, h1.3.trans h2.3, h1.4.trans h2.4, h1.5.trans h2.5,
    h1.6.trans h2.6⟩

theorem ozus_same_reader.refl_reader (a : ozus_ctx) : ozus_same_reader a a :=
  ⟨rfl, rfl, rfl⟩

theorem ozus_same_reader.trans_reader {a b c : ozus_ctx} (h1 : ozus_same_reader a b)
    (h2 : ozus_same_reader b c) : ozus_same_reader a c :=
  ⟨h1.1.trans h2.1, h1.2.trans h2.2, h1.3.trans h2.3⟩

theorem ozus_same_dict.refl_dict (a : ozus_ctx) : ozus_same_dict a a :=
  ⟨rfl, rfl, rfl, rfl, rfl, rfl, rfl, rfl⟩

theorem ozus_same_dict.trans_dict {a b c : ozus_ctx} (h1 : ozus_same_dict a b)
    (h2 : ozus_same_dict b c) : ozus_same_dict a c :=
  ⟨h1.1.trans h2.1, h1.2.trans h2.2, h1.3.trans h2.3, h1.4.trans h2.4, h1.5.trans h2.5,
    h1.6.trans h2.6, h1.7.trans h2.7, h1.8.trans h2.8⟩

/-! ## Bit reader lemmas -/

/-- One round of the filling loop, with `ozus_nextbyte` expanded. -/
theorem ozus_bitreader_fill_succ (fuel : Nat) (ozus : ozus_ctx) (nbits : Nat) :
    ozus_bitreader_fill (fuel + 1) ozus nbits =
      if ozus.bitreader_nbits_in_buf < nbits then
        if ozus.inf_pos ≥ ozus.inf_endpos then
          ({ ozus with error_code := OZUS_ERRCODE_INSUFFICIENT_CDATA }, false)
        else if ozus.error_code ≠ 0 then
          ({ ozus with inf_pos := ozus.inf_pos + 1 }, false)
        else
          ozus_bitreader_fill fuel
            { ozus with
              inf_pos := ozus.inf_pos + 1,
              bitreader_buf :=
                (ozus.bitreader_buf |||
                  ((ozus.inf.getD ozus.inf_pos 0) % 256) <<< ozus.bitreader_nbits_in_buf)
                  % 2 ^ 32,
              bitreader_nbits_in_buf := ozus.bitreader_nbits_in_buf + 8 } nbits
      else (ozus, true) := by
  rw [ozus_bitreader_fill]
  by_cases hlt : ozus.bitreader_nbits_in_buf < nbits
  · rw [if_pos hlt, if_pos hlt]
    by_cases hend : ozus.inf_pos ≥ ozus.inf_endpos
    · rw [if_pos hend]
      simp [ozus_nextbyte, hend, OZUS_ERRCODE_INSUFFICIENT_CDATA]
    · rw [if_neg hend]
      by_cases herr : ozus.error_code = 0
      · simp [ozus_nextbyte, hend, herr]
      · simp [ozus_nextbyte, hend, herr]
  · rw [if_neg hlt, if_neg hlt]

theorem ozus_bitreader_fill_params (fuel : Nat) (ozus : ozus_ctx) (nbits : Nat) :
    ozus_same_params (ozus_bitreader_fill fuel ozus nbits).1 ozus := by
  induction fuel generalizing ozus with
  | zero => exact ozus_same_params.refl_params _
  | succ n ih =>
    rw [ozus_bitreader_fill_succ]
    split
    · split
      · exact ⟨rfl, rfl, rfl, rfl, rfl, rfl⟩
      · split
        · exact ⟨rfl, rfl, rfl, rfl, rfl, rfl⟩
        · exact (ih _).trans_params ⟨rfl, rfl, rfl, rfl, rfl, rfl⟩
    · exact ozus_same_params.refl_params _

theorem ozus_bitreader_fill_dict (fuel : Nat) (ozus : ozus_ctx) (nbits : Nat) :
    ozus_same_dict (ozus_bitreader_fill fuel ozus nbits).1 ozus := by
  induction fuel generalizing ozus with
  | zero => exact ozus_same_dict.refl_dict _
  | succ n ih =>
    rw [ozus_bitreader_fill_succ]
    split
    · split
      · exact ⟨rfl, rfl, rfl, rfl, rfl, rfl, rfl, rfl⟩
      · split
        · exact ⟨rfl, rfl, rfl, rfl, rfl, rfl, rfl, rfl⟩
        · exact (ih _).trans_dict ⟨rfl, rfl, rfl, rfl, rfl, rfl, rfl, rfl⟩
    · exact ozus_same_dict.refl_dict _

/-- What the filling loop does to the error code and to the stock of bits. -/
theorem ozus_bitreader_fill_spec (fuel : Nat) (ozus : ozus_ctx) (nbits : Nat) :
    ((ozus_bitreader_fill fuel ozus nbits).2 = true →
        (ozus_bitreader_fill fuel ozus nbits).1.error_code = ozus.error_code ∧
        ozus_bits_left (ozus_bitreader_fill fuel ozus nbits).1 = ozus_bits_left ozus ∧
        ozus.bitreader_nbits_in_buf ≤
          (ozus_bitreader_fill fuel ozus nbits).1.bitreader_nbits_in_buf ∧
        (nbits ≤ ozus.bitreader_nbits_in_buf + 8 * fuel →
          nbits ≤ (ozus_bitreader_fill fuel ozus nbits).1.bitreader_nbits_in_buf)) ∧
    ((ozus_bitreader_fill fuel ozus nbits).2 = false →
        (ozus_bitreader_fill fuel ozus nbits).1.error_code ≠ 0 ∧
        (ozus.error_code = 0 →
          (ozus_bitreader_fill fuel ozus nbits).1.error_code = OZUS_ERRCODE_INSUFFICIENT_CDATA ∧
          ozus_bits_left ozus < nbits)) := by
  induction fuel generalizing ozus with
  | zero => simp [ozus_bitreader_fill]
  | succ n ih =>
    rw [ozus_bitreader_fill_succ]
    by_cases hlt : ozus.bitreader_nbits_in_buf < nbits
    · rw [if_pos hlt]
      by_cases hend : ozus.inf_pos ≥ ozus.inf_endpos
      · rw [if_pos hend]
        refine ⟨fun h => by simp at h, fun _ => ⟨by simp [OZUS_ERRCODE_INSUFFICIENT_CDATA],
          fun _ => ⟨rfl, ?_⟩⟩⟩
        unfold ozus_bits_left
        omega
      · rw [if_neg hend]
        by_cases herr : ozus.error_code = 0
        · rw [if_neg (not_not.mpr herr)]
          have ih1 := ih { ozus with
              inf_pos := ozus.inf_pos + 1,
              bitreader_buf :=
                (ozus.bitreader_buf |||
                  ((ozus.inf.getD ozus.inf_pos 0) % 256) <<< ozus.bitreader_nbits_in_buf)
                  % 2 ^ 32,
              bitreader_nbits_in_buf := ozus.bitreader_nbits_in_buf + 8 }
          refine ⟨fun h => ?_, fun h => ?_⟩
          · obtain ⟨e1, e2, e3, e4⟩ := ih1.1 h
            refine ⟨e1, ?_, ?_, fun hf => e4 ?_⟩
            · rw [e2]; unfold ozus_bits_left; simp only; omega
            · simp only at e3; omega
            · simp only; omega
          · obtain ⟨e1, e2⟩ := ih1.2 h
            refine ⟨e1, fun _ => ?_⟩
            obtain ⟨e3, e4⟩ := e2 herr
            refine ⟨e3, ?_⟩
            unfold ozus_bits_left at e4 ⊢; simp only at e4; omega
        · rw [if_pos herr]
          exact ⟨fun h => by simp at h, fun _ => ⟨herr, fun h => absurd h herr⟩⟩
    · rw [if_neg hlt]
      exact ⟨fun _ => ⟨rfl, rfl, le_refl _, fun _ => by simp only; omega⟩, fun h => by simp at h⟩

theorem ozus_bitreader_getbits_params (ozus : ozus_ctx) (nbits : Nat) :
    ozus_same_params (ozus_bitreader_getbits ozus nbits).1 ozus := by
  unfold ozus_bitreader_getbits
  split
  · exact ozus_same_params.refl_params _
  · simp only
    split
    · exact ozus_bitreader_fill_params _ _ _
    · refine ozus_same_params.trans_params ?_ (ozus_bitreader_fill_params nbits ozus nbits)
      exact ⟨rfl, rfl, rfl, rfl, rfl, rfl⟩

theorem ozus_bitreader_getbits_dict (ozus : ozus_ctx) (nbits : Nat) :
    ozus_same_dict (ozus_bitreader_getbits ozus nbits).1 ozus := by
  unfold ozus_bitreader_getbits
  split
  · exact ozus_same_dict.refl_dict _
  · simp only
    split
    · exact ozus_bitreader_fill_dict _ _ _
    · refine ozus_same_dict.trans_dict ?_ (ozus_bitreader_fill_dict nbits ozus nbits)
      exact ⟨rfl, rfl, rfl, rfl, rfl, rfl, rfl, rfl⟩

/-- A call of `ozus_bitreader_getbits` that leaves no error started without
one, and took exactly `nbits` bits when `nbits` is a valid width. -/
theorem ozus_bitreader_getbits_ok (ozus : ozus_ctx) (nbits : Nat)
    (h : (ozus_bitreader_getbits ozus nbits).1.error_code = 0) :
    ozus.error_code = 0 ∧
    (((nbits < 1 ∨ nbits > ozus.max_code_size) ∧ ozus_bitreader_getbits ozus nbits = (ozus, 0)) ∨
      (1 ≤ nbits ∧ nbits ≤ ozus.max_code_size ∧
        ozus_bits_left (ozus_bitreader_getbits ozus nbits).1 + nbits = ozus_bits_left ozus)) := by
  unfold ozus_bitreader_getbits at h ⊢
  by_cases hv : nbits < 1 ∨ nbits > ozus.max_code_size
  · rw [if_pos hv] at h ⊢
    exact ⟨h, Or.inl ⟨hv, rfl⟩⟩
  · rw [if_neg hv] at h ⊢
    simp only at h ⊢
    have hs := ozus_bitreader_fill_spec nbits ozus nbits
    by_cases hf : (ozus_bitreader_fill nbits ozus nbits).2 = false
    · rw [if_pos hf] at h
      exact absurd h (hs.2 hf).1
    · rw [if_neg hf] at h ⊢
      have hf2 : (ozus_bitreader_fill nbits ozus nbits).2 = true := by simpa using hf
      obtain ⟨e1, e2, _, e4⟩ := hs.1 hf2
      simp only at h
      refine ⟨by rw [← e1]; exact h, Or.inr ⟨by omega, by omega, ?_⟩⟩
      have e5 := e4 (by omega)
      rw [← e2]
      unfold ozus_bits_left
      simp only
      omega

/-- With no error pending and a valid width, `ozus_bitreader_getbits` fails,
with `INSUFFICIENT_CDATA`, exactly when fewer than `nbits` bits are left. -/
theorem ozus_bitreader_getbits_error (ozus : ozus_ctx) (nbits : Nat)
    (h0 : ozus.error_code = 0) (h1 : 1 ≤ nbits) (h2 : nbits ≤ ozus.max_code_size) :
    (ozus_bits_left ozus < nbits →
      (ozus_bitreader_getbits ozus nbits).1.error_code = OZUS_ERRCODE_INSUFFICIENT_CDATA) ∧
    (nbits ≤ ozus_bits_left ozus → (ozus_bitreader_getbits ozus nbits).1.error_code = 0) := by
  have hv : ¬ (nbits < 1 ∨ nbits > ozus.max_code_size) := by omega
  have hs := ozus_bitreader_fill_spec nbits ozus nbits
  unfold ozus_bitreader_getbits
  rw [if_neg hv]
  simp only
  by_cases hf : (ozus_bitreader_fill nbits ozus nbits).2 = false
  · rw [if_pos hf]
    obtain ⟨_, e2⟩ := hs.2 hf
    obtain ⟨e3, e4⟩ := e2 h0
    exact ⟨fun _ => e3, fun h => by omega⟩
  · rw [if_neg hf]
    have hf2 : (ozus_bitreader_fill nbits ozus nbits).2 = true := by simpa using hf
    obtain ⟨e1, e2, _, e4⟩ := hs.1 hf2
    have e5 := e4 (by omega)
    refine ⟨fun h => ?_, fun _ => by simp only; rw [e1]; exact h0⟩
    exfalso
    have : nbits ≤ ozus_bits_left (ozus_bitreader_fill nbits ozus nbits).1 := by
      unfold ozus_bits_left; omega
    omega

/-! ## Emitter lemmas -/

theorem ozus_same_table.refl_table (a : ozus_ctx) : ozus_same_table a a :=
  ⟨rfl, rfl, rfl, rfl, rfl⟩

theorem ozus_same_table.trans_table {a b c : ozus_ctx} (h1 : ozus_same_table a b)
    (h2 : ozus_same_table b c) : ozus_same_table a c :=
  ⟨h1.1.trans h2.1, h1.2.trans h2.2, h1.3.trans h2.3, h1.4.trans h2.4, h1.5.trans h2.5⟩

/-- The walk of `ozus_emit_code` touches the temporary buffer, `last_value`
and the error code only; it ends without error only by `break`, having
collected at least one value. -/
theorem ozus_emit_loop_spec (fuel : Nat) (ozus : ozus_ctx) (code count : Nat) :
    ozus_same_params (ozus_emit_loop fuel ozus code count).1 ozus ∧
    ozus_same_reader (ozus_emit_loop fuel ozus code count).1 ozus ∧
    ozus_same_table (ozus_emit_loop fuel ozus code count).1 ozus ∧
    (ozus_emit_loop fuel ozus code count).1.outf = ozus.outf ∧
    ((ozus_emit_loop fuel ozus code count).2 = true →
      (ozus_emit_loop fuel ozus code count).1.error_code = ozus.error_code ∧
      ozus.tmpbuf.length + 1 ≤ (ozus_emit_loop fuel ozus code count).1.tmpbuf.length) ∧
    ((ozus_emit_loop fuel ozus code count).2 = false →
      (ozus_emit_loop fuel ozus code count).1.error_code = OZUS_ERRCODE_GENERIC_ERROR) := by
  induction fuel generalizing ozus code count with
  | zero =>
    exact ⟨⟨rfl, rfl, rfl, rfl, rfl, rfl⟩, ⟨rfl, rfl, rfl⟩, ⟨rfl, rfl, rfl, rfl, rfl⟩, rfl,
      fun h => by simp [ozus_emit_loop] at h, fun _ => rfl⟩
  | succ n ih =>
    rw [ozus_emit_loop]
    split
    · exact ⟨⟨rfl, rfl, rfl, rfl, rfl, rfl⟩, ⟨rfl, rfl, rfl⟩, ⟨rfl, rfl, rfl, rfl, rfl⟩, rfl,
        fun h => by simp at h, fun _ => rfl⟩
    · simp only
      split
      · exact ⟨⟨rfl, rfl, rfl, rfl, rfl, rfl⟩, ⟨rfl, rfl, rfl⟩, ⟨rfl, rfl, rfl, rfl, rfl⟩, rfl,
          fun h => by simp at h, fun _ => rfl⟩
      · split
        · exact ⟨⟨rfl, rfl, rfl, rfl, rfl, rfl⟩, ⟨rfl, rfl, rfl⟩, ⟨rfl, rfl, rfl, rfl, rfl⟩,
            rfl, fun _ => ⟨rfl, by simp⟩, fun h => by simp at h⟩
        · obtain ⟨a1, a2, a3, a4, a5, a6⟩ :=
            ih { ozus with tmpbuf := ozus.tmpbuf ++ [(ozus.ct code).value] }
              (ozus.ct code).parent (count + 1)
          refine ⟨a1.trans_params ⟨rfl, rfl, rfl, rfl, rfl, rfl⟩, a2.trans_reader ⟨rfl, rfl, rfl⟩,
            a3.trans_table ⟨rfl, rfl, rfl, rfl, rfl⟩, a4, fun h => ?_, a6⟩
          obtain ⟨b1, b2⟩ := a5 h
          refine ⟨b1, ?_⟩
          simp only [List.length_append, List.length_singleton] at b2
          omega

/-- The write-out loop appends the first `k` bytes of the temporary buffer in
reverse order, and changes nothing else. -/
theorem ozus_emit_writeout_spec (k : Nat) (ozus : ozus_ctx) (hk : k ≤ ozus.tmpbuf.length) :
    ozus_same_params (ozus_emit_writeout k ozus) ozus ∧
    ozus_same_reader (ozus_emit_writeout k ozus) ozus ∧
    ozus_same_table (ozus_emit_writeout k ozus) ozus ∧
    (ozus_emit_writeout k ozus).error_code = ozus.error_code ∧
    (ozus_emit_writeout k ozus).last_value = ozus.last_value ∧
    (ozus_emit_writeout k ozus).tmpbuf = ozus.tmpbuf ∧
    (ozus_emit_writeout k ozus).outf = ozus.outf ++ (ozus.tmpbuf.take k).reverse := by
  induction k generalizing ozus with
  | zero =>
    exact ⟨ozus_same_params.refl_params _, ozus_same_reader.refl_reader _,
      ozus_same_table.refl_table _, rfl, rfl,
      rfl, by simp [ozus_emit_writeout]⟩
  | succ n ih =>
    rw [ozus_emit_writeout]
    obtain ⟨a1, a2, a3, a4, a5, a6, a7⟩ :=
      ih { ozus with outf := ozus.outf ++ [ozus.tmpbuf.getD n 0] } (by simp only; omega)
    refine ⟨a1.trans_params ⟨rfl, rfl, rfl, rfl, rfl, rfl⟩, a2.trans_reader ⟨rfl, rfl, rfl⟩,
      a3.trans_table ⟨rfl, rfl, rfl, rfl, rfl⟩, a4, a5, a6, ?_⟩
    rw [a7]
    simp only
    have hn : n < ozus.tmpbuf.length := by omega
    have ht : List.take (n + 1) ozus.tmpbuf = List.take n ozus.tmpbuf ++ [ozus.tmpbuf[n]] := by
      rw [List.take_succ, List.getElem?_eq_getElem hn]; rfl
    rw [ht, List.reverse_append, List.getD_eq_getElem?_getD, List.getElem?_eq_getElem hn]
    simp

/-- `ozus_emit_code` only appends to the output; it leaves the reader, the
table and the LZW codes alone, and when it ends without error it has written
at least one byte. -/
theorem ozus_emit_code_spec (ozus : ozus_ctx) (code1 : Nat) :
    ozus_same_params (ozus_emit_code ozus code1) ozus ∧
    ozus_same_reader (ozus_emit_code ozus code1) ozus ∧
    ozus_same_table (ozus_emit_code ozus code1) ozus ∧
    (∃ l, (ozus_emit_code ozus code1).outf = ozus.outf ++ l ∧
      ((ozus_emit_code ozus code1).error_code = 0 → 1 ≤ l.length)) ∧
    ((ozus_emit_code ozus code1).error_code = ozus.error_code ∨
      (ozus_emit_code ozus code1).error_code = OZUS_ERRCODE_GENERIC_ERROR) := by
  unfold ozus_emit_code
  simp only
  obtain ⟨a1, a2, a3, a4, a5, a6⟩ :=
    ozus_emit_loop_spec ozus.ct_arraysize { ozus with tmpbuf := [] } code1 0
  by_cases hf : (ozus_emit_loop ozus.ct_arraysize { ozus with tmpbuf := [] } code1 0).2 = false
  · rw [if_pos hf]
    refine ⟨a1.trans_params ⟨rfl, rfl, rfl, rfl, rfl, rfl⟩, a2.trans_reader ⟨rfl, rfl, rfl⟩,
      a3.trans_table ⟨rfl, rfl, rfl, rfl, rfl⟩, ⟨[], by rw [a4]; simp, fun h => ?_⟩,
      Or.inr (a6 hf)⟩
    rw [a6 hf] at h
    simp [OZUS_ERRCODE_GENERIC_ERROR] at h
  · rw [if_neg hf]
    have hf2 :
        (ozus_emit_loop ozus.ct_arraysize { ozus with tmpbuf := [] } code1 0).2 = true := by
      simpa using hf
    obtain ⟨b1, b2⟩ := a5 hf2
    obtain ⟨c1, c2, c3, c4, _, _, c7⟩ := ozus_emit_writeout_spec
      (ozus_emit_loop ozus.ct_arraysize { ozus with tmpbuf := [] } code1 0).1.tmpbuf.length
      (ozus_emit_loop ozus.ct_arraysize { ozus with tmpbuf := [] } code1 0).1 (le_refl _)
    refine ⟨(c1.trans_params a1).trans_params ⟨rfl, rfl, rfl, rfl, rfl, rfl⟩,
      (c2.trans_reader a2).trans_reader ⟨rfl, rfl, rfl⟩,
      (c3.trans_table a3).trans_table ⟨rfl, rfl, rfl, rfl, rfl⟩,
      ⟨_, by rw [c7, a4], fun _ => ?_⟩, Or.inl (by rw [c4, b1])⟩
    simp only [List.length_nil] at b2
    simp only [List.take_length, List.length_reverse]
    omega

/-! ## Code table lemmas -/

theorem ozus_find_loop_some (ct : Nat → ozus_tableentry) (n k j : Nat)
    (h : ozus_find_loop ct n k = some j) :
    k ≤ j ∧ j < k + n ∧ (ct j).parent = OZUS_INVALID_CODE ∧
      ∀ i, k ≤ i → i < j → (ct i).parent ≠ OZUS_INVALID_CODE := by
  induction n generalizing k with
  | zero => simp [ozus_find_loop] at h
  | succ m ih =>
    rw [ozus_find_loop] at h
    by_cases hp : (ct k).parent = OZUS_INVALID_CODE
    · rw [if_pos hp] at h
      have hj : k = j := by simpa using h
      subst hj
      exact ⟨le_refl _, by omega, hp, fun i h1 h2 => by omega⟩
    · rw [if_neg hp] at h
      obtain ⟨b1, b2, b3, b4⟩ := ih (k + 1) h
      refine ⟨by omega, by omega, b3, fun i h1 h2 => ?_⟩
      by_cases hik : i = k
      · rw [hik]; exact hp
      · exact b4 i (by omega) h2

theorem ozus_find_loop_none (ct : Nat → ozus_tableentry) (n k : Nat)
    (h : ozus_find_loop ct n k = none) :
    ∀ i, k ≤ i → i < k + n → (ct i).parent ≠ OZUS_INVALID_CODE := by
  induction n generalizing k with
  | zero => intro i h1 h2; omega
  | succ m ih =>
    rw [ozus_find_loop] at h
    by_cases hp : (ct k).parent = OZUS_INVALID_CODE
    · rw [if_pos hp] at h; simp at h
    · rw [if_neg hp] at h
      intro i h1 h2
      by_cases hik : i = k
      · rw [hik]; exact hp
      · exact ih (k + 1) h i (by omega) (by omega)

/-- `ozus_add_to_dict` touches the table, `last_code_added`,
`free_code_search_start` and the error code only. -/
theorem ozus_add_to_dict_frame (ozus : ozus_ctx) (parent value : Nat) :
    ozus_same_params (ozus_add_to_dict ozus parent value) ozus ∧
    ozus_same_reader (ozus_add_to_dict ozus parent value) ozus ∧
    (ozus_add_to_dict ozus parent value).outf = ozus.outf ∧
    (ozus_add_to_dict ozus parent value).tmpbuf = ozus.tmpbuf ∧
    (ozus_add_to_dict ozus parent value).last_value = ozus.last_value ∧
    (ozus_add_to_dict ozus parent value).have_oldcode = ozus.have_oldcode ∧
    (ozus_add_to_dict ozus parent value).oldcode = ozus.oldcode := by
  unfold ozus_add_to_dict ozus_find_first_free_entry
  simp only
  split <;> split <;>
    exact ⟨⟨rfl, rfl, rfl, rfl, rfl, rfl⟩, ⟨rfl, rfl, rfl⟩, rfl, rfl, rfl, rfl, rfl⟩

/-- The two outcomes of `ozus_add_to_dict`: either the first unused slot from
`free_code_search_start` on receives `{parent, value}`, or nothing in the
table moves and an error is set. -/
theorem ozus_add_to_dict_spec (ozus : ozus_ctx) (parent value : Nat) :
    ((ozus_add_to_dict ozus parent value).error_code = 0 →
      ozus.error_code = 0 ∧
      ozus.free_code_search_start ≤ (ozus_add_to_dict ozus parent value).last_code_added ∧
      (ozus_add_to_dict ozus parent value).last_code_added < ozus.ct_arraysize ∧
      (ozus_add_to_dict ozus parent value).free_code_search_start =
        (ozus_add_to_dict ozus parent value).last_code_added + 1 ∧
      (ozus.ct (ozus_add_to_dict ozus parent value).last_code_added).parent
        = OZUS_INVALID_CODE ∧
      (∀ i, ozus.free_code_search_start ≤ i →
        i < (ozus_add_to_dict ozus parent value).last_code_added →
        (ozus.ct i).parent ≠ OZUS_INVALID_CODE) ∧
      (ozus_add_to_dict ozus parent value).ct =
        ct_set ozus.ct (ozus_add_to_dict ozus parent value).last_code_added
          ⟨parent, value,
            (ozus.ct (ozus_add_to_dict ozus parent value).last_code_added).flags⟩) ∧
    ((ozus_add_to_dict ozus parent value).error_code ≠ 0 →
      (ozus_add_to_dict ozus parent value).ct = ozus.ct ∧
      (ozus_add_to_dict ozus parent value).free_code_search_start
        = ozus.free_code_search_start ∧
      (ozus_add_to_dict ozus parent value).last_code_added = ozus.last_code_added ∧
      (ozus.error_code = 0 →
        (ozus_add_to_dict ozus parent value).error_code = OZUS_ERRCODE_BAD_CDATA ∧
        ∀ i, ozus.free_code_search_start ≤ i → i < ozus.ct_arraysize →
          (ozus.ct i).parent ≠ OZUS_INVALID_CODE)) := by
  unfold ozus_add_to_dict ozus_find_first_free_entry
  simp only
  cases hfind : ozus_find_loop ozus.ct (ozus.ct_arraysize - ozus.free_code_search_start)
      ozus.free_code_search_start with
  | none =>
    have hn := ozus_find_loop_none _ _ _ hfind
    have hne : ({ ozus with error_code := OZUS_ERRCODE_BAD_CDATA } : ozus_ctx).error_code ≠ 0 := by
      simp [OZUS_ERRCODE_BAD_CDATA]
    simp only
    rw [if_pos hne]
    refine ⟨fun h => absurd h hne, fun _ => ⟨rfl, rfl, rfl, fun _ => ⟨rfl, fun i h1 h2 => ?_⟩⟩⟩
    exact hn i h1 (by omega)
  | some k =>
    obtain ⟨b1, b2, b3, b4⟩ := ozus_find_loop_some _ _ _ _ hfind
    simp only
    by_cases herr : ozus.error_code = 0
    · rw [if_neg (not_not.mpr herr)]
      refine ⟨fun _ => ⟨herr, b1, by simp only; omega, rfl, b3, b4, rfl⟩, fun h => ?_⟩
      exact absurd herr h
    · rw [if_pos herr]
      exact ⟨fun h => absurd h herr, fun _ => ⟨rfl, rfl, rfl, fun h => absurd h herr⟩⟩

/-- `ozus_emit_code` never clears an error. -/
theorem ozus_emit_code_error (ozus : ozus_ctx) (code1 : Nat)
    (h : (ozus_emit_code ozus code1).error_code = 0) : ozus.error_code = 0 := by
  rcases (ozus_emit_code_spec ozus code1).2.2.2.2 with h1 | h1
  · rw [← h1]; exact h
  · rw [h1] at h; simp [OZUS_ERRCODE_GENERIC_ERROR] at h

/-- `ozus_process_data_code` leaves the reader alone and only appends to the
output; when it ends without error it started without one and has written at
least one byte; table entries below `free_code_search_start` stay as they are
and `free_code_search_start` does not decrease. -/
theorem ozus_process_data_code_spec (ozus : ozus_ctx) (code : Nat) :
    ozus_same_params (ozus_process_data_code ozus code) ozus ∧
    ozus_same_reader (ozus_process_data_code ozus code) ozus ∧
    (∃ l, (ozus_process_data_code ozus code).outf = ozus.outf ++ l ∧
      ((ozus_process_data_code ozus code).error_code = 0 → 1 ≤ l.length)) ∧
    ((ozus_process_data_code ozus code).error_code = 0 → ozus.error_code = 0) ∧
    (∀ i, i < ozus.free_code_search_start →
      (ozus_process_data_code ozus code).ct i = ozus.ct i) ∧
    ozus.free_code_search_start ≤ (ozus_process_data_code ozus code).free_code_search_start := by
  unfold ozus_process_data_code
  by_cases h1 : code ≥ ozus.ct_arraysize
  · rw [if_pos h1]
    exact ⟨⟨rfl, rfl, rfl, rfl, rfl, rfl⟩, ⟨rfl, rfl, rfl⟩,
      ⟨[], by simp, fun h => by simp [OZUS_ERRCODE_GENERIC_ERROR] at h⟩,
      fun h => by simp [OZUS_ERRCODE_GENERIC_ERROR] at h, fun _ _ => rfl, le_refl _⟩
  · rw [if_neg h1]
    by_cases h2 : ozus.have_oldcode = false
    · rw [if_pos h2]
      obtain ⟨a1, a2, a3, ⟨l, a4, a5⟩, _⟩ := ozus_emit_code_spec ozus code
      simp only
      exact ⟨⟨a1.1, a1.2, a1.3, a1.4, a1.5, a1.6⟩, ⟨a2.1, a2.2, a2.3⟩, ⟨l, a4, a5⟩,
        ozus_emit_code_error ozus code,
        fun i _ => by rw [a3.ct], by rw [a3.free_code_search_start]⟩
    · rw [if_neg h2]
      by_cases h3 : code < 256 ∨ (ozus.ct code).parent ≠ OZUS_INVALID_CODE
      · rw [if_pos h3]
        obtain ⟨a1, a2, a3, ⟨l, a4, a5⟩, _⟩ := ozus_emit_code_spec ozus code
        simp only
        by_cases h4 : (ozus_emit_code ozus code).error_code = 0
        · rw [if_neg (not_not.mpr h4)]
          obtain ⟨b1, b2, b3, _, _, _, _⟩ := ozus_add_to_dict_frame (ozus_emit_code ozus code)
            (ozus_emit_code ozus code).oldcode (ozus_emit_code ozus code).last_value
          have hs := ozus_add_to_dict_spec (ozus_emit_code ozus code)
            (ozus_emit_code ozus code).oldcode (ozus_emit_code ozus code).last_value
          have p1 := b1.trans_params a1
          have p2 := b2.trans_reader a2
          refine ⟨⟨p1.1, p1.2, p1.3, p1.4, p1.5, p1.6⟩, ⟨p2.1, p2.2, p2.3⟩,
            ⟨l, by simp only; rw [b3, a4], fun _ => a5 h4⟩,
            fun _ => ozus_emit_code_error ozus code h4, fun i hi => ?_, ?_⟩
          · simp only
            by_cases h5 : (ozus_add_to_dict (ozus_emit_code ozus code)
                (ozus_emit_code ozus code).oldcode (ozus_emit_code ozus code).last_value).error_code
                  = 0
            · obtain ⟨_, c2, _, _, _, _, c7⟩ := hs.1 h5
              rw [c7, ← a3.ct]
              unfold ct_set
              have : i ≠ (ozus_add_to_dict (ozus_emit_code ozus code)
                  (ozus_emit_code ozus code).oldcode
                  (ozus_emit_code ozus code).last_value).last_code_added := by
                rw [a3.free_code_search_start] at c2; omega
              simp only [this, if_false]
            · rw [(hs.2 h5).1, a3.ct]
          · simp only
            by_cases h5 : (ozus_add_to_dict (ozus_emit_code ozus code)
                (ozus_emit_code ozus code).oldcode (ozus_emit_code ozus code).last_value).error_code
                  = 0
            · obtain ⟨_, c2, _, c4, _, _, _⟩ := hs.1 h5
              rw [a3.free_code_search_start] at c2; omega
            · rw [(hs.2 h5).2.1, a3.free_code_search_start]
        · rw [if_pos h4]
          exact ⟨a1, a2, ⟨l, a4, a5⟩, fun h => absurd h h4,
            fun i _ => by rw [a3.ct], by rw [a3.free_code_search_start]⟩
      · rw [if_neg h3]
        obtain ⟨b1, b2, b3, _, _, _, _⟩ :=
          ozus_add_to_dict_frame ozus ozus.oldcode ozus.last_value
        have hs := ozus_add_to_dict_spec ozus ozus.oldcode ozus.last_value
        simp only
        by_cases h4 : (ozus_add_to_dict ozus ozus.oldcode ozus.last_value).error_code = 0
        · rw [if_neg (not_not.mpr h4)]
          obtain ⟨c1, c2, _, c4, _, _, c7⟩ := hs.1 h4
          obtain ⟨a1, a2, a3, ⟨l, a4, a5⟩, _⟩ :=
            ozus_emit_code_spec (ozus_add_to_dict ozus ozus.oldcode ozus.last_value)
              (ozus_add_to_dict ozus ozus.oldcode ozus.last_value).last_code_added
          have p1 := a1.trans_params b1
          have p2 := a2.trans_reader b2
          refine ⟨⟨p1.1, p1.2, p1.3, p1.4, p1.5, p1.6⟩, ⟨p2.1, p2.2, p2.3⟩,
            ⟨l, by simp only; rw [a4, b3], a5⟩,
            fun _ => c1, fun i hi => ?_, ?_⟩
          · simp only
            rw [a3.ct, c7]
            unfold ct_set
            have : i ≠ (ozus_add_to_dict ozus ozus.oldcode ozus.last_value).last_code_added := by
              omega
            simp only [this, if_false]
          · simp only
            rw [a3.free_code_search_start]; omega
        · rw [if_pos h4]
          refine ⟨b1, b2, ⟨[], by rw [b3]; simp, fun h => absurd h h4⟩, fun h => absurd h h4,
            fun i _ => by rw [(hs.2 h4).1], by rw [(hs.2 h4).2.1]⟩

/-! ## Partial clear lemmas -/

/-- The marking loop changes flags only: an entry is flagged when one of the
scanned entries is in use and names it as parent, and keeps its flag
otherwise. -/
theorem ozus_partial_clear_mark_spec (n i0 : Nat) (ct : Nat → ozus_tableentry) (j : Nat) :
    (ozus_partial_clear_mark n i0 ct j).parent = (ct j).parent ∧
    (ozus_partial_clear_mark n i0 ct j).value = (ct j).value ∧
    ((∃ i, i0 ≤ i ∧ i < i0 + n ∧ (ct i).parent ≠ OZUS_INVALID_CODE ∧ (ct i).parent = j) →
      (ozus_partial_clear_mark n i0 ct j).flags = 1) ∧
    ((¬ ∃ i, i0 ≤ i ∧ i < i0 + n ∧ (ct i).parent ≠ OZUS_INVALID_CODE ∧ (ct i).parent = j) →
      (ozus_partial_clear_mark n i0 ct j).flags = (ct j).flags) := by
  induction n generalizing i0 ct with
  | zero =>
    refine ⟨rfl, rfl, fun ⟨i, h1, h2, _⟩ => by omega, fun _ => rfl⟩
  | succ m ih =>
    rw [ozus_partial_clear_mark]
    -- the table after the round on `i0`
    have hstep : ∀ k,
        ((if (ct i0).parent ≠ OZUS_INVALID_CODE then
            ct_set ct (ct i0).parent { ct (ct i0).parent with flags := 1 }
          else ct) k).parent = (ct k).parent ∧
        ((if (ct i0).parent ≠ OZUS_INVALID_CODE then
            ct_set ct (ct i0).parent { ct (ct i0).parent with flags := 1 }
          else ct) k).value = (ct k).value ∧
        ((if (ct i0).parent ≠ OZUS_INVALID_CODE then
            ct_set ct (ct i0).parent { ct (ct i0).parent with flags := 1 }
          else ct) k).flags =
          if (ct i0).parent ≠ OZUS_INVALID_CODE ∧ (ct i0).parent = k then 1 else (ct k).flags := by
      intro k
      by_cases hp : (ct i0).parent ≠ OZUS_INVALID_CODE
      · rw [if_pos hp]
        unfold ct_set
        by_cases hk : k = (ct i0).parent
        · subst hk; simp [hp]
        · have hk2 : ¬ (ct i0).parent = k := fun h => hk h.symm
          simp [hk, hk2]
      · rw [if_neg hp]
        simp [hp]
    obtain ⟨a1, a2, a3, a4⟩ := ih (i0 + 1)
      (if (ct i0).parent ≠ OZUS_INVALID_CODE then
        ct_set ct (ct i0).parent { ct (ct i0).parent with flags := 1 }
      else ct)
    refine ⟨a1.trans (hstep j).1, a2.trans (hstep j).2.1, fun ⟨i, h1, h2, h3, h4⟩ => ?_,
      fun hno => ?_⟩
    · by_cases hlater : ∃ i, i0 + 1 ≤ i ∧ i < i0 + 1 + m ∧ (ct i).parent ≠ OZUS_INVALID_CODE ∧
          (ct i).parent = j
      · obtain ⟨i', g1, g2, g3, g4⟩ := hlater
        exact a3 ⟨i', g1, g2, by rw [(hstep i').1]; exact g3, by rw [(hstep i').1]; exact g4⟩
      · have hi : i = i0 := by
          by_contra hne
          exact hlater ⟨i, by omega, by omega, h3, h4⟩
        subst hi
        have hno' : ¬ ∃ i', i + 1 ≤ i' ∧ i' < i + 1 + m ∧
            ((if (ct i).parent ≠ OZUS_INVALID_CODE then
                ct_set ct (ct i).parent { ct (ct i).parent with flags := 1 }
              else ct) i').parent ≠ OZUS_INVALID_CODE ∧
            ((if (ct i).parent ≠ OZUS_INVALID_CODE then
                ct_set ct (ct i).parent { ct (ct i).parent with flags := 1 }
              else ct) i').parent = j := by
          rintro ⟨i', g1, g2, g3, g4⟩
          rw [(hstep i').1] at g3 g4
          exact hlater ⟨i', g1, g2, g3, g4⟩
        rw [a4 hno', (hstep j).2.2, if_pos ⟨h3, h4⟩]
    · have hno' : ¬ ∃ i', i0 + 1 ≤ i' ∧ i' < i0 + 1 + m ∧
          ((if (ct i0).parent ≠ OZUS_INVALID_CODE then
              ct_set ct (ct i0).parent { ct (ct i0).parent with flags := 1 }
            else ct) i').parent ≠ OZUS_INVALID_CODE ∧
          ((if (ct i0).parent ≠ OZUS_INVALID_CODE then
              ct_set ct (ct i0).parent { ct (ct i0).parent with flags := 1 }
            else ct) i').parent = j := by
        rintro ⟨i', g1, g2, g3, g4⟩
        rw [(hstep i').1] at g3 g4
        exact hno ⟨i', by omega, by omega, g3, g4⟩
      rw [a4 hno', (hstep j).2.2]
      have : ¬ ((ct i0).parent ≠ OZUS_INVALID_CODE ∧ (ct i0).parent = j) := fun ⟨g3, g4⟩ =>
        hno ⟨i0, le_refl _, by omega, g3, g4⟩
      rw [if_neg this]

/-- The sweeping loop rewrites exactly the scanned entries: an entry without
the flag is cleared, a flagged entry only loses the flag. -/
theorem ozus_partial_clear_sweep_spec (n i0 : Nat) (ct : Nat → ozus_tableentry) (j : Nat) :
    (i0 ≤ j ∧ j < i0 + n →
      ozus_partial_clear_sweep n i0 ct j =
        if (ct j).flags = 0 then { ct j with parent := OZUS_INVALID_CODE, value := 0 }
        else { ct j with flags := 0 }) ∧
    (¬ (i0 ≤ j ∧ j < i0 + n) → ozus_partial_clear_sweep n i0 ct j = ct j) := by
  induction n generalizing i0 ct with
  | zero => exact ⟨fun ⟨h1, h2⟩ => by omega, fun _ => rfl⟩
  | succ m ih =>
    rw [ozus_partial_clear_sweep]
    have hstep : ∀ k, k ≠ i0 →
        (if (ct i0).flags = 0 then
            ct_set ct i0 { ct i0 with parent := OZUS_INVALID_CODE, value := 0 }
          else ct_set ct i0 { ct i0 with flags := 0 }) k = ct k := by
      intro k hk
      split <;> simp [ct_set, hk]
    have hat :
        (if (ct i0).flags = 0 then
            ct_set ct i0 { ct i0 with parent := OZUS_INVALID_CODE, value := 0 }
          else ct_set ct i0 { ct i0 with flags := 0 }) i0 =
        if (ct i0).flags = 0 then { ct i0 with parent := OZUS_INVALID_CODE, value := 0 }
        else { ct i0 with flags := 0 } := by
      split <;> simp [ct_set]
    obtain ⟨a1, a2⟩ := ih (i0 + 1)
      (if (ct i0).flags = 0 then
        ct_set ct i0 { ct i0 with parent := OZUS_INVALID_CODE, value := 0 }
      else ct_set ct i0 { ct i0 with flags := 0 })
    refine ⟨fun ⟨h1, h2⟩ => ?_, fun h => ?_⟩
    · by_cases hj : j = i0
      · subst hj
        rw [a2 (by omega), hat]
      · rw [a1 ⟨by omega, by omega⟩, hstep j hj]
    · have hj : j ≠ i0 := by omega
      rw [a2 (by omega), hstep j hj]

/-- `ozus_partial_clear` keeps every field but the table and
`free_code_search_start`, and in the table it keeps parent and value of every
entry below 257. -/
theorem ozus_partial_clear_frame (ozus : ozus_ctx) :
    ozus_same_params (ozus_partial_clear ozus) ozus ∧
    ozus_same_reader (ozus_partial_clear ozus) ozus ∧
    (ozus_partial_clear ozus).outf = ozus.outf ∧
    (ozus_partial_clear ozus).error_code = ozus.error_code ∧
    (ozus_partial_clear ozus).free_code_search_start = 257 ∧
    (∀ i, i < 257 →
      ((ozus_partial_clear ozus).ct i).parent = (ozus.ct i).parent ∧
      ((ozus_partial_clear ozus).ct i).value = (ozus.ct i).value) := by
  refine ⟨⟨rfl, rfl, rfl, rfl, rfl, rfl⟩, ⟨rfl, rfl, rfl⟩, rfl, rfl, rfl, fun i hi => ?_⟩
  unfold ozus_partial_clear
  simp only
  rw [(ozus_partial_clear_sweep_spec _ 257 _ i).2 (by omega)]
  exact ⟨(ozus_partial_clear_mark_spec _ 257 ozus.ct i).1,
    (ozus_partial_clear_mark_spec _ 257 ozus.ct i).2.1⟩

/-! ## Main loop lemmas -/

/-- The eight ways through one round of the loop of `ozus_run`. -/
theorem ozus_run_round_cases (ozus : ozus_ctx) (w : Nat) :
    (ozus.outf_nbytes_expected ≤ ozus.outf.length ∧ ozus_run_round ozus w = .done ozus) ∨
    (ozus.outf.length < ozus.outf_nbytes_expected ∧
      (ozus_bitreader_getbits ozus w).1.error_code ≠ 0 ∧
      ozus_run_round ozus w = .done (ozus_bitreader_getbits ozus w).1) ∨
    (ozus.outf.length < ozus.outf_nbytes_expected ∧
      (ozus_bitreader_getbits ozus w).1.error_code = 0 ∧
      (ozus_bitreader_getbits ozus w).2 = 256 ∧
      (ozus_bitreader_getbits (ozus_bitreader_getbits ozus w).1 w).1.error_code ≠ 0 ∧
      ozus_run_round ozus w =
        .done (ozus_bitreader_getbits (ozus_bitreader_getbits ozus w).1 w).1) ∨
    (ozus.outf.length < ozus.outf_nbytes_expected ∧
      (ozus_bitreader_getbits ozus w).1.error_code = 0 ∧
      (ozus_bitreader_getbits ozus w).2 = 256 ∧
      (ozus_bitreader_getbits (ozus_bitreader_getbits ozus w).1 w).1.error_code = 0 ∧
      (ozus_bitreader_getbits (ozus_bitreader_getbits ozus w).1 w).2 = 1 ∧
      w < (ozus_bitreader_getbits (ozus_bitreader_getbits ozus w).1 w).1.max_code_size ∧
      ozus_run_round ozus w =
        .next (ozus_bitreader_getbits (ozus_bitreader_getbits ozus w).1 w).1 (w + 1)) ∨
    (ozus.outf.length < ozus.outf_nbytes_expected ∧
      (ozus_bitreader_getbits ozus w).1.error_code = 0 ∧
      (ozus_bitreader_getbits ozus w).2 = 256 ∧
      (ozus_bitreader_getbits (ozus_bitreader_getbits ozus w).1 w).1.error_code = 0 ∧
      ¬ ((ozus_bitreader_getbits (ozus_bitreader_getbits ozus w).1 w).2 = 1 ∧
        w < (ozus_bitreader_getbits (ozus_bitreader_getbits ozus w).1 w).1.max_code_size) ∧
      (ozus_bitreader_getbits (ozus_bitreader_getbits ozus w).1 w).2 = 2 ∧
      ozus_run_round ozus w =
        .next (ozus_partial_clear
          (ozus_bitreader_getbits (ozus_bitreader_getbits ozus w).1 w).1) w) ∨
    (ozus.outf.length < ozus.outf_nbytes_expected ∧
      (ozus_bitreader_getbits ozus w).1.error_code = 0 ∧
      (ozus_bitreader_getbits ozus w).2 = 256 ∧
      (ozus_bitreader_getbits (ozus_bitreader_getbits ozus w).1 w).1.error_code = 0 ∧
      ¬ ((ozus_bitreader_getbits (ozus_bitreader_getbits ozus w).1 w).2 = 1 ∧
        w < (ozus_bitreader_getbits (ozus_bitreader_getbits ozus w).1 w).1.max_code_size) ∧
      (ozus_bitreader_getbits (ozus_bitreader_getbits ozus w).1 w).2 ≠ 2 ∧
      ozus_run_round ozus w =
        .done { (ozus_bitreader_getbits (ozus_bitreader_getbits ozus w).1 w).1 with
                error_code := OZUS_ERRCODE_BAD_CDATA }) ∨
    (ozus.outf.length < ozus.outf_nbytes_expected ∧
      (ozus_bitreader_getbits ozus w).1.error_code = 0 ∧
      (ozus_bitreader_getbits ozus w).2 ≠ 256 ∧
      (ozus_process_data_code (ozus_bitreader_getbits ozus w).1
        (ozus_bitreader_getbits ozus w).2).error_code ≠ 0 ∧
      ozus_run_round ozus w =
        .done (ozus_process_data_code (ozus_bitreader_getbits ozus w).1
          (ozus_bitreader_getbits ozus w).2)) ∨
    (ozus.outf.length < ozus.outf_nbytes_expected ∧
      (ozus_bitreader_getbits ozus w).1.error_code = 0 ∧
      (ozus_bitreader_getbits ozus w).2 ≠ 256 ∧
      (ozus_process_data_code (ozus_bitreader_getbits ozus w).1
        (ozus_bitreader_getbits ozus w).2).error_code = 0 ∧
      ozus_run_round ozus w =
        .next (ozus_process_data_code (ozus_bitreader_getbits ozus w).1
          (ozus_bitreader_getbits ozus w).2) w) := by
  unfold ozus_run_round
  by_cases h1 : ozus.outf.length ≥ ozus.outf_nbytes_expected
  · left; exact ⟨h1, by rw [if_pos h1]⟩
  · right
    have h1' : ozus.outf.length < ozus.outf_nbytes_expected := by omega
    rw [if_neg h1]
    simp only
    by_cases h2 : (ozus_bitreader_getbits ozus w).1.error_code = 0
    · right
      rw [if_neg (not_not.mpr h2)]
      by_cases h3 : (ozus_bitreader_getbits ozus w).2 = 256
      · rw [if_pos h3]
        by_cases h4 : (ozus_bitreader_getbits (ozus_bitreader_getbits ozus w).1 w).1.error_code = 0
        · right
          rw [if_neg (not_not.mpr h4)]
          by_cases h5 : (ozus_bitreader_getbits (ozus_bitreader_getbits ozus w).1 w).2 = 1 ∧
              w < (ozus_bitreader_getbits (ozus_bitreader_getbits ozus w).1 w).1.max_code_size
          · left
            rw [if_pos h5]
            exact ⟨h1', h2, h3, h4, h5.1, h5.2, rfl⟩
          · right
            rw [if_neg h5]
            by_cases h6 : (ozus_bitreader_getbits (ozus_bitreader_getbits ozus w).1 w).2 = 2
            · left
              rw [if_pos h6]
              exact ⟨h1', h2, h3, h4, h5, h6, rfl⟩
            · right; left
              rw [if_neg h6]
              exact ⟨h1', h2, h3, h4, h5, h6, rfl⟩
        · left
          rw [if_pos h4]
          exact ⟨h1', h2, h3, h4, rfl⟩
      · right; right; right; right
        rw [if_neg h3]
        by_cases h4 : (ozus_process_data_code (ozus_bitreader_getbits ozus w).1
            (ozus_bitreader_getbits ozus w).2).error_code = 0
        · right
          rw [if_neg (not_not.mpr h4)]
          exact ⟨h1', h2, h3, h4, rfl⟩
        · left
          rw [if_pos h4]
          exact ⟨h1', h2, h3, h4, rfl⟩
    · left
      rw [if_pos h2]
      exact ⟨h1', h2, rfl⟩

/-- A round that goes on: it started and ended without error with fewer bytes
written than expected, it only appended to the output, it used up part of
`ozus_run_bound`, the code size stayed or grew by one below `max_code_size`,
and the entries below 256 kept parent and value. -/
theorem ozus_run_round_next {ozus o' : ozus_ctx} {w w' : Nat}
    (h : ozus_run_round ozus w = .next o' w') :
    ozus_same_params o' ozus ∧ ozus.error_code = 0 ∧ o'.error_code = 0 ∧
    ozus.outf.length < ozus.outf_nbytes_expected ∧
    (∃ l, o'.outf = ozus.outf ++ l) ∧
    ozus_run_bound o' < ozus_run_bound ozus ∧
    (w' = w ∨ (w' = w + 1 ∧ w < ozus.max_code_size)) ∧
    (257 ≤ ozus.free_code_search_start →
      257 ≤ o'.free_code_search_start ∧
      ∀ i, i < 256 → (o'.ct i).parent = (ozus.ct i).parent ∧
        (o'.ct i).value = (ozus.ct i).value) := by
  have hp1 := ozus_bitreader_getbits_params ozus w
  have hd1 := ozus_bitreader_getbits_dict ozus w
  have hp2 := ozus_bitreader_getbits_params (ozus_bitreader_getbits ozus w).1 w
  have hd2 := ozus_bitreader_getbits_dict (ozus_bitreader_getbits ozus w).1 w
  rcases ozus_run_round_cases ozus w with
    ⟨_, hr⟩ | ⟨_, _, hr⟩ | ⟨_, _, _, _, hr⟩ | ⟨hlen, e1, c1, e2, c2, hw, hr⟩ |
    ⟨hlen, e1, c1, e2, hn, c2, hr⟩ | ⟨_, _, _, _, _, _, hr⟩ | ⟨_, _, _, _, hr⟩ |
    ⟨hlen, e1, c1, e2, hr⟩
  · rw [hr] at h; cases h
  · rw [hr] at h; cases h
  · rw [hr] at h; cases h
  · -- width growth
    rw [hr] at h
    injection h with h1 h2
    subst h1; subst h2
    obtain ⟨g0, g1⟩ := ozus_bitreader_getbits_ok ozus w e1
    obtain ⟨_, g2⟩ := ozus_bitreader_getbits_ok _ w e2
    have hb1 : ozus_bits_left (ozus_bitreader_getbits ozus w).1 + 1 ≤ ozus_bits_left ozus := by
      rcases g1 with ⟨_, g⟩ | ⟨g, _, g'⟩
      · rw [g] at c1; simp at c1
      · omega
    have hb2 : ozus_bits_left (ozus_bitreader_getbits (ozus_bitreader_getbits ozus w).1 w).1
        ≤ ozus_bits_left (ozus_bitreader_getbits ozus w).1 := by
      rcases g2 with ⟨_, g⟩ | ⟨_, _, g'⟩
      · rw [g]
      · omega
    refine ⟨hp2.trans_params hp1, g0, e2, hlen, ⟨[], by rw [hd2.outf, hd1.outf]; simp⟩, ?_,
      Or.inr ⟨rfl, by rw [hp2.max_code_size, hp1.max_code_size] at hw; exact hw⟩,
      fun hf => ⟨by rw [hd2.free_code_search_start, hd1.free_code_search_start]; exact hf,
        fun i _ => by rw [hd2.ct, hd1.ct]; exact ⟨rfl, rfl⟩⟩⟩
    unfold ozus_run_bound
    unfold ozus_bits_left at hb1 hb2
    rw [hd2.outf, hd1.outf, hp2.outf_nbytes_expected, hp1.outf_nbytes_expected]
    omega
  · -- partial clear
    rw [hr] at h
    injection h with h1 h2
    subst h1; subst h2
    obtain ⟨g0, g1⟩ := ozus_bitreader_getbits_ok ozus w e1
    obtain ⟨_, g2⟩ := ozus_bitreader_getbits_ok _ w e2
    have hb1 : ozus_bits_left (ozus_bitreader_getbits ozus w).1 + 1 ≤ ozus_bits_left ozus := by
      rcases g1 with ⟨_, g⟩ | ⟨g, _, g'⟩
      · rw [g] at c1; simp at c1
      · omega
    have hb2 : ozus_bits_left (ozus_bitreader_getbits (ozus_bitreader_getbits ozus w).1 w).1
        ≤ ozus_bits_left (ozus_bitreader_getbits ozus w).1 := by
      rcases g2 with ⟨_, g⟩ | ⟨_, _, g'⟩
      · rw [g]
      · omega
    obtain ⟨q1, q2, q3, q4, q5, q6⟩ := ozus_partial_clear_frame
      (ozus_bitreader_getbits (ozus_bitreader_getbits ozus w).1 w).1
    refine ⟨(q1.trans_params hp2).trans_params hp1, g0, by rw [q4]; exact e2, hlen,
      ⟨[], by rw [q3, hd2.outf, hd1.outf]; simp⟩, ?_, Or.inl rfl,
      fun _ => ⟨by rw [q5], fun i hi => ?_⟩⟩
    · unfold ozus_run_bound
      unfold ozus_bits_left at hb1 hb2
      rw [q3, q1.outf_nbytes_expected, q1.inf_endpos, q2.inf_pos, q2.bitreader_nbits_in_buf,
        hd2.outf, hd1.outf, hp2.outf_nbytes_expected, hp1.outf_nbytes_expected]
      omega
    · have := q6 i (by omega)
      rw [hd2.ct, hd1.ct] at this
      exact this
  · rw [hr] at h; cases h
  · rw [hr] at h; cases h
  · -- data code
    rw [hr] at h
    injection h with h1 h2
    subst h1; subst h2
    obtain ⟨g0, g1⟩ := ozus_bitreader_getbits_ok ozus w e1
    obtain ⟨s1, s2, ⟨l, s3, s4⟩, _, s6, s7⟩ := ozus_process_data_code_spec
      (ozus_bitreader_getbits ozus w).1 (ozus_bitreader_getbits ozus w).2
    have hl := s4 e2
    refine ⟨s1.trans_params hp1, g0, e2, hlen, ⟨l, by rw [s3, hd1.outf]⟩, ?_, Or.inl rfl,
      fun hf => ⟨?_, fun i hi => ?_⟩⟩
    · unfold ozus_run_bound
      rw [s3, s1.outf_nbytes_expected, s1.inf_endpos, s2.inf_pos, s2.bitreader_nbits_in_buf,
        hd1.outf, hp1.outf_nbytes_expected]
      have hb1 : ozus_bits_left (ozus_bitreader_getbits ozus w).1 ≤ ozus_bits_left ozus := by
        rcases g1 with ⟨_, g⟩ | ⟨_, _, g'⟩
        · rw [g]
        · omega
      unfold ozus_bits_left at hb1
      simp only [List.length_append]
      omega
    · rw [hd1.free_code_search_start] at s7; omega
    · rw [s6 i (by rw [hd1.free_code_search_start]; omega), hd1.ct]
      exact ⟨rfl, rfl⟩

/-- A round that leaves the loop: without error only when the output holds the
expected number of bytes, and then nothing was touched. -/
theorem ozus_run_round_done {ozus r : ozus_ctx} {w : Nat}
    (h : ozus_run_round ozus w = .done r) :
    ozus_same_params r ozus ∧
    (r.error_code = 0 → r = ozus ∧ ozus.outf_nbytes_expected ≤ ozus.outf.length) ∧
    (∃ l, r.outf = ozus.outf ++ l) ∧
    (257 ≤ ozus.free_code_search_start →
      ∀ i, i < 256 → (r.ct i).parent = (ozus.ct i).parent ∧
        (r.ct i).value = (ozus.ct i).value) := by
  have hp1 := ozus_bitreader_getbits_params ozus w
  have hd1 := ozus_bitreader_getbits_dict ozus w
  have hp2 := ozus_bitreader_getbits_params (ozus_bitreader_getbits ozus w).1 w
  have hd2 := ozus_bitreader_getbits_dict (ozus_bitreader_getbits ozus w).1 w
  rcases ozus_run_round_cases ozus w with
    ⟨hlen, hr⟩ | ⟨_, e1, hr⟩ | ⟨_, _, _, e2, hr⟩ | ⟨_, _, _, _, _, _, hr⟩ |
    ⟨_, _, _, _, _, _, hr⟩ | ⟨_, _, _, _, _, _, hr⟩ | ⟨_, _, _, e2, hr⟩ |
    ⟨_, _, _, _, hr⟩
  · rw [hr] at h
    injection h with h1
    subst h1
    exact ⟨ozus_same_params.refl_params _, fun _ => ⟨rfl, hlen⟩, ⟨[], by simp⟩,
      fun _ i _ => ⟨rfl, rfl⟩⟩
  · rw [hr] at h
    injection h with h1
    subst h1
    exact ⟨hp1, fun h0 => absurd h0 e1, ⟨[], by rw [hd1.outf]; simp⟩,
      fun _ i _ => by rw [hd1.ct]; exact ⟨rfl, rfl⟩⟩
  · rw [hr] at h
    injection h with h1
    subst h1
    exact ⟨hp2.trans_params hp1, fun h0 => absurd h0 e2, ⟨[], by rw [hd2.outf, hd1.outf]; simp⟩,
      fun _ i _ => by rw [hd2.ct, hd1.ct]; exact ⟨rfl, rfl⟩⟩
  · rw [hr] at h; cases h
  · rw [hr] at h; cases h
  · rw [hr] at h
    injection h with h1
    subst h1
    have p := hp2.trans_params hp1
    exact ⟨⟨p.1, p.2, p.3, p.4, p.5, p.6⟩,
      fun h0 => by simp [OZUS_ERRCODE_BAD_CDATA] at h0,
      ⟨[], by simp only; rw [hd2.outf, hd1.outf]; simp⟩,
      fun _ i _ => by simp only; rw [hd2.ct, hd1.ct]; exact ⟨rfl, rfl⟩⟩
  · rw [hr] at h
    injection h with h1
    subst h1
    obtain ⟨s1, _, ⟨l, s3, _⟩, _, s6, _⟩ := ozus_process_data_code_spec
      (ozus_bitreader_getbits ozus w).1 (ozus_bitreader_getbits ozus w).2
    refine ⟨s1.trans_params hp1, fun h0 => absurd h0 e2, ⟨l, by rw [s3, hd1.outf]⟩,
      fun hf i hi => ?_⟩
    rw [s6 i (by rw [hd1.free_code_search_start]; omega), hd1.ct]
    exact ⟨rfl, rfl⟩
  · rw [hr] at h; cases h

/-- The state at round `k + 1` is the outcome of the round run on the state at
round `k`. -/
theorem ozus_run_at_succ {ozus s s' : ozus_ctx} {w w1 w2 : Nat} (k : Nat)
    (h : ozus_run_at k ozus w = some (s, w1)) (hr : ozus_run_round s w1 = .next s' w2) :
    ozus_run_at (k + 1) ozus w = some (s', w2) := by
  induction k generalizing ozus w with
  | zero =>
    simp only [ozus_run_at, Option.some.injEq, Prod.mk.injEq] at h
    obtain ⟨h1, h2⟩ := h
    subst h1; subst h2
    simp [ozus_run_at, hr]
  | succ n ih =>
    rw [ozus_run_at] at h
    rw [ozus_run_at]
    cases hround : ozus_run_round ozus w with
    | done o => rw [hround] at h; simp at h
    | next o w' =>
      rw [hround] at h
      simp only at h ⊢
      exact ih h

/-- The state at round `k + 1` comes from a state at round `k` by one round
that goes on. -/
theorem ozus_run_at_pred {ozus s' : ozus_ctx} {w w2 : Nat} (k : Nat)
    (h : ozus_run_at (k + 1) ozus w = some (s', w2)) :
    ∃ s w1, ozus_run_at k ozus w = some (s, w1) ∧ ozus_run_round s w1 = .next s' w2 := by
  induction k generalizing ozus w with
  | zero =>
    rw [ozus_run_at] at h
    cases hround : ozus_run_round ozus w with
    | done o => rw [hround] at h; simp at h
    | next o w' =>
      rw [hround] at h
      simp only [ozus_run_at, Option.some.injEq, Prod.mk.injEq] at h
      obtain ⟨h1, h2⟩ := h
      subst h1; subst h2
      exact ⟨ozus, w, rfl, hround⟩
  | succ n ih =>
    rw [ozus_run_at] at h
    cases hround : ozus_run_round ozus w with
    | done o => rw [hround] at h; simp at h
    | next o w' =>
      rw [hround] at h
      simp only at h
      obtain ⟨s, w1, g1, g2⟩ := ih h
      refine ⟨s, w1, ?_, g2⟩
      rw [ozus_run_at, hround]
      exact g1

/-- Induction along the rounds of the loop. -/
theorem ozus_run_at_induct (P : ozus_ctx → Nat → Prop)
    (hstep : ∀ s w s' w', P s w → ozus_run_round s w = .next s' w' → P s' w')
    {ozus s : ozus_ctx} {w w1 : Nat} (k : Nat) (h0 : P ozus w)
    (h : ozus_run_at k ozus w = some (s, w1)) : P s w1 := by
  induction k generalizing s w1 with
  | zero =>
    simp only [ozus_run_at, Option.some.injEq, Prod.mk.injEq] at h
    obtain ⟨h1, h2⟩ := h
    subst h1; subst h2
    exact h0
  | succ n ih =>
    obtain ⟨s0, w0, g1, g2⟩ := ozus_run_at_pred n h
    exact hstep s0 w0 s w1 (ih g1) g2

/-- Running the loop from the start is running it from the state at round
`k`, with `k` rounds less. -/
theorem ozus_run_loop_of_at {ozus s : ozus_ctx} {w w1 : Nat} (k f : Nat)
    (h : ozus_run_at k ozus w = some (s, w1)) :
    ozus_run_loop (k + f) ozus w = ozus_run_loop f s w1 := by
  induction k generalizing ozus w with
  | zero =>
    simp only [ozus_run_at, Option.some.injEq, Prod.mk.injEq] at h
    obtain ⟨h1, h2⟩ := h
    subst h1; subst h2
    simp
  | succ n ih =>
    rw [ozus_run_at] at h
    cases hround : ozus_run_round ozus w with
    | done o => rw [hround] at h; simp at h
    | next o w' =>
      rw [hround] at h
      simp only at h
      have : n + 1 + f = (n + f) + 1 := by omega
      rw [this, ozus_run_loop, hround]
      exact ih h

/-- Each round that goes on uses up part of `ozus_run_bound`. -/
theorem ozus_run_at_bound {ozus s : ozus_ctx} {w w1 : Nat} (k : Nat)
    (h : ozus_run_at k ozus w = some (s, w1)) :
    ozus_run_bound s + k ≤ ozus_run_bound ozus := by
  induction k generalizing s w1 with
  | zero =>
    simp only [ozus_run_at, Option.some.injEq, Prod.mk.injEq] at h
    rw [h.1]; omega
  | succ n ih =>
    obtain ⟨s0, w0, g1, g2⟩ := ozus_run_at_pred n h
    have := ih g1
    have := (ozus_run_round_next g2).2.2.2.2.2.1
    omega

/-- The loop of `ozus_run` is left within `ozus_run_bound` rounds. -/
theorem ozus_run_loop_total (f : Nat) (ozus : ozus_ctx) (w : Nat)
    (h : ozus_run_bound ozus ≤ f) : ∃ r, ozus_run_loop f ozus w = some r := by
  induction f generalizing ozus w with
  | zero => unfold ozus_run_bound at h; omega
  | succ n ih =>
    rw [ozus_run_loop]
    cases hround : ozus_run_round ozus w with
    | done o => exact ⟨o, rfl⟩
    | next o w' =>
      simp only
      have := (ozus_run_round_next hround).2.2.2.2.2.1
      exact ih o w' (by omega)

/-- Termination: `ozus_run` returns a context, whatever context it is given. -/
theorem ozus_run_total (ozus : ozus_ctx) : ∃ r, ozus_run ozus = some r :=
  ozus_run_loop_total _ ozus _ (le_refl _)

/-- The context returned by the loop is the one of the round that left it. -/
theorem ozus_run_loop_some {ozus r : ozus_ctx} {w : Nat} (f : Nat)
    (h : ozus_run_loop f ozus w = some r) :
    ∃ k s w1, ozus_run_at k ozus w = some (s, w1) ∧ ozus_run_round s w1 = .done r := by
  induction f generalizing ozus w with
  | zero => simp [ozus_run_loop] at h
  | succ n ih =>
    rw [ozus_run_loop] at h
    cases hround : ozus_run_round ozus w with
    | done o =>
      rw [hround] at h
      simp only [Option.some.injEq] at h
      subst h
      exact ⟨0, ozus, w, rfl, hround⟩
    | next o w' =>
      rw [hround] at h
      simp only at h
      obtain ⟨k, s, w1, g1, g2⟩ := ih h
      refine ⟨k + 1, s, w1, ?_, g2⟩
      rw [ozus_run_at, hround]
      exact g1

/-- When the round run on the state at round `k` leaves the loop, `ozus_run`
returns the context of that round. -/
theorem ozus_run_of_at {ozus s r : ozus_ctx} {w1 : Nat} (k : Nat)
    (h : ozus_run_at k ozus ozus.initial_code_size = some (s, w1))
    (hr : ozus_run_round s w1 = .done r) : ozus_run ozus = some r := by
  have hb := ozus_run_at_bound k h
  have hs : 1 ≤ ozus_run_bound s := by unfold ozus_run_bound; omega
  obtain ⟨f, hf⟩ : ∃ f, ozus_run_bound ozus = k + (f + 1) :=
    ⟨ozus_run_bound ozus - k - 1, by omega⟩
  unfold ozus_run
  rw [hf, ozus_run_loop_of_at k (f + 1) h, ozus_run_loop, hr]

/-- The context returned by `ozus_run` is the one of the round that left the
loop. -/
theorem ozus_run_some {ozus r : ozus_ctx} (h : ozus_run ozus = some r) :
    ∃ k s w1, ozus_run_at k ozus ozus.initial_code_size = some (s, w1) ∧
      ozus_run_round s w1 = .done r :=
  ozus_run_loop_some _ h

/-! ## Runs from a fresh context -/

theorem ozus_run_inv_setup (inf : List Nat) (p e N : Nat) :
    ozus_run_inv N (ozus_setup inf p e N) (ozus_setup inf p e N).initial_code_size := by
  refine ⟨rfl, rfl, rfl, rfl, rfl, (show (9 : Nat) ≤ 9 by decide), (show (9 : Nat) ≤ 13 by decide),
    (show (257 : Nat) ≤ 257 by decide), fun i hi => ?_⟩
  show (ozus_create_ct i).parent = OZUS_INVALID_CODE ∧ (ozus_create_ct i).value = i
  unfold ozus_create_ct
  rw [if_pos hi]
  exact ⟨rfl, Nat.mod_eq_of_lt hi⟩

theorem ozus_run_inv_step (N : Nat) (s : ozus_ctx) (w : Nat) (s' : ozus_ctx) (w' : Nat)
    (h : ozus_run_inv N s w) (hr : ozus_run_round s w = .next s' w') : ozus_run_inv N s' w' := by
  obtain ⟨_, i2, i3, i4, i5, i6, i7, i8, i9⟩ := h
  obtain ⟨a1, _, a3, _, _, _, a7, a8⟩ := ozus_run_round_next hr
  obtain ⟨b1, b2⟩ := a8 i8
  refine ⟨a3, by rw [a1.max_code_size, i2], by rw [a1.initial_code_size, i3],
    by rw [a1.ct_arraysize, i4], by rw [a1.outf_nbytes_expected, i5], by omega, by omega, b1,
    fun i hi => ?_⟩
  rw [(b2 i hi).1, (b2 i hi).2]
  exact i9 i hi

/-- The invariant holds at the start of every round of a run from a fresh
context. -/
theorem ozus_run_inv_at {inf : List Nat} {p e N k : Nat} {s : ozus_ctx} {w : Nat}
    (h : ozus_run_at k (ozus_setup inf p e N) (ozus_setup inf p e N).initial_code_size
      = some (s, w)) : ozus_run_inv N s w :=
  ozus_run_at_induct (ozus_run_inv N) (ozus_run_inv_step N) k (ozus_run_inv_setup inf p e N) h

/-! ## The claims -/

/-- C2, as stated, fails: the 9-bit codes 65, 66, 257 (input bytes 0x41 0x84
0x04 0x04) with expected length 3 end with OK and the four bytes "ABAB" in the
output sink, since the string of the last code is written whole. -/
theorem exact_length_counterexample :
    ∃ r, ozus_run (ozus_setup [0x41, 0x84, 0x04, 0x04] 0 4 3) = some r ∧
      r.error_code = OZUS_ERRCODE_OK ∧ r.outf = [65, 66, 65, 66] ∧ ¬ r.outf.length = 3 :=
  ⟨_, rfl, by decide, by decide, by decide⟩

/-- C2, amended: when `ozus_run` on a fresh context with an empty output sink
ends with OK, the output sink holds at least the expected `N` bytes; and when
`N > 0` the returned context is the outcome of a round that started with
fewer than `N` bytes written, so only the string of the last code can carry
the output past `N`. -/
theorem at_least_expected_length_on_success (inf : List Nat) (p e N : Nat) (r : ozus_ctx)
    (h : ozus_run (ozus_setup inf p e N) = some r) (hok : r.error_code = OZUS_ERRCODE_OK) :
    N ≤ r.outf.length ∧
    (N = 0 ∨ ∃ k s w w', ozus_run_at k (ozus_setup inf p e N) 9 = some (s, w) ∧
      s.outf.length < N ∧ ozus_run_round s w = .next r w') := by
  obtain ⟨k, s, w1, g1, g2⟩ := ozus_run_some h
  obtain ⟨_, d2, _, _⟩ := ozus_run_round_done g2
  obtain ⟨d3, d4⟩ := d2 hok
  subst d3
  have hN := (ozus_run_inv_at g1).2.2.2.2.1
  rw [hN] at d4
  refine ⟨d4, ?_⟩
  cases k with
  | zero =>
    left
    simp only [ozus_run_at, Option.some.injEq, Prod.mk.injEq] at g1
    rw [← g1.1] at d4
    exact Nat.le_zero.mp d4
  | succ n =>
    right
    obtain ⟨s0, w0, q1, q2⟩ := ozus_run_at_pred n g1
    have hlen := (ozus_run_round_next q2).2.2.2.1
    rw [(ozus_run_inv_at q1).2.2.2.2.1] at hlen
    exact ⟨n, s0, w0, w1, q1, hlen, q2⟩

/-- Witness for C2: the codes 65, 66, 65 with expected length 3. -/
theorem at_least_expected_length_on_success_witness :
    ∃ r, ozus_run (ozus_setup [0x41, 0x84, 0x04, 0x01] 0 4 3) = some r ∧
      r.error_code = OZUS_ERRCODE_OK ∧ 3 ≤ r.outf.length ∧
      (3 = 0 ∨ ∃ k s w w', ozus_run_at k (ozus_setup [0x41, 0x84, 0x04, 0x01] 0 4 3) 9
          = some (s, w) ∧
        s.outf.length < 3 ∧ ozus_run_round s w = .next r w') :=
  ⟨_, rfl, rfl, at_least_expected_length_on_success [0x41, 0x84, 0x04, 0x01] 0 4 3 _ rfl rfl⟩

/-- C3, worked scenario A: from a fresh context (no previous code, code size
9) the input bytes 0x41 0x84 0x04 0x01, which are the 9-bit codes 65, 66, 65,
with expected length 3 end with OK and output "ABA"; entry 257 is
`{parent 65, value 66}`, entry 258 is `{parent 66, value 65}`, and every
other entry from 257 on is still unused. -/
theorem scenario_A_no_growth :
    (ozus_setup [0x41, 0x84, 0x04, 0x01] 0 4 3).have_oldcode = false ∧
    (ozus_setup [0x41, 0x84, 0x04, 0x01] 0 4 3).initial_code_size = 9 ∧
    ∃ r, ozus_run (ozus_setup [0x41, 0x84, 0x04, 0x01] 0 4 3) = some r ∧
      r.error_code = OZUS_ERRCODE_OK ∧ r.outf = [65, 66, 65] ∧
      r.ct 257 = ⟨65, 66, 0⟩ ∧ r.ct 258 = ⟨66, 65, 0⟩ ∧
      ∀ i, 257 ≤ i ∧ i < 8192 ∧ i ≠ 257 ∧ i ≠ 258 →
        (r.ct i).parent = OZUS_INVALID_CODE := by
  refine ⟨rfl, rfl, _, rfl, by decide, by decide, by decide, by decide, ?_⟩
  intro i ⟨_, _, h3, h4⟩
  show ((ct_set (ct_set ozus_create_ct 257 ⟨65, 66, 0⟩) 258 ⟨66, 65, 0⟩) i).parent
    = OZUS_INVALID_CODE
  simp only [ct_set, h3, h4, if_false, ozus_create_ct]
  split <;> rfl

/-- C4, worked scenario B: in the state reached after scenario A (previous
code 65, whose first byte is 'A'; entries 257 and 258 in use, 259 unused) the
data code 259 creates entry 259 = `{parent 65, value 'A'}` and appends exactly
"AA" to the output, without error; the whole stream 65, 66, 65, 259 (input
bytes 0x41 0x84 0x04 0x19 0x08) gives the output "ABAAA". -/
theorem scenario_B_deferred_entry :
    ∃ sA, ozus_run (ozus_setup [0x41, 0x84, 0x04, 0x01] 0 4 3) = some sA ∧
      sA.have_oldcode = true ∧ sA.oldcode = 65 ∧ sA.last_value = 65 ∧
      (sA.ct 257).parent ≠ OZUS_INVALID_CODE ∧ (sA.ct 258).parent ≠ OZUS_INVALID_CODE ∧
      (sA.ct 259).parent = OZUS_INVALID_CODE ∧
      (ozus_process_data_code sA 259).ct 259 = ⟨65, 65, 0⟩ ∧
      (ozus_process_data_code sA 259).last_code_added = 259 ∧
      (ozus_process_data_code sA 259).outf = sA.outf ++ [65, 65] ∧
      (ozus_process_data_code sA 259).error_code = OZUS_ERRCODE_OK ∧
      (ozus_run (ozus_setup [0x41, 0x84, 0x04, 0x19, 0x08] 0 5 5)).map
        (fun r => (r.error_code, r.outf, r.ct 259)) =
        some (OZUS_ERRCODE_OK, [65, 66, 65, 65, 65], ⟨65, 65, 0⟩) := by
  refine ⟨_, rfl, by decide, by decide, by decide, by decide, by decide, by decide, by decide,
    by decide, by decide, by decide, by decide⟩

/-- C5, truncation: in a run from a fresh context, when at the start of a
round fewer bytes than expected are written and the pending bits and remaining
input bytes do not hold a whole code, or hold the code 256 but not the
sub-opcode after it, `ozus_run` returns with `INSUFFICIENT_CDATA` (8) and with
the output sink as it was at the start of that round. -/
theorem truncation_insufficient_cdata (inf : List Nat) (p e N k : Nat) (s : ozus_ctx) (w : Nat)
    (h : ozus_run_at k (ozus_setup inf p e N) 9 = some (s, w))
    (hlen : s.outf.length < N)
    (hout : ozus_bits_left s < w ∨
      (w ≤ ozus_bits_left s ∧ (ozus_bitreader_getbits s w).2 = 256 ∧
        ozus_bits_left (ozus_bitreader_getbits s w).1 < w)) :
    ∃ r, ozus_run (ozus_setup inf p e N) = some r ∧
      r.error_code = OZUS_ERRCODE_INSUFFICIENT_CDATA ∧ r.outf = s.outf := by
  obtain ⟨i1, i2, _, _, i5, i6, i7, _, _⟩ := ozus_run_inv_at h
  have hlen' : s.outf.length < s.outf_nbytes_expected := by rw [i5]; exact hlen
  have hg := ozus_bitreader_getbits_error s w i1 (by omega) (by omega)
  have hd1 := ozus_bitreader_getbits_dict s w
  rcases hout with h1 | ⟨h1, h2, h3⟩
  · have herr := hg.1 h1
    refine ⟨(ozus_bitreader_getbits s w).1, ?_, herr, hd1.outf⟩
    refine ozus_run_of_at k h ?_
    rcases ozus_run_round_cases s w with
      ⟨c, _⟩ | ⟨_, _, hr⟩ | ⟨_, c, _⟩ | ⟨_, c, _⟩ | ⟨_, c, _⟩ | ⟨_, c, _⟩ | ⟨_, c, _⟩ |
      ⟨_, c, _⟩
    · omega
    · exact hr
    all_goals (rw [herr] at c; simp [OZUS_ERRCODE_INSUFFICIENT_CDATA] at c)
  · have herr1 := hg.2 h1
    have hp1 := ozus_bitreader_getbits_params s w
    have hd2 := ozus_bitreader_getbits_dict (ozus_bitreader_getbits s w).1 w
    have herr2 := (ozus_bitreader_getbits_error (ozus_bitreader_getbits s w).1 w herr1
      (by omega) (by rw [hp1.max_code_size]; omega)).1 h3
    refine ⟨(ozus_bitreader_getbits (ozus_bitreader_getbits s w).1 w).1, ?_, herr2,
      by rw [hd2.outf, hd1.outf]⟩
    refine ozus_run_of_at k h ?_
    rcases ozus_run_round_cases s w with
      ⟨c, _⟩ | ⟨_, c, _⟩ | ⟨_, _, _, _, hr⟩ | ⟨_, _, _, c, _⟩ | ⟨_, _, _, c, _⟩ |
      ⟨_, _, _, c, _⟩ | ⟨_, _, c, _⟩ | ⟨_, _, c, _⟩
    · omega
    · exact absurd herr1 c
    · exact hr
    · rw [herr2] at c; simp [OZUS_ERRCODE_INSUFFICIENT_CDATA] at c
    · rw [herr2] at c; simp [OZUS_ERRCODE_INSUFFICIENT_CDATA] at c
    · rw [herr2] at c; simp [OZUS_ERRCODE_INSUFFICIENT_CDATA] at c
    · exact absurd h2 c
    · exact absurd h2 c

/-- Witness for C5: the input bytes 0x41 0x84 0x04 0x01 (codes 65, 66, 65)
with expected length 8 give the output "ABA" and `INSUFFICIENT_CDATA`: at the
start of round 3 five bits are left. -/
theorem truncation_insufficient_cdata_witness :
    ∃ s w, ozus_run_at 3 (ozus_setup [0x41, 0x84, 0x04, 0x01] 0 4 8) 9 = some (s, w) ∧
      s.outf = [65, 66, 65] ∧ s.outf.length < 8 ∧ ozus_bits_left s < w ∧
      ∃ r, ozus_run (ozus_setup [0x41, 0x84, 0x04, 0x01] 0 4 8) = some r ∧
        r.error_code = OZUS_ERRCODE_INSUFFICIENT_CDATA ∧ r.outf = s.outf :=
  ⟨_, _, rfl, by decide, by decide, by decide,
    truncation_insufficient_cdata [0x41, 0x84, 0x04, 0x01] 0 4 8 3 _ _ rfl (by decide)
      (Or.inl (by decide))⟩

/-- C6, control errors: in a run from a fresh context, when a round reads the
code 256 and then the sub-opcode `ctrl`, both at the current code size `w`,
the round leaves the loop with `BAD_CDATA`, which `ozus_run` then returns,
if and only if `ctrl` is neither 1 nor 2, or `ctrl = 1` and `w = 13`; with
`ctrl = 2` the round goes on without error at the same code size, for every
`w` (which lies in 9..13). -/
theorem control_errors (inf : List Nat) (p e N k : Nat) (s : ozus_ctx) (w ctrl : Nat)
    (h : ozus_run_at k (ozus_setup inf p e N) 9 = some (s, w))
    (hlen : s.outf.length < N)
    (h1 : (ozus_bitreader_getbits s w).1.error_code = 0)
    (hc : (ozus_bitreader_getbits s w).2 = 256)
    (h2 : (ozus_bitreader_getbits (ozus_bitreader_getbits s w).1 w).1.error_code = 0)
    (hctrl : (ozus_bitreader_getbits (ozus_bitreader_getbits s w).1 w).2 = ctrl) :
    ((∃ r, ozus_run_round s w = .done r ∧ r.error_code = OZUS_ERRCODE_BAD_CDATA ∧
        ozus_run (ozus_setup inf p e N) = some r) ↔
      ((ctrl ≠ 1 ∧ ctrl ≠ 2) ∨ (ctrl = 1 ∧ w = 13))) ∧
    (ctrl = 2 → ∃ s', ozus_run_round s w = .next s' w ∧ s'.error_code = 0) ∧
    9 ≤ w ∧ w ≤ 13 := by
  obtain ⟨_, i2, _, _, i5, i6, i7, _, _⟩ := ozus_run_inv_at h
  have hlen' : ¬ s.outf_nbytes_expected ≤ s.outf.length := by rw [i5]; omega
  have hmax : (ozus_bitreader_getbits (ozus_bitreader_getbits s w).1 w).1.max_code_size = 13 := by
    rw [(ozus_bitreader_getbits_params _ w).max_code_size,
      (ozus_bitreader_getbits_params s w).max_code_size, i2]
  refine ⟨⟨fun ⟨r, hr, _, _⟩ => ?_, fun hbad => ?_⟩, fun h2' => ?_, i6, i7⟩
  · rcases ozus_run_round_cases s w with
      ⟨c, _⟩ | ⟨_, c, _⟩ | ⟨_, _, _, c, _⟩ | ⟨_, _, _, _, _, _, hn⟩ |
      ⟨_, _, _, _, _, _, hn⟩ |
      ⟨_, _, _, _, c1, c2, _⟩ | ⟨_, _, c, _⟩ | ⟨_, _, c, _⟩
    · exact absurd c hlen'
    · exact absurd h1 c
    · exact absurd h2 c
    · rw [hn] at hr; cases hr
    · rw [hn] at hr; cases hr
    · rw [hctrl, hmax] at c1
      rw [hctrl] at c2
      by_cases h1' : ctrl = 1
      · right
        exact ⟨h1', by have := fun hw => c1 ⟨h1', hw⟩; omega⟩
      · left
        exact ⟨h1', c2⟩
    · exact absurd hc c
    · exact absurd hc c
  · have hround : ozus_run_round s w =
        .done { (ozus_bitreader_getbits (ozus_bitreader_getbits s w).1 w).1 with
                error_code := OZUS_ERRCODE_BAD_CDATA } := by
      rcases ozus_run_round_cases s w with
        ⟨c, _⟩ | ⟨_, c, _⟩ | ⟨_, _, _, c, _⟩ | ⟨_, _, _, _, c1, c2, _⟩ |
        ⟨_, _, _, _, c1, c2, _⟩ | ⟨_, _, _, _, _, _, hr⟩ | ⟨_, _, c, _⟩ | ⟨_, _, c, _⟩
      · exact absurd c hlen'
      · exact absurd h1 c
      · exact absurd h2 c
      · rw [hctrl] at c1; rw [hmax] at c2; omega
      · rw [hctrl] at c2; omega
      · exact hr
      · exact absurd hc c
      · exact absurd hc c
    exact ⟨_, hround, rfl, ozus_run_of_at k h hround⟩
  · rcases ozus_run_round_cases s w with
      ⟨c, _⟩ | ⟨_, c, _⟩ | ⟨_, _, _, c, _⟩ | ⟨_, _, _, _, c1, _, _⟩ |
      ⟨_, _, _, _, _, _, hr⟩ | ⟨_, _, _, _, _, c2, _⟩ | ⟨_, _, c, _⟩ | ⟨_, _, c, _⟩
    · exact absurd c hlen'
    · exact absurd h1 c
    · exact absurd h2 c
    · rw [hctrl] at c1; omega
    · exact ⟨_, hr, by rw [(ozus_partial_clear_frame _).2.2.2.1]; exact h2⟩
    · rw [hctrl] at c2; exact absurd h2' c2
    · exact absurd hc c
    · exact absurd hc c

/-- Witness for C6: after four growths of the code size, the code 256
followed by the sub-opcode 1 at code size 13 yields `BAD_CDATA`. -/
theorem control_errors_witness :
    ∃ s, ozus_run_at 4
        (ozus_setup [0x00, 0x03, 0x00, 0x14, 0x00, 0x40, 0x02, 0x00, 0x10, 0x01, 0x00, 0x10,
          0x02, 0x00] 0 14 1) 9 = some (s, 13) ∧
      (ozus_bitreader_getbits s 13).2 = 256 ∧
      (ozus_bitreader_getbits (ozus_bitreader_getbits s 13).1 13).2 = 1 ∧
      ∃ r, ozus_run_round s 13 = .done r ∧ r.error_code = OZUS_ERRCODE_BAD_CDATA ∧
        ozus_run (ozus_setup [0x00, 0x03, 0x00, 0x14, 0x00, 0x40, 0x02, 0x00, 0x10, 0x01, 0x00,
          0x10, 0x02, 0x00] 0 14 1) = some r :=
  ⟨_, rfl, by decide, by decide,
    (control_errors [0x00, 0x03, 0x00, 0x14, 0x00, 0x40, 0x02, 0x00, 0x10, 0x01, 0x00, 0x10,
      0x02, 0x00] 0 14 1 4 _ 13 1 rfl (by decide) (by decide) (by decide) (by decide)
      (by decide)).1.mpr (Or.inr ⟨rfl, rfl⟩)⟩

/-- C7, width growth: in a run from a fresh context, when a round reads the
code 256 and then the sub-opcode 1, both with the current code size `w`, and
`w < 13`, the round goes on without error, the next round runs, and so reads
its code, with code size `w + 1`, and the table, the previous code, the
have-previous-code flag, the first byte of the previous string and the output
are those from before the round; the two reads took `2 * w` bits. -/
theorem width_growth (inf : List Nat) (p e N k : Nat) (s : ozus_ctx) (w : Nat)
    (h : ozus_run_at k (ozus_setup inf p e N) 9 = some (s, w))
    (hlen : s.outf.length < N)
    (h1 : (ozus_bitreader_getbits s w).1.error_code = 0)
    (hc : (ozus_bitreader_getbits s w).2 = 256)
    (h2 : (ozus_bitreader_getbits (ozus_bitreader_getbits s w).1 w).1.error_code = 0)
    (hctrl : (ozus_bitreader_getbits (ozus_bitreader_getbits s w).1 w).2 = 1)
    (hw : w < 13) :
    ∃ s', ozus_run_round s w = .next s' (w + 1) ∧
      ozus_run_at (k + 1) (ozus_setup inf p e N) 9 = some (s', w + 1) ∧
      s'.error_code = OZUS_ERRCODE_OK ∧ s'.ct = s.ct ∧ s'.oldcode = s.oldcode ∧
      s'.have_oldcode = s.have_oldcode ∧ s'.last_value = s.last_value ∧
      s'.outf = s.outf ∧ s'.free_code_search_start = s.free_code_search_start ∧
      s'.last_code_added = s.last_code_added ∧
      ozus_bits_left s' + 2 * w = ozus_bits_left s := by
  obtain ⟨_, i2, _, _, i5, i6, i7, _, _⟩ := ozus_run_inv_at h
  have hlen' : ¬ s.outf_nbytes_expected ≤ s.outf.length := by rw [i5]; omega
  have hp1 := ozus_bitreader_getbits_params s w
  have hmax : (ozus_bitreader_getbits (ozus_bitreader_getbits s w).1 w).1.max_code_size = 13 := by
    rw [(ozus_bitreader_getbits_params _ w).max_code_size, hp1.max_code_size, i2]
  have hd1 := ozus_bitreader_getbits_dict s w
  have hd2 := ozus_bitreader_getbits_dict (ozus_bitreader_getbits s w).1 w
  have hround : ozus_run_round s w =
      .next (ozus_bitreader_getbits (ozus_bitreader_getbits s w).1 w).1 (w + 1) := by
    rcases ozus_run_round_cases s w with
      ⟨c, _⟩ | ⟨_, c, _⟩ | ⟨_, _, _, c, _⟩ | ⟨_, _, _, _, _, _, hr⟩ |
      ⟨_, _, _, _, c1, _, _⟩ | ⟨_, _, _, _, c1, _, _⟩ | ⟨_, _, c, _⟩ | ⟨_, _, c, _⟩
    · exact absurd c hlen'
    · exact absurd h1 c
    · exact absurd h2 c
    · exact hr
    · rw [hmax] at c1; exact absurd ⟨hctrl, hw⟩ c1
    · rw [hmax] at c1; exact absurd ⟨hctrl, hw⟩ c1
    · exact absurd hc c
    · exact absurd hc c
  refine ⟨_, hround, ozus_run_at_succ k h hround, h2, by rw [hd2.ct, hd1.ct],
    by rw [hd2.oldcode, hd1.oldcode], by rw [hd2.have_oldcode, hd1.have_oldcode],
    by rw [hd2.last_value, hd1.last_value], by rw [hd2.outf, hd1.outf],
    by rw [hd2.free_code_search_start, hd1.free_code_search_start],
    by rw [hd2.last_code_added, hd1.last_code_added], ?_⟩
  obtain ⟨_, g1⟩ := ozus_bitreader_getbits_ok s w h1
  obtain ⟨_, g2⟩ := ozus_bitreader_getbits_ok _ w h2
  rcases g1 with ⟨g, _⟩ | ⟨_, _, g1'⟩
  · omega
  · rcases g2 with ⟨g, _⟩ | ⟨_, _, g2'⟩
    · rw [hp1.max_code_size] at g; omega
    · omega

/-- Witness for C7: the code 256 and the sub-opcode 1 at code size 9 make the
code size 10. -/
theorem width_growth_witness :
    ∃ s', ozus_run_round (ozus_setup [0x00, 0x03, 0x04, 0x01] 0 4 1) 9 = .next s' (9 + 1) ∧
      ozus_run_at (0 + 1) (ozus_setup [0x00, 0x03, 0x04, 0x01] 0 4 1) 9 = some (s', 9 + 1) ∧
      s'.error_code = OZUS_ERRCODE_OK ∧
      s'.ct = (ozus_setup [0x00, 0x03, 0x04, 0x01] 0 4 1).ct ∧
      s'.oldcode = (ozus_setup [0x00, 0x03, 0x04, 0x01] 0 4 1).oldcode ∧
      s'.have_oldcode = (ozus_setup [0x00, 0x03, 0x04, 0x01] 0 4 1).have_oldcode ∧
      s'.last_value = (ozus_setup [0x00, 0x03, 0x04, 0x01] 0 4 1).last_value ∧
      s'.outf = (ozus_setup [0x00, 0x03, 0x04, 0x01] 0 4 1).outf ∧
      s'.free_code_search_start =
        (ozus_setup [0x00, 0x03, 0x04, 0x01] 0 4 1).free_code_search_start ∧
      s'.last_code_added = (ozus_setup [0x00, 0x03, 0x04, 0x01] 0 4 1).last_code_added ∧
      ozus_bits_left s' + 2 * 9 = ozus_bits_left (ozus_setup [0x00, 0x03, 0x04, 0x01] 0 4 1) :=
  width_growth [0x00, 0x03, 0x04, 0x01] 0 4 1 0 _ 9 rfl (by decide) (by decide) (by decide)
    (by decide) (by decide) (by decide)

/-- C8, code-width monotonicity: in every run from a fresh context the code
size is 9 at the first read, lies in 9..13 at the start of every round, and
does not decrease from a round to the next. -/
theorem code_width_monotone (inf : List Nat) (p e N k : Nat) (s : ozus_ctx) (w : Nat)
    (h : ozus_run_at k (ozus_setup inf p e N) (ozus_setup inf p e N).initial_code_size
      = some (s, w)) :
    ozus_run_at 0 (ozus_setup inf p e N) (ozus_setup inf p e N).initial_code_size
      = some (ozus_setup inf p e N, 9) ∧
    9 ≤ w ∧ w ≤ 13 ∧
    ∀ s' w', ozus_run_at (k + 1) (ozus_setup inf p e N)
      (ozus_setup inf p e N).initial_code_size = some (s', w') → w ≤ w' := by
  obtain ⟨_, _, _, _, _, i6, i7, _, _⟩ := ozus_run_inv_at h
  refine ⟨rfl, i6, i7, fun s' w' h' => ?_⟩
  obtain ⟨s0, w0, g1, g2⟩ := ozus_run_at_pred k h'
  rw [h] at g1
  simp only [Option.some.injEq, Prod.mk.injEq] at g1
  obtain ⟨e1, e2⟩ := g1
  subst e1; subst e2
  rcases (ozus_run_round_next g2).2.2.2.2.2.2.1 with hw | ⟨hw, _⟩ <;> omega

/-- Witness for C8: a growth of the code size from 9 to 10 between the first
two rounds. -/
theorem code_width_monotone_witness :
    ∃ s', ozus_run_at (0 + 1) (ozus_setup [0x00, 0x03, 0x04, 0x01] 0 4 1)
        (ozus_setup [0x00, 0x03, 0x04, 0x01] 0 4 1).initial_code_size = some (s', 10) ∧
      9 ≤ 10 :=
  ⟨_, rfl, (code_width_monotone [0x00, 0x03, 0x04, 0x01] 0 4 1 0 _ 9 rfl).2.2.2 _ 10 rfl⟩

/-- Parent and value of the root entries: at the start of every round of a
run from a fresh context, and in the context that `ozus_run` returns, every
entry `i < 256` has parent `OZUS_INVALID_CODE` and value `i`, as `ozus_create`
set them; add-to-dictionary, emit and data-code processing, run on such a
state, leave such an entry as it is, and partial clear leaves its parent and
its value as they are (the first loop of partial clear can set its flag). -/
theorem root_immutability (inf : List Nat) (p e N k : Nat) (s : ozus_ctx) (w i : Nat)
    (h : ozus_run_at k (ozus_setup inf p e N) (ozus_setup inf p e N).initial_code_size
      = some (s, w))
    (hi : i < 256) :
    ((ozus_create.ct i).parent = OZUS_INVALID_CODE ∧ (ozus_create.ct i).value = i) ∧
    ((s.ct i).parent = OZUS_INVALID_CODE ∧ (s.ct i).value = i) ∧
    (∀ parent value, (ozus_add_to_dict s parent value).ct i = s.ct i) ∧
    (((ozus_partial_clear s).ct i).parent = (s.ct i).parent ∧
      ((ozus_partial_clear s).ct i).value = (s.ct i).value) ∧
    (∀ code, (ozus_emit_code s code).ct i = s.ct i) ∧
    (∀ code, (ozus_process_data_code s code).ct i = s.ct i) ∧
    (∀ r, ozus_run (ozus_setup inf p e N) = some r →
      (r.ct i).parent = OZUS_INVALID_CODE ∧ (r.ct i).value = i) := by
  obtain ⟨_, _, _, _, _, _, _, i8, i9⟩ := ozus_run_inv_at h
  refine ⟨(ozus_run_inv_setup inf p e N).2.2.2.2.2.2.2.2 i hi, i9 i hi,
    fun parent value => ?_, (ozus_partial_clear_frame s).2.2.2.2.2 i (by omega),
    fun code => by rw [(ozus_emit_code_spec s code).2.2.1.ct],
    fun code => (ozus_process_data_code_spec s code).2.2.2.2.1 i (by omega), fun r hr => ?_⟩
  · have hs := ozus_add_to_dict_spec s parent value
    by_cases herr : (ozus_add_to_dict s parent value).error_code = 0
    · obtain ⟨_, c2, _, _, _, _, c7⟩ := hs.1 herr
      rw [c7]
      unfold ct_set
      have : i ≠ (ozus_add_to_dict s parent value).last_code_added := by omega
      simp only [this, if_false]
    · rw [(hs.2 herr).1]
  · obtain ⟨k', s', w', g1, g2⟩ := ozus_run_some hr
    obtain ⟨_, _, _, _, _, _, _, j8, j9⟩ := ozus_run_inv_at g1
    obtain ⟨_, _, _, d4⟩ := ozus_run_round_done g2
    rw [(d4 j8 i hi).1, (d4 j8 i hi).2]
    exact j9 i hi

/-- Example for `root_immutability`: entry 65 after the three rounds of
scenario A. -/
theorem root_immutability_witness :
    ∃ s w, ozus_run_at 3 (ozus_setup [0x41, 0x84, 0x04, 0x01] 0 4 3)
        (ozus_setup [0x41, 0x84, 0x04, 0x01] 0 4 3).initial_code_size = some (s, w) ∧
      (s.ct 65).parent = OZUS_INVALID_CODE ∧ (s.ct 65).value = 65 :=
  ⟨_, _, rfl,
    (root_immutability [0x41, 0x84, 0x04, 0x01] 0 4 3 3 _ _ 65 rfl (by decide)).2.1⟩

/-- C10, partial clear keeps exactly the parents: on a table whose flags are
clear on the entries from 257 on, after `ozus_partial_clear` an entry `i` in
`257..ct_arraysize-1` keeps its parent and value when some entry `j` in
`257..ct_arraysize-1` that was in use at the call had parent `i`, and is
unused otherwise; hence an entry that is still in use was the parent of an
entry in use at the call. -/
theorem partial_clear_keeps_exactly_parents (ozus : ozus_ctx)
    (hflags : ∀ i, 257 ≤ i → i < ozus.ct_arraysize → (ozus.ct i).flags = 0)
    (i : Nat) (h1 : 257 ≤ i) (h2 : i < ozus.ct_arraysize) :
    ((∃ j, 257 ≤ j ∧ j < ozus.ct_arraysize ∧ (ozus.ct j).parent ≠ OZUS_INVALID_CODE ∧
        (ozus.ct j).parent = i) →
      ((ozus_partial_clear ozus).ct i).parent = (ozus.ct i).parent ∧
      ((ozus_partial_clear ozus).ct i).value = (ozus.ct i).value) ∧
    ((¬ ∃ j, 257 ≤ j ∧ j < ozus.ct_arraysize ∧ (ozus.ct j).parent ≠ OZUS_INVALID_CODE ∧
        (ozus.ct j).parent = i) →
      ((ozus_partial_clear ozus).ct i).parent = OZUS_INVALID_CODE) ∧
    (((ozus_partial_clear ozus).ct i).parent ≠ OZUS_INVALID_CODE →
      ∃ j, 257 ≤ j ∧ j < ozus.ct_arraysize ∧ (ozus.ct j).parent ≠ OZUS_INVALID_CODE ∧
        (ozus.ct j).parent = i) := by
  have hrange : 257 + (ozus.ct_arraysize - 257) = ozus.ct_arraysize := by omega
  have hsw := (ozus_partial_clear_sweep_spec (ozus.ct_arraysize - 257) 257
    (ozus_partial_clear_mark (ozus.ct_arraysize - 257) 257 ozus.ct) i).1 ⟨h1, by omega⟩
  obtain ⟨m1, m2, m3, m4⟩ :=
    ozus_partial_clear_mark_spec (ozus.ct_arraysize - 257) 257 ozus.ct i
  rw [hrange] at m3 m4
  have hpc : (ozus_partial_clear ozus).ct i =
      ozus_partial_clear_sweep (ozus.ct_arraysize - 257) 257
        (ozus_partial_clear_mark (ozus.ct_arraysize - 257) 257 ozus.ct) i := by
    unfold ozus_partial_clear; simp only
  have hkeep : (∃ j, 257 ≤ j ∧ j < ozus.ct_arraysize ∧ (ozus.ct j).parent ≠ OZUS_INVALID_CODE ∧
        (ozus.ct j).parent = i) →
      ((ozus_partial_clear ozus).ct i).parent = (ozus.ct i).parent ∧
      ((ozus_partial_clear ozus).ct i).value = (ozus.ct i).value := by
    intro hex
    have hf := m3 hex
    have hne : ¬ (ozus_partial_clear_mark (ozus.ct_arraysize - 257) 257 ozus.ct i).flags = 0 := by
      rw [hf]; exact Nat.one_ne_zero
    have hval := hpc.trans hsw
    rw [if_neg hne] at hval
    have hp := congrArg ozus_tableentry.parent hval
    have hv := congrArg ozus_tableentry.value hval
    simp only at hp hv
    exact ⟨hp.trans m1, hv.trans m2⟩
  have hfree : (¬ ∃ j, 257 ≤ j ∧ j < ozus.ct_arraysize ∧
        (ozus.ct j).parent ≠ OZUS_INVALID_CODE ∧ (ozus.ct j).parent = i) →
      ((ozus_partial_clear ozus).ct i).parent = OZUS_INVALID_CODE := by
    intro hno
    have hf := m4 hno
    rw [hflags i h1 h2] at hf
    have hval := hpc.trans hsw
    rw [if_pos hf] at hval
    have hp := congrArg ozus_tableentry.parent hval
    simp only at hp
    exact hp
  refine ⟨hkeep, hfree, fun hused => ?_⟩
  by_contra hno
  exact hused (hfree hno)

/-- Witness for C10: in a table with entries 257 = `{65, 66}` and
258 = `{257, 65}`, partial clear keeps entry 257, the parent of entry 258, and
frees entry 258, which is the parent of no entry. -/
theorem partial_clear_keeps_exactly_parents_witness :
    (((ozus_partial_clear
        { ozus_create with
          ct := ct_set (ct_set ozus_create_ct 257 ⟨65, 66, 0⟩) 258 ⟨257, 65, 0⟩ }).ct 257).parent
        = 65 ∧
      ((ozus_partial_clear
        { ozus_create with
          ct := ct_set (ct_set ozus_create_ct 257 ⟨65, 66, 0⟩) 258 ⟨257, 65, 0⟩ }).ct 257).value
        = 66) :=
  (partial_clear_keeps_exactly_parents
    { ozus_create with ct := ct_set (ct_set ozus_create_ct 257 ⟨65, 66, 0⟩) 258 ⟨257, 65, 0⟩ }
    (fun i _ _ => by
      show ((ct_set (ct_set ozus_create_ct 257 ⟨65, 66, 0⟩) 258 ⟨257, 65, 0⟩) i).flags = 0
      simp only [ct_set, ozus_create_ct]
      split_ifs <;> rfl)
    257 (by decide) (by decide)).1 ⟨258, by decide, by decide, by decide, by decide⟩

/-! ## Filling the dictionary -/

/-- With no error pending and the slot at `free_code_search_start` unused and
inside the table, `ozus_add_to_dict` fills exactly that slot. -/
theorem ozus_add_to_dict_at_start (ozus : ozus_ctx) (parent value : Nat)
    (h0 : ozus.error_code = 0) (hlt : ozus.free_code_search_start < ozus.ct_arraysize)
    (hfree : (ozus.ct ozus.free_code_search_start).parent = OZUS_INVALID_CODE) :
    (ozus_add_to_dict ozus parent value).error_code = 0 ∧
    (ozus_add_to_dict ozus parent value).last_code_added = ozus.free_code_search_start ∧
    (ozus_add_to_dict ozus parent value).free_code_search_start
      = ozus.free_code_search_start + 1 ∧
    (ozus_add_to_dict ozus parent value).ct =
      ct_set ozus.ct ozus.free_code_search_start
        ⟨parent, value, (ozus.ct ozus.free_code_search_start).flags⟩ := by
  have hs := ozus_add_to_dict_spec ozus parent value
  have herr : (ozus_add_to_dict ozus parent value).error_code = 0 := by
    by_contra hne
    exact (hs.2 hne).2.2.2 h0 |>.2 _ (le_refl _) hlt hfree
  obtain ⟨_, c2, _, c4, _, c6, c7⟩ := hs.1 herr
  have hl : (ozus_add_to_dict ozus parent value).last_code_added
      = ozus.free_code_search_start := by
    by_contra hne
    exact c6 _ (le_refl _) (by omega) hfree
  rw [hl] at c4 c7
  exact ⟨herr, hl, c4, c7⟩

/-- With `free_code_search_start` at the end of the table, `ozus_add_to_dict`
only sets `BAD_CDATA`. -/
theorem ozus_add_to_dict_full (ozus : ozus_ctx) (parent value : Nat)
    (hfull : ozus.ct_arraysize ≤ ozus.free_code_search_start) :
    ozus_add_to_dict ozus parent value
      = { ozus with error_code := OZUS_ERRCODE_BAD_CDATA } := by
  have hz : ozus.ct_arraysize - ozus.free_code_search_start = 0 := by omega
  unfold ozus_add_to_dict ozus_find_first_free_entry
  rw [hz]
  simp [ozus_find_loop, OZUS_ERRCODE_BAD_CDATA]

theorem ozus_add_all_append (l1 l2 : List (Nat × Nat)) (ozus : ozus_ctx) :
    ozus_add_all (l1 ++ l2) ozus = ozus_add_all l2 (ozus_add_all l1 ozus) := by
  induction l1 generalizing ozus with
  | nil => rfl
  | cons pv l ih => exact ih _

theorem ozus_add_to_dict_size (ozus : ozus_ctx) (parent value : Nat) :
    (ozus_add_to_dict ozus parent value).ct_arraysize = ozus.ct_arraysize :=
  (ozus_add_to_dict_frame ozus parent value).1.ct_arraysize

/-- A run of calls of `ozus_add_to_dict` that fits in the unused slots from
`free_code_search_start` on fills these slots one after the other. -/
theorem ozus_add_all_spec (l : List (Nat × Nat)) (ozus : ozus_ctx)
    (h0 : ozus.error_code = 0)
    (hfree : ∀ i, ozus.free_code_search_start ≤ i → i < ozus.ct_arraysize →
      (ozus.ct i).parent = OZUS_INVALID_CODE)
    (hlen : ozus.free_code_search_start + l.length ≤ ozus.ct_arraysize) :
    (ozus_add_all l ozus).error_code = 0 ∧
    (ozus_add_all l ozus).ct_arraysize = ozus.ct_arraysize ∧
    (ozus_add_all l ozus).free_code_search_start = ozus.free_code_search_start + l.length ∧
    (l ≠ [] → (ozus_add_all l ozus).last_code_added
      = ozus.free_code_search_start + l.length - 1) ∧
    (∀ j, j < l.length →
      (ozus_add_all l ozus).ct (ozus.free_code_search_start + j) =
        ⟨(l.getD j (0, 0)).1, (l.getD j (0, 0)).2,
          (ozus.ct (ozus.free_code_search_start + j)).flags⟩) ∧
    (∀ i, i < ozus.free_code_search_start ∨ ozus.free_code_search_start + l.length ≤ i →
      (ozus_add_all l ozus).ct i = ozus.ct i) := by
  induction l generalizing ozus with
  | nil =>
    exact ⟨h0, rfl, rfl, fun h => absurd rfl h, fun j hj => by simp at hj, fun _ _ => rfl⟩
  | cons pv l ih =>
    simp only [List.length_cons] at hlen
    obtain ⟨a1, a2, a3, a4⟩ := ozus_add_to_dict_at_start ozus pv.1 pv.2 h0 (by omega)
      (hfree _ (le_refl _) (by omega))
    have asz := ozus_add_to_dict_size ozus pv.1 pv.2
    have hfree1 : ∀ i, (ozus_add_to_dict ozus pv.1 pv.2).free_code_search_start ≤ i →
        i < (ozus_add_to_dict ozus pv.1 pv.2).ct_arraysize →
        ((ozus_add_to_dict ozus pv.1 pv.2).ct i).parent = OZUS_INVALID_CODE := by
      intro i h1 h2
      rw [a3] at h1
      rw [asz] at h2
      rw [a4]
      unfold ct_set
      rw [if_neg (by omega)]
      exact hfree i (by omega) h2
    obtain ⟨b1, b2, b3, b4, b5, b6⟩ := ih (ozus_add_to_dict ozus pv.1 pv.2) a1 hfree1
      (by rw [a3, asz]; omega)
    have hunf : ozus_add_all (pv :: l) ozus
        = ozus_add_all l (ozus_add_to_dict ozus pv.1 pv.2) := rfl
    rw [hunf]
    refine ⟨b1, b2.trans asz, by rw [b3, a3, List.length_cons]; omega, fun _ => ?_,
      fun j hj => ?_, fun i hi => ?_⟩
    · simp only [List.length_cons]
      by_cases hl : l = []
      · subst hl
        show (ozus_add_to_dict ozus pv.1 pv.2).last_code_added = _
        rw [a2]; simp
      · rw [b4 hl, a3]; omega
    · cases j with
      | zero =>
        rw [b6 _ (Or.inl (by rw [a3]; omega)), a4]
        simp [ct_set]
      | succ j' =>
        simp only [List.length_cons] at hj
        have := b5 j' (by omega)
        rw [a3, a4] at this
        have hidx : ozus.free_code_search_start + 1 + j'
            = ozus.free_code_search_start + (j' + 1) := by omega
        rw [hidx] at this
        rw [this]
        unfold ct_set
        rw [if_neg (by omega)]
        simp
    · simp only [List.length_cons] at hi
      rw [b6 i (by rw [a3]; omega), a4]
      unfold ct_set
      rw [if_neg (by omega)]

/-- Once the table is full, further calls of `ozus_add_to_dict` change nothing
but the error code. -/
theorem ozus_add_all_full (l : List (Nat × Nat)) (ozus : ozus_ctx)
    (hfull : ozus.ct_arraysize ≤ ozus.free_code_search_start) :
    (ozus_add_all l ozus).ct = ozus.ct ∧
    (ozus_add_all l ozus).free_code_search_start = ozus.free_code_search_start ∧
    (ozus_add_all l ozus).last_code_added = ozus.last_code_added ∧
    (ozus_add_all l ozus).ct_arraysize = ozus.ct_arraysize ∧
    (l ≠ [] → (ozus_add_all l ozus).error_code = OZUS_ERRCODE_BAD_CDATA) := by
  induction l generalizing ozus with
  | nil => exact ⟨rfl, rfl, rfl, rfl, fun h => absurd rfl h⟩
  | cons pv l ih =>
    have hunf : ozus_add_all (pv :: l) ozus
        = ozus_add_all l (ozus_add_to_dict ozus pv.1 pv.2) := rfl
    rw [hunf, ozus_add_to_dict_full ozus pv.1 pv.2 hfull]
    obtain ⟨b1, b2, b3, b4, b5⟩ := ih { ozus with error_code := OZUS_ERRCODE_BAD_CDATA } hfull
    refine ⟨b1, b2, b3, b4, fun _ => ?_⟩
    by_cases hl : l = []
    · subst hl; rfl
    · exact b5 hl

/-- C11, dictionary bound: from a table whose slots 257..8191 are all unused,
with `free_code_search_start = 257` and no error, a run of at most 7935
calls of `ozus_add_to_dict` with no partial clear in between succeeds and
fills the slots 257, 258, ... in this order (the call number `k` fills slot
`256 + k`), leaving all other entries alone; once 7935 calls have filled the
table, every further call sets `BAD_CDATA` and leaves the table,
`last_code_added` and `free_code_search_start` unchanged. -/
theorem dictionary_bound (ozus : ozus_ctx) (l further : List (Nat × Nat)) (parent value : Nat)
    (h0 : ozus.error_code = 0) (hsz : ozus.ct_arraysize = 8192)
    (hstart : ozus.free_code_search_start = 257)
    (hfree : ∀ i, 257 ≤ i → i < 8192 → (ozus.ct i).parent = OZUS_INVALID_CODE)
    (hl : l.length ≤ 7935) :
    ((ozus_add_all l ozus).error_code = OZUS_ERRCODE_OK ∧
      (ozus_add_all l ozus).free_code_search_start = 257 + l.length ∧
      (l ≠ [] → (ozus_add_all l ozus).last_code_added = 256 + l.length) ∧
      (∀ j, j < l.length →
        (ozus_add_all l ozus).ct (257 + j) =
          ⟨(l.getD j (0, 0)).1, (l.getD j (0, 0)).2, (ozus.ct (257 + j)).flags⟩) ∧
      (∀ i, i < 257 ∨ 257 + l.length ≤ i → (ozus_add_all l ozus).ct i = ozus.ct i)) ∧
    (l.length = 7935 →
      (ozus_add_to_dict (ozus_add_all (l ++ further) ozus) parent value).error_code
        = OZUS_ERRCODE_BAD_CDATA ∧
      (ozus_add_to_dict (ozus_add_all (l ++ further) ozus) parent value).ct
        = (ozus_add_all l ozus).ct ∧
      (ozus_add_to_dict (ozus_add_all (l ++ further) ozus) parent value).last_code_added
        = 8191 ∧
      (ozus_add_to_dict (ozus_add_all (l ++ further) ozus) parent value).free_code_search_start
        = 8192) := by
  have hfree' : ∀ i, ozus.free_code_search_start ≤ i → i < ozus.ct_arraysize →
      (ozus.ct i).parent = OZUS_INVALID_CODE := by
    intro i h1 h2
    exact hfree i (by omega) (by omega)
  obtain ⟨a1, a2, a3, a4, a5, a6⟩ := ozus_add_all_spec l ozus h0 hfree' (by omega)
  rw [hstart] at a3 a4 a5 a6
  refine ⟨⟨a1, a3, fun hne => by rw [a4 hne]; omega, a5, a6⟩, fun hfull => ?_⟩
  have hne : l ≠ [] := by
    intro h; rw [h] at hfull; simp at hfull
  have hfull' : (ozus_add_all l ozus).ct_arraysize
      ≤ (ozus_add_all l ozus).free_code_search_start := by
    rw [a2, a3, hsz]; omega
  obtain ⟨b1, b2, b3, b4, _⟩ := ozus_add_all_full further (ozus_add_all l ozus) hfull'
  rw [ozus_add_all_append]
  rw [ozus_add_to_dict_full _ parent value (by rw [b4, b2]; exact hfull')]
  refine ⟨rfl, b1, ?_, ?_⟩
  · show (ozus_add_all further (ozus_add_all l ozus)).last_code_added = 8191
    rw [b3, a4 hne]; omega
  · show (ozus_add_all further (ozus_add_all l ozus)).free_code_search_start = 8192
    rw [b2, a3]; omega

/-- Witness for C11: on the table of `ozus_create`, 7935 calls fill the table
and the call after them sets `BAD_CDATA`. -/
theorem dictionary_bound_witness :
    (ozus_add_all (List.replicate 7935 (65, 66)) ozus_create).error_code = OZUS_ERRCODE_OK ∧
    (ozus_add_all (List.replicate 7935 (65, 66)) ozus_create).free_code_search_start
      = 257 + (List.replicate 7935 ((65 : Nat), (66 : Nat))).length ∧
    (ozus_add_to_dict
      (ozus_add_all (List.replicate 7935 (65, 66) ++ []) ozus_create) 65 66).error_code
      = OZUS_ERRCODE_BAD_CDATA :=
  ⟨(dictionary_bound ozus_create (List.replicate 7935 (65, 66)) [] 65 66 rfl rfl rfl
      (fun i _ _ => by
        show (ozus_create_ct i).parent = OZUS_INVALID_CODE
        unfold ozus_create_ct
        split <;> rfl)
      (le_of_eq (List.length_replicate _ _))).1.1,
    (dictionary_bound ozus_create (List.replicate 7935 (65, 66)) [] 65 66 rfl rfl rfl
      (fun i _ _ => by
        show (ozus_create_ct i).parent = OZUS_INVALID_CODE
        unfold ozus_create_ct
        split <;> rfl)
      (le_of_eq (List.length_replicate _ _))).1.2.1,
    ((dictionary_bound ozus_create (List.replicate 7935 (65, 66)) [] 65 66 rfl rfl rfl
      (fun i _ _ => by
        show (ozus_create_ct i).parent = OZUS_INVALID_CODE
        unfold ozus_create_ct
        split <;> rfl)
      (le_of_eq (List.length_replicate _ _))).2 (List.length_replicate _ _)).1⟩

/-! ## Bit reader: failure -/

/-- When the pending bits and the remaining input hold `nbits` bits,
`ozus_bitreader_getbits` leaves the error code as it found it. -/
theorem ozus_bitreader_getbits_error_unchanged (ozus : ozus_ctx) (nbits : Nat)
    (h : nbits ≤ ozus_bits_left ozus) :
    (ozus_bitreader_getbits ozus nbits).1.error_code = ozus.error_code := by
  unfold ozus_bitreader_getbits
  by_cases hv : nbits < 1 ∨ nbits > ozus.max_code_size
  · rw [if_pos hv]
  · rw [if_neg hv]
    simp only
    have hs := ozus_bitreader_fill_spec nbits ozus nbits
    by_cases hf : (ozus_bitreader_fill nbits ozus nbits).2 = false
    · rw [if_pos hf]
      by_cases h0 : ozus.error_code = 0
      · have := ((hs.2 hf).2 h0).2
        omega
      · -- an error is pending: the loop returns after its first byte
        obtain ⟨m, hm⟩ : ∃ m, nbits = m + 1 := ⟨nbits - 1, by omega⟩
        rw [hm, ozus_bitreader_fill_succ] at hf ⊢
        by_cases hlt : ozus.bitreader_nbits_in_buf < m + 1
        · rw [if_pos hlt] at hf ⊢
          have hend : ¬ ozus.inf_pos ≥ ozus.inf_endpos := by
            unfold ozus_bits_left at h; omega
          rw [if_neg hend, if_pos h0]
        · rw [if_neg hlt] at hf
          simp at hf
    · rw [if_neg hf]
      have hf2 : (ozus_bitreader_fill nbits ozus nbits).2 = true := by simpa using hf
      exact (hs.1 hf2).1

/-- C13, bit reader failure: for a reader with `p` pending bits and
`r = inf_endpos - inf_pos` remaining input bytes, and `n` in 1..13, a call of
`ozus_bitreader_getbits` made with no error pending sets `INSUFFICIENT_CDATA`
if and only if `p + 8 * r < n`; otherwise, whatever the error code at the call,
it leaves the error code unchanged, and with no error pending it takes exactly
`n` bits. -/
theorem bitreader_failure (ozus : ozus_ctx) (n : Nat)
    (hmax : ozus.max_code_size = 13) (h1 : 1 ≤ n) (h2 : n ≤ 13) :
    (ozus.error_code = OZUS_ERRCODE_OK →
      ((ozus_bitreader_getbits ozus n).1.error_code = OZUS_ERRCODE_INSUFFICIENT_CDATA ↔
        ozus.bitreader_nbits_in_buf + 8 * (ozus.inf_endpos - ozus.inf_pos) < n)) ∧
    (¬ ozus.bitreader_nbits_in_buf + 8 * (ozus.inf_endpos - ozus.inf_pos) < n →
      (ozus_bitreader_getbits ozus n).1.error_code = ozus.error_code ∧
      (ozus.error_code = OZUS_ERRCODE_OK →
        (ozus_bitreader_getbits ozus n).1.bitreader_nbits_in_buf
          + 8 * ((ozus_bitreader_getbits ozus n).1.inf_endpos
            - (ozus_bitreader_getbits ozus n).1.inf_pos) + n
          = ozus.bitreader_nbits_in_buf + 8 * (ozus.inf_endpos - ozus.inf_pos))) := by
  have hbl : ozus_bits_left ozus
      = ozus.bitreader_nbits_in_buf + 8 * (ozus.inf_endpos - ozus.inf_pos) := by
    unfold ozus_bits_left; omega
  refine ⟨fun h0 => ?_, fun hge => ?_⟩
  · have hg := ozus_bitreader_getbits_error ozus n h0 h1 (by omega)
    rw [hbl] at hg
    refine ⟨fun h8 => ?_, hg.1⟩
    by_contra hge
    rw [hg.2 (by omega)] at h8
    simp [OZUS_ERRCODE_INSUFFICIENT_CDATA] at h8
  · refine ⟨ozus_bitreader_getbits_error_unchanged ozus n (by omega), fun h0 => ?_⟩
    have hg := ozus_bitreader_getbits_error ozus n h0 h1 (by omega)
    rw [hbl] at hg
    obtain ⟨_, g⟩ := ozus_bitreader_getbits_ok ozus n (hg.2 (by omega))
    rcases g with ⟨g, _⟩ | ⟨_, _, g⟩
    · omega
    · unfold ozus_bits_left at g; omega

/-- Witness for C13: a fresh reader over one input byte fails on a read of 9
bits, since `0 + 8 * 1 < 9`. -/
theorem bitreader_failure_witness :
    (ozus_bitreader_getbits (ozus_setup [0x41] 0 1 1) 9).1.error_code
        = OZUS_ERRCODE_INSUFFICIENT_CDATA ↔
      (ozus_setup [0x41] 0 1 1).bitreader_nbits_in_buf
        + 8 * ((ozus_setup [0x41] 0 1 1).inf_endpos - (ozus_setup [0x41] 0 1 1).inf_pos) < 9 :=
  (bitreader_failure (ozus_setup [0x41] 0 1 1) 9 rfl (by decide) (by decide)).1 rfl

/-! ## Rounds of the loop, composed -/

/-- Round `k + j` of the loop is round `j` of the loop entered with the state
at round `k`. -/
theorem ozus_run_at_add (k j : Nat) (ozus : ozus_ctx) (w : Nat) :
    ozus_run_at (k + j) ozus w =
      match ozus_run_at k ozus w with
      | none => none
      | some x => ozus_run_at j x.1 x.2 := by
  induction k generalizing ozus w with
  | zero => simp [ozus_run_at]
  | succ n ih =>
    have : n + 1 + j = (n + j) + 1 := by omega
    rw [this, ozus_run_at, ozus_run_at]
    cases hround : ozus_run_round ozus w with
    | done o => rfl
    | next o w' => exact ih o w'

/-- No round is run after the round that left the loop. -/
theorem ozus_run_at_none_after {ozus s r : ozus_ctx} {w w1 : Nat} (k j : Nat)
    (h : ozus_run_at k ozus w = some (s, w1)) (hr : ozus_run_round s w1 = .done r) :
    ozus_run_at (k + (j + 1)) ozus w = none := by
  rw [ozus_run_at_add, h]
  simp [ozus_run_at, hr]

/-- The output at a round is a prefix of the output at every later round. -/
theorem ozus_run_at_outf_mono {ozus s : ozus_ctx} {w w1 : Nat} (j : Nat)
    (h : ozus_run_at j ozus w = some (s, w1)) : ozus.outf <+: s.outf := by
  induction j generalizing s w1 with
  | zero =>
    simp only [ozus_run_at, Option.some.injEq, Prod.mk.injEq] at h
    rw [h.1]
  | succ n ih =>
    obtain ⟨s0, w0, g1, g2⟩ := ozus_run_at_pred n h
    obtain ⟨l, hl⟩ := (ozus_run_round_next g2).2.2.2.2.1
    exact (ih g1).trans ⟨l, hl.symm⟩

/-- C16, partial output is never erased: in a run of `ozus_run` on any
context, the output sink at the start of a round is a prefix of the output
sink at the start of every later round and of the output sink at return,
whether the run ends with OK or with an error; and within a round each
operation of the decoder leaves the output sink as it is or appends to it. -/
theorem partial_output_never_erased (ozus : ozus_ctx) (k : Nat) (s : ozus_ctx) (w : Nat)
    (h : ozus_run_at k ozus ozus.initial_code_size = some (s, w)) :
    (∀ j s' w', ozus_run_at (k + j) ozus ozus.initial_code_size = some (s', w') →
      s.outf <+: s'.outf) ∧
    (∃ r, ozus_run ozus = some r ∧ s.outf <+: r.outf) ∧
    (∀ (o : ozus_ctx) (n : Nat), (ozus_bitreader_getbits o n).1.outf = o.outf) ∧
    (∀ (o : ozus_ctx) (code : Nat), o.outf <+: (ozus_emit_code o code).outf) ∧
    (∀ (o : ozus_ctx) (parent value : Nat), (ozus_add_to_dict o parent value).outf = o.outf) ∧
    (∀ (o : ozus_ctx) (code : Nat), o.outf <+: (ozus_process_data_code o code).outf) ∧
    (∀ o : ozus_ctx, (ozus_partial_clear o).outf = o.outf) := by
  refine ⟨fun j s' w' h' => ?_, ?_, fun o n => (ozus_bitreader_getbits_dict o n).outf,
    fun o code => ?_, fun o parent value => (ozus_add_to_dict_frame o parent value).2.2.1,
    fun o code => ?_, fun o => rfl⟩
  · rw [ozus_run_at_add, h] at h'
    exact ozus_run_at_outf_mono j h'
  · obtain ⟨r, hr⟩ := ozus_run_total ozus
    refine ⟨r, hr, ?_⟩
    obtain ⟨k', s2, w2, g1, g2⟩ := ozus_run_some hr
    obtain ⟨l, hl⟩ := (ozus_run_round_done g2).2.2.1
    have hlast : s2.outf <+: r.outf := ⟨l, hl.symm⟩
    by_cases hk : k ≤ k'
    · obtain ⟨j, hj⟩ : ∃ j, k' = k + j := ⟨k' - k, by omega⟩
      rw [hj, ozus_run_at_add, h] at g1
      exact (ozus_run_at_outf_mono j g1).trans hlast
    · obtain ⟨j, hj⟩ : ∃ j, k = k' + (j + 1) := ⟨k - k' - 1, by omega⟩
      rw [hj, ozus_run_at_none_after k' j g1 g2] at h
      simp at h
  · obtain ⟨l, hl, _⟩ := (ozus_emit_code_spec o code).2.2.2.1
    exact ⟨l, hl.symm⟩
  · obtain ⟨l, hl, _⟩ := (ozus_process_data_code_spec o code).2.2.1
    exact ⟨l, hl.symm⟩

/-- Witness for C16: in the truncated run of the codes 65, 66, 65 with
expected length 8, which ends with an error, the output "ABA" at the start of
round 3 is a prefix of the output at return. -/
theorem partial_output_never_erased_witness :
    ∃ s w, ozus_run_at 3 (ozus_setup [0x41, 0x84, 0x04, 0x01] 0 4 8)
        (ozus_setup [0x41, 0x84, 0x04, 0x01] 0 4 8).initial_code_size = some (s, w) ∧
      s.outf = [65, 66, 65] ∧
      ∃ r, ozus_run (ozus_setup [0x41, 0x84, 0x04, 0x01] 0 4 8) = some r ∧ s.outf <+: r.outf :=
  ⟨_, _, rfl, by decide,
    (partial_output_never_erased (ozus_setup [0x41, 0x84, 0x04, 0x01] 0 4 8) 3 _ _ rfl).2.1⟩

/-! ## Parent chains -/

theorem ozus_chain_node_succ_left (ct : Nat → ozus_tableentry) (code i : Nat) :
    ozus_chain_node ct code (i + 1) = ozus_chain_node ct (ct code).parent i := by
  induction i with
  | zero => rfl
  | succ n ih =>
    show (ct (ozus_chain_node ct code (n + 1))).parent
      = (ct (ozus_chain_node ct (ct code).parent n)).parent
    rw [ih]

/-- Along a chain that reaches a root in `d` hops, the first `d` nodes are
entries from 257 on inside the table and the node number `d` is a root. -/
theorem ozus_reaches_root_nodes (ct : Nat → ozus_tableentry) (size d code : Nat)
    (h : ozus_reaches_root ct size d code) :
    (∀ i, i < d → 257 ≤ ozus_chain_node ct code i ∧ ozus_chain_node ct code i < size ∧
      (ct (ozus_chain_node ct code i)).parent ≠ OZUS_INVALID_CODE) ∧
    ozus_chain_node ct code d < 256 := by
  induction d generalizing code with
  | zero => exact ⟨fun i hi => by omega, h⟩
  | succ n ih =>
    obtain ⟨h1, h2, h3, h4⟩ := h
    obtain ⟨a1, a2⟩ := ih _ h4
    refine ⟨fun i hi => ?_, by rw [ozus_chain_node_succ_left]; exact a2⟩
    cases i with
    | zero => exact ⟨h1, h2, h3⟩
    | succ j =>
      rw [ozus_chain_node_succ_left]
      exact a1 j (by omega)

theorem ozus_chain_node_add (ct : Nat → ozus_tableentry) (code i t : Nat) :
    ozus_chain_node ct code (i + t) = ozus_chain_node ct (ozus_chain_node ct code i) t := by
  induction t with
  | zero => rfl
  | succ n ih =>
    show (ct (ozus_chain_node ct code (i + n))).parent = _
    rw [ih]
    rfl

/-- A chain that reaches a root visits no entry twice, so it has at most as
many hops as there are entries from 257 on in the table. -/
theorem ozus_reaches_root_depth (ct : Nat → ozus_tableentry) (size d code : Nat)
    (h : ozus_reaches_root ct size d code) : d = 0 ∨ d + 257 ≤ size := by
  obtain ⟨hn, hroot⟩ := ozus_reaches_root_nodes ct size d code h
  by_cases hd : d = 0
  · exact Or.inl hd
  · right
    have hinj : Set.InjOn (ozus_chain_node ct code) (Finset.range d : Set Nat) := by
      intro i hi j hj hij
      simp only [Finset.coe_range, Set.mem_Iio] at hi hj
      by_contra hne
      -- the smaller index, moved forward to `d`, would be a root and not a root
      rcases Nat.lt_or_gt_of_ne hne with hlt | hgt
      · have h1 : ozus_chain_node ct code (i + (d - j)) = ozus_chain_node ct code (j + (d - j)) := by
          rw [ozus_chain_node_add, ozus_chain_node_add, hij]
        have h2 : j + (d - j) = d := by omega
        rw [h2] at h1
        have := (hn (i + (d - j)) (by omega)).1
        omega
      · have h1 : ozus_chain_node ct code (j + (d - i)) = ozus_chain_node ct code (i + (d - i)) := by
          rw [ozus_chain_node_add, ozus_chain_node_add, hij]
        have h2 : i + (d - i) = d := by omega
        rw [h2] at h1
        have := (hn (j + (d - i)) (by omega)).1
        omega
    have hmaps : ∀ i ∈ Finset.range d, ozus_chain_node ct code i ∈ Finset.Ico 257 size := by
      intro i hi
      simp only [Finset.mem_range] at hi
      simp only [Finset.mem_Ico]
      exact ⟨(hn i hi).1, (hn i hi).2.1⟩
    have hcard := Finset.card_le_card_of_injOn (ozus_chain_node ct code) hmaps hinj
    simp only [Finset.card_range, Nat.card_Ico] at hcard
    have := (hn 0 (by omega)).2.1
    have := (hn 0 (by omega)).1
    omega

/-- The first byte of the string of a code is the root its chain reaches. -/
theorem ozus_str_head (ct : Nat → ozus_tableentry) (d code : Nat) :
    (ozus_str ct d code).head? = some (ozus_chain_node ct code d) := by
  induction d generalizing code with
  | zero => rfl
  | succ n ih =>
    rw [ozus_chain_node_succ_left]
    show (ozus_str ct n (ct code).parent ++ [(ct code).value]).head? = _
    have := ih (ct code).parent
    cases hs : ozus_str ct n (ct code).parent with
    | nil => rw [hs] at this; simp at this
    | cons a l => rw [hs] at this; simpa using this

/-- The walk of `ozus_emit_code` along a chain that reaches a root collects
the string of the code, last byte first, and ends by `break` at the root. -/
theorem ozus_emit_loop_chain (d fuel : Nat) (ozus : ozus_ctx) (code count : Nat)
    (hroots : ∀ i, i < 256 → (ozus.ct i).value = i)
    (hr : ozus_reaches_root ozus.ct ozus.ct_arraysize d code)
    (hc : code < ozus.ct_arraysize) (hfuel : d < fuel)
    (hcount : count + d + 1 < ozus.ct_arraysize) :
    ozus_emit_loop fuel ozus code count =
      ({ ozus with
          tmpbuf := ozus.tmpbuf ++ (ozus_str ozus.ct d code).reverse,
          last_value := ozus_chain_node ozus.ct code d }, true) := by
  induction d generalizing fuel ozus code count with
  | zero =>
    obtain ⟨f, hf⟩ : ∃ f, fuel = f + 1 := ⟨fuel - 1, by omega⟩
    have hlt : code < 256 := hr
    rw [hf, ozus_emit_loop, if_neg (by omega)]
    simp only
    rw [if_neg (by omega), if_pos (by omega), hroots code hlt]
    rfl
  | succ n ih =>
    obtain ⟨f, hf⟩ : ∃ f, fuel = f + 1 := ⟨fuel - 1, by omega⟩
    obtain ⟨h1, h2, h3, h4⟩ := hr
    rw [hf, ozus_emit_loop, if_neg (by omega)]
    simp only
    rw [if_neg (by omega), if_neg (by omega)]
    have hp : (ozus.ct code).parent < ozus.ct_arraysize := by
      cases n with
      | zero => have : (ozus.ct code).parent < 256 := h4; omega
      | succ m => exact h4.2.1
    rw [ih f { ozus with tmpbuf := ozus.tmpbuf ++ [(ozus.ct code).value] }
      (ozus.ct code).parent (count + 1) hroots h4 hp (by omega) (by simp only; omega)]
    rw [ozus_chain_node_succ_left]
    simp [ozus_str]

/-- `ozus_emit_code` on a code whose chain reaches a root, in a table whose
roots hold their own index: no error is set, the string of the code is
appended to the output and `last_value` is the root. -/
theorem ozus_emit_code_chain (ozus : ozus_ctx) (code d : Nat)
    (hroots : ∀ i, i < 256 → (ozus.ct i).value = i)
    (hr : ozus_reaches_root ozus.ct ozus.ct_arraysize d code)
    (hc : code < ozus.ct_arraysize) (hd : d + 1 < ozus.ct_arraysize) :
    (ozus_emit_code ozus code).error_code = ozus.error_code ∧
    (ozus_emit_code ozus code).outf = ozus.outf ++ ozus_str ozus.ct d code ∧
    (ozus_emit_code ozus code).last_value = ozus_chain_node ozus.ct code d := by
  have hloop := ozus_emit_loop_chain d ozus.ct_arraysize { ozus with tmpbuf := [] } code 0
    hroots hr hc (by omega) (by simp only; omega)
  unfold ozus_emit_code
  simp only
  rw [hloop]
  simp only [Bool.true_eq_false, if_false, List.nil_append]
  obtain ⟨_, _, _, c4, c5, _, c7⟩ := ozus_emit_writeout_spec
    (ozus_str ozus.ct d code).reverse.length
    { ozus with
      tmpbuf := (ozus_str ozus.ct d code).reverse,
      last_value := ozus_chain_node ozus.ct code d } (le_refl _)
  refine ⟨c4, ?_, c5⟩
  rw [c7]
  simp only [List.take_length, List.reverse_reverse]

/-- C19, emit writes the code's string in forward order: in a table of 8192
entries whose roots hold their own index, for every code below 8192 whose
parent chain reaches a root `r < 256` in `d` hops through entries in use,
`ozus_emit_code` sets no error, appends to the output exactly
`ozus_str ct d code` (`[c]` for a root, the string of the parent followed by
the value otherwise), and sets `last_value` to `r`, the first byte of that
string. -/
theorem emit_writes_string_forward (ozus : ozus_ctx) (code d : Nat)
    (hsz : ozus.ct_arraysize = 8192)
    (hroots : ∀ i, i < 256 → (ozus.ct i).value = i)
    (hc : code < 8192)
    (hr : ozus_reaches_root ozus.ct 8192 d code) :
    (ozus_emit_code ozus code).error_code = ozus.error_code ∧
    (ozus_emit_code ozus code).outf = ozus.outf ++ ozus_str ozus.ct d code ∧
    (ozus_emit_code ozus code).last_value = ozus_chain_node ozus.ct code d ∧
    ozus_chain_node ozus.ct code d < 256 ∧
    (ozus_str ozus.ct d code).head? = some (ozus_chain_node ozus.ct code d) ∧
    (ozus_emit_code ozus code).ct = ozus.ct := by
  rw [← hsz] at hr
  have hd := ozus_reaches_root_depth _ _ _ _ hr
  obtain ⟨a1, a2, a3⟩ := ozus_emit_code_chain ozus code d hroots hr (by omega) (by omega)
  exact ⟨a1, a2, a3, (ozus_reaches_root_nodes _ _ _ _ hr).2, ozus_str_head _ _ _,
    (ozus_emit_code_spec ozus code).2.2.1.ct⟩

/-- Witness for C19: with entries 257 = `{65, 66}` and 258 = `{257, 67}`, the
code 258 is written as "ABC" and `last_value` becomes 'A'. -/
theorem emit_writes_string_forward_witness :
    (ozus_emit_code
      { ozus_create with
        ct := ct_set (ct_set ozus_create_ct 257 ⟨65, 66, 0⟩) 258 ⟨257, 67, 0⟩ } 258).outf
      = [] ++ [65, 66, 67] ∧
    (ozus_emit_code
      { ozus_create with
        ct := ct_set (ct_set ozus_create_ct 257 ⟨65, 66, 0⟩) 258 ⟨257, 67, 0⟩ } 258).last_value
      = 65 :=
  ⟨(emit_writes_string_forward
      { ozus_create with ct := ct_set (ct_set ozus_create_ct 257 ⟨65, 66, 0⟩) 258 ⟨257, 67, 0⟩ }
      258 2 rfl
      (fun i hi => by
        show ((ct_set (ct_set ozus_create_ct 257 ⟨65, 66, 0⟩) 258 ⟨257, 67, 0⟩) i).value = i
        simp only [ct_set, ozus_create_ct]
        rw [if_neg (by omega), if_neg (by omega), if_pos hi]
        exact Nat.mod_eq_of_lt hi)
      (by decide) (by decide)).2.1,
    (emit_writes_string_forward
      { ozus_create with ct := ct_set (ct_set ozus_create_ct 257 ⟨65, 66, 0⟩) 258 ⟨257, 67, 0⟩ }
      258 2 rfl
      (fun i hi => by
        show ((ct_set (ct_set ozus_create_ct 257 ⟨65, 66, 0⟩) 258 ⟨257, 67, 0⟩) i).value = i
        simp only [ct_set, ozus_create_ct]
        rw [if_neg (by omega), if_neg (by omega), if_pos hi]
        exact Nat.mod_eq_of_lt hi)
      (by decide) (by decide)).2.2.1⟩

/-- C20, as stated, fails: the input bytes 0x2C 0x01 carry 300 as first 9-bit
code; in the fresh context its entry is unused, `ozus_emit_code` writes the
two bytes 0, 0, and `last_value` is then set to 300 mod 256 = 44, which is not
the first byte written. -/
theorem first_data_code_counterexample :
    (ozus_setup [0x2C, 0x01] 0 2 2).have_oldcode = false ∧
    (ozus_bitreader_getbits (ozus_setup [0x2C, 0x01] 0 2 2) 9).2 = 300 ∧
    (ozus_process_data_code (ozus_bitreader_getbits (ozus_setup [0x2C, 0x01] 0 2 2) 9).1
      300).outf = [0, 0] ∧
    (ozus_process_data_code (ozus_bitreader_getbits (ozus_setup [0x2C, 0x01] 0 2 2) 9).1
      300).last_value = 44 ∧
    ∃ r, ozus_run (ozus_setup [0x2C, 0x01] 0 2 2) = some r ∧
      r.error_code = OZUS_ERRCODE_OK ∧ r.outf = [0, 0] ∧ r.last_value = 44 ∧
      ¬ r.outf.head? = some r.last_value :=
  ⟨rfl, by decide, by decide, by decide, _, rfl, by decide, by decide, by decide, by decide⟩

/-- C20, amended: for every code below `ct_arraysize` that arrives while
`have_oldcode` is false, `ozus_process_data_code` does what `ozus_emit_code`
does on that code (it writes the string of the code when its chain reaches a
root), sets `oldcode = code` and `have_oldcode`, leaves the table,
`last_code_added` and `free_code_search_start` alone, and sets `last_value`
to `code mod 256`; for a code below 256 this is the code itself, the one byte
that was written. -/
theorem first_data_code (ozus : ozus_ctx) (code : Nat)
    (hc : code < ozus.ct_arraysize) (hfirst : ozus.have_oldcode = false) :
    (ozus_process_data_code ozus code).outf = (ozus_emit_code ozus code).outf ∧
    (ozus_process_data_code ozus code).error_code = (ozus_emit_code ozus code).error_code ∧
    (ozus_process_data_code ozus code).oldcode = code ∧
    (ozus_process_data_code ozus code).have_oldcode = true ∧
    (ozus_process_data_code ozus code).ct = ozus.ct ∧
    (ozus_process_data_code ozus code).last_code_added = ozus.last_code_added ∧
    (ozus_process_data_code ozus code).free_code_search_start
      = ozus.free_code_search_start ∧
    (ozus_process_data_code ozus code).last_value = code % 256 ∧
    (∀ d, ozus.ct_arraysize = 8192 → (∀ i, i < 256 → (ozus.ct i).value = i) →
      ozus_reaches_root ozus.ct 8192 d code →
      (ozus_process_data_code ozus code).outf = ozus.outf ++ ozus_str ozus.ct d code ∧
      (ozus_process_data_code ozus code).error_code = ozus.error_code) ∧
    (code < 256 → ozus.ct_arraysize = 8192 → (∀ i, i < 256 → (ozus.ct i).value = i) →
      (ozus_process_data_code ozus code).outf = ozus.outf ++ [code] ∧
      (ozus_process_data_code ozus code).last_value = code) := by
  have hpdc : ozus_process_data_code ozus code =
      { ozus_emit_code ozus code with
        oldcode := code, have_oldcode := true, last_value := code % 256 } := by
    unfold ozus_process_data_code
    rw [if_neg (by omega), if_pos hfirst]
  have ht := (ozus_emit_code_spec ozus code).2.2.1
  have hchain : ∀ d, ozus.ct_arraysize = 8192 → (∀ i, i < 256 → (ozus.ct i).value = i) →
      ozus_reaches_root ozus.ct 8192 d code →
      (ozus_process_data_code ozus code).outf = ozus.outf ++ ozus_str ozus.ct d code ∧
      (ozus_process_data_code ozus code).error_code = ozus.error_code := by
    intro d hsz hroots hr
    rw [← hsz] at hr
    have hd := ozus_reaches_root_depth _ _ _ _ hr
    obtain ⟨a1, a2, _⟩ := ozus_emit_code_chain ozus code d hroots hr hc (by omega)
    rw [hpdc]
    exact ⟨a2, a1⟩
  refine ⟨by rw [hpdc], by rw [hpdc], by rw [hpdc], by rw [hpdc], by rw [hpdc]; exact ht.ct,
    by rw [hpdc]; exact ht.last_code_added, by rw [hpdc]; exact ht.free_code_search_start,
    by rw [hpdc], hchain, fun hlt hsz hroots => ⟨(hchain 0 hsz hroots hlt).1, ?_⟩⟩
  rw [hpdc]
  exact Nat.mod_eq_of_lt (by omega)

/-- Witness for C20: the first code 65 on a fresh context. -/
theorem first_data_code_witness :
    (ozus_process_data_code ozus_create 65).outf = (ozus_emit_code ozus_create 65).outf ∧
    (ozus_process_data_code ozus_create 65).oldcode = 65 ∧
    (ozus_process_data_code ozus_create 65).have_oldcode = true ∧
    (ozus_process_data_code ozus_create 65).last_value = 65 % 256 :=
  ⟨(first_data_code ozus_create 65 (by decide) rfl).1,
    (first_data_code ozus_create 65 (by decide) rfl).2.2.1,
    (first_data_code ozus_create 65 (by decide) rfl).2.2.2.1,
    (first_data_code ozus_create 65 (by decide) rfl).2.2.2.2.2.2.2.1⟩

/-! ## Where an operation stops when it sets an error -/

/-- When the filling loop returns from inside, entered with no error pending,
the input is exhausted at the position where it stopped. -/
theorem ozus_bitreader_fill_exhausted (fuel : Nat) (ozus : ozus_ctx) (nbits : Nat)
    (h0 : ozus.error_code = 0) (hf : (ozus_bitreader_fill fuel ozus nbits).2 = false) :
    (ozus_bitreader_fill fuel ozus nbits).1.inf_endpos
      ≤ (ozus_bitreader_fill fuel ozus nbits).1.inf_pos := by
  induction fuel generalizing ozus with
  | zero => simp [ozus_bitreader_fill] at hf
  | succ n ih =>
    rw [ozus_bitreader_fill_succ] at hf ⊢
    by_cases hlt : ozus.bitreader_nbits_in_buf < nbits
    · rw [if_pos hlt] at hf ⊢
      by_cases hend : ozus.inf_pos ≥ ozus.inf_endpos
      · rw [if_pos hend]
        exact hend
      · rw [if_neg hend, if_neg (not_not.mpr h0)] at hf ⊢
        exact ih _ h0 hf
    · rw [if_neg hlt] at hf
      simp at hf

/-- A call of `ozus_bitreader_getbits` that sets an error, made with no error
pending, stops with the input exhausted and `INSUFFICIENT_CDATA`. -/
theorem ozus_bitreader_getbits_abort (ozus : ozus_ctx) (nbits : Nat)
    (h0 : ozus.error_code = 0) (herr : (ozus_bitreader_getbits ozus nbits).1.error_code ≠ 0) :
    (ozus_bitreader_getbits ozus nbits).1.error_code = OZUS_ERRCODE_INSUFFICIENT_CDATA ∧
    (ozus_bitreader_getbits ozus nbits).1.inf_endpos
      ≤ (ozus_bitreader_getbits ozus nbits).1.inf_pos := by
  unfold ozus_bitreader_getbits at herr ⊢
  by_cases hv : nbits < 1 ∨ nbits > ozus.max_code_size
  · rw [if_pos hv] at herr
    exact absurd h0 herr
  · rw [if_neg hv] at herr ⊢
    simp only at herr ⊢
    have hs := ozus_bitreader_fill_spec nbits ozus nbits
    by_cases hf : (ozus_bitreader_fill nbits ozus nbits).2 = false
    · rw [if_pos hf]
      exact ⟨((hs.2 hf).2 h0).1, ozus_bitreader_fill_exhausted nbits ozus nbits h0 hf⟩
    · rw [if_neg hf] at herr
      have hf2 : (ozus_bitreader_fill nbits ozus nbits).2 = true := by simpa using hf
      simp only at herr
      rw [(hs.1 hf2).1] at herr
      exact absurd h0 herr

/-- A call of `ozus_emit_code` that sets an error, made with no error
pending, sets `GENERIC_ERROR` and writes nothing to the output. -/
theorem ozus_emit_code_abort (ozus : ozus_ctx) (code1 : Nat)
    (h0 : ozus.error_code = 0) (herr : (ozus_emit_code ozus code1).error_code ≠ 0) :
    (ozus_emit_code ozus code1).error_code = OZUS_ERRCODE_GENERIC_ERROR ∧
    (ozus_emit_code ozus code1).outf = ozus.outf := by
  have hgen : (ozus_emit_code ozus code1).error_code = OZUS_ERRCODE_GENERIC_ERROR := by
    rcases (ozus_emit_code_spec ozus code1).2.2.2.2 with h | h
    · rw [h] at herr; exact absurd h0 herr
    · exact h
  refine ⟨hgen, ?_⟩
  unfold ozus_emit_code at herr ⊢
  simp only at herr ⊢
  obtain ⟨_, _, _, a4, a5, _⟩ :=
    ozus_emit_loop_spec ozus.ct_arraysize { ozus with tmpbuf := [] } code1 0
  by_cases hf : (ozus_emit_loop ozus.ct_arraysize { ozus with tmpbuf := [] } code1 0).2 = false
  · rw [if_pos hf]
    exact a4
  · rw [if_neg hf] at herr
    have hf2 :
        (ozus_emit_loop ozus.ct_arraysize { ozus with tmpbuf := [] } code1 0).2 = true := by
      simpa using hf
    obtain ⟨c1, c2, c3, c4, _, _, c7⟩ := ozus_emit_writeout_spec
      (ozus_emit_loop ozus.ct_arraysize { ozus with tmpbuf := [] } code1 0).1.tmpbuf.length
      (ozus_emit_loop ozus.ct_arraysize { ozus with tmpbuf := [] } code1 0).1 (le_refl _)
    rw [c4, (a5 hf2).1] at herr
    exact absurd h0 herr

/-- The ways `ozus_process_data_code`, called with no error pending, can end
with an error, and what it has done by then: the operation that set the error
wrote no output byte and changed no table entry, and nothing but `oldcode`,
`have_oldcode` and `last_value` is assigned after it. -/
theorem ozus_process_data_code_abort (ozus : ozus_ctx) (code : Nat)
    (h0 : ozus.error_code = 0) (herr : (ozus_process_data_code ozus code).error_code ≠ 0) :
    (ozus.ct_arraysize ≤ code ∧
      ozus_process_data_code ozus code
        = { ozus with error_code := OZUS_ERRCODE_GENERIC_ERROR }) ∨
    ((ozus_emit_code ozus code).error_code = OZUS_ERRCODE_GENERIC_ERROR ∧
      (ozus_process_data_code ozus code).error_code = OZUS_ERRCODE_GENERIC_ERROR ∧
      (ozus_process_data_code ozus code).outf = ozus.outf ∧
      (ozus_process_data_code ozus code).ct = ozus.ct) ∨
    ((ozus_emit_code ozus code).error_code = 0 ∧
      (ozus_process_data_code ozus code).error_code = OZUS_ERRCODE_BAD_CDATA ∧
      (ozus_process_data_code ozus code).outf = (ozus_emit_code ozus code).outf ∧
      (ozus_process_data_code ozus code).ct = ozus.ct) ∨
    ((ozus_add_to_dict ozus ozus.oldcode ozus.last_value).error_code
        = OZUS_ERRCODE_BAD_CDATA ∧
      (ozus_process_data_code ozus code).error_code = OZUS_ERRCODE_BAD_CDATA ∧
      (ozus_process_data_code ozus code).outf = ozus.outf ∧
      (ozus_process_data_code ozus code).ct = ozus.ct) ∨
    ((ozus_add_to_dict ozus ozus.oldcode ozus.last_value).error_code = 0 ∧
      (ozus_process_data_code ozus code).error_code = OZUS_ERRCODE_GENERIC_ERROR ∧
      (ozus_process_data_code ozus code).outf = ozus.outf ∧
      (ozus_process_data_code ozus code).ct
        = (ozus_add_to_dict ozus ozus.oldcode ozus.last_value).ct) := by
  unfold ozus_process_data_code at herr ⊢
  by_cases h1 : code ≥ ozus.ct_arraysize
  · left
    rw [if_pos h1]
    exact ⟨h1, rfl⟩
  · right
    rw [if_neg h1] at herr ⊢
    by_cases h2 : ozus.have_oldcode = false
    · left
      rw [if_pos h2] at herr ⊢
      simp only at herr ⊢
      obtain ⟨a1, a2⟩ := ozus_emit_code_abort ozus code h0 herr
      exact ⟨a1, a1, a2, (ozus_emit_code_spec ozus code).2.2.1.ct⟩
    · rw [if_neg h2] at herr ⊢
      by_cases h3 : code < 256 ∨ (ozus.ct code).parent ≠ OZUS_INVALID_CODE
      · rw [if_pos h3] at herr ⊢
        simp only at herr ⊢
        by_cases h4 : (ozus_emit_code ozus code).error_code = 0
        · right; left
          rw [if_neg (not_not.mpr h4)] at herr ⊢
          simp only at herr ⊢
          have hs := (ozus_add_to_dict_spec (ozus_emit_code ozus code)
            (ozus_emit_code ozus code).oldcode (ozus_emit_code ozus code).last_value).2 herr
          exact ⟨h4, (hs.2.2.2 h4).1,
            (ozus_add_to_dict_frame _ _ _).2.2.1,
            hs.1.trans (ozus_emit_code_spec ozus code).2.2.1.ct⟩
        · left
          rw [if_pos h4] at herr ⊢
          obtain ⟨a1, a2⟩ := ozus_emit_code_abort ozus code h0 herr
          exact ⟨a1, a1, a2, (ozus_emit_code_spec ozus code).2.2.1.ct⟩
      · right; right
        rw [if_neg h3] at herr ⊢
        simp only at herr ⊢
        by_cases h4 : (ozus_add_to_dict ozus ozus.oldcode ozus.last_value).error_code = 0
        · right
          rw [if_neg (not_not.mpr h4)] at herr ⊢
          simp only at herr ⊢
          obtain ⟨a1, a2⟩ := ozus_emit_code_abort _ _ h4 herr
          exact ⟨h4, a1, a2.trans (ozus_add_to_dict_frame _ _ _).2.2.1,
            (ozus_emit_code_spec _ _).2.2.1.ct⟩
        · left
          rw [if_pos h4] at herr ⊢
          have hs := (ozus_add_to_dict_spec ozus ozus.oldcode ozus.last_value).2 h4
          exact ⟨(hs.2.2.2 h0).1, (hs.2.2.2 h0).1, (ozus_add_to_dict_frame _ _ _).2.2.1, hs.1⟩

/-- C18, immediate abort: in a run from a fresh context, a round that ends
with a nonzero error code leaves the loop at once: `ozus_run` returns the
context of that round, so the error code returned is the one set in it, and
no later round exists. In that round, after the operation that set the error
nothing is read, written or stored in the table: on exhausted input the
reader stops at the end of the input (`INSUFFICIENT_CDATA`); on an invalid
sub-opcode only the error code is set (`BAD_CDATA`); on an out-of-range code
or a failed walk of `ozus_emit_code` (`GENERIC_ERROR`) nothing is written, and
the table is the one the walk started from; on an exhausted dictionary
(`BAD_CDATA`) the table is unchanged and the output is the one written before
the call of `ozus_add_to_dict`. -/
theorem immediate_abort (inf : List Nat) (p e N k : Nat) (s : ozus_ctx) (w : Nat)
    (r : ozus_ctx)
    (h : ozus_run_at k (ozus_setup inf p e N) (ozus_setup inf p e N).initial_code_size
      = some (s, w))
    (hr : ozus_run_round s w = .done r) (herr : r.error_code ≠ 0) :
    ozus_run (ozus_setup inf p e N) = some r ∧
    (∀ j, ozus_run_at (k + (j + 1)) (ozus_setup inf p e N)
      (ozus_setup inf p e N).initial_code_size = none) ∧
    ((r = (ozus_bitreader_getbits s w).1 ∧
        r.error_code = OZUS_ERRCODE_INSUFFICIENT_CDATA ∧ r.inf_endpos ≤ r.inf_pos ∧
        r.outf = s.outf ∧ r.ct = s.ct) ∨
      ((ozus_bitreader_getbits s w).1.error_code = 0 ∧ (ozus_bitreader_getbits s w).2 = 256 ∧
        r = (ozus_bitreader_getbits (ozus_bitreader_getbits s w).1 w).1 ∧
        r.error_code = OZUS_ERRCODE_INSUFFICIENT_CDATA ∧ r.inf_endpos ≤ r.inf_pos ∧
        r.outf = s.outf ∧ r.ct = s.ct) ∨
      ((ozus_bitreader_getbits s w).1.error_code = 0 ∧ (ozus_bitreader_getbits s w).2 = 256 ∧
        (ozus_bitreader_getbits (ozus_bitreader_getbits s w).1 w).1.error_code = 0 ∧
        r.error_code = OZUS_ERRCODE_BAD_CDATA ∧
        r.inf_pos = (ozus_bitreader_getbits (ozus_bitreader_getbits s w).1 w).1.inf_pos ∧
        r.outf = s.outf ∧ r.ct = s.ct) ∨
      ((ozus_bitreader_getbits s w).1.error_code = 0 ∧ (ozus_bitreader_getbits s w).2 ≠ 256 ∧
        r = ozus_process_data_code (ozus_bitreader_getbits s w).1
          (ozus_bitreader_getbits s w).2 ∧
        r.inf_pos = (ozus_bitreader_getbits s w).1.inf_pos ∧
        ((s.ct_arraysize ≤ (ozus_bitreader_getbits s w).2 ∧
            r.error_code = OZUS_ERRCODE_GENERIC_ERROR ∧ r.outf = s.outf ∧ r.ct = s.ct) ∨
          ((ozus_emit_code (ozus_bitreader_getbits s w).1
              (ozus_bitreader_getbits s w).2).error_code = OZUS_ERRCODE_GENERIC_ERROR ∧
            r.error_code = OZUS_ERRCODE_GENERIC_ERROR ∧ r.outf = s.outf ∧ r.ct = s.ct) ∨
          ((ozus_emit_code (ozus_bitreader_getbits s w).1
              (ozus_bitreader_getbits s w).2).error_code = 0 ∧
            r.error_code = OZUS_ERRCODE_BAD_CDATA ∧
            r.outf = (ozus_emit_code (ozus_bitreader_getbits s w).1
              (ozus_bitreader_getbits s w).2).outf ∧
            r.ct = s.ct) ∨
          ((ozus_add_to_dict (ozus_bitreader_getbits s w).1 s.oldcode s.last_value).error_code
              = OZUS_ERRCODE_BAD_CDATA ∧
            r.error_code = OZUS_ERRCODE_BAD_CDATA ∧ r.outf = s.outf ∧ r.ct = s.ct) ∨
          ((ozus_add_to_dict (ozus_bitreader_getbits s w).1 s.oldcode s.last_value).error_code
              = 0 ∧
            r.error_code = OZUS_ERRCODE_GENERIC_ERROR ∧ r.outf = s.outf ∧
            r.ct = (ozus_add_to_dict (ozus_bitreader_getbits s w).1
              s.oldcode s.last_value).ct)))) := by
  obtain ⟨i1, _, _, _, _, _, _, _, _⟩ := ozus_run_inv_at h
  have hd1 := ozus_bitreader_getbits_dict s w
  have hp1 := ozus_bitreader_getbits_params s w
  have hd2 := ozus_bitreader_getbits_dict (ozus_bitreader_getbits s w).1 w
  refine ⟨ozus_run_of_at k h hr, fun j => ozus_run_at_none_after k j h hr, ?_⟩
  rcases ozus_run_round_cases s w with
    ⟨_, hc⟩ | ⟨_, e1, hc⟩ | ⟨_, e1, c1, e2, hc⟩ | ⟨_, _, _, _, _, _, hc⟩ |
    ⟨_, _, _, _, _, _, hc⟩ | ⟨_, e1, c1, e2, _, _, hc⟩ | ⟨_, e1, c1, e2, hc⟩ |
    ⟨_, _, _, _, hc⟩
  · rw [hc] at hr
    injection hr with hr
    rw [← hr] at herr
    exact absurd i1 herr
  · rw [hc] at hr
    injection hr with hr
    subst hr
    obtain ⟨a1, a2⟩ := ozus_bitreader_getbits_abort s w i1 e1
    exact Or.inl ⟨rfl, a1, a2, hd1.outf, hd1.ct⟩
  · rw [hc] at hr
    injection hr with hr
    subst hr
    obtain ⟨a1, a2⟩ := ozus_bitreader_getbits_abort _ w e1 e2
    exact Or.inr (Or.inl ⟨e1, c1, rfl, a1, a2, by rw [hd2.outf, hd1.outf],
      by rw [hd2.ct, hd1.ct]⟩)
  · rw [hc] at hr; cases hr
  · rw [hc] at hr; cases hr
  · rw [hc] at hr
    injection hr with hr
    subst hr
    exact Or.inr (Or.inr (Or.inl ⟨e1, c1, e2, rfl, rfl, by simp only; rw [hd2.outf, hd1.outf],
      by simp only; rw [hd2.ct, hd1.ct]⟩))
  · rw [hc] at hr
    injection hr with hr
    subst hr
    refine Or.inr (Or.inr (Or.inr ⟨e1, c1, rfl,
      (ozus_process_data_code_spec _ _).2.1.inf_pos, ?_⟩))
    rw [← hd1.oldcode, ← hd1.last_value, ← hd1.outf, ← hd1.ct, ← hp1.ct_arraysize]
    rcases ozus_process_data_code_abort _ _ e1 e2 with
      ⟨a1, a2⟩ | ⟨a1, a2, a3, a4⟩ | ⟨a1, a2, a3, a4⟩ | ⟨a1, a2, a3, a4⟩ | ⟨a1, a2, a3, a4⟩
    · exact Or.inl ⟨a1, by rw [a2], by rw [a2], by rw [a2]⟩
    · exact Or.inr (Or.inl ⟨a1, a2, a3, a4⟩)
    · exact Or.inr (Or.inr (Or.inl ⟨a1, a2, a3, a4⟩))
    · exact Or.inr (Or.inr (Or.inr (Or.inl ⟨a1, a2, a3, a4⟩)))
    · exact Or.inr (Or.inr (Or.inr (Or.inr ⟨a1, a2, a3, a4⟩)))
  · rw [hc] at hr; cases hr

/-- Witness for C18: the codes 65, 66, 65 with expected length 8; round 3
finds the input exhausted, and `ozus_run` returns the context of that round,
with `INSUFFICIENT_CDATA`. -/
theorem immediate_abort_witness :
    ∃ s w r, ozus_run_at 3 (ozus_setup [0x41, 0x84, 0x04, 0x01] 0 4 8)
        (ozus_setup [0x41, 0x84, 0x04, 0x01] 0 4 8).initial_code_size = some (s, w) ∧
      ozus_run_round s w = .done r ∧ r.error_code = OZUS_ERRCODE_INSUFFICIENT_CDATA ∧
      ozus_run (ozus_setup [0x41, 0x84, 0x04, 0x01] 0 4 8) = some r :=
  ⟨_, _, _, rfl, rfl, by decide,
    (immediate_abort [0x41, 0x84, 0x04, 0x01] 0 4 8 3 _ _ _ rfl rfl (by decide)).1⟩

/-! ## Bit reader: positions and values -/

/-- Bytes read and pending bits through the filling loop: each byte read adds
8 pending bits, a request covered by the pending bits reads nothing, and a
byte is read only while the request is not covered. -/
theorem ozus_bitreader_fill_pos (fuel : Nat) (ozus : ozus_ctx) (nbits : Nat)
    (h : (ozus_bitreader_fill fuel ozus nbits).2 = true) :
    8 * (ozus_bitreader_fill fuel ozus nbits).1.inf_pos + ozus.bitreader_nbits_in_buf
      = 8 * ozus.inf_pos + (ozus_bitreader_fill fuel ozus nbits).1.bitreader_nbits_in_buf ∧
    (nbits ≤ ozus.bitreader_nbits_in_buf → ozus_bitreader_fill fuel ozus nbits = (ozus, true)) ∧
    ((ozus_bitreader_fill fuel ozus nbits).1.bitreader_nbits_in_buf
        = ozus.bitreader_nbits_in_buf ∨
      (ozus_bitreader_fill fuel ozus nbits).1.bitreader_nbits_in_buf < nbits + 8) := by
  induction fuel generalizing ozus with
  | zero => exact ⟨rfl, fun _ => rfl, Or.inl rfl⟩
  | succ n ih =>
    rw [ozus_bitreader_fill_succ] at h ⊢
    by_cases hlt : ozus.bitreader_nbits_in_buf < nbits
    · rw [if_pos hlt] at h ⊢
      by_cases hend : ozus.inf_pos ≥ ozus.inf_endpos
      · rw [if_pos hend] at h; simp at h
      · rw [if_neg hend] at h ⊢
        by_cases herr : ozus.error_code ≠ 0
        · rw [if_pos herr] at h; simp at h
        · rw [if_neg herr] at h ⊢
          obtain ⟨a1, _, a3⟩ := ih _ h
          simp only at a1 a3
          refine ⟨by omega, fun hle => by omega, ?_⟩
          rcases a3 with a3 | a3
          · right; omega
          · right; exact a3
    · rw [if_neg hlt]
      exact ⟨rfl, fun _ => rfl, Or.inl rfl⟩

/-- Bytes read and pending bits through a call of `ozus_bitreader_getbits`
that ends without error, for a valid width. -/
theorem ozus_bitreader_getbits_pos (ozus : ozus_ctx) (nbits : Nat)
    (h1 : 1 ≤ nbits) (h2 : nbits ≤ ozus.max_code_size)
    (hok : (ozus_bitreader_getbits ozus nbits).1.error_code = 0) :
    8 * (ozus_bitreader_getbits ozus nbits).1.inf_pos + ozus.bitreader_nbits_in_buf
      = 8 * ozus.inf_pos + (ozus_bitreader_getbits ozus nbits).1.bitreader_nbits_in_buf
        + nbits ∧
    (nbits ≤ ozus.bitreader_nbits_in_buf →
      (ozus_bitreader_getbits ozus nbits).1.inf_pos = ozus.inf_pos) ∧
    (ozus.bitreader_nbits_in_buf ≤ 7 →
      (ozus_bitreader_getbits ozus nbits).1.bitreader_nbits_in_buf ≤ 7) := by
  have hv : ¬ (nbits < 1 ∨ nbits > ozus.max_code_size) := by omega
  have hs := ozus_bitreader_fill_spec nbits ozus nbits
  unfold ozus_bitreader_getbits at hok ⊢
  rw [if_neg hv] at hok ⊢
  simp only at hok ⊢
  by_cases hf : (ozus_bitreader_fill nbits ozus nbits).2 = false
  · rw [if_pos hf] at hok
    exact absurd hok (hs.2 hf).1
  · rw [if_neg hf]
    have hf2 : (ozus_bitreader_fill nbits ozus nbits).2 = true := by simpa using hf
    obtain ⟨a1, a2, a3⟩ := ozus_bitreader_fill_pos nbits ozus nbits hf2
    have a4 := (hs.1 hf2).2.2.2 (by omega)
    simp only
    refine ⟨by omega, fun hle => by rw [a2 hle], fun h7 => ?_⟩
    rcases a3 with a3 | a3 <;> omega

theorem ozus_getbits_all_error (ws : List Nat) (ozus : ozus_ctx)
    (h : (ozus_getbits_all ws ozus).1.error_code = 0) : ozus.error_code = 0 := by
  induction ws generalizing ozus with
  | nil => exact h
  | cons n ns ih => exact (ozus_bitreader_getbits_ok ozus n (ih _ h)).1

/-- Bytes read by a sequence of successful reads of valid widths. -/
theorem ozus_getbits_all_pos (ws : List Nat) (ozus : ozus_ctx)
    (hw : ∀ n, n ∈ ws → 1 ≤ n ∧ n ≤ ozus.max_code_size)
    (h7 : ozus.bitreader_nbits_in_buf ≤ 7)
    (hok : (ozus_getbits_all ws ozus).1.error_code = 0) :
    8 * (ozus_getbits_all ws ozus).1.inf_pos + ozus.bitreader_nbits_in_buf
      = 8 * ozus.inf_pos + (ozus_getbits_all ws ozus).1.bitreader_nbits_in_buf + ws.sum ∧
    (ozus_getbits_all ws ozus).1.bitreader_nbits_in_buf ≤ 7 := by
  induction ws generalizing ozus with
  | nil => exact ⟨by simp [ozus_getbits_all], h7⟩
  | cons n ns ih =>
    have hn := hw n (List.mem_cons_self _ _)
    have hg := ozus_getbits_all_error ns _ hok
    obtain ⟨a1, _, a3⟩ := ozus_bitreader_getbits_pos ozus n hn.1 hn.2 hg
    have hmax := (ozus_bitreader_getbits_params ozus n).max_code_size
    obtain ⟨b1, b2⟩ := ih (ozus_bitreader_getbits ozus n).1
      (fun m hm => by rw [hmax]; exact hw m (List.mem_cons_of_mem _ hm)) (a3 h7) hok
    refine ⟨?_, b2⟩
    show 8 * (ozus_getbits_all ns (ozus_bitreader_getbits ozus n).1).1.inf_pos + _ = _
    simp only [List.sum_cons]
    show _ = 8 * ozus.inf_pos
      + (ozus_getbits_all ns (ozus_bitreader_getbits ozus n).1).1.bitreader_nbits_in_buf
      + (n + ns.sum)
    omega

/-- A request covered by the pending bits reads no byte and sets no error. -/
theorem ozus_bitreader_getbits_covered (ozus : ozus_ctx) (nbits : Nat)
    (h : nbits ≤ ozus.bitreader_nbits_in_buf) :
    (ozus_bitreader_getbits ozus nbits).1.inf_pos = ozus.inf_pos ∧
    (ozus_bitreader_getbits ozus nbits).1.error_code = ozus.error_code := by
  unfold ozus_bitreader_getbits
  by_cases hv : nbits < 1 ∨ nbits > ozus.max_code_size
  · rw [if_pos hv]
    exact ⟨rfl, rfl⟩
  · rw [if_neg hv]
    obtain ⟨m, hm⟩ : ∃ m, nbits = m + 1 := ⟨nbits - 1, by omega⟩
    have hfill : ozus_bitreader_fill nbits ozus nbits = (ozus, true) := by
      rw [hm, ozus_bitreader_fill_succ, if_neg (by omega)]
    simp only
    rw [hfill]
    exact ⟨rfl, rfl⟩

/-- C14, no speculative reads: after a sequence of successful calls of
`ozus_bitreader_getbits`, with widths in 1..13, from a reader with no pending
bits, that returned `B` bits in total, `inf_pos` has advanced by exactly
`ceil(B / 8)` bytes, the bits read and not yet returned being pending; and a
call whose request is covered by the pending bits reads no byte. -/
theorem no_speculative_reads (ozus : ozus_ctx) (ws : List Nat)
    (hmax : ozus.max_code_size = 13)
    (hfresh : ozus.bitreader_nbits_in_buf = 0)
    (hw : ∀ n, n ∈ ws → 1 ≤ n ∧ n ≤ 13)
    (hok : (ozus_getbits_all ws ozus).1.error_code = OZUS_ERRCODE_OK) :
    (ozus_getbits_all ws ozus).1.inf_pos = ozus.inf_pos + (ws.sum + 7) / 8 ∧
    (ozus_getbits_all ws ozus).1.bitreader_nbits_in_buf + ws.sum = 8 * ((ws.sum + 7) / 8) ∧
    (∀ (o : ozus_ctx) (n : Nat), n ≤ o.bitreader_nbits_in_buf →
      (ozus_bitreader_getbits o n).1.inf_pos = o.inf_pos) := by
  obtain ⟨a1, a2⟩ := ozus_getbits_all_pos ws ozus
    (fun n hn => by rw [hmax]; exact hw n hn) (by omega) hok
  refine ⟨by omega, by omega, fun o n hn => (ozus_bitreader_getbits_covered o n hn).1⟩

/-- Witness for C14: three reads of 9 bits from a fresh reader over four
bytes consume `ceil(27 / 8) = 4` bytes. -/
theorem no_speculative_reads_witness :
    (ozus_getbits_all [9, 9, 9] (ozus_setup [0x41, 0x84, 0x04, 0x01] 0 4 3)).1.inf_pos
      = (ozus_setup [0x41, 0x84, 0x04, 0x01] 0 4 3).inf_pos + (([9, 9, 9] : List Nat).sum + 7) / 8 :=
  (no_speculative_reads (ozus_setup [0x41, 0x84, 0x04, 0x01] 0 4 3) [9, 9, 9] rfl rfl
    (by decide) (by decide)).1

theorem ozus_input_value_succ (inf : List Nat) (pos k : Nat) :
    ozus_input_value inf pos (k + 1)
      = inf.getD pos 0 % 256 + 256 * ozus_input_value inf (pos + 1) k := by
  unfold ozus_input_value
  rw [List.range_succ_eq_map, List.map_cons, List.sum_cons, List.map_map,
    ← List.sum_map_mul_left]
  simp only [Nat.add_zero, pow_zero, Nat.mul_one]
  congr 2
  apply List.map_congr_left
  intro j _
  simp only [Function.comp, Nat.succ_eq_add_one]
  have h1 : pos + (j + 1) = pos + 1 + j := by omega
  rw [h1, pow_succ]
  ring

/-- The filling loop moves input bytes into the pending bits: the bits still
to deliver are the same, and the accumulator holds no bit beyond the pending
ones. -/
theorem ozus_bitreader_fill_value (fuel : Nat) (ozus : ozus_ctx) (nbits : Nat)
    (hn : nbits ≤ 24) (hbuf : ozus.bitreader_buf < 2 ^ ozus.bitreader_nbits_in_buf)
    (h : (ozus_bitreader_fill fuel ozus nbits).2 = true) :
    ozus_bits_value (ozus_bitreader_fill fuel ozus nbits).1 = ozus_bits_value ozus ∧
    (ozus_bitreader_fill fuel ozus nbits).1.bitreader_buf
      < 2 ^ (ozus_bitreader_fill fuel ozus nbits).1.bitreader_nbits_in_buf := by
  induction fuel generalizing ozus with
  | zero => exact ⟨rfl, hbuf⟩
  | succ n ih =>
    rw [ozus_bitreader_fill_succ] at h ⊢
    by_cases hlt : ozus.bitreader_nbits_in_buf < nbits
    · rw [if_pos hlt] at h ⊢
      by_cases hend : ozus.inf_pos ≥ ozus.inf_endpos
      · rw [if_pos hend] at h; simp at h
      · rw [if_neg hend] at h ⊢
        by_cases herr : ozus.error_code ≠ 0
        · rw [if_pos herr] at h; simp at h
        · rw [if_neg herr] at h ⊢
          have hb : ozus.inf.getD ozus.inf_pos 0 % 256 < 256 := Nat.mod_lt _ (by decide)
          have hor : ozus.bitreader_buf |||
              (ozus.inf.getD ozus.inf_pos 0 % 256) <<< ozus.bitreader_nbits_in_buf
              = 2 ^ ozus.bitreader_nbits_in_buf * (ozus.inf.getD ozus.inf_pos 0 % 256)
                + ozus.bitreader_buf := by
            rw [Nat.shiftLeft_eq, Nat.or_comm, Nat.mul_comm, Nat.mul_add_lt_is_or hbuf]
          have hlt8 : 2 ^ ozus.bitreader_nbits_in_buf * (ozus.inf.getD ozus.inf_pos 0 % 256)
              + ozus.bitreader_buf < 2 ^ (ozus.bitreader_nbits_in_buf + 8) := by
            have h256 : (2 : Nat) ^ 8 = 256 := by decide
            rw [pow_add, h256]
            have : 2 ^ ozus.bitreader_nbits_in_buf * (ozus.inf.getD ozus.inf_pos 0 % 256)
                ≤ 2 ^ ozus.bitreader_nbits_in_buf * 255 :=
              Nat.mul_le_mul_left _ (by omega)
            omega
          have hlt32 : 2 ^ ozus.bitreader_nbits_in_buf * (ozus.inf.getD ozus.inf_pos 0 % 256)
              + ozus.bitreader_buf < 2 ^ 32 :=
            lt_of_lt_of_le hlt8 (Nat.pow_le_pow_right (by decide) (by omega))
          have hnew : (ozus.bitreader_buf |||
              (ozus.inf.getD ozus.inf_pos 0 % 256) <<< ozus.bitreader_nbits_in_buf) % 2 ^ 32
              = 2 ^ ozus.bitreader_nbits_in_buf * (ozus.inf.getD ozus.inf_pos 0 % 256)
                + ozus.bitreader_buf := by
            rw [hor, Nat.mod_eq_of_lt hlt32]
          obtain ⟨a1, a2⟩ := ih _ (by simp only; rw [hnew]; exact hlt8) h
          refine ⟨?_, a2⟩
          rw [a1]
          unfold ozus_bits_value
          simp only
          rw [hnew]
          obtain ⟨c, hc⟩ : ∃ c, ozus.inf_endpos - ozus.inf_pos = c + 1 :=
            ⟨ozus.inf_endpos - ozus.inf_pos - 1, by omega⟩
          have hc' : ozus.inf_endpos - (ozus.inf_pos + 1) = c := by omega
          rw [hc, hc', ozus_input_value_succ, pow_add]
          ring
    · rw [if_neg hlt]
      exact ⟨rfl, hbuf⟩

theorem ozus_getbits_mask (nbits : Nat) (h : nbits ≤ 16) :
    0xffff >>> (16 - nbits) = 2 ^ nbits - 1 := by
  interval_cases nbits <;> rfl

/-- A successful call of `ozus_bitreader_getbits` returns the low `nbits` bits
of the bits still to deliver, and leaves the others. -/
theorem ozus_bitreader_getbits_value (ozus : ozus_ctx) (nbits : Nat)
    (h0 : ozus.error_code = 0) (h1 : 1 ≤ nbits) (h2 : nbits ≤ ozus.max_code_size)
    (h16 : nbits ≤ 16) (hbuf : ozus.bitreader_buf < 2 ^ ozus.bitreader_nbits_in_buf)
    (hle : nbits ≤ ozus_bits_left ozus) :
    (ozus_bitreader_getbits ozus nbits).1.error_code = 0 ∧
    (ozus_bitreader_getbits ozus nbits).2 = ozus_bits_value ozus % 2 ^ nbits ∧
    ozus_bits_value (ozus_bitreader_getbits ozus nbits).1 = ozus_bits_value ozus / 2 ^ nbits ∧
    (ozus_bitreader_getbits ozus nbits).1.bitreader_buf
      < 2 ^ (ozus_bitreader_getbits ozus nbits).1.bitreader_nbits_in_buf ∧
    ozus_bits_left (ozus_bitreader_getbits ozus nbits).1 + nbits = ozus_bits_left ozus := by
  have hok := (ozus_bitreader_getbits_error ozus nbits h0 h1 h2).2 hle
  have hbl : ozus_bits_left (ozus_bitreader_getbits ozus nbits).1 + nbits
      = ozus_bits_left ozus := by
    rcases (ozus_bitreader_getbits_ok ozus nbits hok).2 with ⟨g, _⟩ | ⟨_, _, g⟩
    · omega
    · exact g
  have hv : ¬ (nbits < 1 ∨ nbits > ozus.max_code_size) := by omega
  have hs := ozus_bitreader_fill_spec nbits ozus nbits
  have hf2 : (ozus_bitreader_fill nbits ozus nbits).2 = true := by
    by_contra hf
    have hf' : (ozus_bitreader_fill nbits ozus nbits).2 = false := by simpa using hf
    have := ((hs.2 hf').2 h0).2
    omega
  have hg : ozus_bitreader_getbits ozus nbits =
      ({ (ozus_bitreader_fill nbits ozus nbits).1 with
          bitreader_buf := (ozus_bitreader_fill nbits ozus nbits).1.bitreader_buf >>> nbits,
          bitreader_nbits_in_buf :=
            (ozus_bitreader_fill nbits ozus nbits).1.bitreader_nbits_in_buf - nbits },
        (ozus_bitreader_fill nbits ozus nbits).1.bitreader_buf &&& (0xffff >>> (16 - nbits))) := by
    unfold ozus_bitreader_getbits
    rw [if_neg hv]
    simp only
    rw [if_neg (by rw [hf2]; decide)]
  obtain ⟨v1, v2⟩ := ozus_bitreader_fill_value nbits ozus nbits (by omega) hbuf hf2
  have hge := (hs.1 hf2).2.2.2 (by omega)
  obtain ⟨t, ht⟩ : ∃ t, (ozus_bitreader_fill nbits ozus nbits).1.bitreader_nbits_in_buf
      = nbits + t := ⟨_, (Nat.add_sub_cancel' hge).symm⟩
  have hsplit : ozus_bits_value ozus
      = (ozus_bitreader_fill nbits ozus nbits).1.bitreader_buf + 2 ^ nbits *
        (2 ^ t * ozus_input_value (ozus_bitreader_fill nbits ozus nbits).1.inf
          (ozus_bitreader_fill nbits ozus nbits).1.inf_pos
          ((ozus_bitreader_fill nbits ozus nbits).1.inf_endpos
            - (ozus_bitreader_fill nbits ozus nbits).1.inf_pos)) := by
    rw [← v1]
    unfold ozus_bits_value
    rw [ht, pow_add]
    ring
  refine ⟨hok, ?_, ?_, ?_, hbl⟩
  · rw [hg]
    simp only
    rw [ozus_getbits_mask nbits h16, Nat.and_pow_two_sub_one_eq_mod, hsplit,
      Nat.add_mul_mod_self_left]
  · rw [hg, hsplit, Nat.add_mul_div_left _ _ (Nat.two_pow_pos nbits)]
    unfold ozus_bits_value
    simp only
    rw [Nat.shiftRight_eq_div_pow, ht, Nat.add_sub_cancel_left]
  · rw [hg]
    simp only
    rw [Nat.shiftRight_eq_div_pow, ht, Nat.add_sub_cancel_left]
    rw [ht, pow_add] at v2
    exact Nat.div_lt_of_lt_mul v2

/-- The values returned by a sequence of reads of valid widths for which the
pending bits and the input suffice: the read number `i` returns the bits
still to deliver at the start, shifted by the widths before it, modulo
`2 ^ width`. -/
theorem ozus_getbits_all_value (ws : List Nat) (ozus : ozus_ctx)
    (h0 : ozus.error_code = 0) (hmax : ozus.max_code_size ≤ 16)
    (hw : ∀ n, n ∈ ws → 1 ≤ n ∧ n ≤ ozus.max_code_size)
    (hbuf : ozus.bitreader_buf < 2 ^ ozus.bitreader_nbits_in_buf)
    (hle : ws.sum ≤ ozus_bits_left ozus) :
    (ozus_getbits_all ws ozus).1.error_code = 0 ∧
    (ozus_getbits_all ws ozus).2.length = ws.length ∧
    ∀ i, i < ws.length →
      (ozus_getbits_all ws ozus).2.getD i 0
        = (ozus_bits_value ozus / 2 ^ (ws.take i).sum) % 2 ^ (ws.getD i 0) := by
  induction ws generalizing ozus with
  | nil => exact ⟨h0, rfl, fun i hi => by simp at hi⟩
  | cons n ns ih =>
    have hn := hw n (List.mem_cons_self _ _)
    simp only [List.sum_cons] at hle
    obtain ⟨g1, g2, g3, g4, g5⟩ := ozus_bitreader_getbits_value ozus n h0 hn.1 hn.2
      (by omega) hbuf (by omega)
    have hmax' := (ozus_bitreader_getbits_params ozus n).max_code_size
    obtain ⟨b1, b2, b3⟩ := ih (ozus_bitreader_getbits ozus n).1 g1 (by rw [hmax']; exact hmax)
      (fun m hm => by rw [hmax']; exact hw m (List.mem_cons_of_mem _ hm)) g4 (by omega)
    refine ⟨b1, by simp [ozus_getbits_all, b2], fun i hi => ?_⟩
    cases i with
    | zero =>
      simp only [ozus_getbits_all, List.getD_cons_zero, List.take_zero, List.sum_nil, pow_zero,
        Nat.div_one]
      exact g2
    | succ j =>
      simp only [List.length_cons] at hi
      simp only [ozus_getbits_all, List.getD_cons_succ, List.take_succ_cons, List.sum_cons]
      rw [b3 j (by omega), g3, Nat.div_div_eq_div_mul, ← pow_add]

/-- C12, bit reader value: for a reader with no pending bits, no error and
maximum width 13 over the input bytes `b_0, b_1, ...` of the compressed range,
reading the widths `ws` (each in 1..13, `ws.sum` bits being available) in
sequence succeeds, and the read number `i` returns
`(V >> (sum of the widths before it)) mod 2 ^ (ws i)`, which is below
`2 ^ (ws i)`, where `V` is the sum of `b_j * 256 ^ j`: the codes are packed
least-significant bit first across byte boundaries. -/
theorem bitreader_value (ozus : ozus_ctx) (ws : List Nat) (i : Nat)
    (h0 : ozus.error_code = 0) (hmax : ozus.max_code_size = 13)
    (hbuf0 : ozus.bitreader_buf = 0) (hnb0 : ozus.bitreader_nbits_in_buf = 0)
    (hw : ∀ n, n ∈ ws → 1 ≤ n ∧ n ≤ 13)
    (henough : ws.sum ≤ 8 * (ozus.inf_endpos - ozus.inf_pos))
    (hi : i < ws.length) :
    (ozus_getbits_all ws ozus).1.error_code = OZUS_ERRCODE_OK ∧
    (ozus_getbits_all ws ozus).2.length = ws.length ∧
    (ozus_getbits_all ws ozus).2.getD i 0
      = (ozus_input_value ozus.inf ozus.inf_pos (ozus.inf_endpos - ozus.inf_pos)
          >>> (ws.take i).sum) % 2 ^ (ws.getD i 0) ∧
    (ozus_getbits_all ws ozus).2.getD i 0 < 2 ^ (ws.getD i 0) := by
  have hbv : ozus_bits_value ozus
      = ozus_input_value ozus.inf ozus.inf_pos (ozus.inf_endpos - ozus.inf_pos) := by
    unfold ozus_bits_value
    rw [hbuf0, hnb0]
    simp
  obtain ⟨a1, a2, a3⟩ := ozus_getbits_all_value ws ozus h0 (by omega)
    (fun n hn => by rw [hmax]; exact hw n hn) (by rw [hbuf0, hnb0]; decide)
    (by unfold ozus_bits_left; omega)
  have hval := a3 i hi
  rw [hbv, ← Nat.shiftRight_eq_div_pow] at hval
  refine ⟨a1, a2, hval, ?_⟩
  rw [hval]
  exact Nat.mod_lt _ (Nat.two_pow_pos _)

/-- Witness for C12: over the bytes 0x41 0x84 0x04 0x01 the second of three
9-bit reads returns 66. -/
theorem bitreader_value_witness :
    (ozus_getbits_all [9, 9, 9] (ozus_setup [0x41, 0x84, 0x04, 0x01] 0 4 3)).2.getD 1 0
      = (ozus_input_value [0x41, 0x84, 0x04, 0x01] 0 4 >>> 9) % 2 ^ 9 ∧
    (ozus_input_value [0x41, 0x84, 0x04, 0x01] 0 4 >>> 9) % 2 ^ 9 = 66 :=
  ⟨(bitreader_value (ozus_setup [0x41, 0x84, 0x04, 0x01] 0 4 3) [9, 9, 9] 1 rfl rfl rfl rfl
      (by decide) (by decide) (by decide)).2.2.1, by decide⟩

/-! ## The decoder on another input -/

theorem ozus_emit_loop_retarget (fuel : Nat) (ozus : ozus_ctx) (code count : Nat)
    (inf : List Nat) (e : Nat) :
    ozus_emit_loop fuel (ozus_retarget ozus inf e) code count =
      (ozus_retarget (ozus_emit_loop fuel ozus code count).1 inf e,
        (ozus_emit_loop fuel ozus code count).2) := by
  induction fuel generalizing ozus code count with
  | zero => rfl
  | succ n ih =>
    rw [ozus_emit_loop, ozus_emit_loop]
    by_cases h1 : code ≥ ozus.ct_arraysize
    · rw [if_pos h1, if_pos (show code ≥ (ozus_retarget ozus inf e).ct_arraysize from h1)]
      rfl
    · rw [if_neg h1, if_neg (show ¬ code ≥ (ozus_retarget ozus inf e).ct_arraysize from h1)]
      simp only
      by_cases h2 : count + 1 ≥ ozus.ct_arraysize
      · rw [if_pos h2, if_pos (show count + 1 ≥ (ozus_retarget ozus inf e).ct_arraysize from h2)]
        rfl
      · rw [if_neg h2,
          if_neg (show ¬ count + 1 ≥ (ozus_retarget ozus inf e).ct_arraysize from h2)]
        by_cases h3 : code < 257
        · rw [if_pos h3, if_pos h3]
          rfl
        · rw [if_neg h3, if_neg h3]
          exact ih { ozus with tmpbuf := ozus.tmpbuf ++ [(ozus.ct code).value] }
            (ozus.ct code).parent (count + 1)

theorem ozus_emit_writeout_retarget (k : Nat) (ozus : ozus_ctx) (inf : List Nat) (e : Nat) :
    ozus_emit_writeout k (ozus_retarget ozus inf e)
      = ozus_retarget (ozus_emit_writeout k ozus) inf e := by
  induction k generalizing ozus with
  | zero => rfl
  | succ n ih =>
    rw [ozus_emit_writeout, ozus_emit_writeout]
    exact ih { ozus with outf := ozus.outf ++ [ozus.tmpbuf.getD n 0] }

theorem ozus_emit_code_retarget (ozus : ozus_ctx) (code1 : Nat) (inf : List Nat) (e : Nat) :
    ozus_emit_code (ozus_retarget ozus inf e) code1
      = ozus_retarget (ozus_emit_code ozus code1) inf e := by
  have hl := ozus_emit_loop_retarget ozus.ct_arraysize { ozus with tmpbuf := [] } code1 0 inf e
  unfold ozus_emit_code
  simp only
  have hl' : ozus_emit_loop (ozus_retarget ozus inf e).ct_arraysize
      { ozus_retarget ozus inf e with tmpbuf := [] } code1 0 =
      (ozus_retarget (ozus_emit_loop ozus.ct_arraysize { ozus with tmpbuf := [] } code1 0).1
        inf e,
        (ozus_emit_loop ozus.ct_arraysize { ozus with tmpbuf := [] } code1 0).2) := hl
  rw [hl']
  simp only
  by_cases hf : (ozus_emit_loop ozus.ct_arraysize { ozus with tmpbuf := [] } code1 0).2 = false
  · rw [if_pos hf, if_pos hf]
  · rw [if_neg hf, if_neg hf]
    exact ozus_emit_writeout_retarget _ _ inf e

theorem ozus_add_to_dict_retarget (ozus : ozus_ctx) (parent value : Nat)
    (inf : List Nat) (e : Nat) :
    ozus_add_to_dict (ozus_retarget ozus inf e) parent value
      = ozus_retarget (ozus_add_to_dict ozus parent value) inf e := by
  unfold ozus_add_to_dict ozus_find_first_free_entry
  show (let r := match ozus_find_loop ozus.ct
            (ozus.ct_arraysize - ozus.free_code_search_start) ozus.free_code_search_start with
          | some k => (ozus_retarget ozus inf e, k)
          | none => ({ ozus_retarget ozus inf e with error_code := OZUS_ERRCODE_BAD_CDATA },
              ozus.ct_arraysize - 1)
        if r.1.error_code ≠ 0 then r.1
        else { r.1 with
          ct := ct_set r.1.ct r.2 { r.1.ct r.2 with parent := parent, value := value },
          last_code_added := r.2, free_code_search_start := r.2 + 1 }) = _
  cases ozus_find_loop ozus.ct (ozus.ct_arraysize - ozus.free_code_search_start)
      ozus.free_code_search_start with
  | none => rfl
  | some k =>
    simp only
    by_cases h0 : ozus.error_code ≠ 0
    · rw [if_pos h0, if_pos (show (ozus_retarget ozus inf e).error_code ≠ 0 from h0)]
    · rw [if_neg h0, if_neg (show ¬ (ozus_retarget ozus inf e).error_code ≠ 0 from h0)]
      rfl

theorem ozus_process_data_code_retarget (ozus : ozus_ctx) (code : Nat)
    (inf : List Nat) (e : Nat) :
    ozus_process_data_code (ozus_retarget ozus inf e) code
      = ozus_retarget (ozus_process_data_code ozus code) inf e := by
  unfold ozus_process_data_code
  rw [ozus_emit_code_retarget, ozus_add_to_dict_retarget]
  by_cases h1 : code ≥ ozus.ct_arraysize
  · rw [if_pos h1, if_pos (show code ≥ (ozus_retarget ozus inf e).ct_arraysize from h1)]
    rfl
  · rw [if_neg h1, if_neg (show ¬ code ≥ (ozus_retarget ozus inf e).ct_arraysize from h1)]
    by_cases h2 : ozus.have_oldcode = false
    · rw [if_pos h2, if_pos (show (ozus_retarget ozus inf e).have_oldcode = false from h2)]
      rfl
    · rw [if_neg h2, if_neg (show ¬ (ozus_retarget ozus inf e).have_oldcode = false from h2)]
      by_cases h3 : code < 256 ∨ (ozus.ct code).parent ≠ OZUS_INVALID_CODE
      · rw [if_pos h3, if_pos (show code < 256 ∨
          ((ozus_retarget ozus inf e).ct code).parent ≠ OZUS_INVALID_CODE from h3)]
        simp only
        by_cases h4 : (ozus_emit_code ozus code).error_code ≠ 0
        · rw [if_pos h4, if_pos (show (ozus_retarget (ozus_emit_code ozus code) inf e).error_code
            ≠ 0 from h4)]
        · rw [if_neg h4, if_neg (show ¬ (ozus_retarget (ozus_emit_code ozus code) inf e).error_code
            ≠ 0 from h4)]
          show { ozus_add_to_dict (ozus_retarget (ozus_emit_code ozus code) inf e)
              (ozus_emit_code ozus code).oldcode (ozus_emit_code ozus code).last_value with
              oldcode := code } = _
          rw [ozus_add_to_dict_retarget]
          rfl
      · rw [if_neg h3, if_neg (show ¬ (code < 256 ∨
          ((ozus_retarget ozus inf e).ct code).parent ≠ OZUS_INVALID_CODE) from h3)]
        simp only
        have e1 : (ozus_retarget ozus inf e).oldcode = ozus.oldcode := rfl
        have e2 : (ozus_retarget ozus inf e).last_value = ozus.last_value := rfl
        rw [e1, e2]
        by_cases h4 : (ozus_add_to_dict ozus ozus.oldcode ozus.last_value).error_code ≠ 0
        · rw [if_pos h4, if_pos (show (ozus_retarget
            (ozus_add_to_dict ozus ozus.oldcode ozus.last_value) inf e).error_code ≠ 0 from h4)]
        · rw [if_neg h4, if_neg (show ¬ (ozus_retarget
            (ozus_add_to_dict ozus ozus.oldcode ozus.last_value) inf e).error_code ≠ 0 from h4)]
          show { ozus_emit_code (ozus_retarget
              (ozus_add_to_dict ozus ozus.oldcode ozus.last_value) inf e)
              (ozus_add_to_dict ozus ozus.oldcode ozus.last_value).last_code_added with
              oldcode := code } = _
          rw [ozus_emit_code_retarget]
          rfl

/-- The filling loop moves `inf_pos` forward only, and not beyond
`inf_endpos`. -/
theorem ozus_bitreader_fill_inf_pos (fuel : Nat) (ozus : ozus_ctx) (nbits : Nat) :
    ozus.inf_pos ≤ (ozus_bitreader_fill fuel ozus nbits).1.inf_pos ∧
    (ozus_bitreader_fill fuel ozus nbits).1.inf_pos ≤ max ozus.inf_pos ozus.inf_endpos := by
  induction fuel generalizing ozus with
  | zero => exact ⟨le_refl _, le_max_left _ _⟩
  | succ n ih =>
    rw [ozus_bitreader_fill_succ]
    by_cases hlt : ozus.bitreader_nbits_in_buf < nbits
    · rw [if_pos hlt]
      by_cases hend : ozus.inf_pos ≥ ozus.inf_endpos
      · rw [if_pos hend]
        exact ⟨le_refl _, le_max_left _ _⟩
      · rw [if_neg hend]
        by_cases herr : ozus.error_code ≠ 0
        · rw [if_pos herr]
          simp only
          exact ⟨by omega, by rw [max_eq_right (by omega)]; omega⟩
        · rw [if_neg herr]
          obtain ⟨a1, a2⟩ := ih { ozus with
            inf_pos := ozus.inf_pos + 1,
            bitreader_buf :=
              (ozus.bitreader_buf |||
                ((ozus.inf.getD ozus.inf_pos 0) % 256) <<< ozus.bitreader_nbits_in_buf)
                % 2 ^ 32,
            bitreader_nbits_in_buf := ozus.bitreader_nbits_in_buf + 8 }
          simp only at a1 a2
          rw [max_eq_right (by omega)] at a2
          exact ⟨by omega, by rw [max_eq_right (by omega)]; exact a2⟩
    · rw [if_neg hlt]
      exact ⟨le_refl _, le_max_left _ _⟩

/-- The position and the error code after `ozus_bitreader_getbits` are those
after its filling loop. -/
theorem ozus_bitreader_getbits_of_fill (ozus : ozus_ctx) (nbits : Nat)
    (hv : ¬ (nbits < 1 ∨ nbits > ozus.max_code_size)) :
    (ozus_bitreader_getbits ozus nbits).1.inf_pos
      = (ozus_bitreader_fill nbits ozus nbits).1.inf_pos ∧
    (ozus_bitreader_getbits ozus nbits).1.error_code
      = (ozus_bitreader_fill nbits ozus nbits).1.error_code := by
  unfold ozus_bitreader_getbits
  rw [if_neg hv]
  simp only
  split <;> exact ⟨rfl, rfl⟩

theorem ozus_bitreader_getbits_inf_pos (ozus : ozus_ctx) (nbits : Nat) :
    ozus.inf_pos ≤ (ozus_bitreader_getbits ozus nbits).1.inf_pos ∧
    (ozus_bitreader_getbits ozus nbits).1.inf_pos ≤ max ozus.inf_pos ozus.inf_endpos := by
  by_cases hv : nbits < 1 ∨ nbits > ozus.max_code_size
  · unfold ozus_bitreader_getbits
    rw [if_pos hv]
    exact ⟨le_refl _, le_max_left _ _⟩
  · rw [(ozus_bitreader_getbits_of_fill ozus nbits hv).1]
    exact ozus_bitreader_fill_inf_pos nbits ozus nbits

/-- The filling loop on another input that the reader sees alike. -/
theorem ozus_bitreader_fill_retarget (fuel : Nat) (ozus : ozus_ctx) (nbits : Nat)
    (inf : List Nat) (e : Nat) (h0 : ozus.error_code = 0)
    (hal : ozus_reads_alike_upto ozus.inf ozus.inf_endpos inf e ozus.inf_pos
      (ozus_bitreader_fill fuel ozus nbits).1) :
    ozus_bitreader_fill fuel (ozus_retarget ozus inf e) nbits =
      (ozus_retarget (ozus_bitreader_fill fuel ozus nbits).1 inf e,
        (ozus_bitreader_fill fuel ozus nbits).2) := by
  induction fuel generalizing ozus with
  | zero => rfl
  | succ n ih =>
    rw [ozus_bitreader_fill_succ] at hal
    rw [ozus_bitreader_fill_succ, ozus_bitreader_fill_succ]
    by_cases hlt : ozus.bitreader_nbits_in_buf < nbits
    · rw [if_pos hlt] at hal
      rw [if_pos hlt,
        if_pos (show (ozus_retarget ozus inf e).bitreader_nbits_in_buf < nbits from hlt)]
      by_cases hend : ozus.inf_pos ≥ ozus.inf_endpos
      · rw [if_pos hend] at hal
        have hq := hal.2 (by simp [OZUS_ERRCODE_INSUFFICIENT_CDATA])
        have hend' : (ozus_retarget ozus inf e).inf_pos ≥ (ozus_retarget ozus inf e).inf_endpos := by
          show ozus.inf_pos ≥ e
          have := hq.1
          simp only at this
          omega
        rw [if_pos hend, if_pos hend']
        rfl
      · rw [if_neg hend, if_neg (not_not.mpr h0)] at hal
        have hpos := (ozus_bitreader_fill_inf_pos n { ozus with
            inf_pos := ozus.inf_pos + 1,
            bitreader_buf :=
              (ozus.bitreader_buf |||
                ((ozus.inf.getD ozus.inf_pos 0) % 256) <<< ozus.bitreader_nbits_in_buf)
                % 2 ^ 32,
            bitreader_nbits_in_buf := ozus.bitreader_nbits_in_buf + 8 } nbits).1
        simp only at hpos
        have hq := hal.1 ozus.inf_pos (le_refl _) (by omega)
        have hend' : ¬ (ozus_retarget ozus inf e).inf_pos
            ≥ (ozus_retarget ozus inf e).inf_endpos := by
          show ¬ ozus.inf_pos ≥ e
          have := hq.1
          omega
        have hbyte : inf.getD ozus.inf_pos 0 % 256 = ozus.inf.getD ozus.inf_pos 0 % 256 :=
          hq.2 (by omega)
        rw [if_neg hend, if_neg hend', if_neg (not_not.mpr h0),
          if_neg (show ¬ (ozus_retarget ozus inf e).error_code ≠ 0 from not_not.mpr h0)]
        have hih := ih { ozus with
            inf_pos := ozus.inf_pos + 1,
            bitreader_buf :=
              (ozus.bitreader_buf |||
                ((ozus.inf.getD ozus.inf_pos 0) % 256) <<< ozus.bitreader_nbits_in_buf)
                % 2 ^ 32,
            bitreader_nbits_in_buf := ozus.bitreader_nbits_in_buf + 8 } h0
          ⟨fun q hq1 hq2 => hal.1 q (by simp only at hq1; omega) hq2, hal.2⟩
        rw [← hih]
        show ozus_bitreader_fill n
          { ozus_retarget ozus inf e with
            inf_pos := ozus.inf_pos + 1,
            bitreader_buf :=
              (ozus.bitreader_buf |||
                (inf.getD ozus.inf_pos 0 % 256) <<< ozus.bitreader_nbits_in_buf) % 2 ^ 32,
            bitreader_nbits_in_buf := ozus.bitreader_nbits_in_buf + 8 } nbits = _
        rw [hbyte]
        rfl
    · rw [if_neg hlt,
        if_neg (show ¬ (ozus_retarget ozus inf e).bitreader_nbits_in_buf < nbits from hlt)]

/-- `ozus_bitreader_getbits` on another input that the reader sees alike. -/
theorem ozus_bitreader_getbits_retarget (ozus : ozus_ctx) (nbits : Nat)
    (inf : List Nat) (e : Nat) (h0 : ozus.error_code = 0)
    (hal : ozus_reads_alike_upto ozus.inf ozus.inf_endpos inf e ozus.inf_pos
      (ozus_bitreader_getbits ozus nbits).1) :
    ozus_bitreader_getbits (ozus_retarget ozus inf e) nbits =
      (ozus_retarget (ozus_bitreader_getbits ozus nbits).1 inf e,
        (ozus_bitreader_getbits ozus nbits).2) := by
  by_cases hv : nbits < 1 ∨ nbits > ozus.max_code_size
  · unfold ozus_bitreader_getbits
    rw [if_pos hv, if_pos (show nbits < 1 ∨ nbits > (ozus_retarget ozus inf e).max_code_size
      from hv)]
  · have hof := ozus_bitreader_getbits_of_fill ozus nbits hv
    have hal' : ozus_reads_alike_upto ozus.inf ozus.inf_endpos inf e ozus.inf_pos
        (ozus_bitreader_fill nbits ozus nbits).1 := by
      unfold ozus_reads_alike_upto at hal ⊢
      rw [hof.1, hof.2] at hal
      exact hal
    have hfill := ozus_bitreader_fill_retarget nbits ozus nbits inf e h0 hal'
    unfold ozus_bitreader_getbits
    rw [if_neg hv, if_neg (show ¬ (nbits < 1 ∨ nbits > (ozus_retarget ozus inf e).max_code_size)
      from hv)]
    simp only
    rw [hfill]
    simp only
    by_cases hf : (ozus_bitreader_fill nbits ozus nbits).2 = false
    · rw [if_pos hf, if_pos hf]
    · rw [if_neg hf, if_neg hf]
      rfl

theorem ozus_partial_clear_retarget (ozus : ozus_ctx) (inf : List Nat) (e : Nat) :
    ozus_partial_clear (ozus_retarget ozus inf e)
      = ozus_retarget (ozus_partial_clear ozus) inf e := by
  simp only [ozus_partial_clear, ozus_retarget]

/-- A round on another input, given that its reads return the same there. -/
theorem ozus_run_round_retarget_of (s : ozus_ctx) (w : Nat) (inf : List Nat) (e : Nat)
    (hG1 : s.outf.length < s.outf_nbytes_expected →
      ozus_bitreader_getbits (ozus_retarget s inf e) w =
        (ozus_retarget (ozus_bitreader_getbits s w).1 inf e, (ozus_bitreader_getbits s w).2))
    (hG2 : s.outf.length < s.outf_nbytes_expected →
      (ozus_bitreader_getbits s w).1.error_code = 0 → (ozus_bitreader_getbits s w).2 = 256 →
      ozus_bitreader_getbits (ozus_retarget (ozus_bitreader_getbits s w).1 inf e) w =
        (ozus_retarget (ozus_bitreader_getbits (ozus_bitreader_getbits s w).1 w).1 inf e,
          (ozus_bitreader_getbits (ozus_bitreader_getbits s w).1 w).2)) :
    ozus_run_round (ozus_retarget s inf e) w
      = ozus_round_retarget (ozus_run_round s w) inf e := by
  unfold ozus_run_round
  by_cases h1 : s.outf.length ≥ s.outf_nbytes_expected
  · rw [if_pos h1, if_pos (show (ozus_retarget s inf e).outf.length
      ≥ (ozus_retarget s inf e).outf_nbytes_expected from h1)]
    rfl
  · rw [if_neg h1, if_neg (show ¬ (ozus_retarget s inf e).outf.length
      ≥ (ozus_retarget s inf e).outf_nbytes_expected from h1)]
    simp only
    rw [hG1 (by omega)]
    simp only
    by_cases h2 : (ozus_bitreader_getbits s w).1.error_code ≠ 0
    · rw [if_pos h2, if_pos (show (ozus_retarget (ozus_bitreader_getbits s w).1 inf e).error_code
        ≠ 0 from h2)]
      rfl
    · rw [if_neg h2, if_neg (show ¬ (ozus_retarget (ozus_bitreader_getbits s w).1 inf e).error_code
        ≠ 0 from h2)]
      by_cases h3 : (ozus_bitreader_getbits s w).2 = 256
      · rw [if_pos h3, if_pos h3]
        rw [hG2 (by omega) (not_not.mp h2) h3]
        simp only
        by_cases h4 : (ozus_bitreader_getbits (ozus_bitreader_getbits s w).1 w).1.error_code ≠ 0
        · rw [if_pos h4, if_pos (show (ozus_retarget
            (ozus_bitreader_getbits (ozus_bitreader_getbits s w).1 w).1 inf e).error_code ≠ 0
            from h4)]
          rfl
        · rw [if_neg h4, if_neg (show ¬ (ozus_retarget
            (ozus_bitreader_getbits (ozus_bitreader_getbits s w).1 w).1 inf e).error_code ≠ 0
            from h4)]
          by_cases h5 : (ozus_bitreader_getbits (ozus_bitreader_getbits s w).1 w).2 = 1 ∧
              w < (ozus_bitreader_getbits (ozus_bitreader_getbits s w).1 w).1.max_code_size
          · rw [if_pos h5, if_pos (show
              (ozus_bitreader_getbits (ozus_bitreader_getbits s w).1 w).2 = 1 ∧
              w < (ozus_retarget (ozus_bitreader_getbits (ozus_bitreader_getbits s w).1 w).1
                inf e).max_code_size from h5)]
            rfl
          · rw [if_neg h5, if_neg (show ¬
              ((ozus_bitreader_getbits (ozus_bitreader_getbits s w).1 w).2 = 1 ∧
              w < (ozus_retarget (ozus_bitreader_getbits (ozus_bitreader_getbits s w).1 w).1
                inf e).max_code_size) from h5)]
            by_cases h6 : (ozus_bitreader_getbits (ozus_bitreader_getbits s w).1 w).2 = 2
            · rw [if_pos h6, if_pos h6, ozus_partial_clear_retarget]
              rfl
            · rw [if_neg h6, if_neg h6]
              rfl
      · rw [if_neg h3, if_neg h3]
        rw [ozus_process_data_code_retarget]
        by_cases h4 : (ozus_process_data_code (ozus_bitreader_getbits s w).1
            (ozus_bitreader_getbits s w).2).error_code ≠ 0
        · rw [if_pos h4, if_pos (show (ozus_retarget (ozus_process_data_code
            (ozus_bitreader_getbits s w).1 (ozus_bitreader_getbits s w).2) inf e).error_code ≠ 0
            from h4)]
          rfl
        · rw [if_neg h4, if_neg (show ¬ (ozus_retarget (ozus_process_data_code
            (ozus_bitreader_getbits s w).1 (ozus_bitreader_getbits s w).2) inf e).error_code ≠ 0
            from h4)]
          rfl

/-- Where a round leaves `inf_pos`: not before the position it started from,
not beyond `inf_endpos`, at the position of its last read; input buffer and
end offset are untouched. -/
theorem ozus_run_round_inf_pos (s : ozus_ctx) (w : Nat) :
    s.inf_pos ≤ (ozus_round_ctx (ozus_run_round s w)).inf_pos ∧
    (ozus_round_ctx (ozus_run_round s w)).inf_pos ≤ max s.inf_pos s.inf_endpos ∧
    (ozus_round_ctx (ozus_run_round s w)).inf = s.inf ∧
    (ozus_round_ctx (ozus_run_round s w)).inf_endpos = s.inf_endpos ∧
    (s.outf.length < s.outf_nbytes_expected →
      (ozus_bitreader_getbits s w).1.inf_pos ≤ (ozus_round_ctx (ozus_run_round s w)).inf_pos ∧
      ((ozus_bitreader_getbits s w).1.error_code ≠ 0 →
        ozus_round_ctx (ozus_run_round s w) = (ozus_bitreader_getbits s w).1)) ∧
    (s.outf.length < s.outf_nbytes_expected →
      (ozus_bitreader_getbits s w).1.error_code = 0 → (ozus_bitreader_getbits s w).2 = 256 →
      (ozus_bitreader_getbits (ozus_bitreader_getbits s w).1 w).1.inf_pos
        = (ozus_round_ctx (ozus_run_round s w)).inf_pos ∧
      ((ozus_bitreader_getbits (ozus_bitreader_getbits s w).1 w).1.error_code ≠ 0 →
        ozus_round_ctx (ozus_run_round s w)
          = (ozus_bitreader_getbits (ozus_bitreader_getbits s w).1 w).1)) := by
  have hp1 := ozus_bitreader_getbits_params s w
  have hp2 := ozus_bitreader_getbits_params (ozus_bitreader_getbits s w).1 w
  obtain ⟨m1, m2⟩ := ozus_bitreader_getbits_inf_pos s w
  obtain ⟨n1, n2⟩ := ozus_bitreader_getbits_inf_pos (ozus_bitreader_getbits s w).1 w
  rw [hp1.inf_endpos] at n2
  have n3 : (ozus_bitreader_getbits (ozus_bitreader_getbits s w).1 w).1.inf_pos
      ≤ max s.inf_pos s.inf_endpos := by
    rcases Nat.le_total s.inf_pos s.inf_endpos with hle | hle
    · rw [max_eq_right hle] at m2 ⊢
      rw [max_eq_right m2] at n2
      exact n2
    · rw [max_eq_left hle] at m2 ⊢
      rw [max_eq_left (by omega)] at n2
      omega
  rcases ozus_run_round_cases s w with
    ⟨hlen, hc⟩ | ⟨_, e1, hc⟩ | ⟨_, e1, c1, e2, hc⟩ | ⟨_, e1, c1, e2, _, _, hc⟩ |
    ⟨_, e1, c1, e2, _, _, hc⟩ | ⟨_, e1, c1, e2, _, _, hc⟩ | ⟨_, e1, c1, e2, hc⟩ |
    ⟨_, e1, c1, e2, hc⟩
  · rw [hc]
    exact ⟨le_refl _, le_max_left _ _, rfl, rfl, fun h => by omega, fun h => by omega⟩
  · rw [hc]
    exact ⟨m1, m2, hp1.inf, hp1.inf_endpos, fun _ => ⟨le_refl _, fun _ => rfl⟩,
      fun _ h => absurd h e1⟩
  · rw [hc]
    exact ⟨le_trans m1 n1, n3, hp2.inf.trans hp1.inf,
      hp2.inf_endpos.trans hp1.inf_endpos, fun _ => ⟨n1, fun h => absurd e1 h⟩,
      fun _ _ _ => ⟨rfl, fun _ => rfl⟩⟩
  · rw [hc]
    exact ⟨le_trans m1 n1, n3, hp2.inf.trans hp1.inf,
      hp2.inf_endpos.trans hp1.inf_endpos, fun _ => ⟨n1, fun h => absurd e1 h⟩,
      fun _ _ _ => ⟨rfl, fun h => absurd e2 h⟩⟩
  · rw [hc]
    exact ⟨le_trans m1 n1, n3, hp2.inf.trans hp1.inf,
      hp2.inf_endpos.trans hp1.inf_endpos, fun _ => ⟨n1, fun h => absurd e1 h⟩,
      fun _ _ _ => ⟨rfl, fun h => absurd e2 h⟩⟩
  · rw [hc]
    exact ⟨le_trans m1 n1, n3, hp2.inf.trans hp1.inf,
      hp2.inf_endpos.trans hp1.inf_endpos, fun _ => ⟨n1, fun h => absurd e1 h⟩,
      fun _ _ _ => ⟨rfl, fun h => absurd e2 h⟩⟩
  · rw [hc]
    obtain ⟨s1, s2, _⟩ := ozus_process_data_code_spec (ozus_bitreader_getbits s w).1
      (ozus_bitreader_getbits s w).2
    exact ⟨le_trans m1 (le_of_eq s2.inf_pos.symm), le_trans (le_of_eq s2.inf_pos) m2,
      s1.inf.trans hp1.inf, s1.inf_endpos.trans hp1.inf_endpos,
      fun _ => ⟨le_of_eq s2.inf_pos.symm, fun h => absurd e1 h⟩, fun _ _ h => absurd h c1⟩
  · rw [hc]
    obtain ⟨s1, s2, _⟩ := ozus_process_data_code_spec (ozus_bitreader_getbits s w).1
      (ozus_bitreader_getbits s w).2
    exact ⟨le_trans m1 (le_of_eq s2.inf_pos.symm), le_trans (le_of_eq s2.inf_pos) m2,
      s1.inf.trans hp1.inf, s1.inf_endpos.trans hp1.inf_endpos,
      fun _ => ⟨le_of_eq s2.inf_pos.symm, fun h => absurd e1 h⟩, fun _ _ h => absurd h c1⟩

/-- A round on another input that the reader sees alike. -/
theorem ozus_run_round_retarget (s : ozus_ctx) (w : Nat) (inf : List Nat) (e : Nat)
    (h0 : s.error_code = 0)
    (hal : ozus_reads_alike_upto s.inf s.inf_endpos inf e s.inf_pos
      (ozus_round_ctx (ozus_run_round s w))) :
    ozus_run_round (ozus_retarget s inf e) w
      = ozus_round_retarget (ozus_run_round s w) inf e := by
  obtain ⟨_, _, _, _, f5, f6⟩ := ozus_run_round_inf_pos s w
  have hp1 := ozus_bitreader_getbits_params s w
  have m1 := (ozus_bitreader_getbits_inf_pos s w).1
  apply ozus_run_round_retarget_of
  · intro hlen
    obtain ⟨g1, g2⟩ := f5 hlen
    refine ozus_bitreader_getbits_retarget s w inf e h0 ⟨fun q hq1 hq2 => ?_, fun herr => ?_⟩
    · exact hal.1 q hq1 (by omega)
    · have := hal.2 (by rw [g2 herr]; exact herr)
      rw [g2 herr] at this
      exact this
  · intro hlen e1 c1
    obtain ⟨g1, g2⟩ := f6 hlen e1 c1
    refine ozus_bitreader_getbits_retarget _ w inf e e1 ?_
    rw [hp1.inf, hp1.inf_endpos]
    refine ⟨fun q hq1 hq2 => ?_, fun herr => ?_⟩
    · exact hal.1 q (by omega) (by omega)
    · have := hal.2 (by rw [g2 herr]; exact herr)
      rw [g2 herr] at this
      exact this

/-- Where the loop leaves `inf_pos`. -/
theorem ozus_run_loop_inf_pos (fuel : Nat) (s : ozus_ctx) (w : Nat) (r : ozus_ctx)
    (h : ozus_run_loop fuel s w = some r) :
    s.inf_pos ≤ r.inf_pos ∧ r.inf_pos ≤ max s.inf_pos s.inf_endpos ∧
    r.inf = s.inf ∧ r.inf_endpos = s.inf_endpos := by
  induction fuel generalizing s w with
  | zero => simp [ozus_run_loop] at h
  | succ n ih =>
    obtain ⟨f1, f2, f3, f4, _, _⟩ := ozus_run_round_inf_pos s w
    rw [ozus_run_loop] at h
    cases hround : ozus_run_round s w with
    | done o =>
      rw [hround] at h f1 f2 f3 f4
      simp only [Option.some.injEq] at h
      subst h
      exact ⟨f1, f2, f3, f4⟩
    | next o w' =>
      rw [hround] at h f1 f2 f3 f4
      simp only at h
      obtain ⟨a1, a2, a3, a4⟩ := ih o w' h
      have f1' : s.inf_pos ≤ o.inf_pos := f1
      have f2' : o.inf_pos ≤ max s.inf_pos s.inf_endpos := f2
      have f3' : o.inf = s.inf := f3
      have f4' : o.inf_endpos = s.inf_endpos := f4
      refine ⟨by omega, ?_, a3.trans f3', a4.trans f4'⟩
      rw [f4'] at a2
      rcases Nat.le_total s.inf_pos s.inf_endpos with hle | hle
      · rw [max_eq_right hle] at f2' ⊢
        rw [max_eq_right f2'] at a2
        exact a2
      · rw [max_eq_left hle] at f2' ⊢
        rw [max_eq_left (by omega)] at a2
        omega

/-- The loop on another input that the reader sees alike. -/
theorem ozus_run_loop_retarget (fuel : Nat) (s : ozus_ctx) (w : Nat) (r : ozus_ctx)
    (inf : List Nat) (e : Nat) (h0 : s.error_code = 0)
    (h : ozus_run_loop fuel s w = some r)
    (hal : ozus_reads_alike_upto s.inf s.inf_endpos inf e s.inf_pos r) :
    ozus_run_loop fuel (ozus_retarget s inf e) w = some (ozus_retarget r inf e) := by
  induction fuel generalizing s w with
  | zero => simp [ozus_run_loop] at h
  | succ n ih =>
    obtain ⟨f1, _, f3, f4, _, _⟩ := ozus_run_round_inf_pos s w
    rw [ozus_run_loop] at h ⊢
    cases hround : ozus_run_round s w with
    | done o =>
      rw [hround] at h
      simp only [Option.some.injEq] at h
      subst h
      rw [ozus_run_round_retarget s w inf e h0 (by rw [hround]; exact hal), hround]
      rfl
    | next o w' =>
      rw [hround] at h f1 f3 f4
      simp only at h
      have f1' : s.inf_pos ≤ o.inf_pos := f1
      have f3' : o.inf = s.inf := f3
      have f4' : o.inf_endpos = s.inf_endpos := f4
      obtain ⟨a1, _, _, _⟩ := ozus_run_loop_inf_pos n o w' r h
      have ho := (ozus_run_round_next hround).2.2.1
      have hal1 : ozus_reads_alike_upto s.inf s.inf_endpos inf e s.inf_pos
          (ozus_round_ctx (ozus_run_round s w)) := by
        rw [hround]
        exact ⟨fun q hq1 hq2 => hal.1 q hq1 (lt_of_lt_of_le hq2 a1), fun herr => absurd ho herr⟩
      rw [ozus_run_round_retarget s w inf e h0 hal1, hround]
      show ozus_run_loop n (ozus_retarget o inf e) w' = _
      refine ih o w' ho h ?_
      rw [f3', f4']
      exact ⟨fun q hq1 hq2 => hal.1 q (by omega) hq2, hal.2⟩

/-- More rounds allowed do not change what the loop returns. -/
theorem ozus_run_loop_mono (f d : Nat) (s : ozus_ctx) (w : Nat) (r : ozus_ctx)
    (h : ozus_run_loop f s w = some r) : ozus_run_loop (f + d) s w = some r := by
  induction f generalizing s w with
  | zero => simp [ozus_run_loop] at h
  | succ n ih =>
    have : n + 1 + d = (n + d) + 1 := by omega
    rw [this, ozus_run_loop]
    rw [ozus_run_loop] at h
    cases hround : ozus_run_round s w with
    | done o => rw [hround] at h; exact h
    | next o w' =>
      rw [hround] at h
      exact ih o w' h

/-- `ozus_run` on another input that the reader sees alike returns the same
context, but for the input buffer and the end offset. -/
theorem ozus_run_retarget (s r : ozus_ctx) (inf : List Nat) (e : Nat)
    (h0 : s.error_code = 0) (h : ozus_run s = some r)
    (hal : ozus_reads_alike_upto s.inf s.inf_endpos inf e s.inf_pos r) :
    ozus_run (ozus_retarget s inf e) = some (ozus_retarget r inf e) := by
  have h1 := ozus_run_loop_retarget _ s s.initial_code_size r inf e h0 h hal
  obtain ⟨r', hr'⟩ := ozus_run_total (ozus_retarget s inf e)
  have h2 := ozus_run_loop_mono _ (ozus_run_bound (ozus_retarget s inf e)) _ _ _ h1
  have h3 := ozus_run_loop_mono _ (ozus_run_bound s) _ _ _ hr'
  rw [Nat.add_comm] at h3
  have h4 : ozus_run_loop (ozus_run_bound s + ozus_run_bound (ozus_retarget s inf e))
      (ozus_retarget s inf e) s.initial_code_size = some r' := h3
  rw [h2] at h4
  rw [hr', ← h4]

/-- With the expected number of bytes already in the output sink, `ozus_run`
returns the context it was given. -/
theorem ozus_run_enough (ozus : ozus_ctx)
    (h : ozus.outf_nbytes_expected ≤ ozus.outf.length) : ozus_run ozus = some ozus := by
  have hb : ozus_run_bound ozus = (ozus_run_bound ozus - 1) + 1 := by
    unfold ozus_run_bound; omega
  unfold ozus_run
  rw [hb, ozus_run_loop]
  unfold ozus_run_round
  rw [if_pos h]

/-- In a run from a position not beyond `inf_endpos`, every round starts with
`inf_pos` not beyond `inf_endpos`. -/
theorem ozus_run_at_inf_pos {ozus s : ozus_ctx} {w w1 : Nat} (k : Nat)
    (hpe : ozus.inf_pos ≤ ozus.inf_endpos)
    (h : ozus_run_at k ozus w = some (s, w1)) :
    s.inf_pos ≤ ozus.inf_endpos ∧ s.inf_endpos = ozus.inf_endpos := by
  refine ozus_run_at_induct
    (fun x _ => x.inf_pos ≤ ozus.inf_endpos ∧ x.inf_endpos = ozus.inf_endpos)
    (fun x y x' y' hx hr => ?_) k ⟨hpe, rfl⟩ h
  obtain ⟨_, f2, _, f4, _, _⟩ := ozus_run_round_inf_pos x y
  rw [hr] at f2 f4
  have f2' : x'.inf_pos ≤ max x.inf_pos x.inf_endpos := f2
  have f4' : x'.inf_endpos = x.inf_endpos := f4
  rw [hx.2, max_eq_right hx.1] at f2'
  exact ⟨f2', f4'.trans hx.2⟩

/-- C15, trailing input is ignored: if `ozus_run` on the input `inf` with
range `[p, e)` and expected length `N` ends with OK having consumed `m` bytes,
then on every input `inf'` with the same bytes at the offsets `p .. p+m-1`,
whatever follows, and every end offset `e' >= p + m`, `ozus_run` with the same
`N` ends with OK, the same output, the same table and the same position; and
on a context whose output sink already holds the expected number of bytes
`ozus_run` returns that context as it is, so nothing is read or written. -/
theorem trailing_input_ignored (inf inf' : List Nat) (p e e' N m : Nat) (r : ozus_ctx)
    (h : ozus_run (ozus_setup inf p e N) = some r)
    (hok : r.error_code = OZUS_ERRCODE_OK) (hm : r.inf_pos = p + m)
    (he : p + m ≤ e')
    (hbytes : ∀ j, j < m → inf'.getD (p + j) 0 = inf.getD (p + j) 0) :
    (∃ r', ozus_run (ozus_setup inf' p e' N) = some r' ∧
      r'.error_code = OZUS_ERRCODE_OK ∧ r'.outf = r.outf ∧ r'.ct = r.ct ∧
      r'.inf_pos = p + m) ∧
    (∀ o : ozus_ctx, o.outf_nbytes_expected ≤ o.outf.length → ozus_run o = some o) := by
  refine ⟨⟨ozus_retarget r inf' e', ?_, hok, rfl, rfl, hm⟩, ozus_run_enough⟩
  have hpos := ozus_run_loop_inf_pos _ _ _ _ h
  have hal : ozus_reads_alike_upto (ozus_setup inf p e N).inf (ozus_setup inf p e N).inf_endpos
      inf' e' (ozus_setup inf p e N).inf_pos r := by
    refine ⟨fun q hq1 hq2 => ?_, fun herr => absurd hok herr⟩
    have h1 : p ≤ q := hq1
    have h2 : r.inf_pos ≤ max p e := hpos.2.1
    have hqe : q < e := by
      rcases Nat.le_total p e with hle | hle
      · rw [max_eq_right hle] at h2; omega
      · rw [max_eq_left hle] at h2; omega
    refine ⟨⟨fun _ => by omega, fun _ => hqe⟩, fun _ => ?_⟩
    have hj := hbytes (q - p) (by omega)
    rw [Nat.add_sub_cancel' h1] at hj
    show inf'.getD q 0 % 256 = inf.getD q 0 % 256
    rw [hj]
  exact ozus_run_retarget (ozus_setup inf p e N) r inf' e' rfl h hal

/-- Witness for C15: the codes 65, 66 with expected length 2 take three of the
four input bytes; with other bytes after these three and a later end offset
the run gives the same output "AB". -/
theorem trailing_input_ignored_witness :
    ∃ r, ozus_run (ozus_setup [0x41, 0x84, 0x04, 0x01] 0 4 2) = some r ∧
      r.error_code = OZUS_ERRCODE_OK ∧ r.inf_pos = 0 + 3 ∧ r.outf = [65, 66] ∧
      ∃ r', ozus_run (ozus_setup [0x41, 0x84, 0x04, 0xFF, 0xAA] 0 5 2) = some r' ∧
        r'.error_code = OZUS_ERRCODE_OK ∧ r'.outf = r.outf ∧ r'.ct = r.ct ∧
        r'.inf_pos = 0 + 3 :=
  ⟨_, rfl, by decide, by decide, by decide,
    (trailing_input_ignored [0x41, 0x84, 0x04, 0x01] [0x41, 0x84, 0x04, 0xFF, 0xAA] 0 4 5 2 3 _
      rfl (by decide) (by decide) (by decide)
      (fun j hj => by interval_cases j <;> rfl)).1⟩

/-- C17, input bound: in a run of `ozus_run` from any context `o` with
`inf_pos <= inf_endpos`, `inf_pos` is at most `inf_endpos` at the start of
every round and at return, and no byte at an offset from `inf_endpos` on is
read: `ozus_nextbyte` takes the byte at `inf_pos` only when
`inf_pos < inf_endpos` and otherwise reads nothing, a call of
`ozus_bitreader_getbits` does not move `inf_pos` beyond `inf_endpos`, and
(with no error pending at entry) on any input with the same bytes below
`inf_endpos` the run returns the same context. -/
theorem input_bound (o : ozus_ctx) (k : Nat) (s : ozus_ctx) (w : Nat)
    (hpe : o.inf_pos ≤ o.inf_endpos)
    (h : ozus_run_at k o o.initial_code_size = some (s, w)) :
    s.inf_pos ≤ o.inf_endpos ∧ s.inf_endpos = o.inf_endpos ∧
    (∃ r, ozus_run o = some r ∧ r.inf_pos ≤ o.inf_endpos ∧ r.inf_endpos = o.inf_endpos ∧
      (o.error_code = 0 → ∀ inf1 : List Nat,
        (∀ q, q < o.inf_endpos → inf1.getD q 0 = o.inf.getD q 0) →
        ozus_run (ozus_retarget o inf1 o.inf_endpos)
          = some (ozus_retarget r inf1 o.inf_endpos))) ∧
    (∀ x : ozus_ctx,
      (x.inf_endpos ≤ x.inf_pos ∧
        ozus_nextbyte x = ({ x with error_code := OZUS_ERRCODE_INSUFFICIENT_CDATA }, 0)) ∨
      (x.inf_pos < x.inf_endpos ∧
        ozus_nextbyte x
          = ({ x with inf_pos := x.inf_pos + 1 }, x.inf.getD x.inf_pos 0 % 256))) ∧
    (∀ (x : ozus_ctx) (n : Nat), x.inf_pos ≤ x.inf_endpos →
      (ozus_bitreader_getbits x n).1.inf_pos ≤ x.inf_endpos) := by
  obtain ⟨a1, a2⟩ := ozus_run_at_inf_pos k hpe h
  obtain ⟨r, hr⟩ := ozus_run_total o
  have hpos := ozus_run_loop_inf_pos _ _ _ _ hr
  have hrpos : r.inf_pos ≤ o.inf_endpos := by
    have h2 : r.inf_pos ≤ max o.inf_pos o.inf_endpos := hpos.2.1
    rw [max_eq_right hpe] at h2
    exact h2
  refine ⟨a1, a2, ⟨r, hr, hrpos, hpos.2.2.2, fun h0 inf1 hb => ?_⟩, fun x => ?_,
    fun x n hx => ?_⟩
  · refine ozus_run_retarget o r inf1 o.inf_endpos h0 hr ?_
    have hall : ∀ q, ozus_reads_alike o.inf o.inf_endpos inf1 o.inf_endpos q := fun q =>
      ⟨Iff.rfl, fun hq => by rw [hb q hq]⟩
    exact ⟨fun q _ _ => hall q, fun _ => hall _⟩
  · unfold ozus_nextbyte
    by_cases hend : x.inf_pos ≥ x.inf_endpos
    · rw [if_pos hend]
      exact Or.inl ⟨hend, rfl⟩
    · rw [if_neg hend]
      exact Or.inr ⟨by omega, rfl⟩
  · have := (ozus_bitreader_getbits_inf_pos x n).2
    rw [max_eq_right hx] at this
    exact this

/-- Witness for C17: the truncated run of the codes 65, 66, 65 with expected
length 8 starts round 3 with `inf_pos` at `inf_endpos = 4`. -/
theorem input_bound_witness :
    ∃ s w, ozus_run_at 3 (ozus_setup [0x41, 0x84, 0x04, 0x01] 0 4 8)
        (ozus_setup [0x41, 0x84, 0x04, 0x01] 0 4 8).initial_code_size = some (s, w) ∧
      s.inf_pos = 4 ∧ s.inf_pos ≤ 4 ∧ s.inf_endpos = 4 :=
  ⟨_, _, rfl, by decide,
    (input_bound (ozus_setup [0x41, 0x84, 0x04, 0x01] 0 4 8) 3 _ _ (by decide) rfl).1,
    (input_bound (ozus_setup [0x41, 0x84, 0x04, 0x01] 0 4 8) 3 _ _ (by decide) rfl).2.1⟩


/-! ## The free-slot search and `ozus_add_to_dict` -/

/-- The two outcomes of `ozus_find_first_free_entry`: the context is returned
as it is with the first unused index from `free_code_search_start` on, or no
index from there to the end of the table is unused, and `BAD_CDATA` is set. -/
theorem ozus_find_first_free_entry_cases (ozus : ozus_ctx) :
    ((ozus_find_first_free_entry ozus).1 = ozus ∧
      ozus.free_code_search_start ≤ (ozus_find_first_free_entry ozus).2 ∧
      (ozus_find_first_free_entry ozus).2 < ozus.ct_arraysize ∧
      (ozus.ct (ozus_find_first_free_entry ozus).2).parent = OZUS_INVALID_CODE ∧
      ∀ i, ozus.free_code_search_start ≤ i → i < (ozus_find_first_free_entry ozus).2 →
        (ozus.ct i).parent ≠ OZUS_INVALID_CODE) ∨
    (ozus_find_first_free_entry ozus
        = ({ ozus with error_code := OZUS_ERRCODE_BAD_CDATA }, ozus.ct_arraysize - 1) ∧
      ∀ i, ozus.free_code_search_start ≤ i → i < ozus.ct_arraysize →
        (ozus.ct i).parent ≠ OZUS_INVALID_CODE) := by
  cases h : ozus_find_loop ozus.ct (ozus.ct_arraysize - ozus.free_code_search_start)
      ozus.free_code_search_start with
  | some k =>
    have hk := ozus_find_loop_some _ _ _ _ h
    have e : ozus_find_first_free_entry ozus = (ozus, k) := by
      unfold ozus_find_first_free_entry
      rw [h]
    rw [e]
    exact Or.inl ⟨rfl, hk.1, by have := hk.2.1; omega, hk.2.2.1, hk.2.2.2⟩
  | none =>
    have hk := ozus_find_loop_none _ _ _ h
    have e : ozus_find_first_free_entry ozus
        = ({ ozus with error_code := OZUS_ERRCODE_BAD_CDATA }, ozus.ct_arraysize - 1) := by
      unfold ozus_find_first_free_entry
      rw [h]
    exact Or.inr ⟨e, fun i h1 h2 => hk i h1 (by omega)⟩

/-- C29, findFreeSlot: for every table and every `free_code_search_start`
(in `[257, ct_arraysize]` or not), when some index `k` with
`free_code_search_start <= k < ct_arraysize` is unused,
`ozus_find_first_free_entry` returns the smallest such index and leaves the
context, error code included, as it is; when there is none it sets
`BAD_CDATA` (and changes nothing else). In both cases the table is
unchanged. -/
theorem find_free_slot (ozus : ozus_ctx) :
    ((∃ k, ozus.free_code_search_start ≤ k ∧ k < ozus.ct_arraysize ∧
        (ozus.ct k).parent = OZUS_INVALID_CODE) →
      (ozus_find_first_free_entry ozus).1 = ozus ∧
      ozus.free_code_search_start ≤ (ozus_find_first_free_entry ozus).2 ∧
      (ozus_find_first_free_entry ozus).2 < ozus.ct_arraysize ∧
      (ozus.ct (ozus_find_first_free_entry ozus).2).parent = OZUS_INVALID_CODE ∧
      ∀ i, ozus.free_code_search_start ≤ i → i < ozus.ct_arraysize →
        (ozus.ct i).parent = OZUS_INVALID_CODE → (ozus_find_first_free_entry ozus).2 ≤ i) ∧
    ((¬ ∃ k, ozus.free_code_search_start ≤ k ∧ k < ozus.ct_arraysize ∧
        (ozus.ct k).parent = OZUS_INVALID_CODE) →
      (ozus_find_first_free_entry ozus).1
        = { ozus with error_code := OZUS_ERRCODE_BAD_CDATA } ∧
      (ozus_find_first_free_entry ozus).1.error_code = OZUS_ERRCODE_BAD_CDATA) ∧
    (ozus_find_first_free_entry ozus).1.ct = ozus.ct := by
  rcases ozus_find_first_free_entry_cases ozus with ⟨a1, a2, a3, a4, a5⟩ | ⟨b1, b2⟩
  · refine ⟨fun _ => ⟨a1, a2, a3, a4, fun i hi1 _ hi3 => ?_⟩, fun hno => ?_, by rw [a1]⟩
    · by_contra hlt
      exact a5 i hi1 (by omega) hi3
    · exact absurd ⟨_, a2, a3, a4⟩ hno
  · refine ⟨fun ⟨k, k1, k2, k3⟩ => absurd k3 (b2 k k1 k2), fun _ => ?_, by rw [b1]⟩
    rw [b1]
    exact ⟨rfl, rfl⟩

/-- Witness for C29: in the table of `ozus_create` with entry 257 in use and
the search starting at 257, the slot found is 258. -/
theorem find_free_slot_witness :
    (ozus_find_first_free_entry
      { ozus_create with ct := ct_set ozus_create_ct 257 ⟨65, 66, 0⟩ }).2 = 258 ∧
    (ozus_find_first_free_entry
      { ozus_create with ct := ct_set ozus_create_ct 257 ⟨65, 66, 0⟩ }).1
      = { ozus_create with ct := ct_set ozus_create_ct 257 ⟨65, 66, 0⟩ } :=
  ⟨by decide,
    ((find_free_slot { ozus_create with ct := ct_set ozus_create_ct 257 ⟨65, 66, 0⟩ }).1
      ⟨258, by decide, by decide, by decide⟩).1⟩

/-- C28, addEntry postcondition and frame: with no error pending and an
unused slot at or after `free_code_search_start`, `ozus_add_to_dict` sets
parent and value of the slot returned by `ozus_find_first_free_entry`, sets
`last_code_added` to the slot and `free_code_search_start` to the slot plus
one, sets no error, and leaves every other table entry, `oldcode`,
`have_oldcode`, `last_value`, the bit reader, the output and the parameters
unchanged. -/
theorem add_entry_postcondition (ozus : ozus_ctx) (parent value : Nat)
    (h0 : ozus.error_code = OZUS_ERRCODE_OK)
    (hfree : ∃ k, ozus.free_code_search_start ≤ k ∧ k < ozus.ct_arraysize ∧
      (ozus.ct k).parent = OZUS_INVALID_CODE) :
    ((ozus_add_to_dict ozus parent value).ct (ozus_find_first_free_entry ozus).2).parent
      = parent ∧
    ((ozus_add_to_dict ozus parent value).ct (ozus_find_first_free_entry ozus).2).value
      = value ∧
    (∀ i, i ≠ (ozus_find_first_free_entry ozus).2 →
      (ozus_add_to_dict ozus parent value).ct i = ozus.ct i) ∧
    (ozus_add_to_dict ozus parent value).last_code_added
      = (ozus_find_first_free_entry ozus).2 ∧
    (ozus_add_to_dict ozus parent value).free_code_search_start
      = (ozus_find_first_free_entry ozus).2 + 1 ∧
    (ozus_add_to_dict ozus parent value).error_code = OZUS_ERRCODE_OK ∧
    (ozus_add_to_dict ozus parent value).oldcode = ozus.oldcode ∧
    (ozus_add_to_dict ozus parent value).have_oldcode = ozus.have_oldcode ∧
    (ozus_add_to_dict ozus parent value).last_value = ozus.last_value ∧
    ozus_same_reader (ozus_add_to_dict ozus parent value) ozus ∧
    (ozus_add_to_dict ozus parent value).outf = ozus.outf ∧
    ozus_same_params (ozus_add_to_dict ozus parent value) ozus := by
  obtain ⟨f1, f2, f3, _, f5, f6, f7⟩ := ozus_add_to_dict_frame ozus parent value
  obtain ⟨k, k1, k2, k3⟩ := hfree
  rcases ozus_find_first_free_entry_cases ozus with ⟨a1, _, _, _, _⟩ | ⟨_, b2⟩
  · have e : ozus_add_to_dict ozus parent value =
        { ozus with
          ct := ct_set ozus.ct (ozus_find_first_free_entry ozus).2
            { ozus.ct (ozus_find_first_free_entry ozus).2 with
              parent := parent, value := value },
          last_code_added := (ozus_find_first_free_entry ozus).2,
          free_code_search_start := (ozus_find_first_free_entry ozus).2 + 1 } := by
      have hne : ¬ (ozus_find_first_free_entry ozus).1.error_code ≠ 0 := by
        rw [a1]; exact fun h => h h0
      unfold ozus_add_to_dict
      simp only
      rw [if_neg hne, a1]
    refine ⟨?_, ?_, fun i hi => ?_, ?_, ?_, ?_, f7, f6, f5, f2, f3, f1⟩
    · rw [e]; simp [ct_set]
    · rw [e]; simp [ct_set]
    · rw [e]; simp [ct_set, hi]
    · rw [e]
    · rw [e]
    · rw [e]; exact h0
  · exact absurd k3 (b2 k k1 k2)

/-- Witness for C28: the first entry added to the table of `ozus_create`
goes to slot 257. -/
theorem add_entry_postcondition_witness :
    (ozus_find_first_free_entry ozus_create).2 = 257 ∧
    (ozus_add_to_dict ozus_create 65 66).last_code_added
      = (ozus_find_first_free_entry ozus_create).2 ∧
    (ozus_add_to_dict ozus_create 65 66).free_code_search_start
      = (ozus_find_first_free_entry ozus_create).2 + 1 :=
  ⟨by decide,
    (add_entry_postcondition ozus_create 65 66 rfl
      ⟨257, by decide, by decide, by decide⟩).2.2.2.1,
    (add_entry_postcondition ozus_create 65 66 rfl
      ⟨257, by decide, by decide, by decide⟩).2.2.2.2.1⟩


/-! ## `free_code_search_start` -/

/-- `ozus_process_data_code` leaves `free_code_search_start` as it is or
raises it, to at most `ct_arraysize`. -/
theorem ozus_process_data_code_search_start (ozus : ozus_ctx) (code : Nat) :
    (ozus_process_data_code ozus code).free_code_search_start
        = ozus.free_code_search_start ∨
    (ozus.free_code_search_start
        < (ozus_process_data_code ozus code).free_code_search_start ∧
      (ozus_process_data_code ozus code).free_code_search_start ≤ ozus.ct_arraysize) := by
  have hadd : ∀ (o : ozus_ctx) (p v : Nat),
      (ozus_add_to_dict o p v).free_code_search_start = o.free_code_search_start ∨
      (o.free_code_search_start < (ozus_add_to_dict o p v).free_code_search_start ∧
        (ozus_add_to_dict o p v).free_code_search_start ≤ o.ct_arraysize) := by
    intro o p v
    by_cases he : (ozus_add_to_dict o p v).error_code = 0
    · obtain ⟨_, a2, a3, a4, _⟩ := (ozus_add_to_dict_spec o p v).1 he
      exact Or.inr ⟨by omega, by omega⟩
    · exact Or.inl ((ozus_add_to_dict_spec o p v).2 he).2.1
  unfold ozus_process_data_code
  by_cases h1 : code ≥ ozus.ct_arraysize
  · rw [if_pos h1]; exact Or.inl rfl
  rw [if_neg h1]
  by_cases h2 : ozus.have_oldcode = false
  · rw [if_pos h2]
    exact Or.inl (ozus_emit_code_spec ozus code).2.2.1.free_code_search_start
  rw [if_neg h2]
  by_cases h3 : code < 256 ∨ (ozus.ct code).parent ≠ OZUS_INVALID_CODE
  · rw [if_pos h3]
    have ht := (ozus_emit_code_spec ozus code).2.2.1
    have hp := (ozus_emit_code_spec ozus code).1
    simp only
    by_cases h4 : (ozus_emit_code ozus code).error_code ≠ 0
    · rw [if_pos h4]; exact Or.inl ht.free_code_search_start
    · rw [if_neg h4]
      have := hadd (ozus_emit_code ozus code) (ozus_emit_code ozus code).oldcode
        (ozus_emit_code ozus code).last_value
      rw [ht.free_code_search_start, hp.ct_arraysize] at this
      exact this
  · rw [if_neg h3]
    simp only
    have ha := hadd ozus ozus.oldcode ozus.last_value
    by_cases h4 : (ozus_add_to_dict ozus ozus.oldcode ozus.last_value).error_code ≠ 0
    · rw [if_pos h4]; exact ha
    · rw [if_neg h4]
      have ht := (ozus_emit_code_spec (ozus_add_to_dict ozus ozus.oldcode ozus.last_value)
        (ozus_add_to_dict ozus ozus.oldcode ozus.last_value).last_code_added).2.2.1
      have e : ({ ozus_emit_code (ozus_add_to_dict ozus ozus.oldcode ozus.last_value)
          (ozus_add_to_dict ozus ozus.oldcode ozus.last_value).last_code_added with
          oldcode := code } : ozus_ctx).free_code_search_start
          = (ozus_add_to_dict ozus ozus.oldcode ozus.last_value).free_code_search_start :=
        ht.free_code_search_start
      rw [e]
      exact ha

/-- A round of the loop keeps `free_code_search_start` within
`[257, ct_arraysize]`, whichever way it ends. -/
theorem ozus_run_round_search_start (ozus : ozus_ctx) (w : Nat)
    (h1 : 257 ≤ ozus.free_code_search_start)
    (h2 : ozus.free_code_search_start ≤ ozus.ct_arraysize) :
    257 ≤ (ozus_round_ctx (ozus_run_round ozus w)).free_code_search_start ∧
    (ozus_round_ctx (ozus_run_round ozus w)).free_code_search_start ≤ ozus.ct_arraysize := by
  have g1 := (ozus_bitreader_getbits_dict ozus w).free_code_search_start
  have g2 := (ozus_bitreader_getbits_dict (ozus_bitreader_getbits ozus w).1 w).free_code_search_start
  have gp := (ozus_bitreader_getbits_params ozus w).ct_arraysize
  have hp := ozus_process_data_code_search_start (ozus_bitreader_getbits ozus w).1
    (ozus_bitreader_getbits ozus w).2
  rw [g1, gp] at hp
  have hpc := (ozus_partial_clear_frame
    (ozus_bitreader_getbits (ozus_bitreader_getbits ozus w).1 w).1).2.2.2.2.1
  suffices hs : ∀ o, ozus_round_ctx (ozus_run_round ozus w) = o →
      257 ≤ o.free_code_search_start ∧ o.free_code_search_start ≤ ozus.ct_arraysize from
    hs _ rfl
  intro o ho
  rcases ozus_run_round_cases ozus w with
    ⟨_, e⟩ | ⟨_, _, e⟩ | ⟨_, _, _, _, e⟩ | ⟨_, _, _, _, _, _, e⟩ | ⟨_, _, _, _, _, _, e⟩ |
    ⟨_, _, _, _, _, _, e⟩ | ⟨_, _, _, _, e⟩ | ⟨_, _, _, _, e⟩
  · rw [e] at ho
    have ho1 : ozus = o := ho
    rw [← ho1]; exact ⟨h1, h2⟩
  · rw [e] at ho
    have ho1 : (ozus_bitreader_getbits ozus w).1 = o := ho
    rw [← ho1, g1]; exact ⟨h1, h2⟩
  · rw [e] at ho
    have ho1 : (ozus_bitreader_getbits (ozus_bitreader_getbits ozus w).1 w).1 = o := ho
    rw [← ho1, g2, g1]; exact ⟨h1, h2⟩
  · rw [e] at ho
    have ho1 : (ozus_bitreader_getbits (ozus_bitreader_getbits ozus w).1 w).1 = o := ho
    rw [← ho1, g2, g1]; exact ⟨h1, h2⟩
  · rw [e] at ho
    have ho1 : ozus_partial_clear
      (ozus_bitreader_getbits (ozus_bitreader_getbits ozus w).1 w).1 = o := ho
    rw [← ho1, hpc]; exact ⟨le_refl _, by omega⟩
  · rw [e] at ho
    have ho1 : o.free_code_search_start
        = (ozus_bitreader_getbits (ozus_bitreader_getbits ozus w).1
          w).1.free_code_search_start := by rw [← ho]; rfl
    rw [ho1, g2, g1]; exact ⟨h1, h2⟩
  · rw [e] at ho
    have ho1 : ozus_process_data_code (ozus_bitreader_getbits ozus w).1
      (ozus_bitreader_getbits ozus w).2 = o := ho
    rw [← ho1]
    rcases hp with hp | hp
    · rw [hp]; exact ⟨h1, h2⟩
    · exact ⟨by omega, hp.2⟩
  · rw [e] at ho
    have ho1 : ozus_process_data_code (ozus_bitreader_getbits ozus w).1
      (ozus_bitreader_getbits ozus w).2 = o := ho
    rw [← ho1]
    rcases hp with hp | hp
    · rw [hp]; exact ⟨h1, h2⟩
    · exact ⟨by omega, hp.2⟩

/-- In a run entered with `free_code_search_start` in `[257, ct_arraysize]`,
every round starts with it in that range. -/
theorem ozus_run_at_search_start {ozus s : ozus_ctx} {w w1 : Nat} (k : Nat)
    (h1 : 257 ≤ ozus.free_code_search_start)
    (h2 : ozus.free_code_search_start ≤ ozus.ct_arraysize)
    (h : ozus_run_at k ozus w = some (s, w1)) :
    257 ≤ s.free_code_search_start ∧ s.free_code_search_start ≤ s.ct_arraysize ∧
    s.ct_arraysize = ozus.ct_arraysize := by
  refine ozus_run_at_induct
    (fun x _ => 257 ≤ x.free_code_search_start ∧
      x.free_code_search_start ≤ x.ct_arraysize ∧ x.ct_arraysize = ozus.ct_arraysize)
    (fun x y x' y' hx hr => ?_) k ⟨h1, h2, rfl⟩ h
  have hs := ozus_run_round_search_start x y hx.1 hx.2.1
  rw [hr] at hs
  have hp := (ozus_run_round_next hr).1.ct_arraysize
  have hs1 : 257 ≤ x'.free_code_search_start := hs.1
  have hs2 : x'.free_code_search_start ≤ x.ct_arraysize := hs.2
  exact ⟨hs1, by rw [hp]; exact hs2, hp.trans hx.2.2⟩

/-- C30, freeSlotSearchStart monotonicity: a call of `ozus_add_to_dict` that
ends without error strictly raises `free_code_search_start`, to at most
`ct_arraysize`; a call that ends with an error leaves it unchanged;
`ozus_partial_clear` sets it to 257; `ozus_emit_code`,
`ozus_bitreader_getbits`, `ozus_nextbyte` and `ozus_find_first_free_entry`
leave it unchanged, and `ozus_process_data_code` leaves it unchanged or raises
it to at most `ct_arraysize`. Hence in a run from a fresh context it lies in
`[257, 8192]`, below `2 ^ 16`, at the start of every round and at return. -/
theorem search_start_monotone (inf : List Nat) (p e N k : Nat) (s : ozus_ctx) (w : Nat)
    (h : ozus_run_at k (ozus_setup inf p e N) (ozus_setup inf p e N).initial_code_size
      = some (s, w)) :
    (257 ≤ s.free_code_search_start ∧ s.free_code_search_start ≤ 8192 ∧
      s.free_code_search_start < 2 ^ 16) ∧
    (∃ r, ozus_run (ozus_setup inf p e N) = some r ∧
      257 ≤ r.free_code_search_start ∧ r.free_code_search_start ≤ 8192) ∧
    (∀ (o : ozus_ctx) (parent value : Nat),
      (ozus_add_to_dict o parent value).error_code = 0 →
      o.free_code_search_start < (ozus_add_to_dict o parent value).free_code_search_start ∧
      (ozus_add_to_dict o parent value).free_code_search_start ≤ o.ct_arraysize) ∧
    (∀ (o : ozus_ctx) (parent value : Nat),
      (ozus_add_to_dict o parent value).error_code ≠ 0 →
      (ozus_add_to_dict o parent value).free_code_search_start
        = o.free_code_search_start) ∧
    (∀ o : ozus_ctx, (ozus_partial_clear o).free_code_search_start = 257) ∧
    (∀ (o : ozus_ctx) (code : Nat),
      (ozus_emit_code o code).free_code_search_start = o.free_code_search_start) ∧
    (∀ (o : ozus_ctx) (n : Nat),
      (ozus_bitreader_getbits o n).1.free_code_search_start = o.free_code_search_start) ∧
    (∀ o : ozus_ctx, (ozus_nextbyte o).1.free_code_search_start = o.free_code_search_start) ∧
    (∀ o : ozus_ctx,
      (ozus_find_first_free_entry o).1.free_code_search_start = o.free_code_search_start) ∧
    (∀ (o : ozus_ctx) (code : Nat),
      (ozus_process_data_code o code).free_code_search_start = o.free_code_search_start ∨
      (o.free_code_search_start < (ozus_process_data_code o code).free_code_search_start ∧
        (ozus_process_data_code o code).free_code_search_start ≤ o.ct_arraysize)) := by
  have hrange : ∀ {k : Nat} {s : ozus_ctx} {w : Nat},
      ozus_run_at k (ozus_setup inf p e N) (ozus_setup inf p e N).initial_code_size
        = some (s, w) →
      257 ≤ s.free_code_search_start ∧ s.free_code_search_start ≤ 8192 ∧
        s.ct_arraysize = 8192 := by
    intro k s w h
    obtain ⟨a1, a2, a3⟩ := ozus_run_at_search_start k
      (show 257 ≤ (ozus_setup inf p e N).free_code_search_start from le_refl 257)
      (show (ozus_setup inf p e N).free_code_search_start
        ≤ (ozus_setup inf p e N).ct_arraysize from (show (257 : Nat) ≤ 1 <<< 13 by decide)) h
    have a4 : s.ct_arraysize = 8192 := a3
    exact ⟨a1, by rw [a4] at a2; exact a2, a4⟩
  obtain ⟨b1, b2, _⟩ := hrange h
  refine ⟨⟨b1, b2, by omega⟩, ?_, fun o pa v he => ?_, fun o pa v he => ?_,
    fun o => (ozus_partial_clear_frame o).2.2.2.2.1,
    fun o c => (ozus_emit_code_spec o c).2.2.1.free_code_search_start,
    fun o n => (ozus_bitreader_getbits_dict o n).free_code_search_start,
    fun o => ?_, fun o => ?_, ozus_process_data_code_search_start⟩
  · obtain ⟨r, hr⟩ := ozus_run_total (ozus_setup inf p e N)
    obtain ⟨k1, s1, w1, hk1, hd⟩ := ozus_run_some hr
    obtain ⟨c1, c2, c3⟩ := hrange hk1
    have hs := ozus_run_round_search_start s1 w1 c1 (by omega)
    rw [hd, c3] at hs
    exact ⟨r, hr, hs.1, hs.2⟩
  · obtain ⟨_, a2, a3, a4, _⟩ := (ozus_add_to_dict_spec o pa v).1 he
    exact ⟨by omega, by omega⟩
  · exact ((ozus_add_to_dict_spec o pa v).2 he).2.1
  · unfold ozus_nextbyte
    split <;> rfl
  · rcases ozus_find_first_free_entry_cases o with ⟨a1, _⟩ | ⟨a1, _⟩
    · rw [a1]
    · rw [a1]

/-- Witness for C30: after the codes 65, 66, 65 the search starts at 259. -/
theorem search_start_monotone_witness :
    ∃ s w, ozus_run_at 3 (ozus_setup [0x41, 0x84, 0x04, 0x01] 0 4 8)
        (ozus_setup [0x41, 0x84, 0x04, 0x01] 0 4 8).initial_code_size = some (s, w) ∧
      s.free_code_search_start = 259 ∧
      (257 ≤ s.free_code_search_start ∧ s.free_code_search_start ≤ 8192 ∧
        s.free_code_search_start < 2 ^ 16) :=
  ⟨_, _, rfl, by decide, (search_start_monotone [0x41, 0x84, 0x04, 0x01] 0 4 8 3 _ _ rfl).1⟩


/-! ## One data code after the first -/

/-- With no error pending and an unused slot from `free_code_search_start`
on, `ozus_add_to_dict` returns the context with the slot found filled. -/
theorem ozus_add_to_dict_ok (ozus : ozus_ctx) (parent value : Nat)
    (h0 : ozus.error_code = 0)
    (hfree : ∃ k, ozus.free_code_search_start ≤ k ∧ k < ozus.ct_arraysize ∧
      (ozus.ct k).parent = OZUS_INVALID_CODE) :
    ozus_add_to_dict ozus parent value =
      { ozus with
        ct := ct_set ozus.ct (ozus_find_first_free_entry ozus).2
          ⟨parent, value, (ozus.ct (ozus_find_first_free_entry ozus).2).flags⟩,
        last_code_added := (ozus_find_first_free_entry ozus).2,
        free_code_search_start := (ozus_find_first_free_entry ozus).2 + 1 } := by
  obtain ⟨k, k1, k2, k3⟩ := hfree
  rcases ozus_find_first_free_entry_cases ozus with ⟨a1, _, _, _, _⟩ | ⟨_, b2⟩
  · have hne : ¬ (ozus_find_first_free_entry ozus).1.error_code ≠ 0 := by
      rw [a1]; exact fun h => h h0
    unfold ozus_add_to_dict
    simp only
    rw [if_neg hne, a1]
  · exact absurd k3 (b2 k k1 k2)

/-- The slot found depends on the table, its size and
`free_code_search_start` only. -/
theorem ozus_find_first_free_entry_congr (a b : ozus_ctx) (h1 : a.ct = b.ct)
    (h2 : a.ct_arraysize = b.ct_arraysize)
    (h3 : a.free_code_search_start = b.free_code_search_start) :
    (ozus_find_first_free_entry a).2 = (ozus_find_first_free_entry b).2 := by
  unfold ozus_find_first_free_entry
  rw [h1, h2, h3]
  cases ozus_find_loop b.ct (b.ct_arraysize - b.free_code_search_start)
    b.free_code_search_start <;> rfl

/-- Filling an unused slot leaves every chain that reaches a root, its string
and its root as they are. -/
theorem ozus_reaches_root_set (ct : Nat → ozus_tableentry) (size slot : Nat)
    (e : ozus_tableentry) (hfree : (ct slot).parent = OZUS_INVALID_CODE) (d code : Nat)
    (hr : ozus_reaches_root ct size d code) :
    ozus_reaches_root (ct_set ct slot e) size d code ∧
    ozus_str (ct_set ct slot e) d code = ozus_str ct d code ∧
    ozus_chain_node (ct_set ct slot e) code d = ozus_chain_node ct code d := by
  induction d generalizing code with
  | zero => exact ⟨hr, rfl, rfl⟩
  | succ n ih =>
    obtain ⟨h1, h2, h3, h4⟩ := hr
    have hne : code ≠ slot := fun h => h3 (by rw [h]; exact hfree)
    have hct : ct_set ct slot e code = ct code := by
      unfold ct_set
      rw [if_neg hne]
    obtain ⟨i1, i2, i3⟩ := ih (ct code).parent h4
    refine ⟨⟨h1, h2, by rw [hct]; exact h3, by rw [hct]; exact i1⟩, ?_, ?_⟩
    · show ozus_str (ct_set ct slot e) n (ct_set ct slot e code).parent
        ++ [(ct_set ct slot e code).value] = ozus_str ct n (ct code).parent ++ [(ct code).value]
      rw [hct, i2]
    · rw [ozus_chain_node_succ_left, ozus_chain_node_succ_left, hct, i3]

/-- A code whose chain reaches a root lies in the table, is not 256, and is a
root or an entry in use. -/
theorem ozus_reaches_root_known (ct : Nat → ozus_tableentry) (size d code : Nat)
    (hsz : 256 ≤ size) (hr : ozus_reaches_root ct size d code) :
    code < size ∧ code ≠ OZUS_INVALID_CODE ∧
    (code < 256 ∨ (ct code).parent ≠ OZUS_INVALID_CODE) := by
  cases d with
  | zero =>
    have h : code < 256 := hr
    exact ⟨by omega, by unfold OZUS_INVALID_CODE; omega, Or.inl h⟩
  | succ n =>
    obtain ⟨h1, h2, h3, _⟩ := hr
    exact ⟨h2, by unfold OZUS_INVALID_CODE; omega, Or.inr h3⟩


/-- C21, known-code transition: with no error pending, `have_oldcode` set, a
code whose parent chain reaches a root (so the code is below 256 or its entry
is in use) and an unused slot from `free_code_search_start` on,
`ozus_process_data_code` appends the string of the code to the output, stores
`{parent = oldcode before the step, value = first byte of the string}` in the
slot found by `ozus_find_first_free_entry`, and ends with `oldcode = code` and
`last_value` the first byte of the string. -/
theorem known_code_transition (ozus : ozus_ctx) (code d : Nat)
    (h0 : ozus.error_code = OZUS_ERRCODE_OK) (hsz : ozus.ct_arraysize = 8192)
    (hroots : ∀ i, i < 256 → (ozus.ct i).value = i)
    (hold : ozus.have_oldcode = true)
    (hr : ozus_reaches_root ozus.ct 8192 d code)
    (hfree : ∃ k, ozus.free_code_search_start ≤ k ∧ k < ozus.ct_arraysize ∧
      (ozus.ct k).parent = OZUS_INVALID_CODE) :
    (code < 256 ∨ (ozus.ct code).parent ≠ OZUS_INVALID_CODE) ∧
    (ozus_process_data_code ozus code).outf = ozus.outf ++ ozus_str ozus.ct d code ∧
    (ozus_str ozus.ct d code).head? = some (ozus_chain_node ozus.ct code d) ∧
    (ozus_process_data_code ozus code).ct =
      ct_set ozus.ct (ozus_find_first_free_entry ozus).2
        ⟨ozus.oldcode, ozus_chain_node ozus.ct code d,
          (ozus.ct (ozus_find_first_free_entry ozus).2).flags⟩ ∧
    (ozus_process_data_code ozus code).last_code_added
      = (ozus_find_first_free_entry ozus).2 ∧
    (ozus_process_data_code ozus code).free_code_search_start
      = (ozus_find_first_free_entry ozus).2 + 1 ∧
    (ozus_process_data_code ozus code).oldcode = code ∧
    (ozus_process_data_code ozus code).last_value = ozus_chain_node ozus.ct code d ∧
    (ozus_process_data_code ozus code).have_oldcode = true ∧
    (ozus_process_data_code ozus code).error_code = OZUS_ERRCODE_OK := by
  obtain ⟨k1, _, k3⟩ := ozus_reaches_root_known ozus.ct 8192 d code (by omega) hr
  rw [← hsz] at hr
  have hd := ozus_reaches_root_depth _ _ _ _ hr
  obtain ⟨a1, a2, a3⟩ := ozus_emit_code_chain ozus code d hroots hr (by omega) (by omega)
  have ht := (ozus_emit_code_spec ozus code).2.2.1
  have hp := (ozus_emit_code_spec ozus code).1
  have he0 : (ozus_emit_code ozus code).error_code = 0 := a1.trans h0
  have hfree1 : ∃ k, (ozus_emit_code ozus code).free_code_search_start ≤ k ∧
      k < (ozus_emit_code ozus code).ct_arraysize ∧
      ((ozus_emit_code ozus code).ct k).parent = OZUS_INVALID_CODE := by
    rw [ht.free_code_search_start, hp.ct_arraysize, ht.ct]
    exact hfree
  have hslot := ozus_find_first_free_entry_congr (ozus_emit_code ozus code) ozus ht.ct
    hp.ct_arraysize ht.free_code_search_start
  have hadd := ozus_add_to_dict_ok (ozus_emit_code ozus code)
    (ozus_emit_code ozus code).oldcode (ozus_emit_code ozus code).last_value he0 hfree1
  rw [hslot, ht.ct] at hadd
  have hpdc : ozus_process_data_code ozus code =
      { ozus_add_to_dict (ozus_emit_code ozus code) (ozus_emit_code ozus code).oldcode
          (ozus_emit_code ozus code).last_value with oldcode := code } := by
    unfold ozus_process_data_code
    rw [if_neg (by omega), if_neg (by rw [hold]; simp), if_pos k3]
    simp only
    rw [if_neg (fun h => h he0)]
  rw [hpdc, hadd]
  refine ⟨k3, a2, ozus_str_head _ _ _, ?_, rfl, rfl, rfl, a3, ht.have_oldcode.trans hold, he0⟩
  show ct_set ozus.ct (ozus_find_first_free_entry ozus).2
    ⟨(ozus_emit_code ozus code).oldcode, (ozus_emit_code ozus code).last_value, _⟩ = _
  rw [ht.oldcode, a3]

/-- Witness for C21: after the first code 65, the known code 66 is written as
"B" and the entry `{65, 66}` goes to slot 257. -/
theorem known_code_transition_witness :
    (ozus_process_data_code (ozus_process_data_code ozus_create 65) 66).outf
      = (ozus_process_data_code ozus_create 65).outf
        ++ ozus_str (ozus_process_data_code ozus_create 65).ct 0 66 ∧
    (ozus_process_data_code (ozus_process_data_code ozus_create 65) 66).last_code_added
      = 257 ∧
    ((ozus_process_data_code (ozus_process_data_code ozus_create 65) 66).ct 257)
      = ⟨65, 66, 0⟩ :=
  ⟨(known_code_transition (ozus_process_data_code ozus_create 65) 66 0 (by decide)
      (by decide)
      (fun i hi => by
        show (ozus_create_ct i).value = i
        unfold ozus_create_ct
        rw [if_pos hi]
        exact Nat.mod_eq_of_lt (by omega))
      (by decide) (by decide) ⟨257, by decide, by decide, by decide⟩).2.1,
    by decide, by decide⟩


/-- In the deferred-entry case, with no error pending and an unused slot from
`free_code_search_start` on, `ozus_process_data_code` is `ozus_emit_code` on
the slot just filled, followed by `oldcode = code`. -/
theorem ozus_process_data_code_deferred (ozus : ozus_ctx) (code : Nat)
    (h0 : ozus.error_code = 0) (hold : ozus.have_oldcode = true)
    (hc1 : 257 ≤ code) (hc2 : code < ozus.ct_arraysize)
    (hcfree : (ozus.ct code).parent = OZUS_INVALID_CODE)
    (hfree : ∃ k, ozus.free_code_search_start ≤ k ∧ k < ozus.ct_arraysize ∧
      (ozus.ct k).parent = OZUS_INVALID_CODE) :
    ozus_process_data_code ozus code =
      { ozus_emit_code
          { ozus with
            ct := ct_set ozus.ct (ozus_find_first_free_entry ozus).2
              ⟨ozus.oldcode, ozus.last_value,
                (ozus.ct (ozus_find_first_free_entry ozus).2).flags⟩,
            last_code_added := (ozus_find_first_free_entry ozus).2,
            free_code_search_start := (ozus_find_first_free_entry ozus).2 + 1 }
          (ozus_find_first_free_entry ozus).2 with oldcode := code } := by
  have hadd := ozus_add_to_dict_ok ozus ozus.oldcode ozus.last_value h0 hfree
  have he0 : (ozus_add_to_dict ozus ozus.oldcode ozus.last_value).error_code = 0 := by
    rw [hadd]; exact h0
  have hnk : ¬ (code < 256 ∨ (ozus.ct code).parent ≠ OZUS_INVALID_CODE) := by
    intro h
    rcases h with h | h
    · omega
    · exact h hcfree
  unfold ozus_process_data_code
  rw [if_neg (by omega), if_neg (by rw [hold]; simp), if_neg hnk]
  simp only
  rw [if_neg (fun h => h he0), hadd]

/-- C22, deferred-entry (KwKwK) output: with no error pending, `have_oldcode`
set, a code from 257 on whose entry is unused, `oldcode` with a parent chain
that reaches a root, `last_value` the first byte of the string of `oldcode`,
and an unused slot from `free_code_search_start >= 257` on,
`ozus_process_data_code` fills the slot found with
`{parent = oldcode, value = last_value}` and appends exactly the string of
`oldcode` followed by its first byte to the output; `last_value` is then the
first byte of the bytes just written. -/
theorem deferred_entry_output (ozus : ozus_ctx) (code d : Nat)
    (h0 : ozus.error_code = OZUS_ERRCODE_OK) (hsz : ozus.ct_arraysize = 8192)
    (hroots : ∀ i, i < 256 → (ozus.ct i).value = i)
    (hold : ozus.have_oldcode = true)
    (hc1 : 257 ≤ code) (hc2 : code < 8192)
    (hcfree : (ozus.ct code).parent = OZUS_INVALID_CODE)
    (hr : ozus_reaches_root ozus.ct 8192 d ozus.oldcode)
    (hlast : ozus.last_value = ozus_chain_node ozus.ct ozus.oldcode d)
    (hstart : 257 ≤ ozus.free_code_search_start)
    (hfree : ∃ k, ozus.free_code_search_start ≤ k ∧ k < ozus.ct_arraysize ∧
      (ozus.ct k).parent = OZUS_INVALID_CODE) :
    (ozus_process_data_code ozus code).outf
      = ozus.outf ++ (ozus_str ozus.ct d ozus.oldcode
        ++ [ozus_chain_node ozus.ct ozus.oldcode d]) ∧
    (ozus_str ozus.ct d ozus.oldcode).head? = some (ozus_chain_node ozus.ct ozus.oldcode d) ∧
    (ozus_process_data_code ozus code).ct =
      ct_set ozus.ct (ozus_find_first_free_entry ozus).2
        ⟨ozus.oldcode, ozus.last_value,
          (ozus.ct (ozus_find_first_free_entry ozus).2).flags⟩ ∧
    (ozus_process_data_code ozus code).last_code_added
      = (ozus_find_first_free_entry ozus).2 ∧
    (ozus_process_data_code ozus code).last_value
      = ozus_chain_node ozus.ct ozus.oldcode d ∧
    (ozus_str ozus.ct d ozus.oldcode ++ [ozus_chain_node ozus.ct ozus.oldcode d]).head?
      = some (ozus_process_data_code ozus code).last_value ∧
    (ozus_process_data_code ozus code).oldcode = code ∧
    (ozus_process_data_code ozus code).error_code = OZUS_ERRCODE_OK := by
  have hpdc := ozus_process_data_code_deferred ozus code h0 hold hc1 (by omega) hcfree hfree
  obtain ⟨k, k1, k2, k3⟩ := hfree
  rcases ozus_find_first_free_entry_cases ozus with ⟨_, s2, s3, s4, _⟩ | ⟨_, b2⟩
  swap
  · exact absurd k3 (b2 k k1 k2)
  obtain ⟨_, o2, _⟩ := ozus_reaches_root_known ozus.ct 8192 d ozus.oldcode (by omega) hr
  obtain ⟨r1, r2, r3⟩ := ozus_reaches_root_set ozus.ct 8192 (ozus_find_first_free_entry ozus).2
    ⟨ozus.oldcode, ozus.last_value, (ozus.ct (ozus_find_first_free_entry ozus).2).flags⟩
    s4 d ozus.oldcode hr
  have hself : ct_set ozus.ct (ozus_find_first_free_entry ozus).2
      ⟨ozus.oldcode, ozus.last_value, (ozus.ct (ozus_find_first_free_entry ozus).2).flags⟩
      (ozus_find_first_free_entry ozus).2
      = ⟨ozus.oldcode, ozus.last_value,
        (ozus.ct (ozus_find_first_free_entry ozus).2).flags⟩ := by
    unfold ct_set
    rw [if_pos rfl]
  have hr1 : ozus_reaches_root
      (ct_set ozus.ct (ozus_find_first_free_entry ozus).2
        ⟨ozus.oldcode, ozus.last_value, (ozus.ct (ozus_find_first_free_entry ozus).2).flags⟩)
      8192 (d + 1) (ozus_find_first_free_entry ozus).2 := by
    refine ⟨by omega, by omega, ?_, ?_⟩
    · rw [hself]; exact o2
    · rw [hself]; exact r1
  have hd := ozus_reaches_root_depth _ _ _ _ hr1
  have hroots1 : ∀ i, i < 256 →
      (ct_set ozus.ct (ozus_find_first_free_entry ozus).2
        ⟨ozus.oldcode, ozus.last_value, (ozus.ct (ozus_find_first_free_entry ozus).2).flags⟩
        i).value = i := by
    intro i hi
    have hne : i ≠ (ozus_find_first_free_entry ozus).2 := by omega
    unfold ct_set
    rw [if_neg hne]
    exact hroots i hi
  obtain ⟨a1, a2, a3⟩ := ozus_emit_code_chain
    { ozus with
      ct := ct_set ozus.ct (ozus_find_first_free_entry ozus).2
        ⟨ozus.oldcode, ozus.last_value,
          (ozus.ct (ozus_find_first_free_entry ozus).2).flags⟩,
      last_code_added := (ozus_find_first_free_entry ozus).2,
      free_code_search_start := (ozus_find_first_free_entry ozus).2 + 1 }
    (ozus_find_first_free_entry ozus).2 (d + 1) hroots1
    (by rw [← hsz] at hr1; exact hr1) (by show _ < ozus.ct_arraysize; omega)
    (by show _ < ozus.ct_arraysize; omega)
  have ht := (ozus_emit_code_spec
    { ozus with
      ct := ct_set ozus.ct (ozus_find_first_free_entry ozus).2
        ⟨ozus.oldcode, ozus.last_value,
          (ozus.ct (ozus_find_first_free_entry ozus).2).flags⟩,
      last_code_added := (ozus_find_first_free_entry ozus).2,
      free_code_search_start := (ozus_find_first_free_entry ozus).2 + 1 }
    (ozus_find_first_free_entry ozus).2).2.2.1
  have hstr : ozus_str
      (ct_set ozus.ct (ozus_find_first_free_entry ozus).2
        ⟨ozus.oldcode, ozus.last_value, (ozus.ct (ozus_find_first_free_entry ozus).2).flags⟩)
      (d + 1) (ozus_find_first_free_entry ozus).2
      = ozus_str ozus.ct d ozus.oldcode ++ [ozus_chain_node ozus.ct ozus.oldcode d] := by
    show ozus_str _ d (ct_set _ _ _ _).parent ++ [(ct_set _ _ _ _).value] = _
    rw [hself, r2, hlast]
  have hnode : ozus_chain_node
      (ct_set ozus.ct (ozus_find_first_free_entry ozus).2
        ⟨ozus.oldcode, ozus.last_value, (ozus.ct (ozus_find_first_free_entry ozus).2).flags⟩)
      (ozus_find_first_free_entry ozus).2 (d + 1)
      = ozus_chain_node ozus.ct ozus.oldcode d := by
    rw [ozus_chain_node_succ_left, hself, r3]
  have hlv : (ozus_process_data_code ozus code).last_value
      = ozus_chain_node ozus.ct ozus.oldcode d := by
    rw [hpdc]
    exact a3.trans hnode
  have hhead : (ozus_str ozus.ct d ozus.oldcode
      ++ [ozus_chain_node ozus.ct ozus.oldcode d]).head?
      = some (ozus_chain_node ozus.ct ozus.oldcode d) := by
    have := ozus_str_head ozus.ct d ozus.oldcode
    cases hs : ozus_str ozus.ct d ozus.oldcode with
    | nil => rw [hs] at this; simp at this
    | cons x l => rw [hs] at this; simpa using this
  refine ⟨?_, ozus_str_head _ _ _, ?_, ?_, hlv, by rw [hlv]; exact hhead, by rw [hpdc],
    ?_⟩
  · rw [hpdc]
    exact a2.trans (by rw [hstr])
  · rw [hpdc]
    exact ht.ct
  · rw [hpdc]
    exact ht.last_code_added
  · rw [hpdc]
    exact a1.trans h0


/-- Witness for C22: after the first code 65, the code 257 names the unused
slot 257; the entry `{65, 65}` is created and "AA" is written. -/
theorem deferred_entry_output_witness :
    (ozus_process_data_code (ozus_process_data_code ozus_create 65) 257).outf
      = (ozus_process_data_code ozus_create 65).outf
        ++ (ozus_str (ozus_process_data_code ozus_create 65).ct 0
            (ozus_process_data_code ozus_create 65).oldcode
          ++ [ozus_chain_node (ozus_process_data_code ozus_create 65).ct
            (ozus_process_data_code ozus_create 65).oldcode 0]) ∧
    (ozus_process_data_code (ozus_process_data_code ozus_create 65) 257).outf
      = [65, 65, 65] :=
  ⟨(deferred_entry_output (ozus_process_data_code ozus_create 65) 257 0 (by decide)
      (by decide)
      (fun i hi => by
        show (ozus_create_ct i).value = i
        unfold ozus_create_ct
        rw [if_pos hi]
        exact Nat.mod_eq_of_lt (by omega))
      (by decide) (by decide) (by decide) (by decide) (by decide) (by decide) (by decide)
      ⟨257, by decide, by decide, by decide⟩).1,
    by decide⟩

/-- C23, as stated, fails: after the first code 65, the code 300 names an
unused entry; the entry is created in slot 257, not in slot 300, so
`last_code_added = 257` while `oldcode = 300` names an entry that is still
unused. The input bytes 0x41 0x58 0x02 carry the codes 65, 300, and the run
ends without error. -/
theorem deferred_entry_slot_counterexample :
    (ozus_process_data_code ozus_create 65).have_oldcode = true ∧
    ((ozus_process_data_code ozus_create 65).ct 300).parent = OZUS_INVALID_CODE ∧
    (ozus_process_data_code (ozus_process_data_code ozus_create 65) 300).error_code
      = OZUS_ERRCODE_OK ∧
    (ozus_process_data_code (ozus_process_data_code ozus_create 65) 300).last_code_added
      = 257 ∧
    (ozus_process_data_code (ozus_process_data_code ozus_create 65) 300).last_code_added
      ≠ 300 ∧
    (ozus_process_data_code (ozus_process_data_code ozus_create 65) 300).oldcode = 300 ∧
    ((ozus_process_data_code (ozus_process_data_code ozus_create 65) 300).ct 300).parent
      = OZUS_INVALID_CODE ∧
    ∃ r, ozus_run (ozus_setup [0x41, 0x58, 0x02] 0 3 3) = some r ∧
      r.error_code = OZUS_ERRCODE_OK ∧ r.outf = [65, 65, 65] ∧
      r.last_code_added = 257 ∧ r.oldcode = 300 ∧
      (r.ct 300).parent = OZUS_INVALID_CODE :=
  ⟨by decide, by decide, by decide, by decide, by decide, by decide, by decide,
    _, rfl, by decide, by decide, by decide, by decide, by decide⟩

/-- C23, amended: in the deferred-entry case of `ozus_process_data_code` (a
code from 257 on whose entry is unused, `have_oldcode` set, no error pending,
an unused slot from `free_code_search_start` on), the entry is created in the
slot found by `ozus_find_first_free_entry`, so `last_code_added` is that slot
and `oldcode = code` after the step. `last_code_added = code` holds exactly
when `code` is that slot, that is when `free_code_search_start <= code` and
every entry from `free_code_search_start` to `code - 1` is in use; and (with
`oldcode` other than 256 before the step) the new `oldcode` names an entry in
use exactly in that case. -/
theorem deferred_entry_slot (ozus : ozus_ctx) (code : Nat)
    (h0 : ozus.error_code = OZUS_ERRCODE_OK) (hold : ozus.have_oldcode = true)
    (hc1 : 257 ≤ code) (hc2 : code < ozus.ct_arraysize)
    (hcfree : (ozus.ct code).parent = OZUS_INVALID_CODE)
    (holdne : ozus.oldcode ≠ OZUS_INVALID_CODE)
    (hfree : ∃ k, ozus.free_code_search_start ≤ k ∧ k < ozus.ct_arraysize ∧
      (ozus.ct k).parent = OZUS_INVALID_CODE) :
    (ozus_process_data_code ozus code).last_code_added
      = (ozus_find_first_free_entry ozus).2 ∧
    (ozus_process_data_code ozus code).oldcode = code ∧
    ((ozus_process_data_code ozus code).last_code_added = code ↔
      (ozus.free_code_search_start ≤ code ∧
        ∀ i, ozus.free_code_search_start ≤ i → i < code →
          (ozus.ct i).parent ≠ OZUS_INVALID_CODE)) ∧
    (((ozus_process_data_code ozus code).ct
        (ozus_process_data_code ozus code).oldcode).parent ≠ OZUS_INVALID_CODE ↔
      (ozus_process_data_code ozus code).last_code_added = code) := by
  have hpdc := ozus_process_data_code_deferred ozus code h0 hold hc1 hc2 hcfree hfree
  obtain ⟨k, k1, k2, k3⟩ := hfree
  rcases ozus_find_first_free_entry_cases ozus with ⟨_, s2, s3, s4, s5⟩ | ⟨_, b2⟩
  swap
  · exact absurd k3 (b2 k k1 k2)
  have ht := (ozus_emit_code_spec
    { ozus with
      ct := ct_set ozus.ct (ozus_find_first_free_entry ozus).2
        ⟨ozus.oldcode, ozus.last_value,
          (ozus.ct (ozus_find_first_free_entry ozus).2).flags⟩,
      last_code_added := (ozus_find_first_free_entry ozus).2,
      free_code_search_start := (ozus_find_first_free_entry ozus).2 + 1 }
    (ozus_find_first_free_entry ozus).2).2.2.1
  have hlca : (ozus_process_data_code ozus code).last_code_added
      = (ozus_find_first_free_entry ozus).2 := by
    rw [hpdc]; exact ht.last_code_added
  have hold1 : (ozus_process_data_code ozus code).oldcode = code := by rw [hpdc]
  have hct : (ozus_process_data_code ozus code).ct
      = ct_set ozus.ct (ozus_find_first_free_entry ozus).2
        ⟨ozus.oldcode, ozus.last_value,
          (ozus.ct (ozus_find_first_free_entry ozus).2).flags⟩ := by
    rw [hpdc]; exact ht.ct
  refine ⟨hlca, hold1, ?_, ?_⟩
  · rw [hlca]
    constructor
    · intro h
      rw [h] at s2 s5
      exact ⟨s2, s5⟩
    · intro ⟨h1, h2⟩
      by_contra hne
      rcases Nat.lt_or_gt_of_ne hne with hlt | hgt
      · exact h2 _ s2 hlt s4
      · exact s5 _ h1 hgt hcfree
  · rw [hold1, hct, hlca]
    unfold ct_set
    by_cases he : code = (ozus_find_first_free_entry ozus).2
    · rw [if_pos he]
      exact ⟨fun _ => he.symm, fun _ => holdne⟩
    · rw [if_neg he]
      exact ⟨fun h => absurd hcfree h, fun h => absurd h.symm he⟩

/-- Witness for C23: after the first code 65, the code 257 is the slot that
is filled. -/
theorem deferred_entry_slot_witness :
    (ozus_process_data_code (ozus_process_data_code ozus_create 65) 257).last_code_added
      = 257 ∧
    (ozus_process_data_code (ozus_process_data_code ozus_create 65) 257).oldcode = 257 :=
  ⟨((deferred_entry_slot (ozus_process_data_code ozus_create 65) 257 (by decide)
      (by decide) (by decide) (by decide) (by decide) (by decide)
      ⟨257, by decide, by decide, by decide⟩).2.2.1).2
      ⟨by decide, fun i h1 h2 => by
        have h3 : (ozus_process_data_code ozus_create 65).free_code_search_start = 257 := by
          decide
        omega⟩,
    (deferred_entry_slot (ozus_process_data_code ozus_create 65) 257 (by decide)
      (by decide) (by decide) (by decide) (by decide) (by decide)
      ⟨257, by decide, by decide, by decide⟩).2.1⟩


/-! ## The walk of `ozus_emit_code` on any table -/

/-- The walk that meets its first code below 257 after `j` hops, all inside the
table and before `count` reaches `ct_arraysize`, collects the values of the
`j + 1` entries visited and ends by `break`. -/
theorem ozus_emit_loop_stop (j fuel : Nat) (ozus : ozus_ctx) (code count : Nat)
    (hbefore : ∀ i, i < j → 257 ≤ ozus_chain_node ozus.ct code i ∧
      ozus_chain_node ozus.ct code i < ozus.ct_arraysize)
    (hstop : ozus_chain_node ozus.ct code j < 257)
    (hin : ozus_chain_node ozus.ct code j < ozus.ct_arraysize)
    (hcount : count + j + 1 < ozus.ct_arraysize) (hfuel : j < fuel) :
    ozus_emit_loop fuel ozus code count =
      ({ ozus with
          tmpbuf := ozus.tmpbuf ++ ozus_walk_values ozus.ct code (j + 1),
          last_value := (ozus.ct (ozus_chain_node ozus.ct code j)).value }, true) := by
  induction j generalizing fuel ozus code count with
  | zero =>
    obtain ⟨f, hf⟩ : ∃ f, fuel = f + 1 := ⟨fuel - 1, by omega⟩
    have h1 : code < 257 := hstop
    have h2 : code < ozus.ct_arraysize := hin
    rw [hf, ozus_emit_loop, if_neg (by omega)]
    simp only
    rw [if_neg (by omega), if_pos h1]
    rfl
  | succ n ih =>
    obtain ⟨f, hf⟩ : ∃ f, fuel = f + 1 := ⟨fuel - 1, by omega⟩
    have h1 : 257 ≤ code ∧ code < ozus.ct_arraysize := hbefore 0 (by omega)
    rw [hf, ozus_emit_loop, if_neg (by omega)]
    simp only
    rw [if_neg (by omega), if_neg (by omega)]
    rw [ih f { ozus with tmpbuf := ozus.tmpbuf ++ [(ozus.ct code).value] }
      (ozus.ct code).parent (count + 1)
      (fun i hi => by
        have := hbefore (i + 1) (by omega)
        rw [ozus_chain_node_succ_left] at this
        exact this)
      (by rw [ozus_chain_node_succ_left] at hstop; exact hstop)
      (by rw [ozus_chain_node_succ_left] at hin; exact hin)
      (by simp only; omega) (by omega)]
    rw [ozus_chain_node_succ_left]
    simp [ozus_walk_values]

/-- The walk that, before meeting a code below 257, leaves the table or
brings `count` to `ct_arraysize`, returns with an error. -/
theorem ozus_emit_loop_fail (j fuel : Nat) (ozus : ozus_ctx) (code count : Nat)
    (hbefore : ∀ i, i < j → 257 ≤ ozus_chain_node ozus.ct code i)
    (hend : ozus.ct_arraysize ≤ ozus_chain_node ozus.ct code j ∨
      ozus.ct_arraysize ≤ count + j + 1) :
    (ozus_emit_loop fuel ozus code count).2 = false := by
  induction j generalizing fuel ozus code count with
  | zero =>
    cases fuel with
    | zero => rfl
    | succ f =>
      rw [ozus_emit_loop]
      by_cases h1 : code ≥ ozus.ct_arraysize
      · rw [if_pos h1]
      · rw [if_neg h1]
        simp only
        have h2 : ozus.ct_arraysize ≤ count + 1 := by
          rcases hend with h | h
          · exact absurd h h1
          · exact h
        rw [if_pos h2]
  | succ n ih =>
    cases fuel with
    | zero => rfl
    | succ f =>
      rw [ozus_emit_loop]
      by_cases h1 : code ≥ ozus.ct_arraysize
      · rw [if_pos h1]
      · rw [if_neg h1]
        simp only
        by_cases h2 : count + 1 ≥ ozus.ct_arraysize
        · rw [if_pos h2]
        · rw [if_neg h2]
          have h3 : 257 ≤ code := hbefore 0 (by omega)
          rw [if_neg (by omega)]
          exact ih f { ozus with tmpbuf := ozus.tmpbuf ++ [(ozus.ct code).value] }
            (ozus.ct code).parent (count + 1)
            (fun i hi => by
              have := hbefore (i + 1) (by omega)
              rw [ozus_chain_node_succ_left] at this
              exact this)
            (by
              rw [ozus_chain_node_succ_left] at hend
              rcases hend with h | h
              · exact Or.inl h
              · exact Or.inr (by simp only; omega))

/-- `ozus_emit_code` on a walk that meets its first code below 257 after `j`
hops inside the table, with `j + 1 < ct_arraysize`: no error is set, the
values collected are appended to the output in reverse, and `last_value` is
the value of the entry where the walk stopped. -/
theorem ozus_emit_code_stop (ozus : ozus_ctx) (code j : Nat)
    (hsz : 257 ≤ ozus.ct_arraysize)
    (hbefore : ∀ i, i < j → 257 ≤ ozus_chain_node ozus.ct code i ∧
      ozus_chain_node ozus.ct code i < ozus.ct_arraysize)
    (hstop : ozus_chain_node ozus.ct code j < 257)
    (hj : j + 1 < ozus.ct_arraysize) :
    (ozus_emit_code ozus code).error_code = ozus.error_code ∧
    (ozus_emit_code ozus code).outf
      = ozus.outf ++ (ozus_walk_values ozus.ct code (j + 1)).reverse ∧
    (ozus_emit_code ozus code).last_value
      = (ozus.ct (ozus_chain_node ozus.ct code j)).value := by
  have hloop := ozus_emit_loop_stop j ozus.ct_arraysize { ozus with tmpbuf := [] } code 0
    hbefore hstop (by show ozus_chain_node ozus.ct code j < ozus.ct_arraysize; omega)
    (by simp only; omega) (by omega)
  unfold ozus_emit_code
  simp only
  rw [hloop]
  simp only [Bool.true_eq_false, if_false, List.nil_append]
  obtain ⟨_, _, _, c4, c5, _, c7⟩ := ozus_emit_writeout_spec
    (ozus_walk_values ozus.ct code (j + 1)).length
    { ozus with
      tmpbuf := ozus_walk_values ozus.ct code (j + 1),
      last_value := (ozus.ct (ozus_chain_node ozus.ct code j)).value } (le_refl _)
  refine ⟨c4, ?_, c5⟩
  rw [c7]
  simp only [List.take_length]

/-- `ozus_emit_code` on a walk that leaves the table, or takes `ct_arraysize`
entries, before meeting a code below 257: `GENERIC_ERROR`. -/
theorem ozus_emit_code_fail (ozus : ozus_ctx) (code j : Nat)
    (hbefore : ∀ i, i < j → 257 ≤ ozus_chain_node ozus.ct code i)
    (hend : ozus.ct_arraysize ≤ ozus_chain_node ozus.ct code j ∨
      ozus.ct_arraysize ≤ j + 1) :
    (ozus_emit_code ozus code).error_code = OZUS_ERRCODE_GENERIC_ERROR := by
  have hloop := ozus_emit_loop_fail j ozus.ct_arraysize { ozus with tmpbuf := [] } code 0
    hbefore (by
      rcases hend with h | h
      · exact Or.inl h
      · exact Or.inr (by simp only; omega))
  have hspec := (ozus_emit_loop_spec ozus.ct_arraysize { ozus with tmpbuf := [] } code
    0).2.2.2.2.2 hloop
  unfold ozus_emit_code
  simp only
  rw [if_pos hloop]
  exact hspec

/-- The two ways a walk can go: it meets a first code below 257 after fewer
than `ct_arraysize - 1` hops inside the table, or before that it leaves the
table or takes `ct_arraysize` entries. -/
theorem ozus_walk_cases (ct : Nat → ozus_tableentry) (size code : Nat) (hsz : 257 ≤ size) :
    (∃ j, j + 1 < size ∧ ozus_chain_node ct code j < 257 ∧
      ∀ i, i < j → 257 ≤ ozus_chain_node ct code i ∧ ozus_chain_node ct code i < size) ∨
    (∃ j, j < size ∧
      (∀ i, i < j → 257 ≤ ozus_chain_node ct code i ∧ ozus_chain_node ct code i < size) ∧
      (size ≤ ozus_chain_node ct code j ∨ size ≤ j + 1)) := by
  by_cases hall : ∀ i, i + 1 < size →
      257 ≤ ozus_chain_node ct code i ∧ ozus_chain_node ct code i < size
  · exact Or.inr ⟨size - 1, by omega, fun i hi => hall i (by omega), Or.inr (by omega)⟩
  · have hex : ∃ i, i + 1 < size ∧
        ¬ (257 ≤ ozus_chain_node ct code i ∧ ozus_chain_node ct code i < size) := by
      by_contra hno
      apply hall
      intro i hi
      by_contra hout
      exact hno ⟨i, hi, hout⟩
    have hspec := Nat.find_spec hex
    have hmin : ∀ i, i < Nat.find hex →
        257 ≤ ozus_chain_node ct code i ∧ ozus_chain_node ct code i < size := by
      intro i hi
      by_contra hout
      exact Nat.find_min hex hi ⟨by omega, hout⟩
    by_cases hlow : ozus_chain_node ct code (Nat.find hex) < 257
    · exact Or.inl ⟨Nat.find hex, hspec.1, hlow, hmin⟩
    · exact Or.inr ⟨Nat.find hex, by omega, hmin, Or.inl (by
        have := hspec.2
        omega)⟩

/-- Pigeonhole on a walk: among more entries from 257 on inside the table than
there are such entries, two are the same. -/
theorem ozus_walk_repeat (ct : Nat → ozus_tableentry) (size code m : Nat)
    (hin : ∀ i, i ≤ m → 257 ≤ ozus_chain_node ct code i ∧ ozus_chain_node ct code i < size)
    (hm : size ≤ m + 257) :
    ∃ a b, a < b ∧ b ≤ m ∧ ozus_chain_node ct code a = ozus_chain_node ct code b := by
  have hcard : (Finset.Ico 257 size).card < (Finset.range (m + 1)).card := by
    simp only [Finset.card_range, Nat.card_Ico]
    have := (hin 0 (by omega))
    omega
  obtain ⟨x, hx, y, hy, hne, hxy⟩ := Finset.exists_ne_map_eq_of_card_lt_of_maps_to hcard
    (fun i hi => by
      simp only [Finset.coe_range, Finset.mem_range] at hi
      simp only [Finset.mem_Ico]
      exact hin i (by omega))
  simp only [Finset.mem_range] at hx hy
  rcases Nat.lt_or_gt_of_ne hne with hlt | hgt
  · exact ⟨x, y, hlt, by omega, hxy⟩
  · exact ⟨y, x, hgt, by omega, hxy.symm⟩

/-- A walk that comes back to an entry it has visited, with no code below 257
up to there, never meets a code below 257. -/
theorem ozus_walk_cycle (ct : Nat → ozus_tableentry) (code a b : Nat) (hab : a < b)
    (heq : ozus_chain_node ct code a = ozus_chain_node ct code b)
    (hbefore : ∀ i, i < b → 257 ≤ ozus_chain_node ct code i) :
    ∀ j, 257 ≤ ozus_chain_node ct code j := by
  intro j
  induction j using Nat.strong_induction_on with
  | _ j ih =>
    by_cases hj : j < b
    · exact hbefore j hj
    · have h1 : ozus_chain_node ct code j = ozus_chain_node ct code (a + (j - b)) := by
        have h2 : j = b + (j - b) := by omega
        rw [ozus_chain_node_add ct code a, heq, ← ozus_chain_node_add, ← h2]
      rw [h1]
      exact ih (a + (j - b)) (by omega)


/-- C26, emit fails exactly on a bad code or an over-long walk: in a table of
8192 entries whose parent fields are all below 8192, `ozus_emit_code`, called
with no error pending, sets `GENERIC_ERROR` if and only if the code is not
below 8192 or the walk from the code along the parent links takes more than
8192 steps without meeting a stopping code (a code below 257), which is the
case exactly when it never meets one; in every other case it sets no error,
and it has written the values of the entries visited, last one first, and set
`last_value` to the value of the stopping entry. -/
theorem emit_fails_exactly (ozus : ozus_ctx) (code : Nat)
    (h0 : ozus.error_code = OZUS_ERRCODE_OK) (hsz : ozus.ct_arraysize = 8192)
    (hpar : ∀ i, i < 8192 → (ozus.ct i).parent < 8192) :
    ((ozus_emit_code ozus code).error_code = OZUS_ERRCODE_GENERIC_ERROR ↔
      (8192 ≤ code ∨ ∀ j, j ≤ 8192 → 257 ≤ ozus_chain_node ozus.ct code j)) ∧
    ((ozus_emit_code ozus code).error_code = OZUS_ERRCODE_GENERIC_ERROR ↔
      (8192 ≤ code ∨ ∀ j, 257 ≤ ozus_chain_node ozus.ct code j)) ∧
    ((ozus_emit_code ozus code).error_code ≠ OZUS_ERRCODE_GENERIC_ERROR →
      (ozus_emit_code ozus code).error_code = OZUS_ERRCODE_OK ∧
      ∃ j, j < 8191 ∧ ozus_chain_node ozus.ct code j < 257 ∧
        (∀ i, i < j → 257 ≤ ozus_chain_node ozus.ct code i) ∧
        (ozus_emit_code ozus code).outf
          = ozus.outf ++ (ozus_walk_values ozus.ct code (j + 1)).reverse ∧
        (ozus_emit_code ozus code).last_value
          = (ozus.ct (ozus_chain_node ozus.ct code j)).value) := by
  by_cases hc : 8192 ≤ code
  · have herr := ozus_emit_code_fail ozus code 0 (fun i hi => absurd hi (Nat.not_lt_zero i))
      (Or.inl (by rw [hsz]; exact hc))
    exact ⟨⟨fun _ => Or.inl hc, fun _ => herr⟩, ⟨fun _ => Or.inl hc, fun _ => herr⟩,
      fun h => absurd herr h⟩
  have hnodes : ∀ j, ozus_chain_node ozus.ct code j < 8192 := by
    intro j
    induction j with
    | zero => exact Nat.lt_of_not_le hc
    | succ n ih => exact hpar _ ih
  rcases ozus_walk_cases ozus.ct ozus.ct_arraysize code (by omega) with
    ⟨j, j1, j2, j3⟩ | ⟨j, j1, j2, j3⟩
  · obtain ⟨a1, a2, a3⟩ := ozus_emit_code_stop ozus code j (by omega) j3 j2 j1
    have hok : (ozus_emit_code ozus code).error_code = OZUS_ERRCODE_OK := a1.trans h0
    have hne : (ozus_emit_code ozus code).error_code ≠ OZUS_ERRCODE_GENERIC_ERROR := by
      rw [hok]; decide
    refine ⟨⟨fun h => absurd h hne, fun h => ?_⟩, ⟨fun h => absurd h hne, fun h => ?_⟩,
      fun _ => ⟨hok, j, by omega, j2, fun i hi => (j3 i hi).1, a2, a3⟩⟩
    · rcases h with h | h
      · exact absurd h hc
      · have := h j (by omega)
        omega
    · rcases h with h | h
      · exact absurd h hc
      · have := h j
        omega
  · have herr := ozus_emit_code_fail ozus code j (fun i hi => (j2 i hi).1) j3
    have hj : j = 8191 := by
      rcases j3 with h | h
      · have := hnodes j
        omega
      · omega
    have hin : ∀ i, i ≤ 8190 → 257 ≤ ozus_chain_node ozus.ct code i ∧
        ozus_chain_node ozus.ct code i < 8192 :=
      fun i hi => ⟨(j2 i (by omega)).1, hnodes i⟩
    obtain ⟨a, b, hab, hb, heq⟩ := ozus_walk_repeat ozus.ct 8192 code 8190 hin (by omega)
    have hall := ozus_walk_cycle ozus.ct code a b hab heq (fun i hi => (hin i (by omega)).1)
    exact ⟨⟨fun _ => Or.inr (fun i _ => hall i), fun _ => herr⟩,
      ⟨fun _ => Or.inr hall, fun _ => herr⟩, fun h => absurd herr h⟩

/-- Witness for C26: on the table of `ozus_create`, the code 65 is written
without error, and no walk from it goes on for ever. -/
theorem emit_fails_exactly_witness :
    ((ozus_emit_code ozus_create 65).error_code = OZUS_ERRCODE_GENERIC_ERROR ↔
      (8192 ≤ 65 ∨ ∀ j, j ≤ 8192 → 257 ≤ ozus_chain_node ozus_create.ct 65 j)) ∧
    (ozus_emit_code ozus_create 65).error_code = OZUS_ERRCODE_OK :=
  ⟨(emit_fails_exactly ozus_create 65 rfl rfl (fun i _ => by
      show (ozus_create_ct i).parent < 8192
      unfold ozus_create_ct
      split <;> exact (show (256 : Nat) < 8192 by decide))).1, by decide⟩

/-- C27, the chain-length guard never rejects an acyclic chain: in a table of
8192 entries, a stretch of a walk that stays on entries from 257 on inside the
table and visits none twice has at most 7935 entries, so with the entry
after it at most 7936 values are collected, fewer than 8192; and when
`ozus_emit_code`, called with no error pending, sets `GENERIC_ERROR` on a walk
whose first 8192 entries all lie inside the table (so that the range guard
has not fired and the count guard has), the walk comes back to an entry it
has visited, before any code below 257. -/
theorem count_guard_only_on_cycle (ozus : ozus_ctx) (code : Nat)
    (h0 : ozus.error_code = OZUS_ERRCODE_OK) (hsz : ozus.ct_arraysize = 8192) :
    (∀ m, (∀ i, i < m → 257 ≤ ozus_chain_node ozus.ct code i ∧
          ozus_chain_node ozus.ct code i < 8192) →
        (∀ a b, a < b → b < m →
          ozus_chain_node ozus.ct code a ≠ ozus_chain_node ozus.ct code b) →
        m ≤ 7935 ∧ m + 1 < 8192) ∧
    ((ozus_emit_code ozus code).error_code = OZUS_ERRCODE_GENERIC_ERROR →
      (∀ j, j ≤ 8191 → ozus_chain_node ozus.ct code j < 8192) →
      ∃ a b, a < b ∧ b ≤ 7935 ∧
        ozus_chain_node ozus.ct code a = ozus_chain_node ozus.ct code b ∧
        ∀ i, i ≤ b → 257 ≤ ozus_chain_node ozus.ct code i) := by
  constructor
  · intro m hin hdist
    by_contra hm
    have hm1 : 7936 ≤ m := by omega
    obtain ⟨a, b, hab, hb, heq⟩ := ozus_walk_repeat ozus.ct 8192 code 7935
      (fun i hi => hin i (by omega)) (by omega)
    exact hdist a b hab (by omega) heq
  · intro herr hnodes
    rcases ozus_walk_cases ozus.ct ozus.ct_arraysize code (by omega) with
      ⟨j, j1, j2, j3⟩ | ⟨j, j1, j2, j3⟩
    · obtain ⟨a1, _, _⟩ := ozus_emit_code_stop ozus code j (by omega) j3 j2 j1
      rw [a1, h0] at herr
      exact absurd herr (by decide)
    · have hj : j = 8191 := by
        rcases j3 with h | h
        · have := hnodes j (by omega)
          omega
        · omega
      obtain ⟨a, b, hab, hb, heq⟩ := ozus_walk_repeat ozus.ct 8192 code 7935
        (fun i hi => ⟨(j2 i (by omega)).1, hnodes i (by omega)⟩) (by omega)
      exact ⟨a, b, hab, hb, heq, fun i hi => (j2 i (by omega)).1⟩

/-- Witness for C27: with entry 257 its own parent, `ozus_emit_code` on 257
sets `GENERIC_ERROR`, and the walk is back on 257 after one hop. -/
theorem count_guard_only_on_cycle_witness :
    (ozus_emit_code { ozus_create with ct := ct_set ozus_create_ct 257 ⟨257, 67, 0⟩ }
      257).error_code = OZUS_ERRCODE_GENERIC_ERROR ∧
    ∃ a b, a < b ∧ b ≤ 7935 ∧
      ozus_chain_node (ct_set ozus_create_ct 257 ⟨257, 67, 0⟩) 257 a
        = ozus_chain_node (ct_set ozus_create_ct 257 ⟨257, 67, 0⟩) 257 b ∧
      ∀ i, i ≤ b → 257 ≤ ozus_chain_node (ct_set ozus_create_ct 257 ⟨257, 67, 0⟩) 257 i := by
  have hn : ∀ i, ozus_chain_node (ct_set ozus_create_ct 257 ⟨257, 67, 0⟩) 257 i = 257 := by
    intro i
    induction i with
    | zero => rfl
    | succ n ih =>
      show (ct_set ozus_create_ct 257 ⟨257, 67, 0⟩
        (ozus_chain_node (ct_set ozus_create_ct 257 ⟨257, 67, 0⟩) 257 n)).parent = 257
      rw [ih]
      rfl
  have herr : (ozus_emit_code { ozus_create with ct := ct_set ozus_create_ct 257 ⟨257, 67, 0⟩ }
      257).error_code = OZUS_ERRCODE_GENERIC_ERROR :=
    ozus_emit_code_fail _ 257 8191
      (fun i _ => le_of_eq (hn i).symm) (Or.inr (le_refl 8192))
  exact ⟨herr,
    (count_guard_only_on_cycle { ozus_create with ct := ct_set ozus_create_ct 257 ⟨257, 67, 0⟩ }
      257 rfl rfl).2 herr (fun j _ => by
        show ozus_chain_node (ct_set ozus_create_ct 257 ⟨257, 67, 0⟩) 257 j < 8192
        rw [hn j]
        decide)⟩


/-! ## Parent chains under `ozus_partial_clear` -/

/-- An entry from 257 on after `ozus_partial_clear`: it keeps parent and value
when an entry in use names it as parent, and in any case it either keeps
parent and value or is unused. -/
theorem ozus_partial_clear_entry (ozus : ozus_ctx) (i : Nat)
    (h1 : 257 ≤ i) (h2 : i < ozus.ct_arraysize) :
    ((∃ j, 257 ≤ j ∧ j < ozus.ct_arraysize ∧ (ozus.ct j).parent ≠ OZUS_INVALID_CODE ∧
        (ozus.ct j).parent = i) →
      ((ozus_partial_clear ozus).ct i).parent = (ozus.ct i).parent ∧
      ((ozus_partial_clear ozus).ct i).value = (ozus.ct i).value) ∧
    ((((ozus_partial_clear ozus).ct i).parent = (ozus.ct i).parent ∧
        ((ozus_partial_clear ozus).ct i).value = (ozus.ct i).value) ∨
      ((ozus_partial_clear ozus).ct i).parent = OZUS_INVALID_CODE) := by
  have hrange : 257 + (ozus.ct_arraysize - 257) = ozus.ct_arraysize := by omega
  have hsw := (ozus_partial_clear_sweep_spec (ozus.ct_arraysize - 257) 257
    (ozus_partial_clear_mark (ozus.ct_arraysize - 257) 257 ozus.ct) i).1 ⟨h1, by omega⟩
  obtain ⟨m1, m2, m3, _⟩ :=
    ozus_partial_clear_mark_spec (ozus.ct_arraysize - 257) 257 ozus.ct i
  rw [hrange] at m3
  have hpc : (ozus_partial_clear ozus).ct i =
      ozus_partial_clear_sweep (ozus.ct_arraysize - 257) 257
        (ozus_partial_clear_mark (ozus.ct_arraysize - 257) 257 ozus.ct) i := by
    unfold ozus_partial_clear; simp only
  have hval := hpc.trans hsw
  have hkept : ¬ (ozus_partial_clear_mark (ozus.ct_arraysize - 257) 257 ozus.ct i).flags = 0 →
      ((ozus_partial_clear ozus).ct i).parent = (ozus.ct i).parent ∧
      ((ozus_partial_clear ozus).ct i).value = (ozus.ct i).value := by
    intro hne
    rw [if_neg hne] at hval
    have hp := congrArg ozus_tableentry.parent hval
    have hv := congrArg ozus_tableentry.value hval
    simp only at hp hv
    exact ⟨hp.trans m1, hv.trans m2⟩
  refine ⟨fun hex => hkept (by rw [m3 hex]; exact Nat.one_ne_zero), ?_⟩
  by_cases hf : (ozus_partial_clear_mark (ozus.ct_arraysize - 257) 257 ozus.ct i).flags = 0
  · right
    rw [if_pos hf] at hval
    have hp := congrArg ozus_tableentry.parent hval
    simp only at hp
    exact hp
  · exact Or.inl (hkept hf)

/-- A chain that reaches a root in the table `ct` is the same chain, with the
same string, in a table `ct1` in which its first entry (when it is not a
root) and every entry named as parent by an entry in use keep parent and
value. -/
theorem ozus_reaches_root_kept (ct ct1 : Nat → ozus_tableentry) (size : Nat)
    (hparent : ∀ i j, 257 ≤ j → j < size → (ct j).parent ≠ OZUS_INVALID_CODE →
      (ct j).parent = i → 257 ≤ i → i < size →
      (ct1 i).parent = (ct i).parent ∧ (ct1 i).value = (ct i).value)
    (d i : Nat) (hr : ozus_reaches_root ct size d i)
    (hkeep : i < 257 ∨ ((ct1 i).parent = (ct i).parent ∧ (ct1 i).value = (ct i).value)) :
    ozus_reaches_root ct1 size d i ∧ ozus_str ct1 d i = ozus_str ct d i ∧
    ozus_chain_node ct1 i d = ozus_chain_node ct i d := by
  induction d generalizing i with
  | zero => exact ⟨hr, rfl, rfl⟩
  | succ n ih =>
    obtain ⟨h1, h2, h3, h4⟩ := hr
    have hk : (ct1 i).parent = (ct i).parent ∧ (ct1 i).value = (ct i).value := by
      rcases hkeep with h | h
      · omega
      · exact h
    have hpk : (ct i).parent < 257 ∨
        ((ct1 (ct i).parent).parent = (ct (ct i).parent).parent ∧
          (ct1 (ct i).parent).value = (ct (ct i).parent).value) := by
      cases n with
      | zero =>
        have : (ct i).parent < 256 := h4
        exact Or.inl (by omega)
      | succ m => exact Or.inr (hparent (ct i).parent i h1 h2 h3 rfl h4.1 h4.2.1)
    obtain ⟨i1, i2, i3⟩ := ih (ct i).parent h4 hpk
    refine ⟨⟨h1, h2, ?_, ?_⟩, ?_, ?_⟩
    · rw [hk.1]; exact h3
    · rw [hk.1]; exact i1
    · show ozus_str ct1 n (ct1 i).parent ++ [(ct1 i).value]
        = ozus_str ct n (ct i).parent ++ [(ct i).value]
      rw [hk.1, hk.2, i2]
    · rw [ozus_chain_node_succ_left, ozus_chain_node_succ_left, hk.1, i3]

/-- A chain that reaches a root from a root or from an entry that keeps parent
and value in `ozus_partial_clear` is the same chain afterwards, with the same
string. -/
theorem ozus_partial_clear_chain (ozus : ozus_ctx) (d i : Nat)
    (hr : ozus_reaches_root ozus.ct ozus.ct_arraysize d i)
    (hkeep : i < 257 ∨
      (((ozus_partial_clear ozus).ct i).parent = (ozus.ct i).parent ∧
        ((ozus_partial_clear ozus).ct i).value = (ozus.ct i).value)) :
    ozus_reaches_root (ozus_partial_clear ozus).ct ozus.ct_arraysize d i ∧
    ozus_str (ozus_partial_clear ozus).ct d i = ozus_str ozus.ct d i ∧
    ozus_chain_node (ozus_partial_clear ozus).ct i d = ozus_chain_node ozus.ct i d :=
  ozus_reaches_root_kept ozus.ct (ozus_partial_clear ozus).ct ozus.ct_arraysize
    (fun i j j1 j2 j3 j4 i1 i2 => (ozus_partial_clear_entry ozus i i1 i2).1 ⟨j, j1, j2, j3, j4⟩)
    d i hr hkeep

/-- `ozus_partial_clear` keeps every parent chain that reaches a root. -/
theorem ozus_partial_clear_chains_ok (ozus : ozus_ctx)
    (hok : ozus_chains_ok ozus.ct ozus.ct_arraysize) :
    ozus_chains_ok (ozus_partial_clear ozus).ct ozus.ct_arraysize := by
  intro i h1 h2 h3
  rcases (ozus_partial_clear_entry ozus i h1 h2).2 with hk | hc
  · obtain ⟨d, hd⟩ := hok i h1 h2 (fun h => h3 (hk.1.trans h))
    exact ⟨d, (ozus_partial_clear_chain ozus d i hd (Or.inr hk)).1⟩
  · exact absurd hc h3


/-- C25, partial clear leaves no dangling chain: if before
`ozus_partial_clear` the parent chain of every entry in use from 257 on
reaches a root through entries in use, the same holds afterwards; and every
entry in use afterwards has kept parent and value, its chain and its string
are the same as before, and (in a table whose roots hold their own index)
`ozus_emit_code` of it writes the same bytes before and after the clear. -/
theorem partial_clear_no_dangling (ozus : ozus_ctx)
    (hok : ozus_chains_ok ozus.ct ozus.ct_arraysize) :
    ozus_chains_ok (ozus_partial_clear ozus).ct ozus.ct_arraysize ∧
    (∀ i, 257 ≤ i → i < ozus.ct_arraysize →
      ((ozus_partial_clear ozus).ct i).parent ≠ OZUS_INVALID_CODE →
      ((ozus_partial_clear ozus).ct i).parent = (ozus.ct i).parent ∧
      ((ozus_partial_clear ozus).ct i).value = (ozus.ct i).value ∧
      ∃ d, ozus_reaches_root ozus.ct ozus.ct_arraysize d i ∧
        ozus_reaches_root (ozus_partial_clear ozus).ct ozus.ct_arraysize d i ∧
        ozus_str (ozus_partial_clear ozus).ct d i = ozus_str ozus.ct d i ∧
        ((∀ r, r < 256 → (ozus.ct r).value = r) →
          (ozus_emit_code ozus i).outf = ozus.outf ++ ozus_str ozus.ct d i ∧
          (ozus_emit_code (ozus_partial_clear ozus) i).outf
            = ozus.outf ++ ozus_str ozus.ct d i ∧
          (ozus_emit_code ozus i).error_code = ozus.error_code ∧
          (ozus_emit_code (ozus_partial_clear ozus) i).error_code = ozus.error_code)) := by
  refine ⟨ozus_partial_clear_chains_ok ozus hok, fun i h1 h2 h3 => ?_⟩
  rcases (ozus_partial_clear_entry ozus i h1 h2).2 with hk | hc
  swap
  · exact absurd hc h3
  obtain ⟨d, hd⟩ := hok i h1 h2 (fun h => h3 (hk.1.trans h))
  obtain ⟨c1, c2, _⟩ := ozus_partial_clear_chain ozus d i hd (Or.inr hk)
  refine ⟨hk.1, hk.2, d, hd, c1, c2, fun hroots => ?_⟩
  have hdepth := ozus_reaches_root_depth _ _ _ _ hd
  obtain ⟨f1, _, f3, f4, _, f6⟩ := ozus_partial_clear_frame ozus
  obtain ⟨a1, a2, _⟩ := ozus_emit_code_chain ozus i d hroots hd h2 (by omega)
  have hroots1 : ∀ r, r < 256 → ((ozus_partial_clear ozus).ct r).value = r :=
    fun r hr => ((f6 r (by omega)).2).trans (hroots r hr)
  obtain ⟨b1, b2, _⟩ := ozus_emit_code_chain (ozus_partial_clear ozus) i d hroots1 c1 h2
    (by
      have : (ozus_partial_clear ozus).ct_arraysize = ozus.ct_arraysize := f1.ct_arraysize
      omega)
  exact ⟨a2, b2.trans (by rw [f3, c2]), a1, b1.trans f4⟩

/-- Witness for C25: in the table with entries 257 = `{65, 66}` and
258 = `{257, 67}` every chain reaches a root, and so it is after the clear. -/
theorem partial_clear_no_dangling_witness :
    ozus_chains_ok
      (ozus_partial_clear
        { ozus_create with
          ct := ct_set (ct_set ozus_create_ct 257 ⟨65, 66, 0⟩) 258 ⟨257, 67, 0⟩ }).ct
      8192 :=
  (partial_clear_no_dangling
    { ozus_create with
      ct := ct_set (ct_set ozus_create_ct 257 ⟨65, 66, 0⟩) 258 ⟨257, 67, 0⟩ }
    (fun i h1 _ h3 => by
      by_cases e1 : i = 258
      · exact ⟨2, by rw [e1]; decide⟩
      · by_cases e2 : i = 257
        · exact ⟨1, by rw [e2]; decide⟩
        · exfalso
          apply h3
          show (ct_set (ct_set ozus_create_ct 257 ⟨65, 66, 0⟩) 258 ⟨257, 67, 0⟩ i).parent
            = OZUS_INVALID_CODE
          unfold ct_set
          rw [if_neg e1, if_neg e2]
          unfold ozus_create_ct
          split <;> rfl)).1


/-! ## Parent chains along a run -/

/-- Filling an unused slot from 257 on with a parent whose chain reaches a
root keeps every chain reaching a root. -/
theorem ozus_chains_ok_set (ct : Nat → ozus_tableentry) (size slot : Nat)
    (e : ozus_tableentry) (hok : ozus_chains_ok ct size)
    (hfree : (ct slot).parent = OZUS_INVALID_CODE) (h1 : 257 ≤ slot) (h2 : slot < size)
    (hp : ∃ d, ozus_reaches_root ct size d e.parent) :
    ozus_chains_ok (ct_set ct slot e) size := by
  intro i i1 i2 i3
  by_cases he : i = slot
  · obtain ⟨d, hd⟩ := hp
    have hself : ct_set ct slot e slot = e := by
      unfold ct_set
      rw [if_pos rfl]
    refine ⟨d + 1, ?_⟩
    rw [he]
    rw [he, hself] at i3
    exact ⟨h1, h2, by rw [hself]; exact i3,
      by rw [hself]; exact (ozus_reaches_root_set ct size slot e hfree d e.parent hd).1⟩
  · have hct : ct_set ct slot e i = ct i := by
      unfold ct_set
      rw [if_neg he]
    rw [hct] at i3
    obtain ⟨d, hd⟩ := hok i i1 i2 i3
    exact ⟨d, (ozus_reaches_root_set ct size slot e hfree d i hd).1⟩

/-- `ozus_add_to_dict` with a parent whose chain reaches a root keeps every
chain reaching a root. -/
theorem ozus_add_to_dict_chains_ok (ozus : ozus_ctx) (parent value : Nat)
    (hok : ozus_chains_ok ozus.ct ozus.ct_arraysize)
    (hstart : 257 ≤ ozus.free_code_search_start)
    (hp : ∃ d, ozus_reaches_root ozus.ct ozus.ct_arraysize d parent) :
    ozus_chains_ok (ozus_add_to_dict ozus parent value).ct ozus.ct_arraysize := by
  by_cases he : (ozus_add_to_dict ozus parent value).error_code = 0
  · obtain ⟨_, a2, a3, _, a5, _, a7⟩ := (ozus_add_to_dict_spec ozus parent value).1 he
    rw [a7]
    exact ozus_chains_ok_set ozus.ct ozus.ct_arraysize _ _ hok a5 (by omega) a3 hp
  · rw [((ozus_add_to_dict_spec ozus parent value).2 he).1]
    exact hok

/-- `ozus_process_data_code` on a context whose `oldcode` names a root or an
entry in use keeps every chain reaching a root. -/
theorem ozus_process_data_code_chains_ok (ozus : ozus_ctx) (code : Nat)
    (hok : ozus_chains_ok ozus.ct ozus.ct_arraysize)
    (hstart : 257 ≤ ozus.free_code_search_start)
    (hlive : ozus_oldcode_live ozus) :
    ozus_chains_ok (ozus_process_data_code ozus code).ct ozus.ct_arraysize := by
  have hold : ozus.have_oldcode ≠ false →
      ∃ d, ozus_reaches_root ozus.ct ozus.ct_arraysize d ozus.oldcode := by
    intro h
    rcases hlive (by simpa using h) with h1 | ⟨h1, h2, h3⟩
    · exact ⟨0, h1⟩
    · exact hok _ h1 h2 h3
  unfold ozus_process_data_code
  by_cases h1 : code ≥ ozus.ct_arraysize
  · rw [if_pos h1]; exact hok
  rw [if_neg h1]
  by_cases h2 : ozus.have_oldcode = false
  · rw [if_pos h2]
    show ozus_chains_ok (ozus_emit_code ozus code).ct ozus.ct_arraysize
    rw [(ozus_emit_code_spec ozus code).2.2.1.ct]
    exact hok
  rw [if_neg h2]
  by_cases h3 : code < 256 ∨ (ozus.ct code).parent ≠ OZUS_INVALID_CODE
  · rw [if_pos h3]
    have ht := (ozus_emit_code_spec ozus code).2.2.1
    have hp := (ozus_emit_code_spec ozus code).1
    simp only
    by_cases h4 : (ozus_emit_code ozus code).error_code ≠ 0
    · rw [if_pos h4, ht.ct]; exact hok
    · rw [if_neg h4]
      have := ozus_add_to_dict_chains_ok (ozus_emit_code ozus code)
        (ozus_emit_code ozus code).oldcode (ozus_emit_code ozus code).last_value
        (by rw [ht.ct, hp.ct_arraysize]; exact hok)
        (by rw [ht.free_code_search_start]; exact hstart)
        (by rw [ht.ct, hp.ct_arraysize, ht.oldcode]; exact hold h2)
      rw [hp.ct_arraysize] at this
      exact this
  · rw [if_neg h3]
    simp only
    have ha := ozus_add_to_dict_chains_ok ozus ozus.oldcode ozus.last_value hok hstart
      (hold h2)
    by_cases h4 : (ozus_add_to_dict ozus ozus.oldcode ozus.last_value).error_code ≠ 0
    · rw [if_pos h4]; exact ha
    · rw [if_neg h4]
      have ht := (ozus_emit_code_spec (ozus_add_to_dict ozus ozus.oldcode ozus.last_value)
        (ozus_add_to_dict ozus ozus.oldcode ozus.last_value).last_code_added).2.2.1
      show ozus_chains_ok (ozus_emit_code (ozus_add_to_dict ozus ozus.oldcode ozus.last_value)
        (ozus_add_to_dict ozus ozus.oldcode ozus.last_value).last_code_added).ct
        ozus.ct_arraysize
      rw [ht.ct]
      exact ha

/-- A round of the loop started with `oldcode` naming a root or an entry in
use keeps every chain reaching a root, whichever way it ends. -/
theorem ozus_run_round_chains_ok (ozus : ozus_ctx) (w : Nat)
    (hok : ozus_chains_ok ozus.ct ozus.ct_arraysize)
    (hstart : 257 ≤ ozus.free_code_search_start)
    (hlive : ozus_oldcode_live ozus) :
    ozus_chains_ok (ozus_round_ctx (ozus_run_round ozus w)).ct ozus.ct_arraysize := by
  have g1 := ozus_bitreader_getbits_dict ozus w
  have g2 := ozus_bitreader_getbits_dict (ozus_bitreader_getbits ozus w).1 w
  have gp := (ozus_bitreader_getbits_params ozus w).ct_arraysize
  have gp2 := (ozus_bitreader_getbits_params (ozus_bitreader_getbits ozus w).1 w).ct_arraysize
  have hlive1 : ozus_oldcode_live (ozus_bitreader_getbits ozus w).1 := by
    unfold ozus_oldcode_live
    rw [g1.have_oldcode, g1.oldcode, g1.ct, gp]
    exact hlive
  have hp := ozus_process_data_code_chains_ok (ozus_bitreader_getbits ozus w).1
    (ozus_bitreader_getbits ozus w).2 (by rw [g1.ct, gp]; exact hok)
    (by rw [g1.free_code_search_start]; exact hstart) hlive1
  rw [gp] at hp
  have hpc := ozus_partial_clear_chains_ok
    (ozus_bitreader_getbits (ozus_bitreader_getbits ozus w).1 w).1
    (by rw [g2.ct, g1.ct, gp2, gp]; exact hok)
  rw [gp2, gp] at hpc
  suffices hs : ∀ o, ozus_round_ctx (ozus_run_round ozus w) = o →
      ozus_chains_ok o.ct ozus.ct_arraysize from hs _ rfl
  intro o ho
  rcases ozus_run_round_cases ozus w with
    ⟨_, e⟩ | ⟨_, _, e⟩ | ⟨_, _, _, _, e⟩ | ⟨_, _, _, _, _, _, e⟩ | ⟨_, _, _, _, _, _, e⟩ |
    ⟨_, _, _, _, _, _, e⟩ | ⟨_, _, _, _, e⟩ | ⟨_, _, _, _, e⟩
  · rw [e] at ho
    have ho1 : ozus = o := ho
    rw [← ho1]; exact hok
  · rw [e] at ho
    have ho1 : (ozus_bitreader_getbits ozus w).1 = o := ho
    rw [← ho1, g1.ct]; exact hok
  · rw [e] at ho
    have ho1 : (ozus_bitreader_getbits (ozus_bitreader_getbits ozus w).1 w).1 = o := ho
    rw [← ho1, g2.ct, g1.ct]; exact hok
  · rw [e] at ho
    have ho1 : (ozus_bitreader_getbits (ozus_bitreader_getbits ozus w).1 w).1 = o := ho
    rw [← ho1, g2.ct, g1.ct]; exact hok
  · rw [e] at ho
    have ho1 : ozus_partial_clear
      (ozus_bitreader_getbits (ozus_bitreader_getbits ozus w).1 w).1 = o := ho
    rw [← ho1]; exact hpc
  · rw [e] at ho
    have ho1 : o.ct
        = (ozus_bitreader_getbits (ozus_bitreader_getbits ozus w).1 w).1.ct := by
      rw [← ho]; rfl
    rw [ho1, g2.ct, g1.ct]; exact hok
  · rw [e] at ho
    have ho1 : ozus_process_data_code (ozus_bitreader_getbits ozus w).1
      (ozus_bitreader_getbits ozus w).2 = o := ho
    rw [← ho1]; exact hp
  · rw [e] at ho
    have ho1 : ozus_process_data_code (ozus_bitreader_getbits ozus w).1
      (ozus_bitreader_getbits ozus w).2 = o := ho
    rw [← ho1]; exact hp


/-- C24, as stated, fails: the input bytes 0x41 0x58 0x0A 0x01 carry the
codes 65, 300, 66. The code 300 names an unused entry other than the slot 257
that is filled, so `oldcode = 300` names an unused entry when the code 66 adds
the entry 258 = `{300, 66}`. The run ends without error, and the parent chain
of entry 258 passes through the unused entry 300 and from there to index 256:
it reaches no root. -/
theorem chain_invariant_counterexample :
    ∃ r, ozus_run (ozus_setup [0x41, 0x58, 0x0A, 0x01] 0 4 4) = some r ∧
      r.error_code = OZUS_ERRCODE_OK ∧ r.outf = [65, 65, 65, 66] ∧
      r.ct 258 = ⟨300, 66, 0⟩ ∧ r.ct 300 = ⟨OZUS_INVALID_CODE, 0, 0⟩ ∧
      ozus_chain_node r.ct 258 2 = 256 ∧
      (∀ d, ¬ ozus_reaches_root r.ct 8192 d 258) ∧
      ¬ ozus_chains_ok r.ct 8192 := by
  have hall : ∀ r, ozus_run (ozus_setup [0x41, 0x58, 0x0A, 0x01] 0 4 4) = some r →
      ∀ d, ¬ ozus_reaches_root r.ct 8192 d 258 := by
    intro r hr d h
    have hr1 : some r = ozus_run (ozus_setup [0x41, 0x58, 0x0A, 0x01] 0 4 4) := hr.symm
    have e1 : (r.ct 258).parent = 300 := by
      injection hr1 with hr2
      rw [hr2]
      decide
    have e2 : (r.ct 300).parent = OZUS_INVALID_CODE := by
      injection hr1 with hr2
      rw [hr2]
      decide
    match d, h with
    | 0, h =>
      have : 258 < 256 := h
      omega
    | 1, h =>
      have h4 : (r.ct 258).parent < 256 := h.2.2.2
      omega
    | n + 2, h =>
      have h4 : ozus_reaches_root r.ct 8192 (n + 1) (r.ct 258).parent := h.2.2.2
      rw [e1] at h4
      exact h4.2.2.1 e2
  refine ⟨_, rfl, by decide, by decide, by decide, by decide, by decide, hall _ rfl, ?_⟩
  intro hok
  obtain ⟨d, hd⟩ := hok 258 (by decide) (by decide) (by decide)
  exact hall _ rfl d hd



/-- In a run from a fresh context in which every round before round `k`
starts with `oldcode` naming a root or an entry in use, every chain reaches a
root at the start of round `k`. -/
theorem ozus_run_at_chains_ok (inf : List Nat) (p e N k : Nat) (s : ozus_ctx) (w : Nat)
    (h : ozus_run_at k (ozus_setup inf p e N) (ozus_setup inf p e N).initial_code_size
      = some (s, w))
    (hlive : ∀ j, j < k → ozus_live_at (ozus_setup inf p e N) j) :
    ozus_chains_ok s.ct 8192 := by
  induction k generalizing s w with
  | zero =>
    have hs : ozus_setup inf p e N = s := by
      have h1 : some (ozus_setup inf p e N, (ozus_setup inf p e N).initial_code_size)
          = some (s, w) := h
      injection h1 with h2
      injection h2
    rw [← hs]
    intro i _ _ h3
    exfalso
    apply h3
    show (ozus_create_ct i).parent = OZUS_INVALID_CODE
    unfold ozus_create_ct
    split <;> rfl
  | succ n ih =>
    obtain ⟨s0, w0, hk, hr⟩ := ozus_run_at_pred n h
    have hok := ih s0 w0 hk (fun j hj => hlive j (by omega))
    obtain ⟨_, _, _, i4, _, _, _, i8, _⟩ := ozus_run_inv_at hk
    have hl : ozus_oldcode_live s0 := hlive n (by omega) (s0, w0) (Option.mem_def.mpr hk)
    have hstep := ozus_run_round_chains_ok s0 w0 (by rw [i4]; exact hok) i8 hl
    rw [hr, i4] at hstep
    exact hstep

/-- C24, amended: in a run of `ozus_run` from a fresh context, on any input,
as long as every round so far has started with `oldcode`, when set, naming a
root or an entry in use, the parent chain of every entry in use from 257 on
reaches a root entry (an index below 256) in at most 7935 hops, through
entries in use inside the table: no cycle, no unused slot, not index 256.
This holds at the start of every such round and in the context returned when
the loop is left in such a round. -/
theorem chain_invariant (inf : List Nat) (p e N k : Nat) (s : ozus_ctx) (w : Nat)
    (h : ozus_run_at k (ozus_setup inf p e N) (ozus_setup inf p e N).initial_code_size
      = some (s, w))
    (hlive : ∀ j, j < k → ozus_live_at (ozus_setup inf p e N) j) :
    (∀ i, 257 ≤ i → i < 8192 → (s.ct i).parent ≠ OZUS_INVALID_CODE →
      ∃ d, d ≤ 7935 ∧ ozus_reaches_root s.ct 8192 d i ∧ ozus_chain_node s.ct i d < 256) ∧
    (∀ r, ozus_oldcode_live s → ozus_run_round s w = .done r →
      ozus_run (ozus_setup inf p e N) = some r ∧
      ∀ i, 257 ≤ i → i < 8192 → (r.ct i).parent ≠ OZUS_INVALID_CODE →
        ∃ d, d ≤ 7935 ∧ ozus_reaches_root r.ct 8192 d i ∧
          ozus_chain_node r.ct i d < 256) := by
  have hbound : ∀ ct : Nat → ozus_tableentry, ozus_chains_ok ct 8192 →
      ∀ i, 257 ≤ i → i < 8192 → (ct i).parent ≠ OZUS_INVALID_CODE →
        ∃ d, d ≤ 7935 ∧ ozus_reaches_root ct 8192 d i ∧ ozus_chain_node ct i d < 256 := by
    intro ct hok i i1 i2 i3
    obtain ⟨d, hd⟩ := hok i i1 i2 i3
    have := ozus_reaches_root_depth _ _ _ _ hd
    exact ⟨d, by omega, hd, (ozus_reaches_root_nodes _ _ _ _ hd).2⟩
  have hok := ozus_run_at_chains_ok inf p e N k s w h hlive
  refine ⟨hbound s.ct hok, fun r hl hr => ⟨ozus_run_of_at k h hr, ?_⟩⟩
  obtain ⟨_, _, _, i4, _, _, _, i8, _⟩ := ozus_run_inv_at h
  have hstep := ozus_run_round_chains_ok s w (by rw [i4]; exact hok) i8 hl
  rw [hr, i4] at hstep
  exact hbound r.ct hstep

/-- Witness for C24: after the codes 65, 66, 65 the entries 257 = `{65, 66}`
and 258 = `{66, 65}` are in use and their chains reach a root. -/
theorem chain_invariant_witness :
    ∃ s w, ozus_run_at 3 (ozus_setup [0x41, 0x84, 0x04, 0x01] 0 4 8)
        (ozus_setup [0x41, 0x84, 0x04, 0x01] 0 4 8).initial_code_size = some (s, w) ∧
      s.ct 258 = ⟨66, 65, 0⟩ ∧
      ∀ i, 257 ≤ i → i < 8192 → (s.ct i).parent ≠ OZUS_INVALID_CODE →
        ∃ d, d ≤ 7935 ∧ ozus_reaches_root s.ct 8192 d i ∧ ozus_chain_node s.ct i d < 256 :=
  ⟨_, _, rfl, by decide,
    (chain_invariant [0x41, 0x84, 0x04, 0x01] 0 4 8 3 _ _ rfl
      (fun j hj => by interval_cases j <;> decide)).1⟩


/-! ## The context of `ozus_create` -/

/-- C33, initial state: after `ozus_create` the table has
`2 ^ 13 = 8192` entries; every entry `i` in `0..255` has parent
`OZUS_INVALID_CODE` and value `i`; every entry in `256..8191` is unused;
`free_code_search_start = 257`; `have_oldcode` is false, the bit reader holds
no pending bits, the error code is OK, the initial code size is 9 and the
maximum 13. -/
theorem initial_state :
    ozus_create.ct_arraysize = 2 ^ 13 ∧ ozus_create.ct_arraysize = 8192 ∧
    (∀ i, i < 256 → (ozus_create.ct i).parent = OZUS_INVALID_CODE ∧
      (ozus_create.ct i).value = i) ∧
    (∀ i, 256 ≤ i → i < 8192 → (ozus_create.ct i).parent = OZUS_INVALID_CODE) ∧
    (∀ i, (ozus_create.ct i).flags = 0) ∧
    ozus_create.free_code_search_start = 257 ∧
    ozus_create.have_oldcode = false ∧
    ozus_create.bitreader_nbits_in_buf = 0 ∧ ozus_create.bitreader_buf = 0 ∧
    ozus_create.error_code = OZUS_ERRCODE_OK ∧
    ozus_create.initial_code_size = 9 ∧ ozus_create.max_code_size = 13 ∧
    ozus_create.tmpbuf = [] := by
  refine ⟨by decide, by decide, fun i hi => ?_, fun i _ _ => ?_, fun i => ?_,
    rfl, rfl, rfl, rfl, rfl, rfl, rfl, rfl⟩
  · show (ozus_create_ct i).parent = OZUS_INVALID_CODE ∧ (ozus_create_ct i).value = i
    unfold ozus_create_ct
    rw [if_pos hi]
    exact ⟨rfl, Nat.mod_eq_of_lt (by omega)⟩
  · show (ozus_create_ct i).parent = OZUS_INVALID_CODE
    unfold ozus_create_ct
    split <;> rfl
  · show (ozus_create_ct i).flags = 0
    unfold ozus_create_ct
    split <;> rfl

/-! ## Termination -/

/-- The walk of `ozus_emit_code` does not depend on the number of rounds it is
allowed, once this is at least `ct_arraysize - count`: it ends within that
many rounds. -/
theorem ozus_emit_loop_fuel (f g : Nat) (ozus : ozus_ctx) (code count : Nat)
    (hc : count < ozus.ct_arraysize)
    (hf : ozus.ct_arraysize ≤ count + f) (hg : ozus.ct_arraysize ≤ count + g) :
    ozus_emit_loop f ozus code count = ozus_emit_loop g ozus code count := by
  induction f generalizing g ozus code count with
  | zero => omega
  | succ n ih =>
    obtain ⟨m, hm⟩ : ∃ m, g = m + 1 := ⟨g - 1, by omega⟩
    rw [hm, ozus_emit_loop, ozus_emit_loop]
    by_cases h1 : code ≥ ozus.ct_arraysize
    · rw [if_pos h1, if_pos h1]
    · rw [if_neg h1, if_neg h1]
      simp only
      by_cases h2 : count + 1 ≥ ozus.ct_arraysize
      · rw [if_pos h2, if_pos h2]
      · rw [if_neg h2, if_neg h2]
        by_cases h3 : code < 257
        · rw [if_pos h3, if_pos h3]
        · rw [if_neg h3, if_neg h3]
          exact ih m { ozus with tmpbuf := ozus.tmpbuf ++ [(ozus.ct code).value] }
            (ozus.ct code).parent (count + 1) (by simp only; omega) (by simp only; omega)
            (by simp only; omega)

/-- In a table of no entries the walk of `ozus_emit_code` returns with
`GENERIC_ERROR` at once. -/
theorem ozus_emit_loop_empty (f : Nat) (ozus : ozus_ctx) (code count : Nat)
    (hz : ozus.ct_arraysize = 0) :
    ozus_emit_loop f ozus code count
      = ({ ozus with error_code := OZUS_ERRCODE_GENERIC_ERROR }, false) := by
  cases f with
  | zero => rfl
  | succ n => rw [ozus_emit_loop, if_pos (by omega)]

/-- A round of the loop that goes on, run with a valid code size `w`, has
taken at least `w` bits from the pending bits and the input. -/
theorem ozus_run_round_bits {ozus o1 : ozus_ctx} {w w1 : Nat}
    (h : ozus_run_round ozus w = .next o1 w1)
    (hw1 : 1 ≤ w) (hw2 : w ≤ ozus.max_code_size) :
    ozus_bits_left o1 + w ≤ ozus_bits_left ozus := by
  have hbits : ∀ a b : ozus_ctx, ozus_same_params a b → ozus_same_reader a b →
      ozus_bits_left a = ozus_bits_left b := by
    intro a b hp hr
    unfold ozus_bits_left
    rw [hp.inf_endpos, hr.inf_pos, hr.bitreader_nbits_in_buf]
  have hget : ∀ o : ozus_ctx, o.max_code_size = ozus.max_code_size →
      (ozus_bitreader_getbits o w).1.error_code = 0 →
      ozus_bits_left (ozus_bitreader_getbits o w).1 + w = ozus_bits_left o := by
    intro o hmax he
    rcases (ozus_bitreader_getbits_ok o w he).2 with ⟨hbad, _⟩ | ⟨_, _, hb⟩
    · rw [hmax] at hbad; omega
    · exact hb
  have gp := (ozus_bitreader_getbits_params ozus w).max_code_size
  rcases ozus_run_round_cases ozus w with
    ⟨_, e⟩ | ⟨_, _, e⟩ | ⟨_, _, _, _, e⟩ | ⟨_, c1, _, c2, _, _, e⟩ | ⟨_, c1, _, c2, _, _, e⟩ |
    ⟨_, _, _, _, _, _, e⟩ | ⟨_, _, _, _, e⟩ | ⟨_, c1, _, _, e⟩
  · rw [e] at h; cases h
  · rw [e] at h; cases h
  · rw [e] at h; cases h
  · rw [e] at h
    injection h with h1 h2
    rw [← h1]
    have b1 := hget ozus rfl c1
    have b2 := hget (ozus_bitreader_getbits ozus w).1 gp c2
    omega
  · rw [e] at h
    injection h with h1 h2
    rw [← h1]
    have b1 := hget ozus rfl c1
    have b2 := hget (ozus_bitreader_getbits ozus w).1 gp c2
    obtain ⟨f1, f2, _⟩ := ozus_partial_clear_frame
      (ozus_bitreader_getbits (ozus_bitreader_getbits ozus w).1 w).1
    have b3 := hbits _ _ f1 f2
    omega
  · rw [e] at h; cases h
  · rw [e] at h; cases h
  · rw [e] at h
    injection h with h1 h2
    rw [← h1]
    have b1 := hget ozus rfl c1
    obtain ⟨f1, f2, _⟩ := ozus_process_data_code_spec (ozus_bitreader_getbits ozus w).1
      (ozus_bitreader_getbits ozus w).2
    have b3 := hbits _ _ f1 f2
    omega

/-- C35, termination: `ozus_run` returns for every context, so for every
compressed range, expected length and table; in a run from a fresh context
every round that does not leave the loop takes at least 9 bits from the
pending bits and the input, and round `k` is reached only while
`k <= ozus_run_bound`; and the walk of `ozus_emit_code` ends within
`ct_arraysize` rounds whatever the table holds: allowing it more rounds
changes nothing. -/
theorem run_terminates (inf : List Nat) (p e N k : Nat) (s s1 : ozus_ctx) (w w1 : Nat)
    (h : ozus_run_at k (ozus_setup inf p e N) (ozus_setup inf p e N).initial_code_size
      = some (s, w))
    (hr : ozus_run_round s w = .next s1 w1) :
    ozus_bits_left s1 + 9 ≤ ozus_bits_left s ∧
    k + 1 < ozus_run_bound (ozus_setup inf p e N) ∧
    (∀ o : ozus_ctx, ∃ r, ozus_run o = some r) ∧
    (∀ (o : ozus_ctx) (code f : Nat), o.ct_arraysize ≤ f →
      ozus_emit_loop f { o with tmpbuf := [] } code 0
        = ozus_emit_loop o.ct_arraysize { o with tmpbuf := [] } code 0) := by
  obtain ⟨_, i2, _, _, _, i6, i7, _⟩ := ozus_run_inv_at h
  have hb := ozus_run_round_bits hr (by omega) (by omega)
  have hbound := ozus_run_at_bound (k + 1) (ozus_run_at_succ k h hr)
  have hpos : 0 < ozus_run_bound s1 := by unfold ozus_run_bound; omega
  refine ⟨by omega, by omega, ozus_run_total, fun o code f hf => ?_⟩
  by_cases hz : o.ct_arraysize = 0
  · rw [ozus_emit_loop_empty f { o with tmpbuf := [] } code 0 hz,
      ozus_emit_loop_empty o.ct_arraysize { o with tmpbuf := [] } code 0 hz]
  · exact ozus_emit_loop_fuel f o.ct_arraysize { o with tmpbuf := [] } code 0
      (by show 0 < o.ct_arraysize; omega) (by show o.ct_arraysize ≤ 0 + f; omega)
      (by show o.ct_arraysize ≤ 0 + o.ct_arraysize; omega)

/-- Witness for C35: the first round of the run on the codes 65, 66, 65 takes
9 of the 32 bits of the input. -/
theorem run_terminates_witness :
    ∃ s1 w1, ozus_run_round (ozus_setup [0x41, 0x84, 0x04, 0x01] 0 4 3) 9 = .next s1 w1 ∧
      ozus_bits_left s1 = 23 ∧
      ozus_bits_left s1 + 9 ≤ ozus_bits_left (ozus_setup [0x41, 0x84, 0x04, 0x01] 0 4 3) :=
  ⟨_, _, rfl, by decide,
    (run_terminates [0x41, 0x84, 0x04, 0x01] 0 4 3 0 _ _ _ _ rfl rfl).1⟩


/-! ## Size of the bit accumulator -/

/-- Adding a byte above `nb` pending bits: the OR is a sum, and the result
has at most `nb + 8` bits. -/
theorem ozus_bitreader_accumulate (buf nb b : Nat) (hbuf : buf < 2 ^ nb) (hb : b < 256) :
    buf ||| b <<< nb = 2 ^ nb * b + buf ∧ buf ||| b <<< nb < 2 ^ (nb + 8) := by
  have hor : buf ||| b <<< nb = 2 ^ nb * b + buf := by
    rw [Nat.shiftLeft_eq, Nat.or_comm, Nat.mul_comm, Nat.mul_add_lt_is_or hbuf]
  refine ⟨hor, ?_⟩
  rw [hor]
  have h256 : (2 : Nat) ^ 8 = 256 := by decide
  rw [pow_add, h256]
  have : 2 ^ nb * b ≤ 2 ^ nb * 255 := Nat.mul_le_mul_left _ (by omega)
  omega

/-- Through the filling loop, whichever way and after however many rounds it
ends, the accumulator holds no bit beyond the pending ones, and fewer than
`nbits + 8` bits are pending if that was so at the start. -/
theorem ozus_bitreader_fill_bound (fuel : Nat) (ozus : ozus_ctx) (nbits : Nat)
    (hbuf : ozus.bitreader_buf < 2 ^ ozus.bitreader_nbits_in_buf)
    (hnb : ozus.bitreader_nbits_in_buf < nbits + 8) :
    (ozus_bitreader_fill fuel ozus nbits).1.bitreader_buf
      < 2 ^ (ozus_bitreader_fill fuel ozus nbits).1.bitreader_nbits_in_buf ∧
    (ozus_bitreader_fill fuel ozus nbits).1.bitreader_nbits_in_buf < nbits + 8 ∧
    ((ozus_bitreader_fill fuel ozus nbits).2 = true → nbits ≤ 8 * fuel →
      nbits ≤ (ozus_bitreader_fill fuel ozus nbits).1.bitreader_nbits_in_buf) := by
  induction fuel generalizing ozus with
  | zero => exact ⟨hbuf, hnb, fun _ h => by omega⟩
  | succ n ih =>
    rw [ozus_bitreader_fill_succ]
    by_cases hlt : ozus.bitreader_nbits_in_buf < nbits
    · rw [if_pos hlt]
      by_cases hend : ozus.inf_pos ≥ ozus.inf_endpos
      · rw [if_pos hend]
        exact ⟨hbuf, hnb, fun h => by simp at h⟩
      · rw [if_neg hend]
        by_cases herr : ozus.error_code ≠ 0
        · rw [if_pos herr]
          exact ⟨hbuf, hnb, fun h => by simp at h⟩
        · rw [if_neg herr]
          have hb : ozus.inf.getD ozus.inf_pos 0 % 256 < 256 := Nat.mod_lt _ (by decide)
          have hacc := (ozus_bitreader_accumulate ozus.bitreader_buf
            ozus.bitreader_nbits_in_buf _ hbuf hb).2
          obtain ⟨a1, a2, a3⟩ := ih
            { ozus with
              inf_pos := ozus.inf_pos + 1,
              bitreader_buf :=
                (ozus.bitreader_buf |||
                  (ozus.inf.getD ozus.inf_pos 0 % 256) <<< ozus.bitreader_nbits_in_buf)
                  % 2 ^ 32,
              bitreader_nbits_in_buf := ozus.bitreader_nbits_in_buf + 8 }
            (lt_of_le_of_lt (Nat.mod_le _ _) hacc) (by simp only; omega)
          refine ⟨a1, a2, fun h1 h2 => ?_⟩
          have hspec := ((ozus_bitreader_fill_spec n
            { ozus with
              inf_pos := ozus.inf_pos + 1,
              bitreader_buf :=
                (ozus.bitreader_buf |||
                  (ozus.inf.getD ozus.inf_pos 0 % 256) <<< ozus.bitreader_nbits_in_buf)
                  % 2 ^ 32,
              bitreader_nbits_in_buf := ozus.bitreader_nbits_in_buf + 8 } nbits).1 h1).2.2.2
          exact hspec (by simp only; omega)
    · rw [if_neg hlt]
      exact ⟨hbuf, hnb, fun _ _ => Nat.le_of_not_lt hlt⟩

/-- A call of `ozus_bitreader_getbits` that ends without error on a reader
with at most 7 pending bits and no bit beyond them in the accumulator leaves
a reader of that kind. -/
theorem ozus_bitreader_getbits_bound (ozus : ozus_ctx) (nbits : Nat)
    (hbuf : ozus.bitreader_buf < 2 ^ ozus.bitreader_nbits_in_buf)
    (h7 : ozus.bitreader_nbits_in_buf ≤ 7)
    (hok : (ozus_bitreader_getbits ozus nbits).1.error_code = 0) :
    (ozus_bitreader_getbits ozus nbits).1.bitreader_buf
      < 2 ^ (ozus_bitreader_getbits ozus nbits).1.bitreader_nbits_in_buf ∧
    (ozus_bitreader_getbits ozus nbits).1.bitreader_nbits_in_buf ≤ 7 := by
  by_cases hv : nbits < 1 ∨ nbits > ozus.max_code_size
  · have e : ozus_bitreader_getbits ozus nbits = (ozus, 0) := by
      unfold ozus_bitreader_getbits
      rw [if_pos hv]
    rw [e]
    exact ⟨hbuf, h7⟩
  · obtain ⟨a1, a2, a3⟩ := ozus_bitreader_fill_bound nbits ozus nbits hbuf (by omega)
    have hflag : (ozus_bitreader_fill nbits ozus nbits).2 = true := by
      by_contra hf
      have hf1 : (ozus_bitreader_fill nbits ozus nbits).2 = false := by simpa using hf
      have hne := ((ozus_bitreader_fill_spec nbits ozus nbits).2 hf1).1
      rw [← (ozus_bitreader_getbits_of_fill ozus nbits hv).2] at hne
      exact hne hok
    have hge := a3 hflag (by omega)
    have e : ozus_bitreader_getbits ozus nbits =
        ({ (ozus_bitreader_fill nbits ozus nbits).1 with
            bitreader_buf := (ozus_bitreader_fill nbits ozus nbits).1.bitreader_buf >>> nbits,
            bitreader_nbits_in_buf :=
              (ozus_bitreader_fill nbits ozus nbits).1.bitreader_nbits_in_buf - nbits },
          (ozus_bitreader_fill nbits ozus nbits).1.bitreader_buf
            &&& (0xffff >>> (16 - nbits))) := by
      unfold ozus_bitreader_getbits
      rw [if_neg hv]
      simp only
      rw [if_neg (by rw [hflag]; simp)]
    rw [e]
    refine ⟨?_, by show _ - nbits ≤ 7; omega⟩
    show (ozus_bitreader_fill nbits ozus nbits).1.bitreader_buf >>> nbits
      < 2 ^ ((ozus_bitreader_fill nbits ozus nbits).1.bitreader_nbits_in_buf - nbits)
    rw [Nat.shiftRight_eq_div_pow]
    apply Nat.div_lt_of_lt_mul
    rw [← pow_add, Nat.add_sub_cancel' hge]
    exact a1

/-- After a sequence of calls of `ozus_bitreader_getbits` that ends without
error, from a reader with at most 7 pending bits and no bit beyond them in the
accumulator, the reader is of that kind again. -/
theorem ozus_getbits_all_bound (ws : List Nat) (ozus : ozus_ctx)
    (hbuf : ozus.bitreader_buf < 2 ^ ozus.bitreader_nbits_in_buf)
    (h7 : ozus.bitreader_nbits_in_buf ≤ 7)
    (hok : (ozus_getbits_all ws ozus).1.error_code = 0) :
    (ozus_getbits_all ws ozus).1.bitreader_buf
      < 2 ^ (ozus_getbits_all ws ozus).1.bitreader_nbits_in_buf ∧
    (ozus_getbits_all ws ozus).1.bitreader_nbits_in_buf ≤ 7 := by
  induction ws generalizing ozus with
  | nil => exact ⟨hbuf, h7⟩
  | cons n ns ih =>
    have hok1 : (ozus_getbits_all ns (ozus_bitreader_getbits ozus n).1).1.error_code = 0 := hok
    have h1 := ozus_getbits_all_error ns _ hok1
    obtain ⟨b1, b2⟩ := ozus_bitreader_getbits_bound ozus n hbuf h7 h1
    exact ih (ozus_bitreader_getbits ozus n).1 b1 b2 hok1

/-- C34, bit reader state bound: starting from an empty reader, after every
sequence of calls of `ozus_bitreader_getbits` that ends without error the
pending-bit count is at most 7 and the accumulator is below `2 ^ count`; on
such a reader, with a width of at most 13, the filling loop, after any number
of rounds, holds at most 20 pending bits with the accumulator below
`2 ^ count`, and each OR of a byte shifted above fewer than 13 pending bits
gives a value below `2 ^ 32` that the 32-bit accumulator holds whole. -/
theorem bitreader_state_bound (ozus : ozus_ctx) (ws : List Nat)
    (hbuf0 : ozus.bitreader_buf = 0) (hnb0 : ozus.bitreader_nbits_in_buf = 0)
    (hok : (ozus_getbits_all ws ozus).1.error_code = OZUS_ERRCODE_OK) :
    ((ozus_getbits_all ws ozus).1.bitreader_nbits_in_buf ≤ 7 ∧
      (ozus_getbits_all ws ozus).1.bitreader_nbits_in_buf < 16 ∧
      (ozus_getbits_all ws ozus).1.bitreader_buf
        < 2 ^ (ozus_getbits_all ws ozus).1.bitreader_nbits_in_buf) ∧
    (∀ (o : ozus_ctx) (n fuel : Nat), o.bitreader_nbits_in_buf ≤ 7 →
      o.bitreader_buf < 2 ^ o.bitreader_nbits_in_buf → n ≤ 13 →
      (ozus_bitreader_fill fuel o n).1.bitreader_nbits_in_buf ≤ 20 ∧
      (ozus_bitreader_fill fuel o n).1.bitreader_buf
        < 2 ^ (ozus_bitreader_fill fuel o n).1.bitreader_nbits_in_buf ∧
      (ozus_bitreader_fill fuel o n).1.bitreader_buf < 2 ^ 20) ∧
    (∀ (o : ozus_ctx) (n b : Nat), o.bitreader_buf < 2 ^ o.bitreader_nbits_in_buf →
      o.bitreader_nbits_in_buf < n → n ≤ 13 → b < 256 →
      (o.bitreader_buf ||| b <<< o.bitreader_nbits_in_buf) % 2 ^ 32
        = o.bitreader_buf ||| b <<< o.bitreader_nbits_in_buf ∧
      o.bitreader_buf ||| b <<< o.bitreader_nbits_in_buf
        < 2 ^ (o.bitreader_nbits_in_buf + 8)) := by
  obtain ⟨a1, a2⟩ := ozus_getbits_all_bound ws ozus (by rw [hbuf0, hnb0]; decide)
    (by omega) hok
  refine ⟨⟨a2, by omega, a1⟩, fun o n fuel h7 hb hn => ?_, fun o n b hb hlt hn hb8 => ?_⟩
  · obtain ⟨b1, b2, _⟩ := ozus_bitreader_fill_bound fuel o n hb (by omega)
    exact ⟨by omega, b1, lt_of_lt_of_le b1 (Nat.pow_le_pow_right (by decide) (by omega))⟩
  · obtain ⟨_, c2⟩ := ozus_bitreader_accumulate o.bitreader_buf o.bitreader_nbits_in_buf b
      hb hb8
    exact ⟨Nat.mod_eq_of_lt (lt_of_lt_of_le c2
      (Nat.pow_le_pow_right (by decide) (by omega))), c2⟩

/-- Witness for C34: after three reads of 9 bits over four bytes, 5 bits are
pending. -/
theorem bitreader_state_bound_witness :
    (ozus_getbits_all [9, 9, 9]
      (ozus_setup [0x41, 0x84, 0x04, 0x01] 0 4 3)).1.bitreader_nbits_in_buf = 5 ∧
    ((ozus_getbits_all [9, 9, 9]
        (ozus_setup [0x41, 0x84, 0x04, 0x01] 0 4 3)).1.bitreader_nbits_in_buf ≤ 7 ∧
      (ozus_getbits_all [9, 9, 9]
        (ozus_setup [0x41, 0x84, 0x04, 0x01] 0 4 3)).1.bitreader_nbits_in_buf < 16 ∧
      (ozus_getbits_all [9, 9, 9]
        (ozus_setup [0x41, 0x84, 0x04, 0x01] 0 4 3)).1.bitreader_buf
        < 2 ^ (ozus_getbits_all [9, 9, 9]
          (ozus_setup [0x41, 0x84, 0x04, 0x01] 0 4 3)).1.bitreader_nbits_in_buf) :=
  ⟨by decide,
    (bitreader_state_bound (ozus_setup [0x41, 0x84, 0x04, 0x01] 0 4 3) [9, 9, 9] rfl rfl
      (by decide)).1⟩


/-! ## The marks left by `ozus_partial_clear` -/

/-- An entry outside `257..ct_arraysize-1` after `ozus_partial_clear`: parent
and value are kept, the flag is set when an entry in use from 257 on names it
as parent, and is kept otherwise. The second loop does not visit it. -/
theorem ozus_partial_clear_unswept (ozus : ozus_ctx) (i : Nat)
    (hi : i < 257 ∨ ozus.ct_arraysize ≤ i) :
    ((ozus_partial_clear ozus).ct i).parent = (ozus.ct i).parent ∧
    ((ozus_partial_clear ozus).ct i).value = (ozus.ct i).value ∧
    ((∃ j, 257 ≤ j ∧ j < ozus.ct_arraysize ∧ (ozus.ct j).parent ≠ OZUS_INVALID_CODE ∧
        (ozus.ct j).parent = i) → ((ozus_partial_clear ozus).ct i).flags = 1) ∧
    ((¬ ∃ j, 257 ≤ j ∧ j < ozus.ct_arraysize ∧ (ozus.ct j).parent ≠ OZUS_INVALID_CODE ∧
        (ozus.ct j).parent = i) →
      ((ozus_partial_clear ozus).ct i).flags = (ozus.ct i).flags) := by
  obtain ⟨m1, m2, m3, m4⟩ :=
    ozus_partial_clear_mark_spec (ozus.ct_arraysize - 257) 257 ozus.ct i
  have hpc : (ozus_partial_clear ozus).ct i =
      ozus_partial_clear_mark (ozus.ct_arraysize - 257) 257 ozus.ct i := by
    unfold ozus_partial_clear
    simp only
    exact (ozus_partial_clear_sweep_spec _ 257 _ i).2 (by omega)
  have hp := congrArg ozus_tableentry.parent hpc
  have hv := congrArg ozus_tableentry.value hpc
  have hf := congrArg ozus_tableentry.flags hpc
  refine ⟨hp.trans m1, hv.trans m2, fun ⟨j, j1, j2, j3, j4⟩ => ?_, fun hno => ?_⟩
  · exact hf.trans (m3 ⟨j, j1, by omega, j3, j4⟩)
  · refine hf.trans (m4 (fun ⟨j, j1, j2, j3, j4⟩ => hno ⟨j, j1, by omega, j3, j4⟩))

/-- C31, as stated, fails on the input bytes 0x41 0x84 0x00 0x14 0x30 0x04
(the codes 65, 66, 256, 2, 67) with expected length 3: round 2 of the run
calls `ozus_partial_clear` on a context in which entry 257 = `{65, 66}` is in
use, and the call changes the root entry 65, whose flag goes from 0 to 1.
The other parts of the frame hold there: the output, the error code,
`oldcode`, `have_oldcode`, `last_value`, `last_code_added`, the bit reader and
the input position are unchanged and `free_code_search_start` is 257. -/
theorem partial_clear_changes_root :
    ∃ x, ozus_run_at 2 (ozus_setup [0x41, 0x84, 0x00, 0x14, 0x30, 0x04] 0 6 3) 9
        = some (x, 9) ∧
      ozus_run_round x 9 = .next
        (ozus_partial_clear (ozus_bitreader_getbits (ozus_bitreader_getbits x 9).1 9).1) 9 ∧
      (ozus_bitreader_getbits (ozus_bitreader_getbits x 9).1 9).1.ct 65 = ⟨256, 65, 0⟩ ∧
      (ozus_partial_clear (ozus_bitreader_getbits (ozus_bitreader_getbits x 9).1 9).1).ct 65
        ≠ (ozus_bitreader_getbits (ozus_bitreader_getbits x 9).1 9).1.ct 65 ∧
      (ozus_partial_clear
        (ozus_bitreader_getbits (ozus_bitreader_getbits x 9).1 9).1).free_code_search_start
        = 257 ∧
      (ozus_partial_clear (ozus_bitreader_getbits (ozus_bitreader_getbits x 9).1 9).1).outf
        = (ozus_bitreader_getbits (ozus_bitreader_getbits x 9).1 9).1.outf ∧
      (ozus_partial_clear
        (ozus_bitreader_getbits (ozus_bitreader_getbits x 9).1 9).1).error_code
        = (ozus_bitreader_getbits (ozus_bitreader_getbits x 9).1 9).1.error_code ∧
      ozus_same_reader
        (ozus_partial_clear (ozus_bitreader_getbits (ozus_bitreader_getbits x 9).1 9).1)
        (ozus_bitreader_getbits (ozus_bitreader_getbits x 9).1 9).1 := by
  have hflag := (ozus_partial_clear_unswept
    (ozus_bitreader_getbits (ozus_bitreader_getbits
      (ozus_process_data_code (ozus_bitreader_getbits
        (ozus_process_data_code (ozus_bitreader_getbits
          (ozus_setup [0x41, 0x84, 0x00, 0x14, 0x30, 0x04] 0 6 3) 9).1 65) 9).1 66) 9).1 9).1
    65 (Or.inl (by decide))).2.2.1 ⟨257, by decide, by decide, by decide, by decide⟩
  refine ⟨ozus_process_data_code (ozus_bitreader_getbits
      (ozus_process_data_code (ozus_bitreader_getbits
        (ozus_setup [0x41, 0x84, 0x00, 0x14, 0x30, 0x04] 0 6 3) 9).1 65) 9).1 66,
    rfl, rfl, by decide, fun h => ?_, rfl, rfl, rfl, ⟨rfl, rfl, rfl⟩⟩
  rw [h] at hflag
  revert hflag
  decide

/-- C32, as stated, fails on the input bytes 0x41 0x84 0x00 0x14 0x30 0x04
(the codes 65, 66, 256, 2, 67) with expected length 3: at the start of round 2
the flag of every table entry is clear; that round calls
`ozus_partial_clear`, and round 3 starts with the flag of the root entry 65
set: the first loop marks it as the parent of entry 257, and the second loop,
which starts at 257, never clears it. -/
theorem marks_left_on_roots :
    ∃ x s, ozus_run_at 2 (ozus_setup [0x41, 0x84, 0x00, 0x14, 0x30, 0x04] 0 6 3) 9
        = some (x, 9) ∧
      (∀ i, (x.ct i).flags = 0) ∧
      ozus_run_at 3 (ozus_setup [0x41, 0x84, 0x00, 0x14, 0x30, 0x04] 0 6 3) 9
        = some (s, 9) ∧
      s = ozus_partial_clear (ozus_bitreader_getbits (ozus_bitreader_getbits x 9).1 9).1 ∧
      s.error_code = OZUS_ERRCODE_OK ∧ (s.ct 65).flags = 1 ∧ (s.ct 65).flags ≠ 0 := by
  have hflag := (ozus_partial_clear_unswept
    (ozus_bitreader_getbits (ozus_bitreader_getbits
      (ozus_process_data_code (ozus_bitreader_getbits
        (ozus_process_data_code (ozus_bitreader_getbits
          (ozus_setup [0x41, 0x84, 0x00, 0x14, 0x30, 0x04] 0 6 3) 9).1 65) 9).1 66) 9).1 9).1
    65 (Or.inl (by decide))).2.2.1 ⟨257, by decide, by decide, by decide, by decide⟩
  refine ⟨ozus_process_data_code (ozus_bitreader_getbits
      (ozus_process_data_code (ozus_bitreader_getbits
        (ozus_setup [0x41, 0x84, 0x00, 0x14, 0x30, 0x04] 0 6 3) 9).1 65) 9).1 66,
    _, rfl, fun i => ?_, ozus_run_at_succ 2 rfl rfl, rfl, rfl, hflag, ?_⟩
  · show (ct_set ozus_create_ct 257 ⟨65, 66, 0⟩ i).flags = 0
    unfold ct_set
    split
    · rfl
    · unfold ozus_create_ct
      split <;> rfl
  · exact fun h0 => absurd (hflag.symm.trans h0) (by decide)

/-- C9, as stated, fails on the input bytes 0x41 0x84 0x00 0x14 0x30 0x04
(the codes 65, 66, 256, 2, 67) with expected length 3: round 3 of the run
starts, with no error, on a table whose root entry 65 is no longer as
`ozus_create` initialised it. Parent and value are still `OZUS_INVALID_CODE`
and 65, but the flag, 0 after `ozus_create`, is 1: the partial clear of
round 2 set it as the mark of the parent of entry 257 and its second loop,
which starts at 257, did not clear it. -/
theorem root_entry_altered :
    ∃ s, ozus_run_at 3 (ozus_setup [0x41, 0x84, 0x00, 0x14, 0x30, 0x04] 0 6 3) 9
        = some (s, 9) ∧
      s.error_code = OZUS_ERRCODE_OK ∧
      (ozus_create.ct 65).flags = 0 ∧
      (s.ct 65).parent = OZUS_INVALID_CODE ∧ (s.ct 65).value = 65 ∧
      (s.ct 65).flags = 1 ∧
      s.ct 65 ≠ ozus_create.ct 65 := by
  obtain ⟨hpar, hval, hmark, _⟩ := ozus_partial_clear_unswept
    (ozus_bitreader_getbits (ozus_bitreader_getbits
      (ozus_process_data_code (ozus_bitreader_getbits
        (ozus_process_data_code (ozus_bitreader_getbits
          (ozus_setup [0x41, 0x84, 0x00, 0x14, 0x30, 0x04] 0 6 3) 9).1 65) 9).1 66) 9).1 9).1
    65 (Or.inl (by decide))
  have hflag := hmark ⟨257, by decide, by decide, by decide, by decide⟩
  refine ⟨_, ozus_run_at_succ 2 rfl rfl, rfl, by decide, hpar.trans (by decide),
    hval.trans (by decide), hflag, fun h => ?_⟩
  have h1 : (ozus_create.ct 65).flags = 1 :=
    (congrArg ozus_tableentry.flags h).symm.trans hflag
  exact absurd h1 (by decide)


/-! ## The table along a run -/

/-- The table invariant depends on the table, its size,
`free_code_search_start` and the previous code only. -/
theorem ozus_table_inv_of (a b : ozus_ctx) (h1 : a.ct = b.ct)
    (h2 : a.ct_arraysize = b.ct_arraysize)
    (h3 : a.free_code_search_start = b.free_code_search_start)
    (h4 : a.have_oldcode = true →
      a.oldcode < a.ct_arraysize ∧ a.oldcode ≠ OZUS_INVALID_CODE)
    (hb : ozus_table_inv b) : ozus_table_inv a := by
  refine ⟨fun i => ?_, h4, fun i i1 i2 => ?_, fun i i1 => ?_⟩
  · rw [h1, h2]; exact hb.parent_lt i
  · rw [h1]; exact hb.used_below i i1 (by rw [← h3]; exact i2)
  · rw [h1]; exact hb.flags_clear i i1

/-- Setting `oldcode` to a code below `ct_arraysize` other than 256 keeps the
table invariant. -/
theorem ozus_table_inv_oldcode (x : ozus_ctx) (code : Nat) (hinv : ozus_table_inv x)
    (hc : code < x.ct_arraysize ∧ code ≠ OZUS_INVALID_CODE) :
    ozus_table_inv { x with oldcode := code } :=
  ozus_table_inv_of { x with oldcode := code } x rfl rfl rfl (fun _ => hc) hinv

/-- The assignments made for the first code keep the table invariant. -/
theorem ozus_table_inv_first (x : ozus_ctx) (code lv : Nat) (hinv : ozus_table_inv x)
    (hc : code < x.ct_arraysize ∧ code ≠ OZUS_INVALID_CODE) :
    ozus_table_inv { x with oldcode := code, have_oldcode := true, last_value := lv } :=
  ozus_table_inv_of { x with oldcode := code, have_oldcode := true, last_value := lv } x
    rfl rfl rfl (fun _ => hc) hinv

theorem ozus_table_inv_setup (inf : List Nat) (p e N : Nat) :
    ozus_table_inv (ozus_setup inf p e N) := by
  refine ⟨fun i => ?_, fun h => ?_, fun i i1 i2 => ?_, fun i _ => ?_⟩
  · show (ozus_create_ct i).parent < 1 <<< 13
    unfold ozus_create_ct
    split <;> exact (show (256 : Nat) < 1 <<< 13 by decide)
  · exact absurd (show false = true from h) Bool.false_ne_true
  · have : i < 257 := i2
    omega
  · show (ozus_create_ct i).flags = 0
    unfold ozus_create_ct
    split <;> rfl

/-- `ozus_add_to_dict` with a parent below `ct_arraysize` other than 256 keeps
the table invariant. -/
theorem ozus_add_to_dict_table_inv (ozus : ozus_ctx) (parent value : Nat)
    (hinv : ozus_table_inv ozus) (hstart : 257 ≤ ozus.free_code_search_start)
    (hp : parent < ozus.ct_arraysize ∧ parent ≠ OZUS_INVALID_CODE) :
    ozus_table_inv (ozus_add_to_dict ozus parent value) := by
  have hs257 := hstart
  obtain ⟨f1, _, _, _, _, f6, f7⟩ := ozus_add_to_dict_frame ozus parent value
  have hold : (ozus_add_to_dict ozus parent value).have_oldcode = true →
      (ozus_add_to_dict ozus parent value).oldcode
          < (ozus_add_to_dict ozus parent value).ct_arraysize ∧
        (ozus_add_to_dict ozus parent value).oldcode ≠ OZUS_INVALID_CODE := by
    rw [f6, f7, f1.ct_arraysize]
    exact hinv.oldcode_ok
  by_cases he : (ozus_add_to_dict ozus parent value).error_code = 0
  · obtain ⟨_, a2, a3, a4, a5, a6, a7⟩ := (ozus_add_to_dict_spec ozus parent value).1 he
    refine ⟨fun i => ?_, hold, fun i i1 i2 => ?_, fun i i1 => ?_⟩
    · rw [a7, f1.ct_arraysize]
      unfold ct_set
      split
      · exact hp.1
      · exact hinv.parent_lt i
    · rw [a7]
      rw [a4] at i2
      unfold ct_set
      split
      · exact hp.2
      · rename_i hne
        by_cases hlt : i < ozus.free_code_search_start
        · exact hinv.used_below i i1 hlt
        · exact a6 i (by omega) (by omega)
    · rw [a7]
      unfold ct_set
      split
      · rename_i heq
        show (ozus.ct (ozus_add_to_dict ozus parent value).last_code_added).flags = 0
        exact hinv.flags_clear _ (by omega)
      · exact hinv.flags_clear i i1
  · obtain ⟨b1, b2, _⟩ := (ozus_add_to_dict_spec ozus parent value).2 he
    exact ozus_table_inv_of _ ozus b1 f1.ct_arraysize b2 hold hinv

/-- `ozus_process_data_code` on a code other than 256 keeps the table
invariant. -/
theorem ozus_process_data_code_table_inv (ozus : ozus_ctx) (code : Nat)
    (hinv : ozus_table_inv ozus) (hstart : 257 ≤ ozus.free_code_search_start)
    (hcode : code ≠ OZUS_INVALID_CODE) :
    ozus_table_inv (ozus_process_data_code ozus code) := by
  unfold ozus_process_data_code
  by_cases h1 : code ≥ ozus.ct_arraysize
  · rw [if_pos h1]
    exact ozus_table_inv_of _ ozus rfl rfl rfl hinv.oldcode_ok hinv
  rw [if_neg h1]
  have ht := (ozus_emit_code_spec ozus code).2.2.1
  have hp := (ozus_emit_code_spec ozus code).1
  have hemit : ozus_table_inv (ozus_emit_code ozus code) :=
    ozus_table_inv_of _ ozus ht.ct hp.ct_arraysize ht.free_code_search_start
      (by rw [ht.have_oldcode, ht.oldcode, hp.ct_arraysize]; exact hinv.oldcode_ok) hinv
  by_cases h2 : ozus.have_oldcode = false
  · rw [if_pos h2]
    exact ozus_table_inv_first _ code _ hemit ⟨by rw [hp.ct_arraysize]; omega, hcode⟩
  rw [if_neg h2]
  have hold := hinv.oldcode_ok (by simpa using h2)
  by_cases h3 : code < 256 ∨ (ozus.ct code).parent ≠ OZUS_INVALID_CODE
  · rw [if_pos h3]
    simp only
    by_cases h4 : (ozus_emit_code ozus code).error_code ≠ 0
    · rw [if_pos h4]; exact hemit
    · rw [if_neg h4]
      have hadd := ozus_add_to_dict_table_inv (ozus_emit_code ozus code)
        (ozus_emit_code ozus code).oldcode (ozus_emit_code ozus code).last_value hemit
        (by rw [ht.free_code_search_start]; exact hstart)
        (by rw [ht.oldcode, hp.ct_arraysize]; exact hold)
      have hsz := (ozus_add_to_dict_frame (ozus_emit_code ozus code)
        (ozus_emit_code ozus code).oldcode
        (ozus_emit_code ozus code).last_value).1.ct_arraysize
      exact ozus_table_inv_oldcode _ code hadd
        ⟨by rw [hsz, hp.ct_arraysize]; omega, hcode⟩
  · rw [if_neg h3]
    simp only
    have hadd := ozus_add_to_dict_table_inv ozus ozus.oldcode ozus.last_value hinv hstart hold
    by_cases h4 : (ozus_add_to_dict ozus ozus.oldcode ozus.last_value).error_code ≠ 0
    · rw [if_pos h4]; exact hadd
    · rw [if_neg h4]
      have ht2 := (ozus_emit_code_spec (ozus_add_to_dict ozus ozus.oldcode ozus.last_value)
        (ozus_add_to_dict ozus ozus.oldcode ozus.last_value).last_code_added).2.2.1
      have hp2 := (ozus_emit_code_spec (ozus_add_to_dict ozus ozus.oldcode ozus.last_value)
        (ozus_add_to_dict ozus ozus.oldcode ozus.last_value).last_code_added).1
      have hsz := (ozus_add_to_dict_frame ozus ozus.oldcode ozus.last_value).1.ct_arraysize
      have hemit2 : ozus_table_inv (ozus_emit_code
          (ozus_add_to_dict ozus ozus.oldcode ozus.last_value)
          (ozus_add_to_dict ozus ozus.oldcode ozus.last_value).last_code_added) :=
        ozus_table_inv_of _ (ozus_add_to_dict ozus ozus.oldcode ozus.last_value)
          ht2.ct hp2.ct_arraysize ht2.free_code_search_start
          (by rw [ht2.have_oldcode, ht2.oldcode, hp2.ct_arraysize]; exact hadd.oldcode_ok)
          hadd
      exact ozus_table_inv_oldcode _ code hemit2
        ⟨by rw [hp2.ct_arraysize, hsz]; omega, hcode⟩


/-- The flags of the entries from 257 on are clear after `ozus_partial_clear`
when no parent field names an entry outside the table and they were clear
outside the table. -/
theorem ozus_partial_clear_flags (ozus : ozus_ctx)
    (hpar : ∀ i, (ozus.ct i).parent < ozus.ct_arraysize)
    (hout : ∀ i, ozus.ct_arraysize ≤ i → (ozus.ct i).flags = 0)
    (i : Nat) (hi : 257 ≤ i) : ((ozus_partial_clear ozus).ct i).flags = 0 := by
  by_cases h2 : i < ozus.ct_arraysize
  · have hsw := (ozus_partial_clear_sweep_spec (ozus.ct_arraysize - 257) 257
      (ozus_partial_clear_mark (ozus.ct_arraysize - 257) 257 ozus.ct) i).1 ⟨hi, by omega⟩
    have hpc : (ozus_partial_clear ozus).ct i =
        ozus_partial_clear_sweep (ozus.ct_arraysize - 257) 257
          (ozus_partial_clear_mark (ozus.ct_arraysize - 257) 257 ozus.ct) i := by
      unfold ozus_partial_clear; simp only
    have hval := hpc.trans hsw
    by_cases hf : (ozus_partial_clear_mark (ozus.ct_arraysize - 257) 257 ozus.ct i).flags = 0
    · rw [if_pos hf] at hval
      have h := congrArg ozus_tableentry.flags hval
      simp only at h
      exact h.trans hf
    · rw [if_neg hf] at hval
      have h := congrArg ozus_tableentry.flags hval
      simp only at h
      exact h
  · have hu := (ozus_partial_clear_unswept ozus i (Or.inr (by omega))).2.2.2
      (fun ⟨j, _, _, _, j4⟩ => by
        have := hpar j
        omega)
    exact hu.trans (hout i (by omega))

/-- `ozus_partial_clear` keeps the table invariant. -/
theorem ozus_partial_clear_table_inv (ozus : ozus_ctx) (hinv : ozus_table_inv ozus)
    (hsz : 256 < ozus.ct_arraysize) : ozus_table_inv (ozus_partial_clear ozus) := by
  obtain ⟨f1, _, _, _, f5, _⟩ := ozus_partial_clear_frame ozus
  refine ⟨fun i => ?_, hinv.oldcode_ok, fun i i1 i2 => ?_, fun i i1 => ?_⟩
  · have hsz1 : (ozus_partial_clear ozus).ct_arraysize = ozus.ct_arraysize := f1.ct_arraysize
    rw [hsz1]
    by_cases hr : 257 ≤ i ∧ i < ozus.ct_arraysize
    · rcases (ozus_partial_clear_entry ozus i hr.1 hr.2).2 with hk | hc
      · exact lt_of_eq_of_lt hk.1 (hinv.parent_lt i)
      · exact lt_of_eq_of_lt hc hsz
    · exact lt_of_eq_of_lt (ozus_partial_clear_unswept ozus i (by omega)).1
        (hinv.parent_lt i)
  · have : i < 257 := lt_of_lt_of_eq i2 f5
    omega
  · exact ozus_partial_clear_flags ozus hinv.parent_lt
      (fun j hj => hinv.flags_clear j (by omega)) i i1

/-- A round of the loop keeps the table invariant, whichever way it ends. -/
theorem ozus_run_round_table_inv (ozus : ozus_ctx) (w : Nat)
    (hinv : ozus_table_inv ozus) (hstart : 257 ≤ ozus.free_code_search_start)
    (hsz : 256 < ozus.ct_arraysize) :
    ozus_table_inv (ozus_round_ctx (ozus_run_round ozus w)) := by
  have g1 := ozus_bitreader_getbits_dict ozus w
  have g2 := ozus_bitreader_getbits_dict (ozus_bitreader_getbits ozus w).1 w
  have gp := (ozus_bitreader_getbits_params ozus w).ct_arraysize
  have gp2 := (ozus_bitreader_getbits_params (ozus_bitreader_getbits ozus w).1 w).ct_arraysize
  have hinv1 : ozus_table_inv (ozus_bitreader_getbits ozus w).1 :=
    ozus_table_inv_of _ ozus g1.ct gp g1.free_code_search_start
      (by rw [g1.have_oldcode, g1.oldcode, gp]; exact hinv.oldcode_ok) hinv
  have hinv2 : ozus_table_inv (ozus_bitreader_getbits (ozus_bitreader_getbits ozus w).1 w).1 :=
    ozus_table_inv_of _ _ g2.ct gp2 g2.free_code_search_start
      (by rw [g2.have_oldcode, g2.oldcode, gp2]; exact hinv1.oldcode_ok) hinv1
  suffices hs : ∀ o, ozus_round_ctx (ozus_run_round ozus w) = o → ozus_table_inv o from
    hs _ rfl
  intro o ho
  rcases ozus_run_round_cases ozus w with
    ⟨_, e⟩ | ⟨_, _, e⟩ | ⟨_, _, _, _, e⟩ | ⟨_, _, _, _, _, _, e⟩ | ⟨_, _, _, _, _, _, e⟩ |
    ⟨_, _, _, _, _, _, e⟩ | ⟨_, _, c3, _, e⟩ | ⟨_, _, c3, _, e⟩
  · rw [e] at ho
    have ho1 : ozus = o := ho
    rw [← ho1]; exact hinv
  · rw [e] at ho
    have ho1 : (ozus_bitreader_getbits ozus w).1 = o := ho
    rw [← ho1]; exact hinv1
  · rw [e] at ho
    have ho1 : (ozus_bitreader_getbits (ozus_bitreader_getbits ozus w).1 w).1 = o := ho
    rw [← ho1]; exact hinv2
  · rw [e] at ho
    have ho1 : (ozus_bitreader_getbits (ozus_bitreader_getbits ozus w).1 w).1 = o := ho
    rw [← ho1]; exact hinv2
  · rw [e] at ho
    have ho1 : ozus_partial_clear
      (ozus_bitreader_getbits (ozus_bitreader_getbits ozus w).1 w).1 = o := ho
    rw [← ho1]
    exact ozus_partial_clear_table_inv _ hinv2 (by rw [gp2, gp]; exact hsz)
  · rw [e] at ho
    rw [← ho]
    exact ozus_table_inv_of _ (ozus_bitreader_getbits (ozus_bitreader_getbits ozus w).1 w).1
      rfl rfl rfl hinv2.oldcode_ok hinv2
  · rw [e] at ho
    have ho1 : ozus_process_data_code (ozus_bitreader_getbits ozus w).1
      (ozus_bitreader_getbits ozus w).2 = o := ho
    rw [← ho1]
    exact ozus_process_data_code_table_inv _ _ hinv1
      (by rw [g1.free_code_search_start]; exact hstart) c3
  · rw [e] at ho
    have ho1 : ozus_process_data_code (ozus_bitreader_getbits ozus w).1
      (ozus_bitreader_getbits ozus w).2 = o := ho
    rw [← ho1]
    exact ozus_process_data_code_table_inv _ _ hinv1
      (by rw [g1.free_code_search_start]; exact hstart) c3

/-- The table invariant holds at the start of every round of a run from a
fresh context. -/
theorem ozus_run_at_table_inv (inf : List Nat) (p e N k : Nat) (s : ozus_ctx) (w : Nat)
    (h : ozus_run_at k (ozus_setup inf p e N) (ozus_setup inf p e N).initial_code_size
      = some (s, w)) : ozus_table_inv s := by
  induction k generalizing s w with
  | zero =>
    have hs : ozus_setup inf p e N = s := by
      have h1 : some (ozus_setup inf p e N, (ozus_setup inf p e N).initial_code_size)
          = some (s, w) := h
      injection h1 with h2
      injection h2
    rw [← hs]
    exact ozus_table_inv_setup inf p e N
  | succ n ih =>
    obtain ⟨s0, w0, hk, hr⟩ := ozus_run_at_pred n h
    obtain ⟨_, _, _, i4, _, _, _, i8, _⟩ := ozus_run_inv_at hk
    have hstep := ozus_run_round_table_inv s0 w0 (ih s0 w0 hk) i8 (by omega)
    rw [hr] at hstep
    exact hstep

/-- The table invariant holds in the context returned by a run from a fresh
context. -/
theorem ozus_run_table_inv (inf : List Nat) (p e N : Nat) (r : ozus_ctx)
    (h : ozus_run (ozus_setup inf p e N) = some r) : ozus_table_inv r := by
  obtain ⟨k, s, w, hk, hd⟩ := ozus_run_some h
  obtain ⟨_, _, _, i4, _, _, _, i8, _⟩ := ozus_run_inv_at hk
  have hstep := ozus_run_round_table_inv s w (ozus_run_at_table_inv inf p e N k s w hk) i8
    (by omega)
  rw [hd] at hstep
  exact hstep


/-- C37, lowest free slot: in a run from a fresh context, at the start of
every round and in the context returned, every slot from 257 up to
`free_code_search_start` is in use and `oldcode`, the parent that
`ozus_add_to_dict` is called with, is not 256 when set. On a context of that
kind a call of `ozus_add_to_dict` with `oldcode` as parent that ends without
error fills a slot that was unused (no entry in use is overwritten), with
every slot from 257 up to it in use (it is the lowest unused slot of the whole
table), and leaves it in use. -/
theorem lowest_free_slot (inf : List Nat) (p e N k : Nat) (s : ozus_ctx) (w : Nat)
    (h : ozus_run_at k (ozus_setup inf p e N) (ozus_setup inf p e N).initial_code_size
      = some (s, w)) :
    ((∀ i, 257 ≤ i → i < s.free_code_search_start →
        (s.ct i).parent ≠ OZUS_INVALID_CODE) ∧
      257 ≤ s.free_code_search_start ∧
      (s.have_oldcode = true → s.oldcode ≠ OZUS_INVALID_CODE)) ∧
    (∀ r, ozus_run (ozus_setup inf p e N) = some r →
      (∀ i, 257 ≤ i → i < r.free_code_search_start →
        (r.ct i).parent ≠ OZUS_INVALID_CODE) ∧
      (r.have_oldcode = true → r.oldcode ≠ OZUS_INVALID_CODE)) ∧
    (∀ (x : ozus_ctx) (value : Nat),
      (∀ i, 257 ≤ i → i < x.free_code_search_start →
        (x.ct i).parent ≠ OZUS_INVALID_CODE) →
      257 ≤ x.free_code_search_start → x.oldcode ≠ OZUS_INVALID_CODE →
      (ozus_add_to_dict x x.oldcode value).error_code = 0 →
      257 ≤ (ozus_add_to_dict x x.oldcode value).last_code_added ∧
      (ozus_add_to_dict x x.oldcode value).last_code_added < x.ct_arraysize ∧
      (x.ct (ozus_add_to_dict x x.oldcode value).last_code_added).parent
        = OZUS_INVALID_CODE ∧
      (∀ i, 257 ≤ i → i < (ozus_add_to_dict x x.oldcode value).last_code_added →
        (x.ct i).parent ≠ OZUS_INVALID_CODE) ∧
      ((ozus_add_to_dict x x.oldcode value).ct
        (ozus_add_to_dict x x.oldcode value).last_code_added).parent
        ≠ OZUS_INVALID_CODE ∧
      (∀ i, i ≠ (ozus_add_to_dict x x.oldcode value).last_code_added →
        (ozus_add_to_dict x x.oldcode value).ct i = x.ct i)) := by
  have hinv := ozus_run_at_table_inv inf p e N k s w h
  obtain ⟨_, _, _, _, _, _, _, i8, _⟩ := ozus_run_inv_at h
  refine ⟨⟨hinv.used_below, i8, fun ho => (hinv.oldcode_ok ho).2⟩, fun r hr => ?_,
    fun x value hused hstart hold he => ?_⟩
  · have hr1 := ozus_run_table_inv inf p e N r hr
    exact ⟨hr1.used_below, fun ho => (hr1.oldcode_ok ho).2⟩
  · obtain ⟨_, a2, a3, _, a5, a6, a7⟩ := (ozus_add_to_dict_spec x x.oldcode value).1 he
    refine ⟨by omega, a3, a5, fun i i1 i2 => ?_, ?_, fun i hi => ?_⟩
    · by_cases hlt : i < x.free_code_search_start
      · exact hused i i1 hlt
      · exact a6 i (by omega) i2
    · rw [a7]
      unfold ct_set
      rw [if_pos rfl]
      exact hold
    · rw [a7]
      unfold ct_set
      rw [if_neg hi]

/-- Witness for C37: after the codes 65, 66, 65 the slots 257 and 258 are in
use and the search starts at 259. -/
theorem lowest_free_slot_witness :
    ∃ s w, ozus_run_at 3 (ozus_setup [0x41, 0x84, 0x04, 0x01] 0 4 8)
        (ozus_setup [0x41, 0x84, 0x04, 0x01] 0 4 8).initial_code_size = some (s, w) ∧
      s.free_code_search_start = 259 ∧
      ((∀ i, 257 ≤ i → i < s.free_code_search_start →
          (s.ct i).parent ≠ OZUS_INVALID_CODE) ∧
        257 ≤ s.free_code_search_start ∧
        (s.have_oldcode = true → s.oldcode ≠ OZUS_INVALID_CODE)) :=
  ⟨_, _, rfl, by decide, (lowest_free_slot [0x41, 0x84, 0x04, 0x01] 0 4 8 3 _ _ rfl).1⟩


/-! ## Range of the codes and of the table indices -/

/-- The value returned by `ozus_bitreader_getbits` is below `2 ^ nbits`. -/
theorem ozus_bitreader_getbits_lt (ozus : ozus_ctx) (nbits : Nat) (hn : nbits ≤ 16) :
    (ozus_bitreader_getbits ozus nbits).2 < 2 ^ nbits := by
  unfold ozus_bitreader_getbits
  split
  · exact Nat.pow_pos (by decide)
  · simp only
    split
    · exact Nat.pow_pos (by decide)
    · show _ &&& (0xffff >>> (16 - nbits)) < 2 ^ nbits
      rw [ozus_getbits_mask nbits hn, Nat.and_pow_two_sub_one_eq_mod]
      exact Nat.mod_lt _ (Nat.pow_pos (by decide))

/-- A call of `ozus_bitreader_getbits` with a valid width, made with no error
pending, sets no error other than `INSUFFICIENT_CDATA`. -/
theorem ozus_bitreader_getbits_error_kind (ozus : ozus_ctx) (nbits : Nat)
    (h0 : ozus.error_code = 0) (h1 : 1 ≤ nbits) (h2 : nbits ≤ ozus.max_code_size) :
    (ozus_bitreader_getbits ozus nbits).1.error_code = 0 ∨
    (ozus_bitreader_getbits ozus nbits).1.error_code = OZUS_ERRCODE_INSUFFICIENT_CDATA := by
  obtain ⟨a, b⟩ := ozus_bitreader_getbits_error ozus nbits h0 h1 h2
  by_cases hlt : ozus_bits_left ozus < nbits
  · exact Or.inr (a hlt)
  · exact Or.inl (b (by omega))

/-- When `ozus_process_data_code`, called with no error pending on a code
inside the table, ends with `GENERIC_ERROR`, it is `ozus_emit_code` that set
it, on the table that is returned. -/
theorem ozus_process_data_code_generic (ozus : ozus_ctx) (code : Nat)
    (h0 : ozus.error_code = 0) (hc : code < ozus.ct_arraysize)
    (herr : (ozus_process_data_code ozus code).error_code = OZUS_ERRCODE_GENERIC_ERROR) :
    ∃ (y : ozus_ctx) (c : Nat), y.error_code = 0 ∧ y.ct_arraysize = ozus.ct_arraysize ∧
      y.ct = (ozus_process_data_code ozus code).ct ∧ c < ozus.ct_arraysize ∧
      (ozus_emit_code y c).error_code = OZUS_ERRCODE_GENERIC_ERROR := by
  have ht := (ozus_emit_code_spec ozus code).2.2.1
  unfold ozus_process_data_code at herr ⊢
  rw [if_neg (by omega)] at herr ⊢
  by_cases h2 : ozus.have_oldcode = false
  · rw [if_pos h2] at herr ⊢
    exact ⟨ozus, code, h0, rfl, ht.ct.symm, hc, herr⟩
  rw [if_neg h2] at herr ⊢
  by_cases h3 : code < 256 ∨ (ozus.ct code).parent ≠ OZUS_INVALID_CODE
  · rw [if_pos h3] at herr ⊢
    simp only at herr ⊢
    by_cases h4 : (ozus_emit_code ozus code).error_code ≠ 0
    · rw [if_pos h4] at herr ⊢
      exact ⟨ozus, code, h0, rfl, ht.ct.symm, hc, herr⟩
    · rw [if_neg h4] at herr
      exfalso
      have he0 : (ozus_emit_code ozus code).error_code = 0 := by
        by_contra hne
        exact h4 hne
      have herr1 : (ozus_add_to_dict (ozus_emit_code ozus code)
          (ozus_emit_code ozus code).oldcode
          (ozus_emit_code ozus code).last_value).error_code
          = OZUS_ERRCODE_GENERIC_ERROR := herr
      have hne : (ozus_add_to_dict (ozus_emit_code ozus code)
          (ozus_emit_code ozus code).oldcode
          (ozus_emit_code ozus code).last_value).error_code ≠ 0 := by
        rw [herr1]; decide
      have hbad := (((ozus_add_to_dict_spec (ozus_emit_code ozus code)
        (ozus_emit_code ozus code).oldcode
        (ozus_emit_code ozus code).last_value).2 hne).2.2.2 he0).1
      rw [herr1] at hbad
      exact absurd hbad (by decide)
  · rw [if_neg h3] at herr ⊢
    simp only at herr ⊢
    by_cases h4 : (ozus_add_to_dict ozus ozus.oldcode ozus.last_value).error_code ≠ 0
    · rw [if_pos h4] at herr
      exfalso
      have hbad := (((ozus_add_to_dict_spec ozus ozus.oldcode ozus.last_value).2
        h4).2.2.2 h0).1
      rw [herr] at hbad
      exact absurd hbad (by decide)
    · rw [if_neg h4] at herr ⊢
      have he0 : (ozus_add_to_dict ozus ozus.oldcode ozus.last_value).error_code = 0 := by
        by_contra hne
        exact h4 hne
      have hlt := ((ozus_add_to_dict_spec ozus ozus.oldcode ozus.last_value).1 he0).2.2.1
      exact ⟨ozus_add_to_dict ozus ozus.oldcode ozus.last_value,
        (ozus_add_to_dict ozus ozus.oldcode ozus.last_value).last_code_added, he0,
        (ozus_add_to_dict_frame ozus ozus.oldcode ozus.last_value).1.ct_arraysize,
        ((ozus_emit_code_spec (ozus_add_to_dict ozus ozus.oldcode ozus.last_value)
          (ozus_add_to_dict ozus ozus.oldcode ozus.last_value).last_code_added).2.2.1.ct).symm,
        hlt, herr⟩

/-- In a table whose parent fields are all below its size, a walk from a code
inside the table stays inside the table. -/
theorem ozus_chain_node_lt (ct : Nat → ozus_tableentry) (size code : Nat)
    (hpar : ∀ i, (ct i).parent < size) (hc : code < size) (j : Nat) :
    ozus_chain_node ct code j < size := by
  cases j with
  | zero => exact hc
  | succ n => exact hpar _

/-- In a table whose parent fields are all below its size, `ozus_emit_code`
on a code inside the table, called with no error pending, sets
`GENERIC_ERROR` only on a walk that never meets a code below 257. -/
theorem ozus_emit_code_generic_cycle (y : ozus_ctx) (code : Nat)
    (h0 : y.error_code = 0) (hsz : 257 ≤ y.ct_arraysize)
    (hpar : ∀ i, (y.ct i).parent < y.ct_arraysize) (hc : code < y.ct_arraysize)
    (herr : (ozus_emit_code y code).error_code = OZUS_ERRCODE_GENERIC_ERROR) :
    ∀ j, 257 ≤ ozus_chain_node y.ct code j ∧ ozus_chain_node y.ct code j < y.ct_arraysize := by
  have hnodes := ozus_chain_node_lt y.ct y.ct_arraysize code hpar hc
  rcases ozus_walk_cases y.ct y.ct_arraysize code hsz with
    ⟨j, j1, j2, j3⟩ | ⟨j, j1, j2, j3⟩
  · obtain ⟨a1, _, _⟩ := ozus_emit_code_stop y code j hsz j3 j2 j1
    rw [a1, h0] at herr
    exact absurd herr (by decide)
  · have hj : j + 1 = y.ct_arraysize := by
      rcases j3 with h | h
      · have := hnodes j
        omega
      · omega
    obtain ⟨a, b, hab, hb, heq⟩ := ozus_walk_repeat y.ct y.ct_arraysize code
      (y.ct_arraysize - 257) (fun i hi => j2 i (by omega)) (by omega)
    have hall := ozus_walk_cycle y.ct code a b hab heq (fun i hi => (j2 i (by omega)).1)
    exact fun i => ⟨hall i, hnodes i⟩

/-- A round that leaves the loop with `GENERIC_ERROR`, entered in a state of a
run from a fresh context, leaves a table in which the walk from some code
never meets a code below 257: the error was set by the chain-length guard of
`ozus_emit_code`. -/
theorem ozus_run_round_generic (N : Nat) (s : ozus_ctx) (w : Nat) (r : ozus_ctx)
    (hinv : ozus_run_inv N s w) (ht : ozus_table_inv r)
    (hd : ozus_run_round s w = .done r)
    (herr : r.error_code = OZUS_ERRCODE_GENERIC_ERROR) :
    ∃ code, code < 8192 ∧
      ∀ j, 257 ≤ ozus_chain_node r.ct code j ∧ ozus_chain_node r.ct code j < 8192 := by
  obtain ⟨i1, i2, _, i4, _, i6, i7, _, _⟩ := hinv
  have hp1 := ozus_bitreader_getbits_params s w
  have hp2 := ozus_bitreader_getbits_params (ozus_bitreader_getbits s w).1 w
  have hw1 : 1 ≤ w := by omega
  have hw2 : w ≤ s.max_code_size := by omega
  have hrsz : r.ct_arraysize = 8192 := by
    rw [(ozus_run_round_done hd).1.ct_arraysize]
    exact i4
  rcases ozus_run_round_cases s w with
    ⟨_, e⟩ | ⟨_, _, e⟩ | ⟨_, c1, _, _, e⟩ | ⟨_, _, _, _, _, _, e⟩ | ⟨_, _, _, _, _, _, e⟩ |
    ⟨_, _, _, _, _, _, e⟩ | ⟨_, c1, _, c2, e⟩ | ⟨_, _, _, _, e⟩
  · rw [e] at hd
    injection hd with hd1
    rw [← hd1, i1] at herr
    exact absurd herr (by decide)
  · rw [e] at hd
    injection hd with hd1
    rw [← hd1] at herr
    rcases ozus_bitreader_getbits_error_kind s w i1 hw1 hw2 with h | h
    · rw [h] at herr
      exact absurd herr (by decide)
    · rw [h] at herr
      exact absurd herr (by decide)
  · rw [e] at hd
    injection hd with hd1
    rw [← hd1] at herr
    rcases ozus_bitreader_getbits_error_kind (ozus_bitreader_getbits s w).1 w c1 hw1
      (by rw [hp1.max_code_size]; exact hw2) with h | h
    · rw [h] at herr
      exact absurd herr (by decide)
    · rw [h] at herr
      exact absurd herr (by decide)
  · rw [e] at hd
    injection hd
  · rw [e] at hd
    injection hd
  · rw [e] at hd
    injection hd with hd1
    rw [← hd1] at herr
    exact absurd (show OZUS_ERRCODE_BAD_CDATA = OZUS_ERRCODE_GENERIC_ERROR from herr)
      (by decide)
  · rw [e] at hd
    injection hd with hd1
    have hc : (ozus_bitreader_getbits s w).2 < (ozus_bitreader_getbits s w).1.ct_arraysize := by
      rw [hp1.ct_arraysize, i4]
      have h1 := ozus_bitreader_getbits_lt s w (by omega)
      have h2 : 2 ^ w ≤ 2 ^ 13 := Nat.pow_le_pow_right (by decide) i7
      have h3 : (2 : Nat) ^ 13 = 8192 := by decide
      omega
    rw [← hd1] at herr
    obtain ⟨y, c, y0, ysz, yct, hclt, yerr⟩ := ozus_process_data_code_generic
      (ozus_bitreader_getbits s w).1 (ozus_bitreader_getbits s w).2 c1 hc herr
    have ysz1 : y.ct_arraysize = 8192 := by rw [ysz, hp1.ct_arraysize, i4]
    have yct1 : y.ct = r.ct := by rw [yct, hd1]
    have hpar : ∀ i, (y.ct i).parent < y.ct_arraysize := by
      intro i
      rw [yct1, ysz1, ← hrsz]
      exact ht.parent_lt i
    have hcy := ozus_emit_code_generic_cycle y c y0 (by omega) hpar
      (by rw [ysz]; exact hclt) yerr
    refine ⟨c, by rw [hp1.ct_arraysize, i4] at hclt; exact hclt, fun j => ?_⟩
    have := hcy j
    rw [yct1, ysz1] at this
    exact this
  · rw [e] at hd
    injection hd

/-- C36, indices stay in range: in a run from a fresh context on any input,
at the start of every round the table has 8192 slots, every parent field is
256 or a value below 8192 other than 256, `oldcode` when set is below 8192 and
not 256, the codes the round reads are below 8192 (so the range check at the
top of `ozus_process_data_code` does not fire), every walk along parent fields
from a code below 8192 stays below 8192 (so the range check inside
`ozus_emit_code` does not fire and every `ct[code]`, `ct[ct[i].parent]` is in
bounds), and a slot filled by `ozus_add_to_dict` is below 8192. The same holds
of the table in the context returned, and when that context holds
`GENERIC_ERROR` its table has a walk that never meets a code below 257: the
error came from the chain-length guard of `ozus_emit_code`. -/
theorem indices_in_range (inf : List Nat) (p e N k : Nat) (s : ozus_ctx) (w : Nat)
    (h : ozus_run_at k (ozus_setup inf p e N) (ozus_setup inf p e N).initial_code_size
      = some (s, w)) :
    (s.ct_arraysize = 8192 ∧
      (∀ i, (s.ct i).parent = OZUS_INVALID_CODE ∨
        ((s.ct i).parent < 8192 ∧ (s.ct i).parent ≠ 256)) ∧
      (s.have_oldcode = true → s.oldcode < 8192 ∧ s.oldcode ≠ 256)) ∧
    ((ozus_bitreader_getbits s w).2 < 8192 ∧
      (ozus_bitreader_getbits (ozus_bitreader_getbits s w).1 w).2 < 8192) ∧
    (∀ code j, code < 8192 → ozus_chain_node s.ct code j < 8192) ∧
    (∀ parent value, (ozus_add_to_dict s parent value).error_code = 0 →
      (ozus_add_to_dict s parent value).last_code_added < 8192) ∧
    (∀ r, ozus_run (ozus_setup inf p e N) = some r →
      r.ct_arraysize = 8192 ∧
      (∀ i, (r.ct i).parent = OZUS_INVALID_CODE ∨
        ((r.ct i).parent < 8192 ∧ (r.ct i).parent ≠ 256)) ∧
      (∀ code j, code < 8192 → ozus_chain_node r.ct code j < 8192) ∧
      (r.error_code = OZUS_ERRCODE_GENERIC_ERROR →
        ∃ code, code < 8192 ∧
          ∀ j, 257 ≤ ozus_chain_node r.ct code j ∧ ozus_chain_node r.ct code j < 8192)) := by
  have hinv := ozus_run_inv_at h
  obtain ⟨_, _, _, i4, _, _, i7, _, _⟩ := hinv
  have ht := ozus_run_at_table_inv inf p e N k s w h
  have hpar : ∀ i, (s.ct i).parent < 8192 := fun i => by
    have := ht.parent_lt i
    rw [i4] at this
    exact this
  have hbits : ∀ o : ozus_ctx, (ozus_bitreader_getbits o w).2 < 8192 := fun o => by
    have h1 := ozus_bitreader_getbits_lt o w (by omega)
    have h2 : 2 ^ w ≤ 2 ^ 13 := Nat.pow_le_pow_right (by decide) i7
    have h3 : (2 : Nat) ^ 13 = 8192 := by decide
    omega
  refine ⟨⟨i4, fun i => ?_, fun ho => ?_⟩, ⟨hbits _, hbits _⟩, fun code j hc => ?_,
    fun parent value h0 => ?_, fun r hr => ?_⟩
  · by_cases hp : (s.ct i).parent = OZUS_INVALID_CODE
    · exact Or.inl hp
    · exact Or.inr ⟨hpar i, hp⟩
  · have := ht.oldcode_ok ho
    rw [i4] at this
    exact this
  · exact ozus_chain_node_lt s.ct 8192 code hpar hc j
  · have := ((ozus_add_to_dict_spec s parent value).1 h0).2.2.1
    rw [i4] at this
    exact this
  · have htr := ozus_run_table_inv inf p e N r hr
    obtain ⟨k1, s1, w1, hk1, hd1⟩ := ozus_run_some hr
    have hinv1 := ozus_run_inv_at hk1
    have hrsz : r.ct_arraysize = 8192 := by
      rw [(ozus_run_round_done hd1).1.ct_arraysize]
      exact hinv1.2.2.2.1
    have hparr : ∀ i, (r.ct i).parent < 8192 := fun i => by
      have := htr.parent_lt i
      rw [hrsz] at this
      exact this
    refine ⟨hrsz, fun i => ?_, fun code j hc => ?_, fun herr => ?_⟩
    · by_cases hp : (r.ct i).parent = OZUS_INVALID_CODE
      · exact Or.inl hp
      · exact Or.inr ⟨hparr i, hp⟩
    · exact ozus_chain_node_lt r.ct 8192 code hparr hc j
    · exact ozus_run_round_generic N s1 w1 r hinv1 htr hd1 herr

theorem indices_in_range_witness :
    ∃ s w, ozus_run_at 3 (ozus_setup [0x41, 0x84, 0x04, 0x01] 0 4 8)
        (ozus_setup [0x41, 0x84, 0x04, 0x01] 0 4 8).initial_code_size = some (s, w) ∧
      (s.ct 258).parent = 66 ∧
      (s.ct_arraysize = 8192 ∧
        (∀ i, (s.ct i).parent = OZUS_INVALID_CODE ∨
          ((s.ct i).parent < 8192 ∧ (s.ct i).parent ≠ 256)) ∧
        (s.have_oldcode = true → s.oldcode < 8192 ∧ s.oldcode ≠ 256)) :=
  ⟨_, _, rfl, by decide, (indices_in_range [0x41, 0x84, 0x04, 0x01] 0 4 8 3 _ _ rfl).1⟩


/-! ## Partial clear makes room -/

/-- An entry from 257 on whose flag is clear and that no entry in use names as
parent is unused after `ozus_partial_clear`. -/
theorem ozus_partial_clear_leaf (ozus : ozus_ctx) (i : Nat)
    (h1 : 257 ≤ i) (h2 : i < ozus.ct_arraysize) (hflag : (ozus.ct i).flags = 0)
    (hno : ¬ ∃ j, 257 ≤ j ∧ j < ozus.ct_arraysize ∧ (ozus.ct j).parent ≠ OZUS_INVALID_CODE ∧
        (ozus.ct j).parent = i) :
    ((ozus_partial_clear ozus).ct i).parent = OZUS_INVALID_CODE := by
  have hrange : 257 + (ozus.ct_arraysize - 257) = ozus.ct_arraysize := by omega
  have hsw := (ozus_partial_clear_sweep_spec (ozus.ct_arraysize - 257) 257
    (ozus_partial_clear_mark (ozus.ct_arraysize - 257) 257 ozus.ct) i).1 ⟨h1, by omega⟩
  obtain ⟨_, _, _, m4⟩ :=
    ozus_partial_clear_mark_spec (ozus.ct_arraysize - 257) 257 ozus.ct i
  rw [hrange] at m4
  have hpc : (ozus_partial_clear ozus).ct i =
      ozus_partial_clear_sweep (ozus.ct_arraysize - 257) 257
        (ozus_partial_clear_mark (ozus.ct_arraysize - 257) 257 ozus.ct) i := by
    unfold ozus_partial_clear; simp only
  have hf := m4 hno
  rw [hflag] at hf
  have hval := hpc.trans hsw
  rw [if_pos hf] at hval
  have hp := congrArg ozus_tableentry.parent hval
  simp only at hp
  exact hp

/-- An entry from 257 on whose flag is set at the call keeps parent and value
through `ozus_partial_clear`. -/
theorem ozus_partial_clear_stale (ozus : ozus_ctx) (i : Nat)
    (h1 : 257 ≤ i) (h2 : i < ozus.ct_arraysize) (hflag : (ozus.ct i).flags ≠ 0) :
    ((ozus_partial_clear ozus).ct i).parent = (ozus.ct i).parent ∧
    ((ozus_partial_clear ozus).ct i).value = (ozus.ct i).value := by
  have hrange : 257 + (ozus.ct_arraysize - 257) = ozus.ct_arraysize := by omega
  have hsw := (ozus_partial_clear_sweep_spec (ozus.ct_arraysize - 257) 257
    (ozus_partial_clear_mark (ozus.ct_arraysize - 257) 257 ozus.ct) i).1 ⟨h1, by omega⟩
  obtain ⟨m1, m2, m3, m4⟩ :=
    ozus_partial_clear_mark_spec (ozus.ct_arraysize - 257) 257 ozus.ct i
  have hpc : (ozus_partial_clear ozus).ct i =
      ozus_partial_clear_sweep (ozus.ct_arraysize - 257) 257
        (ozus_partial_clear_mark (ozus.ct_arraysize - 257) 257 ozus.ct) i := by
    unfold ozus_partial_clear; simp only
  have hne : ¬ (ozus_partial_clear_mark (ozus.ct_arraysize - 257) 257 ozus.ct i).flags = 0 := by
    by_cases hex : ∃ j, 257 ≤ j ∧ j < 257 + (ozus.ct_arraysize - 257) ∧
        (ozus.ct j).parent ≠ OZUS_INVALID_CODE ∧ (ozus.ct j).parent = i
    · rw [m3 hex]; exact Nat.one_ne_zero
    · rw [m4 hex]; exact hflag
  have hval := hpc.trans hsw
  rw [if_neg hne] at hval
  have hp := congrArg ozus_tableentry.parent hval
  have hv := congrArg ozus_tableentry.value hval
  simp only at hp hv
  exact ⟨hp.trans m1, hv.trans m2⟩

/-- In a table where every entry in use reaches a root and some entry from 257
on is in use, entries in use are found at every depth unless one of them is
the parent of no entry in use. -/
theorem ozus_chains_ok_deep (ct : Nat → ozus_tableentry) (size : Nat)
    (hok : ozus_chains_ok ct size)
    (hex : ∃ i, 257 ≤ i ∧ i < size ∧ (ct i).parent ≠ OZUS_INVALID_CODE)
    (hall : ∀ i, 257 ≤ i → i < size → (ct i).parent ≠ OZUS_INVALID_CODE →
      ∃ j, 257 ≤ j ∧ j < size ∧ (ct j).parent ≠ OZUS_INVALID_CODE ∧ (ct j).parent = i)
    (n : Nat) :
    ∃ i d, 257 ≤ i ∧ i < size ∧ (ct i).parent ≠ OZUS_INVALID_CODE ∧
      ozus_reaches_root ct size d i ∧ n ≤ d := by
  induction n with
  | zero =>
    obtain ⟨i, i1, i2, i3⟩ := hex
    obtain ⟨d, hd⟩ := hok i i1 i2 i3
    exact ⟨i, d, i1, i2, i3, hd, Nat.zero_le d⟩
  | succ m ih =>
    obtain ⟨i, d, i1, i2, i3, hd, hm⟩ := ih
    obtain ⟨j, j1, j2, j3, j4⟩ := hall i i1 i2 i3
    refine ⟨j, d + 1, j1, j2, j3, ⟨j1, j2, j3, ?_⟩, Nat.succ_le_succ hm⟩
    rw [j4]
    exact hd

/-- In a table where every entry in use reaches a root and some entry from 257
on is in use, some entry in use is the parent of no entry in use. -/
theorem ozus_chains_ok_leaf (ct : Nat → ozus_tableentry) (size : Nat)
    (hok : ozus_chains_ok ct size)
    (hex : ∃ i, 257 ≤ i ∧ i < size ∧ (ct i).parent ≠ OZUS_INVALID_CODE) :
    ∃ i, 257 ≤ i ∧ i < size ∧ (ct i).parent ≠ OZUS_INVALID_CODE ∧
      ¬ ∃ j, 257 ≤ j ∧ j < size ∧ (ct j).parent ≠ OZUS_INVALID_CODE ∧ (ct j).parent = i := by
  by_contra hcon
  have hall : ∀ i, 257 ≤ i → i < size → (ct i).parent ≠ OZUS_INVALID_CODE →
      ∃ j, 257 ≤ j ∧ j < size ∧ (ct j).parent ≠ OZUS_INVALID_CODE ∧ (ct j).parent = i := by
    intro i i1 i2 i3
    by_contra hno
    exact hcon ⟨i, i1, i2, i3, hno⟩
  obtain ⟨i, d, _, i2, _, hd, hn⟩ := ozus_chains_ok_deep ct size hok hex hall size
  rcases ozus_reaches_root_depth ct size d i hd with h | h
  · omega
  · omega

/-- After `ozus_partial_clear` the slots in use are among those in use
before. -/
theorem ozus_partial_clear_used_subset (ozus : ozus_ctx) :
    ozus_used_slots (ozus_partial_clear ozus).ct ozus.ct_arraysize ⊆
      ozus_used_slots ozus.ct ozus.ct_arraysize := by
  intro i hi
  unfold ozus_used_slots at hi ⊢
  rw [Finset.mem_filter, Finset.mem_Ico] at hi ⊢
  obtain ⟨⟨i1, i2⟩, i3⟩ := hi
  refine ⟨⟨i1, i2⟩, fun h => ?_⟩
  rcases (ozus_partial_clear_entry ozus i i1 i2).2 with hk | hc
  · exact i3 (hk.1.trans h)
  · exact i3 hc

/-- C38, partial clear makes room: take a context whose table is the table
of a state at the start of a round of a run from a fresh context, as is every
context that `ozus_run` passes to `ozus_partial_clear`, or more generally any
context whose flags are clear on the entries from 257 on. If some entry from
257 on is in use and the parent chain of every entry in use reaches a root,
`ozus_partial_clear` frees an entry that was in use, the slots in use
afterwards are among those in use before and are fewer, and the next
`ozus_add_to_dict` leaves the error code as it was (no `BAD_CDATA`); called
with no error pending it fills a slot from 257 on that the clear left
unused. -/
theorem partial_clear_makes_room (ozus : ozus_ctx) (parent value : Nat)
    (hmarks : (∃ inf p e N k s w,
        ozus_run_at k (ozus_setup inf p e N) (ozus_setup inf p e N).initial_code_size
          = some (s, w) ∧ ozus.ct = s.ct) ∨
      ∀ i, 257 ≤ i → i < ozus.ct_arraysize → (ozus.ct i).flags = 0)
    (hok : ozus_chains_ok ozus.ct ozus.ct_arraysize)
    (hex : ∃ i, 257 ≤ i ∧ i < ozus.ct_arraysize ∧ (ozus.ct i).parent ≠ OZUS_INVALID_CODE) :
    (∃ i, 257 ≤ i ∧ i < ozus.ct_arraysize ∧ (ozus.ct i).parent ≠ OZUS_INVALID_CODE ∧
      ((ozus_partial_clear ozus).ct i).parent = OZUS_INVALID_CODE) ∧
    ozus_used_slots (ozus_partial_clear ozus).ct ozus.ct_arraysize ⊆
      ozus_used_slots ozus.ct ozus.ct_arraysize ∧
    (ozus_used_slots (ozus_partial_clear ozus).ct ozus.ct_arraysize).card <
      (ozus_used_slots ozus.ct ozus.ct_arraysize).card ∧
    (ozus_add_to_dict (ozus_partial_clear ozus) parent value).error_code = ozus.error_code ∧
    (ozus.error_code = 0 →
      257 ≤ (ozus_add_to_dict (ozus_partial_clear ozus) parent value).last_code_added ∧
      (ozus_add_to_dict (ozus_partial_clear ozus) parent value).last_code_added
        < ozus.ct_arraysize ∧
      ((ozus_partial_clear ozus).ct
        (ozus_add_to_dict (ozus_partial_clear ozus) parent value).last_code_added).parent
        = OZUS_INVALID_CODE ∧
      ((ozus_add_to_dict (ozus_partial_clear ozus) parent value).ct
        (ozus_add_to_dict (ozus_partial_clear ozus) parent value).last_code_added).parent
        = parent ∧
      ((ozus_add_to_dict (ozus_partial_clear ozus) parent value).ct
        (ozus_add_to_dict (ozus_partial_clear ozus) parent value).last_code_added).value
        = value) := by
  have hflags : ∀ i, 257 ≤ i → i < ozus.ct_arraysize → (ozus.ct i).flags = 0 := by
    rcases hmarks with ⟨inf, p, e, N, k, s, w, h, hct⟩ | hf
    · intro i h1 _
      rw [hct]
      exact (ozus_run_at_table_inv inf p e N k s w h).flags_clear i h1
    · exact hf
  obtain ⟨l, l1, l2, l3, l4⟩ := ozus_chains_ok_leaf ozus.ct ozus.ct_arraysize hok hex
  have hfree := ozus_partial_clear_leaf ozus l l1 l2 (hflags l l1 l2) l4
  have hsub := ozus_partial_clear_used_subset ozus
  obtain ⟨f1, _, _, f4, f5, _⟩ := ozus_partial_clear_frame ozus
  have hsz : (ozus_partial_clear ozus).ct_arraysize = ozus.ct_arraysize := f1.ct_arraysize
  have hlt : (ozus_used_slots (ozus_partial_clear ozus).ct ozus.ct_arraysize).card <
      (ozus_used_slots ozus.ct ozus.ct_arraysize).card := by
    apply Finset.card_lt_card
    refine ⟨hsub, fun hback => ?_⟩
    have hin : l ∈ ozus_used_slots ozus.ct ozus.ct_arraysize := by
      unfold ozus_used_slots
      rw [Finset.mem_filter, Finset.mem_Ico]
      exact ⟨⟨l1, l2⟩, l3⟩
    have hin2 := hback hin
    unfold ozus_used_slots at hin2
    rw [Finset.mem_filter] at hin2
    exact hin2.2 hfree
  have hslot : (ozus_find_first_free_entry (ozus_partial_clear ozus)).1
      = ozus_partial_clear ozus := by
    rcases ozus_find_first_free_entry_cases (ozus_partial_clear ozus) with ⟨a1, _⟩ | ⟨_, b2⟩
    · exact a1
    · exact absurd hfree (b2 l (by rw [f5]; exact l1) (by rw [hsz]; exact l2))
  have herr : (ozus_add_to_dict (ozus_partial_clear ozus) parent value).error_code
      = ozus.error_code := by
    unfold ozus_add_to_dict
    simp only
    rw [hslot]
    split
    · exact f4
    · exact f4
  refine ⟨⟨l, l1, l2, l3, hfree⟩, hsub, hlt, herr, fun h0 => ?_⟩
  have he0 : (ozus_add_to_dict (ozus_partial_clear ozus) parent value).error_code = 0 :=
    herr.trans h0
  obtain ⟨_, s2, s3, _, s5, _, s7⟩ :=
    (ozus_add_to_dict_spec (ozus_partial_clear ozus) parent value).1 he0
  rw [f5] at s2
  rw [hsz] at s3
  refine ⟨s2, s3, s5, ?_, ?_⟩
  · rw [s7]
    unfold ct_set
    rw [if_pos rfl]
  · rw [s7]
    unfold ct_set
    rw [if_pos rfl]

/-- Witness for C38: round 3 of the run on the bytes `41 84 04 01` (the codes
65, 66, 65) starts with entries 257 = `{65, 66}` and 258 = `{66, 65}` in use;
a partial clear on that state leaves fewer slots in use. -/
theorem partial_clear_makes_room_witness :
    ∃ s w, ozus_run_at 3 (ozus_setup [0x41, 0x84, 0x04, 0x01] 0 4 8)
        (ozus_setup [0x41, 0x84, 0x04, 0x01] 0 4 8).initial_code_size = some (s, w) ∧
      (s.ct 257).parent = 65 ∧ (s.ct 258).parent = 66 ∧
      (ozus_used_slots (ozus_partial_clear s).ct s.ct_arraysize).card <
        (ozus_used_slots s.ct s.ct_arraysize).card :=
  ⟨_, _, rfl, by decide, by decide,
    (partial_clear_makes_room _ 65 66
      (Or.inl ⟨[0x41, 0x84, 0x04, 0x01], 0, 4, 8, 3, _, _, rfl, rfl⟩)
      (fun i h1 _ h3 => by
        by_cases e1 : i = 258
        · exact ⟨1, by rw [e1]; decide⟩
        · by_cases e2 : i = 257
          · exact ⟨1, by rw [e2]; decide⟩
          · exfalso
            apply h3
            show (ct_set (ct_set ozus_create_ct 257 ⟨65, 66, 0⟩) 258 ⟨66, 65, 0⟩ i).parent
              = OZUS_INVALID_CODE
            unfold ct_set
            rw [if_neg e1, if_neg e2]
            unfold ozus_create_ct
            split <;> rfl)
      ⟨257, by decide, by decide, by decide⟩).2.2.1⟩

/-- The flags have to be clear at the call: in `ozus_stale_marks`, a table
that no run reaches, every slot from 257 on is in use with parent 65 and has
its flag set; `ozus_partial_clear` then frees no entry and the next
`ozus_add_to_dict` ends with `BAD_CDATA`. -/
theorem ozus_stale_marks_keep_all :
    ozus_chains_ok ozus_stale_marks.ct ozus_stale_marks.ct_arraysize ∧
    (ozus_stale_marks.ct 257).parent ≠ OZUS_INVALID_CODE ∧
    ozus_stale_marks.error_code = 0 ∧
    (∀ i, 257 ≤ i → i < ozus_stale_marks.ct_arraysize →
      ((ozus_partial_clear ozus_stale_marks).ct i).parent = 65) ∧
    (ozus_add_to_dict (ozus_partial_clear ozus_stale_marks) 65 66).error_code
      = OZUS_ERRCODE_BAD_CDATA := by
  have hent : ∀ i, 257 ≤ i → ozus_stale_marks.ct i = ⟨65, 0, 1⟩ := fun i hi => by
    show (if 257 ≤ i then (⟨65, 0, 1⟩ : ozus_tableentry) else ozus_create_ct i) = _
    rw [if_pos hi]
  have hkept : ∀ i, 257 ≤ i → i < ozus_stale_marks.ct_arraysize →
      ((ozus_partial_clear ozus_stale_marks).ct i).parent = 65 := fun i h1 h2 => by
    have hk := (ozus_partial_clear_stale ozus_stale_marks i h1 h2
      (by rw [hent i h1]; exact Nat.one_ne_zero)).1
    rw [hent i h1] at hk
    exact hk
  refine ⟨fun i h1 h2 h3 => ⟨1, h1, h2, h3, ?_⟩, by decide, rfl, hkept, ?_⟩
  · rw [hent i h1]
    exact (show (65 : Nat) < 256 by decide)
  · obtain ⟨f1, _, _, f4, f5, _⟩ := ozus_partial_clear_frame ozus_stale_marks
    have hsz : (ozus_partial_clear ozus_stale_marks).ct_arraysize
        = ozus_stale_marks.ct_arraysize := f1.ct_arraysize
    have h0 : (ozus_partial_clear ozus_stale_marks).error_code = 0 := f4
    by_cases he : (ozus_add_to_dict (ozus_partial_clear ozus_stale_marks) 65 66).error_code = 0
    · exfalso
      obtain ⟨_, s2, s3, _, s5, _, _⟩ :=
        (ozus_add_to_dict_spec (ozus_partial_clear ozus_stale_marks) 65 66).1 he
      rw [f5] at s2
      rw [hsz] at s3
      rw [hkept _ s2 s3] at s5
      exact absurd s5 (by decide)
    · exact (((ozus_add_to_dict_spec (ozus_partial_clear ozus_stale_marks) 65 66).2
        he).2.2.2 h0).1


/-! ## Literal streams -/

theorem ozus_input_value_cons (b : Nat) (l : List Nat) (pos k : Nat) :
    ozus_input_value (b :: l) (pos + 1) k = ozus_input_value l pos k := by
  unfold ozus_input_value
  congr 1
  apply List.map_congr_left
  intro j _
  have h1 : pos + 1 + j = (pos + j) + 1 := by omega
  rw [h1, List.getD_cons_succ]

theorem ozus_le_bytes_length (n v : Nat) : (ozus_le_bytes n v).length = n := by
  induction n generalizing v with
  | zero => rfl
  | succ m ih =>
    rw [ozus_le_bytes, List.length_cons, ih]

/-- The `n` low bytes of `v`, read back as a little-endian integer, give
`v % 256 ^ n`. -/
theorem ozus_input_value_le_bytes (n v : Nat) :
    ozus_input_value (ozus_le_bytes n v) 0 n = v % 256 ^ n := by
  induction n generalizing v with
  | zero =>
    rw [pow_zero, Nat.mod_one]
    rfl
  | succ m ih =>
    rw [ozus_input_value_succ, ozus_le_bytes, ozus_input_value_cons, ih,
      List.getD_cons_zero, Nat.mod_mod, pow_succ, Nat.mul_comm (256 ^ m) 256, Nat.mod_mul]

theorem ozus_literal_value_lt (S : List Nat) (hb : ∀ b ∈ S, b < 256) :
    ozus_literal_value S < 512 ^ S.length := by
  induction S with
  | nil => exact Nat.one_pos
  | cons b l ih =>
    have h1 := hb b (List.mem_cons_self b l)
    have h2 := ih (fun x hx => hb x (List.mem_cons_of_mem b hx))
    rw [ozus_literal_value, List.length_cons, pow_succ]
    omega

/-- The literal stream of `S`, read as a little-endian integer, is the integer
with the 9-bit digits `S`. -/
theorem ozus_literal_stream_value (S : List Nat) (hb : ∀ b ∈ S, b < 256) :
    ozus_input_value (ozus_literal_stream S) 0 ((9 * S.length + 7) / 8)
      = ozus_literal_value S := by
  unfold ozus_literal_stream
  rw [ozus_input_value_le_bytes]
  apply Nat.mod_eq_of_lt
  have h1 := ozus_literal_value_lt S hb
  have h2 : (512 : Nat) ^ S.length = 2 ^ (9 * S.length) := by
    rw [pow_mul]
    rfl
  have h3 : (256 : Nat) ^ ((9 * S.length + 7) / 8) = 2 ^ (8 * ((9 * S.length + 7) / 8)) := by
    rw [pow_mul]
    rfl
  have h4 : (2 : Nat) ^ (9 * S.length) ≤ 2 ^ (8 * ((9 * S.length + 7) / 8)) :=
    Nat.pow_le_pow_right (by decide) (by omega)
  omega

theorem ozus_take_getD (S : List Nat) (k : Nat) (hk : k < S.length) :
    S.take (k + 1) = S.take k ++ [S.getD k 0] := by
  induction S generalizing k with
  | nil => exact absurd hk (Nat.not_lt_zero _)
  | cons b l ih =>
    cases k with
    | zero => rfl
    | succ m =>
      rw [List.take_succ_cons, List.take_succ_cons, List.getD_cons_succ, List.cons_append,
        ih m (Nat.lt_of_succ_lt_succ hk)]

theorem ozus_drop_getD (S : List Nat) (k : Nat) (hk : k < S.length) :
    S.drop k = S.getD k 0 :: S.drop (k + 1) := by
  induction S generalizing k with
  | nil => exact absurd hk (Nat.not_lt_zero _)
  | cons b l ih =>
    cases k with
    | zero => rfl
    | succ m =>
      rw [List.drop_succ_cons, List.drop_succ_cons, List.getD_cons_succ]
      exact ih m (Nat.lt_of_succ_lt_succ hk)

theorem ozus_getD_mem (S : List Nat) (k : Nat) (hk : k < S.length) : S.getD k 0 ∈ S := by
  induction S generalizing k with
  | nil => exact absurd hk (Nat.not_lt_zero _)
  | cons b l ih =>
    cases k with
    | zero => exact List.mem_cons_self b l
    | succ m =>
      rw [List.getD_cons_succ]
      exact List.mem_cons_of_mem b (ih m (Nat.lt_of_succ_lt_succ hk))

/-- The bits still to deliver depend on the input and on the reader only. -/
theorem ozus_bits_value_congr (a b : ozus_ctx) (hp : ozus_same_params a b)
    (hr : ozus_same_reader a b) :
    ozus_bits_value a = ozus_bits_value b ∧ ozus_bits_left a = ozus_bits_left b ∧
    (b.bitreader_buf < 2 ^ b.bitreader_nbits_in_buf →
      a.bitreader_buf < 2 ^ a.bitreader_nbits_in_buf) := by
  unfold ozus_bits_value ozus_bits_left
  rw [hp.inf, hp.inf_endpos, hr.inf_pos, hr.bitreader_buf, hr.bitreader_nbits_in_buf]
  exact ⟨rfl, rfl, fun h => h⟩

/-- On a root code `ozus_emit_code` writes the value of that entry. -/
theorem ozus_emit_code_root (ozus : ozus_ctx) (code : Nat)
    (hsz : 257 ≤ ozus.ct_arraysize) (hc : code < 257) :
    (ozus_emit_code ozus code).error_code = ozus.error_code ∧
    (ozus_emit_code ozus code).outf = ozus.outf ++ [(ozus.ct code).value] ∧
    (ozus_emit_code ozus code).last_value = (ozus.ct code).value :=
  ozus_emit_code_stop ozus code 0 hsz (fun i hi => absurd hi (Nat.not_lt_zero i)) hc
    (by omega)

/-- Filling slot `256 + k` with `S[k - 1]` and `S[k]` takes the table after
`k` literal codes to the table after `k + 1`. -/
theorem ozus_literal_table_succ (S : List Nat) (k : Nat) (hk : 1 ≤ k) :
    ct_set (ozus_literal_table S k) (256 + k)
        ⟨S.getD (k - 1) 0, S.getD k 0, (ozus_literal_table S k (256 + k)).flags⟩
      = ozus_literal_table S (k + 1) := by
  funext i
  unfold ct_set
  by_cases hi : i = 256 + k
  · rw [if_pos hi, hi]
    unfold ozus_literal_table
    rw [if_neg (by omega), if_pos (by omega)]
    have e1 : 256 + k - 257 = k - 1 := by omega
    have e2 : 256 + k - 256 = k := by omega
    rw [e1, e2]
    unfold ozus_create_ct
    rw [if_neg (by omega)]
  · rw [if_neg hi]
    unfold ozus_literal_table
    by_cases hc : 257 ≤ i ∧ i + 1 < 257 + k
    · rw [if_pos hc, if_pos (by omega)]
    · rw [if_neg hc, if_neg (by omega)]

/-- The first code of a stream, when it is a literal: `ozus_process_data_code`
writes it and remembers it, and leaves the table alone. -/
theorem ozus_literal_first (G : ozus_ctx) (c : Nat)
    (h0 : G.error_code = 0) (hsz : G.ct_arraysize = 8192) (hold : G.have_oldcode = false)
    (hc : c < 256) (hv : (G.ct c).value = c) :
    (ozus_process_data_code G c).error_code = 0 ∧
    (ozus_process_data_code G c).outf = G.outf ++ [c] ∧
    (ozus_process_data_code G c).have_oldcode = true ∧
    (ozus_process_data_code G c).oldcode = c ∧
    (ozus_process_data_code G c).last_value = c ∧
    (ozus_process_data_code G c).free_code_search_start = G.free_code_search_start ∧
    (ozus_process_data_code G c).ct = G.ct := by
  obtain ⟨e1, e2, _⟩ := ozus_emit_code_root G c (by omega) (by omega)
  have ht := (ozus_emit_code_spec G c).2.2.1
  have hpdc : ozus_process_data_code G c =
      { ozus_emit_code G c with oldcode := c, have_oldcode := true, last_value := c % 256 } := by
    unfold ozus_process_data_code
    rw [if_neg (by omega), if_pos hold]
  rw [hpdc]
  refine ⟨e1.trans h0, ?_, rfl, rfl, Nat.mod_eq_of_lt hc, ht.free_code_search_start, ht.ct⟩
  show (ozus_emit_code G c).outf = _
  rw [e2, hv]

/-- A later literal code, when the slot at `free_code_search_start` is
unused: `ozus_process_data_code` writes it and fills that slot with the
previous code as parent and the literal as value. -/
theorem ozus_literal_next (G : ozus_ctx) (c : Nat)
    (h0 : G.error_code = 0) (hsz : G.ct_arraysize = 8192) (hold : G.have_oldcode = true)
    (hc : c < 256) (hv : (G.ct c).value = c)
    (hlt : G.free_code_search_start < 8192)
    (hfree : (G.ct G.free_code_search_start).parent = OZUS_INVALID_CODE) :
    (ozus_process_data_code G c).error_code = 0 ∧
    (ozus_process_data_code G c).outf = G.outf ++ [c] ∧
    (ozus_process_data_code G c).have_oldcode = true ∧
    (ozus_process_data_code G c).oldcode = c ∧
    (ozus_process_data_code G c).last_value = c ∧
    (ozus_process_data_code G c).free_code_search_start = G.free_code_search_start + 1 ∧
    (ozus_process_data_code G c).ct =
      ct_set G.ct G.free_code_search_start
        ⟨G.oldcode, c, (G.ct G.free_code_search_start).flags⟩ := by
  obtain ⟨e1, e2, e3⟩ := ozus_emit_code_root G c (by omega) (by omega)
  obtain ⟨hp, _, ht, _, _⟩ := ozus_emit_code_spec G c
  have eE0 : (ozus_emit_code G c).error_code = 0 := e1.trans h0
  have hEfree : ((ozus_emit_code G c).ct (ozus_emit_code G c).free_code_search_start).parent
      = OZUS_INVALID_CODE := by
    rw [ht.ct, ht.free_code_search_start]
    exact hfree
  have hElt : (ozus_emit_code G c).free_code_search_start
      < (ozus_emit_code G c).ct_arraysize := by
    rw [ht.free_code_search_start, hp.ct_arraysize, hsz]
    exact hlt
  have hadd := ozus_add_to_dict_ok (ozus_emit_code G c) (ozus_emit_code G c).oldcode
    (ozus_emit_code G c).last_value eE0 ⟨_, le_refl _, hElt, hEfree⟩
  have hslot : (ozus_find_first_free_entry (ozus_emit_code G c)).2
      = G.free_code_search_start := by
    rcases ozus_find_first_free_entry_cases (ozus_emit_code G c) with
      ⟨_, a2, _, _, a5⟩ | ⟨_, b2⟩
    · by_contra hne
      have hgt : (ozus_emit_code G c).free_code_search_start
          < (ozus_find_first_free_entry (ozus_emit_code G c)).2 := by
        rw [ht.free_code_search_start] at a2 ⊢
        omega
      exact a5 _ (le_refl _) hgt hEfree
    · exact absurd hEfree (b2 _ (le_refl _) hElt)
  have hno : ¬ G.have_oldcode = false := by
    rw [hold]
    exact Bool.noConfusion
  have hpdc : ozus_process_data_code G c =
      { ozus_add_to_dict (ozus_emit_code G c) (ozus_emit_code G c).oldcode
          (ozus_emit_code G c).last_value with oldcode := c } := by
    unfold ozus_process_data_code
    rw [if_neg (by omega), if_neg hno, if_pos (Or.inl hc)]
    simp only
    rw [if_neg (not_not.mpr eE0)]
  rw [hpdc, hadd]
  refine ⟨eE0, ?_, ?_, rfl, ?_, ?_, ?_⟩
  · show (ozus_emit_code G c).outf = _
    rw [e2, hv]
  · show (ozus_emit_code G c).have_oldcode = true
    rw [ht.have_oldcode]
    exact hold
  · show (ozus_emit_code G c).last_value = c
    rw [e3, hv]
  · show (ozus_find_first_free_entry (ozus_emit_code G c)).2 + 1 = _
    rw [hslot]
  · show ct_set (ozus_emit_code G c).ct (ozus_find_first_free_entry (ozus_emit_code G c)).2
      ⟨(ozus_emit_code G c).oldcode, (ozus_emit_code G c).last_value,
        ((ozus_emit_code G c).ct (ozus_find_first_free_entry (ozus_emit_code G c)).2).flags⟩
      = _
    rw [hslot, ht.ct, ht.oldcode, e3, hv]

/-- One round on the literal stream of `S`: the round reads the code `S[k]`,
writes it, fills slot `256 + k` when `k ≥ 1`, and goes on with the same code
size. -/
theorem ozus_literal_step (S : List Nat) (k : Nat) (s : ozus_ctx)
    (hb : ∀ b ∈ S, b < 256) (hlen : S.length ≤ 7936) (hk : k < S.length)
    (hinv : ozus_literal_inv S k s) :
    ∃ s1, ozus_run_round s 9 = .next s1 9 ∧ ozus_literal_inv S (k + 1) s1 := by
  have hc : S.getD k 0 < 256 := hb _ (ozus_getD_mem S k hk)
  have hval : ozus_literal_value (S.drop k)
      = S.getD k 0 + 512 * ozus_literal_value (S.drop (k + 1)) :=
    congrArg ozus_literal_value (ozus_drop_getD S k hk)
  obtain ⟨g1, g2, g3, g4, g5⟩ := ozus_bitreader_getbits_value s 9 hinv.error (by decide)
    (by rw [hinv.max]; decide) (by decide) hinv.buf (by have := hinv.left; omega)
  have e9 : (2 : Nat) ^ 9 = 512 := by decide
  rw [hinv.value, hval, e9] at g2 g3
  have hg2 : (ozus_bitreader_getbits s 9).2 = S.getD k 0 := by
    rw [g2]
    omega
  have hg3 : ozus_bits_value (ozus_bitreader_getbits s 9).1
      = ozus_literal_value (S.drop (k + 1)) := by
    rw [g3]
    omega
  have hp := ozus_bitreader_getbits_params s 9
  have hd := ozus_bitreader_getbits_dict s 9
  have hGsz : (ozus_bitreader_getbits s 9).1.ct_arraysize = 8192 :=
    hp.ct_arraysize.trans hinv.size
  have hGv : ((ozus_bitreader_getbits s 9).1.ct (S.getD k 0)).value = S.getD k 0 := by
    rw [hd.ct, hinv.table]
    unfold ozus_literal_table
    rw [if_neg (by omega)]
    unfold ozus_create_ct
    rw [if_pos hc]
    exact Nat.mod_eq_of_lt hc
  have hout : s.outf.length < s.outf_nbytes_expected := by
    rw [hinv.outf, hinv.expected, List.length_take]
    omega
  have hP : (ozus_process_data_code (ozus_bitreader_getbits s 9).1 (S.getD k 0)).error_code = 0 ∧
      (ozus_process_data_code (ozus_bitreader_getbits s 9).1 (S.getD k 0)).outf
        = S.take (k + 1) ∧
      (ozus_process_data_code (ozus_bitreader_getbits s 9).1 (S.getD k 0)).have_oldcode
        = true ∧
      (ozus_process_data_code (ozus_bitreader_getbits s 9).1 (S.getD k 0)).oldcode
        = S.getD k 0 ∧
      (ozus_process_data_code (ozus_bitreader_getbits s 9).1 (S.getD k 0)).last_value
        = S.getD k 0 ∧
      (ozus_process_data_code (ozus_bitreader_getbits s 9).1
        (S.getD k 0)).free_code_search_start = 257 + k ∧
      (ozus_process_data_code (ozus_bitreader_getbits s 9).1 (S.getD k 0)).ct
        = ozus_literal_table S (k + 1) := by
    by_cases hk0 : k = 0
    · have hold : (ozus_bitreader_getbits s 9).1.have_oldcode = false := by
        rw [hd.have_oldcode, hinv.old]
        exact decide_eq_false (by omega)
      obtain ⟨p1, p2, p3, p4, p5, p6, p7⟩ := ozus_literal_first
        (ozus_bitreader_getbits s 9).1 (S.getD k 0) g1 hGsz hold hc hGv
      refine ⟨p1, ?_, p3, p4, p5, ?_, ?_⟩
      · rw [p2, hd.outf, hinv.outf, ozus_take_getD S k hk]
      · rw [p6, hd.free_code_search_start, hinv.start]
        omega
      · rw [p7, hd.ct, hinv.table]
        funext i
        unfold ozus_literal_table
        rw [if_neg (by omega), if_neg (by omega)]
    · have hold : (ozus_bitreader_getbits s 9).1.have_oldcode = true := by
        rw [hd.have_oldcode, hinv.old]
        exact decide_eq_true (by omega)
      have hfs : (ozus_bitreader_getbits s 9).1.free_code_search_start = 256 + k := by
        rw [hd.free_code_search_start, hinv.start]
        omega
      have hfree : ((ozus_bitreader_getbits s 9).1.ct
          (ozus_bitreader_getbits s 9).1.free_code_search_start).parent
          = OZUS_INVALID_CODE := by
        rw [hfs, hd.ct, hinv.table]
        unfold ozus_literal_table
        rw [if_neg (by omega)]
        unfold ozus_create_ct
        rw [if_neg (by omega)]
      obtain ⟨p1, p2, p3, p4, p5, p6, p7⟩ := ozus_literal_next
        (ozus_bitreader_getbits s 9).1 (S.getD k 0) g1 hGsz hold hc hGv
        (by rw [hfs]; omega) hfree
      refine ⟨p1, ?_, p3, p4, p5, ?_, ?_⟩
      · rw [p2, hd.outf, hinv.outf, ozus_take_getD S k hk]
      · rw [p6, hfs]
        omega
      · rw [p7, hfs, hd.ct, hd.oldcode, (hinv.oldcode (by omega)).1, hinv.table]
        exact ozus_literal_table_succ S k (by omega)
  obtain ⟨p1, p2, p3, p4, p5, p6, p7⟩ := hP
  obtain ⟨q1, q2, _⟩ := ozus_process_data_code_spec (ozus_bitreader_getbits s 9).1
    (S.getD k 0)
  obtain ⟨v1, v2, v3⟩ := ozus_bits_value_congr _ _ q1 q2
  have hnext : ozus_run_round s 9 =
      .next (ozus_process_data_code (ozus_bitreader_getbits s 9).1 (S.getD k 0)) 9 := by
    rcases ozus_run_round_cases s 9 with
      ⟨c0, _⟩ | ⟨_, c1, _⟩ | ⟨_, _, c2, _⟩ | ⟨_, _, c2, _⟩ | ⟨_, _, c2, _⟩ |
      ⟨_, _, c2, _⟩ | ⟨_, _, _, c3, _⟩ | ⟨_, _, _, _, e⟩
    · omega
    · exact absurd g1 c1
    · rw [hg2] at c2; omega
    · rw [hg2] at c2; omega
    · rw [hg2] at c2; omega
    · rw [hg2] at c2; omega
    · rw [hg2] at c3
      exact absurd p1 c3
    · rw [hg2] at e
      exact e
  refine ⟨_, hnext, ?_⟩
  refine ⟨p1, q1.max_code_size.trans (hp.max_code_size.trans hinv.max),
    q1.ct_arraysize.trans hGsz,
    q1.outf_nbytes_expected.trans (hp.outf_nbytes_expected.trans hinv.expected),
    p2, v1.trans hg3, v3 g4, ?_, ?_, fun _ => ⟨p4, p5⟩, ?_, p7⟩
  · rw [v2]
    have := hinv.left
    omega
  · rw [p3]
    exact (decide_eq_true (by omega)).symm
  · rw [p6]
    omega

/-- The run on the literal stream of `S` gets to round `k` for every
`k ≤ len(S)`, with the first `k` elements of `S` written. -/
theorem ozus_literal_run_at (S : List Nat) (hb : ∀ b ∈ S, b < 256)
    (hlen : S.length ≤ 7936) (k : Nat) (hk : k ≤ S.length) :
    ∃ s, ozus_run_at k
        (ozus_setup (ozus_literal_stream S) 0 (ozus_literal_stream S).length S.length) 9
        = some (s, 9) ∧ ozus_literal_inv S k s := by
  induction k with
  | zero =>
    refine ⟨_, rfl, ⟨rfl, rfl, rfl, rfl, rfl, ?_, ?_, ?_, rfl,
      fun h => absurd h (by decide), rfl, ?_⟩⟩
    · show 0 + 2 ^ 0 * ozus_input_value (ozus_literal_stream S) 0
        ((ozus_literal_stream S).length - 0) = ozus_literal_value S
      have hl : (ozus_literal_stream S).length = (9 * S.length + 7) / 8 :=
        ozus_le_bytes_length _ _
      rw [Nat.sub_zero, hl, ozus_literal_stream_value S hb, pow_zero]
      omega
    · exact (show (0 : Nat) < 2 ^ 0 by decide)
    · show 9 * (S.length - 0) ≤ 8 * ((ozus_literal_stream S).length - 0) + 0
      have hl : (ozus_literal_stream S).length = (9 * S.length + 7) / 8 :=
        ozus_le_bytes_length _ _
      rw [hl]
      omega
    · show ozus_create_ct = ozus_literal_table S 0
      funext i
      unfold ozus_literal_table
      rw [if_neg (by omega)]
  | succ n ih =>
    obtain ⟨s, hs, hinv⟩ := ih (by omega)
    obtain ⟨s1, hr, hinv1⟩ := ozus_literal_step S n s hb hlen (by omega) hinv
    exact ⟨s1, ozus_run_at_succ n hs hr, hinv1⟩

/-- C39, literal streams decode to themselves: for every sequence `S` of at
most 7936 bytes, `ozus_run` from a fresh context on the stream that packs each
byte of `S` as one 9-bit code, least significant bit first, with expected
length `len(S)`, returns with `OK` and output `S`; in the table it returns,
entry `257 + i` holds parent `S[i]` and value `S[i + 1]` for every
`i + 1 < len(S)`, and every other entry is as `ozus_create` left it. -/
theorem literal_streams_decode (S : List Nat) (hb : ∀ b ∈ S, b < 256)
    (hlen : S.length ≤ 7936) :
    ∃ r, ozus_run
        (ozus_setup (ozus_literal_stream S) 0 (ozus_literal_stream S).length S.length)
        = some r ∧
      r.error_code = OZUS_ERRCODE_OK ∧ r.outf = S ∧
      (∀ i, i + 1 < S.length → r.ct (257 + i) = ⟨S.getD i 0, S.getD (i + 1) 0, 0⟩) ∧
      (∀ i, i < 257 ∨ 256 + S.length ≤ i → r.ct i = ozus_create_ct i) := by
  obtain ⟨s, hs, hinv⟩ := ozus_literal_run_at S hb hlen S.length (le_refl _)
  have hd : ozus_run_round s 9 = .done s := by
    unfold ozus_run_round
    rw [if_pos]
    show s.outf_nbytes_expected ≤ s.outf.length
    rw [hinv.outf, hinv.expected, List.take_length]
  refine ⟨s, ozus_run_of_at S.length hs hd, hinv.error, ?_, fun i hi => ?_, fun i hi => ?_⟩
  · rw [hinv.outf, List.take_length]
  · rw [hinv.table]
    unfold ozus_literal_table
    rw [if_pos (by omega)]
    have e1 : 257 + i - 257 = i := by omega
    have e2 : 257 + i - 256 = i + 1 := by omega
    rw [e1, e2]
  · rw [hinv.table]
    unfold ozus_literal_table
    rw [if_neg (by omega)]

/-- Witness for C39: the bytes `A B A` pack to `41 84 04 01`, and the run on
that stream returns them. -/
theorem literal_streams_decode_witness :
    ozus_literal_stream [65, 66, 65] = [0x41, 0x84, 0x04, 0x01] ∧
    ∃ r, ozus_run
        (ozus_setup (ozus_literal_stream [65, 66, 65]) 0
          (ozus_literal_stream [65, 66, 65]).length ([65, 66, 65] : List Nat).length)
        = some r ∧
      r.error_code = OZUS_ERRCODE_OK ∧ r.outf = [65, 66, 65] ∧
      (∀ i, i + 1 < ([65, 66, 65] : List Nat).length →
        r.ct (257 + i) = ⟨([65, 66, 65] : List Nat).getD i 0,
          ([65, 66, 65] : List Nat).getD (i + 1) 0, 0⟩) ∧
      (∀ i, i < 257 ∨ 256 + ([65, 66, 65] : List Nat).length ≤ i →
        r.ct i = ozus_create_ct i) :=
  ⟨by decide, literal_streams_decode [65, 66, 65] (by decide) (by decide)⟩

end Ozunshrink
